import Mathlib

/-!
# Multicore tANS decoder (`multicore_decoder.cc`): embedding and properties

The development follows `src/src/multicore_decoder.cc` and
`src/include/multicore_decoder.h`.

Conventions of the embedding.

* `size_t` values are natural numbers.  The sums and products of the planner
  (`subs_per_thread * subsequence_size + at`, `subs_per_thread * i`,
  `end += remaining_subs * subsequence_size`) are taken modulo `2 ^ 64`, and so
  are the subtractions of the kernel (`current_state - number_of_states`,
  `in_pos -= subsequence_size`, `bits_in_unit - at`).  The counters that are
  incremented by one (`in_pos`, `current_subsequence`, `out_pos`) stay below the
  size of a buffer and are not reduced.
* `UNIT_TYPE`, `STATE_TYPE` and `std::uint32_t` values are natural numbers
  reduced modulo `2 ^ 32` after every operation that can leave the range;
  `std::uint8_t` (`at`) is reduced modulo `2 ^ 8`.
* A run that aborts (a failed `assert`, a division by zero) or that has not
  finished within the loop iterations it was given is an `Except.error`.
* Arrays are lists; a read outside the list yields the default element and a
  write outside the list changes nothing.
-/

namespace MulticoreDecoder

/-! ## Data model -/

/-- One entry of the decoder table (`CUHDCodetableItem`). -/
structure CUHDCodetableItem where
  symbol : Nat
  next_state : Nat
  min_num_bits : Nat
deriving DecidableEq, Repr, Inhabited

/-- Synchronisation point of one subsequence (`SubsequenceSyncPoint`). -/
structure SubsequenceSyncPoint where
  state : Nat
  bit : Nat
  unit : Nat
  num_symbols : Nat
deriving DecidableEq, Repr, Inhabited

/-- Span of units given to one thread (`DecoderInterval`); `end_` is the
source's field `end`. -/
structure DecoderInterval where
  begin : Nat
  end_ : Nat
  sub : Nat
deriving DecidableEq, Repr, Inhabited

/-- Ways in which a run yields no result. -/
inductive Fault where
  | assertion_failed
  | division_by_zero
  | out_of_fuel
deriving DecidableEq, Repr

deriving instance DecidableEq for Except

/-! ## `get_decoder_intervals` -/

/-- Number of subsequences: `input_size_units / subsequence_size`, plus one
when there is a remainder (lines 26-28 and 280-283). -/
def num_subsequences (subsequence_size input_size_units : Nat) : Nat :=
  if input_size_units % subsequence_size != 0
  then input_size_units / subsequence_size + 1
  else input_size_units / subsequence_size

/-- The `for` loop of `get_decoder_intervals` (lines 293-298): `n` iterations
remain, `i` is the loop index and `at_` the running unit offset.  The products
and sums are those of `size_t`, modulo `2 ^ 64`. -/
def intervals_loop (subs_per_thread subsequence_size : Nat) :
    Nat → Nat → Nat → List DecoderInterval
  | 0, _, _ => []
  | n + 1, i, at_ =>
      { begin := at_, end_ := (subs_per_thread * subsequence_size + at_) % 2 ^ 64,
        sub := subs_per_thread * i % 2 ^ 64 }
        :: intervals_loop subs_per_thread subsequence_size n (i + 1)
             ((at_ + subs_per_thread * subsequence_size) % 2 ^ 64)

/-- The update `vals.at(num_threads - 1).end += remaining_subs * subsequence_size`,
modulo `2 ^ 64`. -/
def extend_last (vals : List DecoderInterval) (k amount : Nat) : List DecoderInterval :=
  vals.set k
    { vals.getD k default with end_ := ((vals.getD k default).end_ + amount) % 2 ^ 64 }

/-- `MulticoreDecoder::get_decoder_intervals`. -/
def get_decoder_intervals (subsequence_size num_threads input_size_units : Nat) :
    Except Fault (List DecoderInterval) :=
  if subsequence_size = 0 then .error .division_by_zero
  else
    let num_subs := num_subsequences subsequence_size input_size_units
    if num_subs < num_threads then .error .assertion_failed
    else if num_threads = 0 then .error .division_by_zero
    else
      let subs_per_thread := num_subs / num_threads
      let remaining_subs := num_subs % num_threads
      let vals := intervals_loop subs_per_thread subsequence_size num_threads 0 0
      .ok (extend_last vals (num_threads - 1) (remaining_subs * subsequence_size))

/-! ## `prefix_sum` -/

/-- Inner loop of `prefix_sum` (lines 323-326): `k` iterations of
`sum += in_ptr[pos].num_symbols; ++pos` on the 32-bit accumulator. -/
def prefix_sum_inner (sync : List SubsequenceSyncPoint) : Nat → Nat → Nat → Nat
  | 0, _, sum => sum
  | k + 1, pos, sum =>
      prefix_sum_inner sync k (pos + 1) ((sum + (sync.getD pos default).num_symbols) % 2 ^ 32)

/-- Outer loop of `prefix_sum` (lines 321-332): `n` iterations remain; each runs
the inner loop from `pos` up to `next` and stores the accumulator. -/
def prefix_sum_outer (sync : List SubsequenceSyncPoint) (subs_per_thread : Nat) :
    Nat → Nat → Nat → Nat → List Nat
  | 0, _, _, _ => []
  | n + 1, pos, next, sum =>
      let sum1 := prefix_sum_inner sync (next - pos) pos sum
      sum1 :: prefix_sum_outer sync subs_per_thread n next (next + subs_per_thread) sum1

/-- `MulticoreDecoder::prefix_sum`: the contents of `out_positions` after the call. -/
def prefix_sum (sync : List SubsequenceSyncPoint) (num_subs num_threads : Nat) :
    Except Fault (List Nat) :=
  if num_threads = 0 then .error .division_by_zero
  else
    let subs_per_thread := num_subs / num_threads
    .ok (0 :: prefix_sum_outer sync subs_per_thread (num_threads - 1) 0 subs_per_thread 0)

/-! ## Machine arithmetic of the kernel -/

/-- Modelled from the spec: the unit width `in->get_unit_size() * 8`.  The unit
type is declared in `cuhd_constants.h`, which is not among the sources; the spec
gives 32-bit units, and states share the unit type (`UNIT_TYPE current_state`). -/
def bits_in_unit : Nat := 32

/-- The constant `mask = (UNIT_TYPE) (0) - 1`. -/
def mask : Nat := 2 ^ 32 - 1

/-- What a shift of a 32-bit value by a count of 32 or more yields.  C++ leaves
it undefined; `zero` shifts every bit out, `wrap` uses the count modulo 32 as the
x86 shift instructions do.  Properties are stated for both. -/
inductive ShiftSem where
  | zero
  | wrap
deriving DecidableEq, Repr

/-- Left shift of a 32-bit value (`x << k`, `x <<= k`). -/
def shl32 (sem : ShiftSem) (x k : Nat) : Nat :=
  if k < 32 then (x <<< k) % 2 ^ 32
  else match sem with
    | .zero => 0
    | .wrap => (x <<< (k % 32)) % 2 ^ 32

/-- Right shift of a 32-bit value (`x >> k`, `x >>= k`). -/
def shr32 (sem : ShiftSem) (x k : Nat) : Nat :=
  if k < 32 then x >>> k
  else match sem with
    | .zero => 0
    | .wrap => x >>> (k % 32)

/-- Bitwise complement of a 32-bit value (`~x`). -/
def not32 (x : Nat) : Nat := 2 ^ 32 - 1 - x % 2 ^ 32

/-- Subtraction of `size_t` values. -/
def sub64 (a b : Nat) : Nat := (a + 2 ^ 64 - b % 2 ^ 64) % 2 ^ 64

/-- Subtraction of `std::uint32_t` values. -/
def sub32 (a b : Nat) : Nat := (a + 2 ^ 32 - b % 2 ^ 32) % 2 ^ 32

/-! ## The kernel `decode_phase1` -/

/-- The compressed input (`CUHDInputBuffer`): the units, followed by whatever
padding the buffer holds, and the state and bit at which decoding starts. -/
structure CUHDInputBuffer where
  compressed_data : List Nat
  first_state : Nat
  first_bit : Nat
deriving Repr

/-- The arrays shared by the workers.  `out` records the stores
`out_ptr[out_pos] = hit.symbol` as pairs (position, symbol), oldest first. -/
structure Shared where
  sync : List SubsequenceSyncPoint
  thread_synced : List Bool
  out_positions : List Nat
  out : List (Nat × Nat)
deriving DecidableEq, Repr

/-- The value arguments of `decode_phase1`. -/
structure KernelArgs where
  thread_id : Nat
  begin : Nat
  end_ : Nat
  subsequence : Nat
  subsequence_size : Nat
  num_units : Nat
  num_threads : Nat
  overflow : Bool
  write : Bool
deriving DecidableEq, Repr

/-- The local variables of `decode_phase1` that live across loop iterations. -/
structure Locals where
  current_state : Nat
  at_ : Nat
  in_pos : Nat
  out_pos : Nat
  out_size : Nat
  current_subsequence : Nat
  current_unit : Nat
  window : Nat
  next : Nat
  last_state : Nat
  last_bit : Nat
  reset : Bool
  num_symbols : Nat
deriving DecidableEq, Repr

/-- The renormalisation loop (lines 193-197): while the state is below
`number_of_states`, append the window bit at offset `taken`. -/
def renormalize (sem : ShiftSem) (number_of_states window : Nat) :
    Nat → Nat → Nat → Except Fault (Nat × Nat)
  | 0, current_state, taken =>
      if current_state < number_of_states then .error .out_of_fuel
      else .ok (current_state, taken)
  | fuel + 1, current_state, taken =>
      if current_state < number_of_states then
        let shift := shr32 sem window taken
        renormalize sem number_of_states window fuel
          ((shl32 sem current_state 1 + (not32 (shl32 sem mask 1) &&& shift)) % 2 ^ 32)
          (taken + 1)
      else .ok (current_state, taken)

/-- Body of the symbol loop (lines 179-216): decode one symbol.  Returns the new
locals and the stores made to the output buffer (none or one). -/
def symbol_step (sem : ShiftSem) (table : List CUHDCodetableItem) (write : Bool)
    (fuel : Nat) (l : Locals) : Except Fault (Locals × List (Nat × Nat)) :=
  let number_of_states := table.length
  let last_state := l.current_state
  let hit := table.getD (sub64 l.current_state number_of_states) default
  let next_state := hit.next_state
  let taken := hit.min_num_bits
  let num_symbols := (l.num_symbols + 1) % 2 ^ 32
  let reversed := not32 (shl32 sem mask taken) &&& l.window
  let current_state := (shl32 sem next_state taken + reversed) % 2 ^ 32
  match renormalize sem number_of_states l.window fuel current_state taken with
  | .error e => .error e
  | .ok (current_state, taken) =>
      let store := write && l.reset && decide (l.out_pos < l.out_size)
      let copy_next := if taken > 0 then shl32 sem l.next (sub64 bits_in_unit taken) else 0
      .ok ({ l with
              current_state := current_state
              last_state := last_state
              num_symbols := num_symbols
              out_pos := if store then l.out_pos + 1 else l.out_pos
              last_bit := l.at_
              next := shr32 sem l.next taken
              window := (shr32 sem l.window taken + copy_next) % 2 ^ 32
              at_ := (l.at_ + taken) % 2 ^ 8 },
           if store then [(l.out_pos, hit.symbol)] else [])

/-- The symbol loop `while(at < bits_in_unit)` (lines 177-217).  `fuel0` bounds
each renormalisation, the recursion argument bounds the number of symbols. -/
def symbol_loop (sem : ShiftSem) (table : List CUHDCodetableItem) (write : Bool)
    (fuel0 : Nat) : Nat → Locals → Except Fault (Locals × List (Nat × Nat))
  | 0, l => if l.at_ < bits_in_unit then .error .out_of_fuel else .ok (l, [])
  | fuel + 1, l =>
      if l.at_ < bits_in_unit then
        match symbol_step sem table write fuel0 l with
        | .error e => .error e
        | .ok (l1, w1) =>
            match symbol_loop sem table write fuel0 fuel l1 with
            | .error e => .error e
            | .ok (l2, w2) => .ok (l2, w1 ++ w2)
      else .ok (l, [])

/-- How one pass through the body of the unit loop ends. -/
inductive Step where
  | continue_ (l : Locals) (s : Shared)
  | returned (s : Shared)
deriving DecidableEq, Repr

/-- The subsequence-crossing block (lines 223-254), entered with `in_pos` and
`current_unit` already incremented. -/
def crossing (a : KernelArgs) (l : Locals) (s : Shared) : Step :=
  if l.current_unit = a.subsequence_size then
    let sp := s.sync.getD l.current_subsequence default
    if a.overflow && l.reset
        && (sp.state == l.last_state && sp.bit == l.last_bit
            && sp.unit == sub32 l.current_unit 1) then
      .returned { s with
        sync := s.sync.set l.current_subsequence { sp with num_symbols := l.num_symbols }
        thread_synced := s.thread_synced.set a.thread_id true }
    else
      let advance := !a.overflow || l.reset
      .continue_
        { l with
          current_subsequence :=
            if advance then l.current_subsequence + 1 else l.current_subsequence
          reset := true
          current_unit := 0
          num_symbols := 0 }
        { s with
          sync :=
            if advance && !a.write then
              s.sync.set l.current_subsequence
                { state := l.last_state, bit := l.last_bit,
                  unit := sub32 l.current_unit 1, num_symbols := l.num_symbols }
            else s.sync
          thread_synced :=
            if a.overflow && decide (l.in_pos > a.num_units) then
              s.thread_synced.set a.thread_id true
            else s.thread_synced }
  else .continue_ l s

/-- The window refill (lines 256-271). -/
def refill (sem : ShiftSem) (in_ptr : List Nat) (l : Locals) : Locals :=
  let window := in_ptr.getD l.in_pos 0
  let next := in_ptr.getD (l.in_pos + 1) 0
  if l.at_ = bits_in_unit then
    { l with window := window, next := next, at_ := 0 }
  else
    let at1 := (l.at_ + 2 ^ 8 - bits_in_unit) % 2 ^ 8
    let copy_next := shl32 sem (in_ptr.getD (l.in_pos + 1) 0) (sub64 bits_in_unit at1)
    { l with
      at_ := at1
      next := shr32 sem next at1
      window := (shr32 sem window at1 + copy_next) % 2 ^ 32 }

/-- The unit loop `while(in_pos < end)` (lines 176-272). -/
def unit_loop (sem : ShiftSem) (a : KernelArgs) (in_ptr : List Nat)
    (table : List CUHDCodetableItem) (fuel0 : Nat) :
    Nat → Locals → Shared → Except Fault Shared
  | 0, l, s => if l.in_pos < a.end_ then .error .out_of_fuel else .ok s
  | fuel + 1, l, s =>
      if l.in_pos < a.end_ then
        match symbol_loop sem table a.write fuel0 fuel0 l with
        | .error e => .error e
        | .ok (l1, w) =>
            match crossing a
                { l1 with in_pos := l1.in_pos + 1
                          current_unit := (l1.current_unit + 1) % 2 ^ 32 }
                { s with out := s.out ++ w } with
            | .returned s2 => .ok s2
            | .continue_ l3 s3 => unit_loop sem a in_ptr table fuel0 fuel (refill sem in_ptr l3) s3
      else .ok s

/-- The locals on entry to the unit loop (lines 125-174).  The two reads of
`sync` at lines 146 and 150 are not modelled: their value is never used. -/
def initial_locals (sem : ShiftSem) (a : KernelArgs) (size_out : Nat)
    (inp : CUHDInputBuffer) (s : Shared) : Locals :=
  let boot := a.overflow || (a.write && decide (a.thread_id > 0))
  let sp := s.sync.getD (sub64 a.subsequence 1) default
  let current_state := if boot then sp.state else inp.first_state
  let at0 := if a.thread_id = 0 then sub64 bits_in_unit inp.first_bit % 2 ^ 8 else 0
  let at_ := if boot then sp.bit % 2 ^ 8 else at0
  let in_pos :=
    if boot then (sub64 a.begin a.subsequence_size + sp.unit) % 2 ^ 64 else a.begin
  let window := inp.compressed_data.getD in_pos 0
  let next := inp.compressed_data.getD (in_pos + 1) 0
  let copy_next := shl32 sem next (sub64 bits_in_unit at_)
  { current_state := current_state
    at_ := at_
    in_pos := in_pos
    out_pos := if a.write then s.out_positions.getD a.thread_id 0 else 0
    out_size :=
      if a.write then
        if a.thread_id < sub64 a.num_threads 1 then s.out_positions.getD (a.thread_id + 1) 0
        else size_out
      else 0
    current_subsequence := a.subsequence
    current_unit := if boot then sp.unit else 0
    window := (shr32 sem window at_ + copy_next) % 2 ^ 32
    next := shr32 sem next at_
    last_state := 0
    last_bit := 0
    reset := a.write && a.thread_id == 0
    num_symbols := 0 }

/-- `MulticoreDecoder::decode_phase1`: one kernel pass of one worker, as the
change it makes to the shared arrays. -/
def decode_phase1 (sem : ShiftSem) (fuel : Nat) (a : KernelArgs) (size_out : Nat)
    (inp : CUHDInputBuffer) (table : List CUHDCodetableItem) (s : Shared) :
    Except Fault Shared :=
  if a.overflow && s.thread_synced.getD a.thread_id false then .ok s
  else
    unit_loop sem a inp.compressed_data table fuel fuel
      (initial_locals sem a size_out inp s) s

/-! ## The reads of the compressed input -/

/-- The indices at which the unit loop reads `in_ptr`, in the order of the
reads: `in_pos` and `in_pos + 1` at every window refill (lines 256-257 and 268).
The control flow is that of `unit_loop`. -/
def unit_loop_reads (sem : ShiftSem) (a : KernelArgs) (in_ptr : List Nat)
    (table : List CUHDCodetableItem) (fuel0 : Nat) :
    Nat → Locals → Shared → Except Fault (List Nat)
  | 0, l, _ => if l.in_pos < a.end_ then .error .out_of_fuel else .ok []
  | fuel + 1, l, s =>
      if l.in_pos < a.end_ then
        match symbol_loop sem table a.write fuel0 fuel0 l with
        | .error e => .error e
        | .ok (l1, w) =>
            match crossing a
                { l1 with in_pos := l1.in_pos + 1
                          current_unit := (l1.current_unit + 1) % 2 ^ 32 }
                { s with out := s.out ++ w } with
            | .returned _ => .ok []
            | .continue_ l3 s3 =>
                match unit_loop_reads sem a in_ptr table fuel0 fuel (refill sem in_ptr l3) s3 with
                | .error e => .error e
                | .ok r => .ok (l3.in_pos :: (l3.in_pos + 1) :: r)
      else .ok []

/-- The indices at which a kernel pass reads `in_ptr`: `in_pos` and `in_pos + 1`
on entry (lines 157-158), then those of the unit loop. -/
def decode_phase1_reads (sem : ShiftSem) (fuel : Nat) (a : KernelArgs) (size_out : Nat)
    (inp : CUHDInputBuffer) (table : List CUHDCodetableItem) (s : Shared) :
    Except Fault (List Nat) :=
  if a.overflow && s.thread_synced.getD a.thread_id false then .ok []
  else
    match unit_loop_reads sem a inp.compressed_data table fuel fuel
        (initial_locals sem a size_out inp s) s with
    | .error e => .error e
    | .ok r =>
        .ok ((initial_locals sem a size_out inp s).in_pos
              :: ((initial_locals sem a size_out inp s).in_pos + 1) :: r)

/-! ## The per-symbol steps of a pass -/

/-- The locals at the start of every pass through the body of the symbol loop
(line 179), in the order of the passes.  The control flow is that of
`symbol_loop`. -/
def symbol_loop_steps (sem : ShiftSem) (table : List CUHDCodetableItem) (write : Bool)
    (fuel0 : Nat) : Nat → Locals → Except Fault (List Locals)
  | 0, l => if l.at_ < bits_in_unit then .error .out_of_fuel else .ok []
  | fuel + 1, l =>
      if l.at_ < bits_in_unit then
        match symbol_step sem table write fuel0 l with
        | .error e => .error e
        | .ok (l1, _) =>
            match symbol_loop_steps sem table write fuel0 fuel l1 with
            | .error e => .error e
            | .ok r => .ok (l :: r)
      else .ok []

/-- The locals at the start of every per-symbol step of the unit loop, in the
order of the steps.  The control flow is that of `unit_loop`. -/
def unit_loop_steps (sem : ShiftSem) (a : KernelArgs) (in_ptr : List Nat)
    (table : List CUHDCodetableItem) (fuel0 : Nat) :
    Nat → Locals → Shared → Except Fault (List Locals)
  | 0, l, _ => if l.in_pos < a.end_ then .error .out_of_fuel else .ok []
  | fuel + 1, l, s =>
      if l.in_pos < a.end_ then
        match symbol_loop sem table a.write fuel0 fuel0 l with
        | .error e => .error e
        | .ok (l1, w) =>
            match symbol_loop_steps sem table a.write fuel0 fuel0 l with
            | .error e => .error e
            | .ok t =>
                match crossing a
                    { l1 with in_pos := l1.in_pos + 1
                              current_unit := (l1.current_unit + 1) % 2 ^ 32 }
                    { s with out := s.out ++ w } with
                | .returned _ => .ok t
                | .continue_ l3 s3 =>
                    match unit_loop_steps sem a in_ptr table fuel0 fuel (refill sem in_ptr l3) s3 with
                    | .error e => .error e
                    | .ok r => .ok (t ++ r)
      else .ok []

/-- The locals at the start of every per-symbol step of a kernel pass. -/
def decode_phase1_steps (sem : ShiftSem) (fuel : Nat) (a : KernelArgs) (size_out : Nat)
    (inp : CUHDInputBuffer) (table : List CUHDCodetableItem) (s : Shared) :
    Except Fault (List Locals) :=
  if a.overflow && s.thread_synced.getD a.thread_id false then .ok []
  else
    unit_loop_steps sem a inp.compressed_data table fuel fuel
      (initial_locals sem a size_out inp s) s

/-! ## The orchestrator `decode` -/

/-- The arguments with which `decode` starts worker `i` (lines 44-48, 59-63,
80-84). -/
def worker_args (intervals : List DecoderInterval)
    (subsequence_size input_size_units num_threads : Nat) (overflow write : Bool)
    (i : Nat) : KernelArgs :=
  { thread_id := i
    begin := (intervals.getD i default).begin
    end_ := (intervals.getD i default).end_
    subsequence := (intervals.getD i default).sub
    subsequence_size := subsequence_size
    num_units := input_size_units
    num_threads := num_threads
    overflow := overflow
    write := write }

/-- The workers of one spawn-and-join round, each run to completion, in the
order given by `order` (a list of thread indices). -/
def run_workers (sem : ShiftSem) (fuel : Nat) (intervals : List DecoderInterval)
    (subsequence_size input_size_units num_threads : Nat) (overflow write : Bool)
    (size_out : Nat) (inp : CUHDInputBuffer) (table : List CUHDCodetableItem) :
    List Nat → Shared → Except Fault Shared
  | [], s => .ok s
  | i :: rest, s =>
      match decode_phase1 sem fuel
          (worker_args intervals subsequence_size input_size_units num_threads overflow write i)
          size_out inp table s with
      | .error e => .error e
      | .ok s1 =>
          run_workers sem fuel intervals subsequence_size input_size_units num_threads
            overflow write size_out inp table rest s1

/-- The test of lines 70-74: every flag `thread_synced[i]`, `1 <= i < num_threads`,
is set. -/
def all_synced (num_threads : Nat) (s : Shared) : Bool :=
  (List.range' 1 (num_threads - 1)).all (fun i => s.thread_synced.getD i false)

/-- The order in which the workers of each round run to completion. -/
structure Schedule where
  phase1 : List Nat
  phase2 : Nat → List Nat
  phase3 : List Nat

/-- A schedule runs every worker of a round exactly once: workers `0..T-1` in
phases 1 and 3, workers `1..T-1` in every iteration of phase 2. -/
def Schedule.valid (sched : Schedule) (num_threads : Nat) : Prop :=
  sched.phase1.Perm (List.range num_threads)
    ∧ (∀ k, (sched.phase2 k).Perm (List.range' 1 (num_threads - 1)))
    ∧ sched.phase3.Perm (List.range num_threads)

/-- The `while(!synchronized)` loop (lines 55-75).  `k` counts the iterations
already made; the result carries the number of iterations the loop ran. -/
def phase2_loop (sem : ShiftSem) (fuel0 : Nat) (intervals : List DecoderInterval)
    (subsequence_size input_size_units num_threads : Nat)
    (size_out : Nat) (inp : CUHDInputBuffer) (table : List CUHDCodetableItem)
    (order : Nat → List Nat) : Nat → Nat → Shared → Except Fault (Shared × Nat)
  | 0, _, _ => .error .out_of_fuel
  | fuel + 1, k, s =>
      match run_workers sem fuel0 intervals subsequence_size input_size_units num_threads
          true false size_out inp table (order k) s with
      | .error e => .error e
      | .ok s1 =>
          if all_synced num_threads s1 then .ok (s1, k + 1)
          else phase2_loop sem fuel0 intervals subsequence_size input_size_units num_threads
                 size_out inp table order fuel (k + 1) s1

/-- What `decode` leaves behind: the shared arrays and the number of iterations
of the phase-2 loop. -/
structure DecodeResult where
  shared : Shared
  iterations : Nat
deriving DecidableEq, Repr

/-- `MulticoreDecoder::decode`.  `junk` is the content of the freshly allocated
`sync_info` array, `size_out` is `out->get_uncompressed_size()`. -/
def decode (sem : ShiftSem) (fuel : Nat) (sched : Schedule)
    (subsequence_size num_threads input_size_units : Nat)
    (size_out : Nat) (inp : CUHDInputBuffer) (table : List CUHDCodetableItem)
    (junk : Nat → SubsequenceSyncPoint) : Except Fault DecodeResult :=
  let num_subs := num_subsequences subsequence_size input_size_units
  match get_decoder_intervals subsequence_size num_threads input_size_units with
  | .error e => .error e
  | .ok intervals =>
      let s0 : Shared :=
        { sync := (List.range num_subs).map junk
          thread_synced := List.replicate num_threads false
          out_positions := List.replicate num_threads 0
          out := [] }
      match run_workers sem fuel intervals subsequence_size input_size_units num_threads
          false false size_out inp table sched.phase1 s0 with
      | .error e => .error e
      | .ok s1 =>
          match phase2_loop sem fuel intervals subsequence_size input_size_units num_threads
              size_out inp table sched.phase2 fuel 0 s1 with
          | .error e => .error e
          | .ok (s2, iterations) =>
              match prefix_sum s2.sync num_subs num_threads with
              | .error e => .error e
              | .ok out_positions =>
                  match run_workers sem fuel intervals subsequence_size input_size_units
                      num_threads false true size_out inp table sched.phase3
                      { s2 with out_positions := out_positions } with
                  | .error e => .error e
                  | .ok s3 => .ok { shared := s3, iterations := iterations }

/-- The output buffer after the stores of `log` (oldest first) on the buffer
`buf`.  A store at a position inside the buffer replaces the element; a store
at a position past the end of the buffer, which in the source writes past the
allocation, leaves the list as it is: the buffer so computed says what the
elements of the buffer hold, and the log says which stores were made. -/
def apply_writes (buf : List Nat) (log : List (Nat × Nat)) : List Nat :=
  log.foldl (fun b w => b.set w.1 w.2) buf

/-- The schedule that runs the workers of every round in ascending order. -/
def ascending (num_threads : Nat) : Schedule :=
  { phase1 := List.range num_threads
    phase2 := fun _ => List.range' 1 (num_threads - 1)
    phase3 := List.range num_threads }

/-- The schedule that runs the workers of every round in descending order. -/
def descending (num_threads : Nat) : Schedule :=
  { phase1 := (List.range num_threads).reverse
    phase2 := fun _ => (List.range' 1 (num_threads - 1)).reverse
    phase3 := (List.range num_threads).reverse }

/-! ## Notions used to state the properties -/

/-- Sum of the `num_symbols` fields of `sync[a], ..., sync[a + n - 1]`. -/
def sum_symbols (sync : List SubsequenceSyncPoint) (a n : Nat) : Nat :=
  ((List.range' a n).map (fun j => (sync.getD j default).num_symbols)).sum

/-- The list the planner returns on a valid configuration. -/
def planned (S T N_u : Nat) : List DecoderInterval :=
  extend_last (intervals_loop (num_subsequences S N_u / T) S T 0 0) (T - 1)
    (num_subsequences S N_u % T * S)

/-- The array `prefix_sum` leaves in `out_positions`. -/
def prefix_sums (sync : List SubsequenceSyncPoint) (N_s T : Nat) : List Nat :=
  0 :: prefix_sum_outer sync (N_s / T) (T - 1) 0 (N_s / T) 0

/-- Decoding subsequence `b` from the entry recorded in `sync[b-1]`: a kernel
pass in phase-2 mode over the units of subsequence `b` alone, run on a copy of
`sync` whose entry `b` is cleared, so that the pass stores what it derives.  The
result is the entry the pass stores for subsequence `b`. -/
def redecode_subsequence (sem : ShiftSem) (fuel : Nat) (subsequence_size input_size_units : Nat)
    (size_out : Nat) (inp : CUHDInputBuffer) (table : List CUHDCodetableItem)
    (sync : List SubsequenceSyncPoint) (b : Nat) : Except Fault SubsequenceSyncPoint :=
  (decode_phase1 sem fuel
      { thread_id := 1
        begin := b * subsequence_size
        end_ := (b + 1) * subsequence_size
        subsequence := b
        subsequence_size := subsequence_size
        num_units := input_size_units
        num_threads := 2
        overflow := true
        write := false }
      size_out inp table
      { sync := sync.set b default
        thread_synced := [false, false]
        out_positions := []
        out := [] }).map (fun s => s.sync.getD b default)

/-- The output positions stored to by a run, in the order of the stores. -/
def written_positions (r : DecodeResult) : List Nat :=
  r.shared.out.map Prod.fst

/-- The output buffer a run leaves, starting from the buffer `buf`. -/
def output_buffer (buf : List Nat) (r : DecodeResult) : List Nat :=
  apply_writes buf r.shared.out

/-! ## Concrete inputs -/

/-- The tANS decoder table of four equiprobable symbols on four states: every
symbol takes two bits. -/
def table_uniform4 : List CUHDCodetableItem :=
  [⟨0, 1, 2⟩, ⟨1, 1, 2⟩, ⟨2, 1, 2⟩, ⟨3, 1, 2⟩]

/-- `n` units `0x55555555` followed by two units of padding; decoding starts in
state 6 at bit 1 of unit 0. -/
def input_alternating (n : Nat) : CUHDInputBuffer :=
  { compressed_data := List.replicate n 0x55555555 ++ [0, 0]
    first_state := 6
    first_bit := 31 }

/-- A tANS decoder table on 16 states for three symbols with frequencies 8, 1
and 7 (states 16-23, 24 and 25-31). -/
def table_skewed16 : List CUHDCodetableItem :=
  [⟨0, 8, 1⟩, ⟨0, 9, 1⟩, ⟨0, 10, 1⟩, ⟨0, 11, 1⟩, ⟨0, 12, 1⟩, ⟨0, 13, 1⟩, ⟨0, 14, 1⟩, ⟨0, 15, 1⟩,
   ⟨1, 1, 4⟩,
   ⟨2, 7, 2⟩, ⟨2, 8, 1⟩, ⟨2, 9, 1⟩, ⟨2, 10, 1⟩, ⟨2, 11, 1⟩, ⟨2, 12, 1⟩, ⟨2, 13, 1⟩]

/-- Sixteen units `0x11111111` followed by two units of padding; decoding starts
in state 24 at bit 1 of unit 0. -/
def input_nibbles : CUHDInputBuffer :=
  { compressed_data := List.replicate 16 0x11111111 ++ [0, 0]
    first_state := 24
    first_bit := 31 }

/-- Content of a freshly allocated `sync_info` array used in the examples. -/
def no_junk : Nat → SubsequenceSyncPoint := fun _ => default

/-! ## Validity of inputs and invariants of the kernel -/

/-- A well-formed tANS decoder table on `L = table.length` states, `L` at most
`2^31`: for the entry of state `L + i`, `next_state` is positive, the state
loaded from it, `next_state * 2^min_num_bits` plus `min_num_bits` stream bits,
stays below `2 * L`, and a transition that consumes no bit leads to a smaller
state (as in every table whose states are assigned to a symbol in increasing
order). -/
def WellFormedTable (table : List CUHDCodetableItem) : Prop :=
  0 < table.length ∧ table.length ≤ 2 ^ 31
    ∧ ∀ i, i < table.length →
        1 ≤ (table.getD i default).next_state
        ∧ ((table.getD i default).next_state + 1) * 2 ^ (table.getD i default).min_num_bits
            ≤ 2 * table.length
        ∧ ((table.getD i default).min_num_bits = 0 →
            (table.getD i default).next_state < table.length + i)

/-- A valid configuration and input of `decode`: positive subsequence size,
at least one thread, at least as many subsequences as threads, sizes that fit
their machine types, a well-formed table, a start state of the table and a
start bit `first_bit` in `1..32`. -/
structure ValidInput (subsequence_size num_threads input_size_units : Nat)
    (inp : CUHDInputBuffer) (table : List CUHDCodetableItem) : Prop where
  size_pos : 0 < subsequence_size
  size_lt : subsequence_size < 2 ^ 32
  threads_pos : 1 ≤ num_threads
  enough_subs : num_threads ≤ num_subsequences subsequence_size input_size_units
  units_lt : input_size_units + subsequence_size < 2 ^ 64
  table_ok : WellFormedTable table
  state_ge : table.length ≤ inp.first_state
  state_lt : inp.first_state < 2 * table.length
  bit_pos : 1 ≤ inp.first_bit
  bit_le : inp.first_bit ≤ 32

/-- The locals after the crossing block when it does not return. -/
def cross_locals (a : KernelArgs) (l : Locals) : Locals :=
  { l with
    current_subsequence :=
      if !a.overflow || l.reset then l.current_subsequence + 1 else l.current_subsequence
    reset := true
    current_unit := 0
    num_symbols := 0 }

/-- The locals with which the unit loop enters the crossing block at each
subsequence crossing of a pass that is not cut short by a `return`.  The locals
do not depend on the shared arrays. -/
def crossings (sem : ShiftSem) (a : KernelArgs) (in_ptr : List Nat)
    (table : List CUHDCodetableItem) (fuel0 : Nat) :
    Nat → Locals → Except Fault (List Locals)
  | 0, l => if l.in_pos < a.end_ then .error .out_of_fuel else .ok []
  | fuel + 1, l =>
      if l.in_pos < a.end_ then
        match symbol_loop sem table a.write fuel0 fuel0 l with
        | .error e => .error e
        | .ok (l1, _) =>
            if (l1.current_unit + 1) % 2 ^ 32 = a.subsequence_size then
              match crossings sem a in_ptr table fuel0 fuel
                  (refill sem in_ptr
                    (cross_locals a
                      { l1 with in_pos := l1.in_pos + 1
                                current_unit := (l1.current_unit + 1) % 2 ^ 32 })) with
              | .error e => .error e
              | .ok xs =>
                  .ok ({ l1 with in_pos := l1.in_pos + 1
                                 current_unit := (l1.current_unit + 1) % 2 ^ 32 } :: xs)
            else
              crossings sem a in_ptr table fuel0 fuel
                (refill sem in_ptr
                  { l1 with in_pos := l1.in_pos + 1
                            current_unit := (l1.current_unit + 1) % 2 ^ 32 })
      else .ok []

/-- The crossing block applied at each crossing of a list, up to the first
`return`. -/
def fold_crossings (a : KernelArgs) : List Locals → Shared → Shared
  | [], s => s
  | x :: xs, s =>
      match crossing a x s with
      | .returned s2 => s2
      | .continue_ _ s3 => fold_crossings a xs s3

/-- A sync entry a pass can start from: a state of the table, a bit offset
inside a unit, and the last unit of a subsequence. -/
def GoodEntry (L S : Nat) (e : SubsequenceSyncPoint) : Prop :=
  L ≤ e.state ∧ e.state < 2 * L ∧ e.bit < 32 ∧ e.unit = S - 1

/-- The locals at a crossing carry a usable sync point. -/
def GoodCrossing (L : Nat) (x : Locals) : Prop :=
  L ≤ x.last_state ∧ x.last_state < 2 * L ∧ x.last_bit < 32

/-- A list of crossings as a pass in steady state produces them: the crossing
at list position `k` happens at `in_pos = p + k * S` for subsequence `c + k`,
advances the subsequence counter, and the list ends with the last crossing at or
before `end`. -/
inductive CrossChain (a : KernelArgs) (L : Nat) : Nat → Nat → List Locals → Prop where
  | nil (c p : Nat) (h : a.end_ < p) : CrossChain a L c p []
  | cons (c p : Nat) (x : Locals) (xs : List Locals)
      (hp : p ≤ a.end_) (hc : x.current_subsequence = c)
      (hu : x.current_unit = a.subsequence_size) (hi : x.in_pos = p)
      (hg : GoodCrossing L x) (hr : (!a.overflow || x.reset) = true)
      (ht : CrossChain a L (c + 1) (p + a.subsequence_size) xs) :
      CrossChain a L c p (x :: xs)

/-- What one pass through the body of the symbol loop guarantees, from locals
`l` to locals `l1` with the stores `w`. -/
structure SymbolPost (L : Nat) (write : Bool) (l l1 : Locals) (w : List (Nat × Nat)) :
    Prop where
  state_ge : L ≤ l1.current_state
  state_lt : l1.current_state < 2 * L
  at_ge : l.at_ ≤ l1.at_
  at_le : l1.at_ ≤ l.at_ + 31
  decr : l1.at_ = l.at_ → l1.current_state < l.current_state
  last_state : l1.last_state = l.current_state
  last_bit : l1.last_bit = l.at_
  in_pos : l1.in_pos = l.in_pos
  subsequence : l1.current_subsequence = l.current_subsequence
  unit : l1.current_unit = l.current_unit
  reset : l1.reset = l.reset
  out_size : l1.out_size = l.out_size
  no_write : write = false → w = [] ∧ l1.out_pos = l.out_pos

/-- What the symbol loop guarantees when entered with `at < 32`. -/
structure LoopPost (L : Nat) (write : Bool) (l l1 : Locals) (w : List (Nat × Nat)) :
    Prop where
  state_ge : L ≤ l1.current_state
  state_lt : l1.current_state < 2 * L
  at_ge : 32 ≤ l1.at_
  at_le : l1.at_ ≤ 62
  last_ge : L ≤ l1.last_state
  last_lt : l1.last_state < 2 * L
  last_bit : l1.last_bit < 32
  in_pos : l1.in_pos = l.in_pos
  subsequence : l1.current_subsequence = l.current_subsequence
  unit : l1.current_unit = l.current_unit
  reset : l1.reset = l.reset
  out_size : l1.out_size = l.out_size
  no_write : write = false → w = [] ∧ l1.out_pos = l.out_pos

/-- The sync point stored at a crossing: `{last_state, last_bit, current_unit - 1,
num_symbols}`. -/
def crossing_entry (x : Locals) : SubsequenceSyncPoint :=
  { state := x.last_state, bit := x.last_bit, unit := sub32 x.current_unit 1,
    num_symbols := x.num_symbols }

/-- The shared arrays a pass through the crossing block leaves. -/
def Step.shared : Step → Shared
  | .continue_ _ s => s
  | .returned s => s

/-- Every entry of `sync` is one a pass can start from. -/
def GoodSync (L S : Nat) (sync : List SubsequenceSyncPoint) : Prop :=
  ∀ i, i < sync.length → GoodEntry L S (sync.getD i default)

/-- The number of subsequences in the interval of thread `j`: `q`, and
`q + r` for the last thread (`q = N_s / T`, `r = N_s mod T`). -/
def owned_count (S T N_u j : Nat) : Nat :=
  num_subsequences S N_u / T + (if j = T - 1 then num_subsequences S N_u % T else 0)

/-- The first subsequence of thread `j`. -/
def first_sub (S T N_u j : Nat) : Nat := num_subsequences S N_u / T * j

/-- Subsequence `i` lies in the interval of thread `j`. -/
def Owns (S T N_u j i : Nat) : Prop :=
  first_sub S T N_u j ≤ i ∧ i < first_sub S T N_u j + owned_count S T N_u j

/-- Loop iterations that suffice for every loop of `decode` on a valid input. -/
def enough_fuel (S T N_u : Nat) (table : List CUHDCodetableItem) : Nat :=
  33 * table.length + N_u + S + T + 2

/-- The shared arrays between two passes of phase 2 or 3: `sync` has an entry
for every subsequence, each one a pass can start from, and `thread_synced` has
a flag for every thread. -/
structure GoodShared (S T N_u : Nat) (table : List CUHDCodetableItem) (s : Shared) : Prop where
  sync_length : s.sync.length = num_subsequences S N_u
  flags_length : s.thread_synced.length = T
  sync_good : GoodSync table.length S s.sync

/-- The arguments of worker `j` in a given mode, on the intervals of the
planner. -/
def args_of (S T N_u : Nat) (overflow write : Bool) (j : Nat) : KernelArgs :=
  worker_args (planned S T N_u) S N_u T overflow write j

/-- Worker `j` is settled: its flag is set, or its next phase-2 pass, on any
arrays with the same `sync[first_sub j - 1]` and `sync[first_sub j]`, sets the
flag and changes nothing else. -/
def Ready (sem : ShiftSem) (fuel S T N_u size_out : Nat) (inp : CUHDInputBuffer)
    (table : List CUHDCodetableItem) (j : Nat) (s : Shared) : Prop :=
  s.thread_synced.getD j false = true
    ∨ ∀ s2 : Shared, s2.sync.length = num_subsequences S N_u →
        s2.sync.getD (first_sub S T N_u j - 1) default
          = s.sync.getD (first_sub S T N_u j - 1) default →
        s2.sync.getD (first_sub S T N_u j) default
          = s.sync.getD (first_sub S T N_u j) default →
        s2.thread_synced.getD j false = false →
        decode_phase1 sem fuel (args_of S T N_u true false j) size_out inp table s2
          = .ok { s2 with thread_synced := s2.thread_synced.set j true }

/-- The state of phase 2 after `k` iterations: the arrays are well formed, the
workers `1..k` are settled and the workers `1..k-1` have their flag set. -/
structure Phase2Inv (sem : ShiftSem) (fuel S T N_u size_out : Nat) (inp : CUHDInputBuffer)
    (table : List CUHDCodetableItem) (k : Nat) (s : Shared) : Prop where
  good : GoodShared S T N_u table s
  ready : ∀ j, 1 ≤ j → j ≤ k → j < T → Ready sem fuel S T N_u size_out inp table j s
  flagged : ∀ j, 1 ≤ j → j < k → j < T → s.thread_synced.getD j false = true

/-! ## The stores of phase 3 -/

/-- The stores `w` go to the positions `p, p + 1, ...` in this order, each one
below `bound`. -/
def WritesFrom (p bound : Nat) (w : List (Nat × Nat)) : Prop :=
  w.map Prod.fst = List.range' p w.length ∧ (w ≠ [] → p + w.length ≤ bound)

/-- The bound `out_size` of thread `i` in phase 3 (lines 149-154). -/
def out_bound (T size_out : Nat) (out_positions : List Nat) (i : Nat) : Nat :=
  if i < sub64 T 1 then out_positions.getD (i + 1) 0 else size_out

/-- The stores thread `i` makes in phase 3 on the arrays `sync` and
`out_positions`, oldest first. -/
def phase3_writes (sem : ShiftSem) (fuel S T N_u size_out : Nat) (inp : CUHDInputBuffer)
    (table : List CUHDCodetableItem) (sync : List SubsequenceSyncPoint)
    (out_positions : List Nat) (i : Nat) : Except Fault (List (Nat × Nat)) :=
  (decode_phase1 sem fuel (worker_args (planned S T N_u) S N_u T false true i) size_out inp table
    { sync := sync
      thread_synced := List.replicate T false
      out_positions := out_positions
      out := [] }).map (fun s => s.out)

/-! ## A table with long runs of symbols that read no bit -/

/-- A decoder table on `L` states for two symbols with frequencies 1 and
`L - 1`: state `L` emits symbol 0 and reloads one bit, every other state
`L + i` emits symbol 1 and steps to state `L + i - 1` without reading a bit. -/
def chain_table (L : Nat) : List CUHDCodetableItem :=
  (List.range L).map (fun i => if i = 0 then ⟨0, L - 1, 1⟩ else ⟨1, L + i - 1, 0⟩)

/-- Twelve units of zeros followed by two units of padding; decoding starts in
state `2 * L - 2` at bit 1 of unit 0. -/
def input_zero (L : Nat) : CUHDInputBuffer :=
  { compressed_data := List.replicate 14 0
    first_state := 2 * L - 2
    first_bit := 31 }

/-! ## The per-symbol step in the words of the specification -/

/-- The decoder table of the scenario S1 of the specification, on four states
(A = 0, B = 1): `{4:(A,4,1), 5:(A,6,1), 6:(B,5,2), 7:(B,7,2)}`. -/
def table_spec_s1 : List CUHDCodetableItem :=
  [⟨0, 4, 1⟩, ⟨0, 6, 1⟩, ⟨1, 5, 2⟩, ⟨1, 7, 2⟩]

/-- A decoder table on four states whose entries load `next_state = 1` with one
bit, that is the state 2 or 3, below the table: the step appends a second bit. -/
def table_renorm : List CUHDCodetableItem :=
  [⟨0, 1, 1⟩, ⟨0, 1, 1⟩, ⟨1, 1, 1⟩, ⟨1, 1, 1⟩]

/-- The state built from `s` by appending the window bits `t, t + 1, ...,
t + k - 1` one at a time (`state := 2 * state + bit`). -/
def appended_state (w s t : Nat) : Nat → Nat
  | 0 => s
  | k + 1 => 2 * appended_state w s t k + (w >>> (t + k)) % 2

/-- The state the per-symbol step builds from the entry `hit` and the window `w`
after `n` renormalisation bits, in the words of the specification:
`(next_state << t0) | (w mod 2^t0)` with `t0 = min_num_bits`, then one window
bit appended at a time. -/
def spec_step_state (hit : CUHDCodetableItem) (w n : Nat) : Nat :=
  appended_state w ((hit.next_state <<< hit.min_num_bits) ||| (w % 2 ^ hit.min_num_bits))
    hit.min_num_bits n

/-- Some locals in state `state` at bit `at_` with the window `window`. -/
def locals_at (state at_ window : Nat) : Locals :=
  { current_state := state, at_ := at_, in_pos := 0, out_pos := 0, out_size := 0,
    current_subsequence := 0, current_unit := 0, window := window, next := 0,
    last_state := 0, last_bit := 0, reset := false, num_symbols := 0 }

/-! ## The per-symbol steps of a pass as a transition system -/

/-- Bit `n` of the compressed stream: bit `k` of unit `p` is stream bit
`32 * p + k`. -/
def stream_bit (units : List Nat) (n : Nat) : Nat :=
  (units.getD (n / 32) 0 >>> (n % 32)) % 2

/-- The symbol a per-symbol step entered with the locals `l` decodes
(`hit.symbol`). -/
def symbol_of (table : List CUHDCodetableItem) (l : Locals) : Nat :=
  (table.getD (sub64 l.current_state table.length) default).symbol

/-- The store a per-symbol step entered with the locals `l` makes to the output
buffer, if any (lines 199-202). -/
def store_of (table : List CUHDCodetableItem) (write : Bool) (l : Locals) :
    Option (Nat × Nat) :=
  if write && l.reset && decide (l.out_pos < l.out_size) then
    some (l.out_pos, symbol_of table l)
  else none

/-- The locals after the per-symbol step entered with the locals `l`. -/
def step_locals (sem : ShiftSem) (table : List CUHDCodetableItem) (write : Bool)
    (fuel0 : Nat) (l : Locals) : Except Fault Locals :=
  match symbol_step sem table write fuel0 l with
  | .error e => .error e
  | .ok (l1, _) => .ok l1

/-- The locals with which the unit loop enters the crossing block after the
step entered with `l`, when that step ends a subsequence. -/
def cross_of (sem : ShiftSem) (a : KernelArgs) (table : List CUHDCodetableItem)
    (fuel0 : Nat) (l : Locals) : Option Locals :=
  match symbol_step sem table a.write fuel0 l with
  | .error _ => none
  | .ok (l1, _) =>
      if l1.at_ < bits_in_unit then none
      else if (l1.current_unit + 1) % 2 ^ 32 = a.subsequence_size then
        some { l1 with in_pos := l1.in_pos + 1
                       current_unit := (l1.current_unit + 1) % 2 ^ 32 }
      else none

/-- The locals at the start of the per-symbol step that follows the step
entered with `l`, in a pass whose crossing block does not return: the locals
after the step, and after the unit boundary handling and the window refill when
the step leaves the unit. -/
def advance (sem : ShiftSem) (a : KernelArgs) (in_ptr : List Nat)
    (table : List CUHDCodetableItem) (fuel0 : Nat) (l : Locals) : Except Fault Locals :=
  match symbol_step sem table a.write fuel0 l with
  | .error e => .error e
  | .ok (l1, _) =>
      if l1.at_ < bits_in_unit then .ok l1
      else if (l1.current_unit + 1) % 2 ^ 32 = a.subsequence_size then
        .ok (refill sem in_ptr
          (cross_locals a
            { l1 with in_pos := l1.in_pos + 1
                      current_unit := (l1.current_unit + 1) % 2 ^ 32 }))
      else
        .ok (refill sem in_ptr
          { l1 with in_pos := l1.in_pos + 1
                    current_unit := (l1.current_unit + 1) % 2 ^ 32 })

/-- A run of a transition system on locals: from `l`, the transition `next` is
taken until `stop` holds; the run lists the locals it passes through, and ends
in the first locals at which `stop` holds. -/
inductive Trace (next : Locals → Except Fault Locals) (stop : Locals → Prop) :
    Locals → List Locals → Locals → Prop where
  | done (l : Locals) (h : stop l) : Trace next stop l [] l
  | step (l l1 lf : Locals) (ts : List Locals) (h : ¬ stop l) (e : next l = .ok l1)
      (t : Trace next stop l1 ts lf) : Trace next stop l (l :: ts) lf

/-- The window and `next` hold the bits of the units `in_pos` and `in_pos + 1`
from bit `at` on: `window` is the 32 stream bits from position
`32 * in_pos + at`. -/
def WindowOK (units : List Nat) (l : Locals) : Prop :=
  l.window = ((units.getD l.in_pos 0 + 4294967296 * units.getD (l.in_pos + 1) 0) >>> l.at_)
      % 4294967296
    ∧ l.next = units.getD (l.in_pos + 1) 0 >>> l.at_

/-- Two locals agree on what the decoding of the next symbols depends on: the
state, the position in the stream and the bit window. -/
def Sim (l l2 : Locals) : Prop :=
  l.current_state = l2.current_state ∧ l.at_ = l2.at_ ∧ l.in_pos = l2.in_pos
    ∧ l.window = l2.window ∧ l.next = l2.next

/-- Four units, of which the second has its lowest bit set, followed by two
units of padding; decoding starts in state 4 at bit 0 of unit 0
(`first_bit = 32`). -/
def input_offset_zero : CUHDInputBuffer :=
  { compressed_data := [0, 1, 0, 0, 0, 0]
    first_state := 4
    first_bit := 32 }

/-- The locals with which the unit loop goes on after the unit that a symbol
loop ended in the locals `l1`. -/
def after_unit (sem : ShiftSem) (a : KernelArgs) (in_ptr : List Nat) (l1 : Locals) : Locals :=
  refill sem in_ptr
    (if (l1.current_unit + 1) % 2 ^ 32 = a.subsequence_size then
      cross_locals a
        { l1 with in_pos := l1.in_pos + 1, current_unit := (l1.current_unit + 1) % 2 ^ 32 }
    else { l1 with in_pos := l1.in_pos + 1, current_unit := (l1.current_unit + 1) % 2 ^ 32 })

/-- What a step of a pass needs from its locals: a state of the table, a bit
offset inside the unit and a unit inside the subsequence. -/
def StepInv (a : KernelArgs) (L : Nat) (l : Locals) : Prop :=
  L ≤ l.current_state ∧ l.current_state < 2 * L ∧ l.at_ < 32
    ∧ l.current_unit < a.subsequence_size

/-- What a step changes besides the state and the window: the position, the
counters and the flags of the next step. -/
structure AdvancePost (a : KernelArgs) (L : Nat) (l l2 : Locals) : Prop where
  inv : StepInv a L l2
  out_size : l2.out_size = l.out_size
  pos_ge : l.in_pos ≤ l2.in_pos
  pos_le : l2.in_pos ≤ l.in_pos + 1
  same : l2.in_pos = l.in_pos →
    l2.current_unit = l.current_unit ∧ l2.current_subsequence = l.current_subsequence
      ∧ l2.num_symbols = (l.num_symbols + 1) % 4294967296 ∧ l2.reset = l.reset
      ∧ l.at_ ≤ l2.at_
  unit_lt : l.current_unit + 1 < a.subsequence_size →
    l2.current_unit = (if l2.in_pos = l.in_pos then l.current_unit else l.current_unit + 1)
      ∧ l2.current_subsequence = l.current_subsequence
      ∧ l2.num_symbols = (l.num_symbols + 1) % 4294967296 ∧ l2.reset = l.reset
  unit_last : l.current_unit + 1 = a.subsequence_size → l2.in_pos = l.in_pos + 1 →
    l2.current_unit = 0 ∧ l2.num_symbols = 0 ∧ l2.reset = true
      ∧ l2.current_subsequence
          = (if !a.overflow || l.reset then l.current_subsequence + 1
             else l.current_subsequence)

/-- The alignment of a pass without `overflow`: the unit counter and the
subsequence counter give the position. -/
def Aligned (a : KernelArgs) (l : Locals) : Prop :=
  l.in_pos = l.current_subsequence * a.subsequence_size + l.current_unit

/-- The units of the input are 32-bit values. -/
def UnitsOK (units : List Nat) : Prop := ∀ i, units.getD i 0 < 4294967296

/-- The stores of the symbols `syms` at the positions `p, p + 1, ...` below
`bound`. -/
def place (p bound : Nat) (syms : List Nat) : List (Nat × Nat) :=
  (List.range' p (bound - p)).zip syms

/-- The number of steps of `ts` that began before unit `E`. -/
def steps_before (ts : List Locals) (E : Nat) : Nat :=
  (ts.filter (fun t => decide (t.in_pos < E))).length

/-! ## Lists as arrays -/

theorem getD_set_eq {α : Type} (l : List α) (i : Nat) (a d : α) (h : i < l.length) :
    (l.set i a).getD i d = a := by
  simp [List.getD_eq_getElem?_getD, List.getElem?_set, h]

theorem getD_set_ne {α : Type} (l : List α) (i j : Nat) (a d : α) (h : i ≠ j) :
    (l.set i a).getD j d = l.getD j d := by
  simp [List.getD_eq_getElem?_getD, List.getElem?_set, h]

theorem ext_getD {α : Type} (l1 l2 : List α) (d : α) (hlen : l1.length = l2.length)
    (h : ∀ i, i < l1.length → l1.getD i d = l2.getD i d) : l1 = l2 := by
  apply List.ext_getElem hlen
  intro i h1 h2
  have := h i h1
  simpa [List.getD_eq_getElem?_getD, List.getElem?_eq_getElem h1,
    List.getElem?_eq_getElem h2] using this

/-! ## The interval planner -/

theorem length_intervals_loop (q S : Nat) (n i a : Nat) :
    (intervals_loop q S n i a).length = n := by
  induction n generalizing i a with
  | zero => rfl
  | succ n ih => simp [intervals_loop, ih]

/-- While no value reaches `2 ^ 64` the loop of the planner yields the
intervals `[a + k*q*S, a + (k+1)*q*S)` with first subsequence `q*(i + k)`. -/
theorem getD_intervals_loop (q S : Nat) (n i a k : Nat) (hk : k < n)
    (h1 : a + n * (q * S) < 18446744073709551616)
    (h2 : q * (i + n) < 18446744073709551616) :
    (intervals_loop q S n i a).getD k default
      = { begin := a + k * (q * S), end_ := q * S + (a + k * (q * S)), sub := q * (i + k) } := by
  have e64 : (2:Nat) ^ 64 = 18446744073709551616 := by norm_num
  induction n generalizing i a k with
  | zero => omega
  | succ n ih =>
    have hn : a + n * (q * S) + q * S < 18446744073709551616 := by
      rw [Nat.add_mul, Nat.one_mul] at h1
      omega
    have hi : q * i ≤ q * (i + (n + 1)) := Nat.mul_le_mul_left _ (by omega)
    have ha : (a + q * S) % 2 ^ 64 = a + q * S := by
      rw [e64]
      exact Nat.mod_eq_of_lt (by omega)
    cases k with
    | zero =>
      simp only [intervals_loop, List.getD_cons_zero, Nat.zero_mul, Nat.add_zero]
      rw [Nat.add_comm (q * S) a, ha, e64, Nat.mod_eq_of_lt (by omega)]
    | succ k =>
      simp only [intervals_loop, List.getD_cons_succ]
      rw [ha, ih (i + 1) (a + q * S) k (by omega) (by omega)
        (by rw [show i + 1 + n = i + (n + 1) by omega]; exact h2)]
      congr 1 <;> ring

/-- The number of subsequences is the ceiling of `N_u / S`. -/
theorem num_subsequences_spec (S N_u : Nat) (hS : 0 < S) :
    N_u ≤ num_subsequences S N_u * S ∧ num_subsequences S N_u * S < N_u + S := by
  unfold num_subsequences
  have h1 := Nat.div_add_mod N_u S
  have h2 := Nat.mod_lt N_u hS
  by_cases h : N_u % S = 0
  · simp only [h, bne_self_eq_false, Bool.false_eq_true, ↓reduceIte]
    constructor
    · nlinarith [Nat.mul_comm S (N_u / S)]
    · nlinarith [Nat.mul_comm S (N_u / S)]
  · have : (N_u % S != 0) = true := by simpa using h
    simp only [this, ↓reduceIte]
    constructor
    · nlinarith [Nat.mul_comm S (N_u / S)]
    · have : 0 < N_u % S := Nat.pos_of_ne_zero h
      nlinarith [Nat.mul_comm S (N_u / S)]

theorem num_subsequences_of_dvd (S N_u : Nat) (h : N_u % S = 0) :
    num_subsequences S N_u * S = N_u := by
  unfold num_subsequences
  simp only [h, bne_self_eq_false, Bool.false_eq_true, ↓reduceIte]
  exact Nat.div_mul_cancel (Nat.dvd_of_mod_eq_zero h)

theorem get_decoder_intervals_eq (S T N_u : Nat) (hS : 0 < S) (hT : 1 ≤ T)
    (hN : T ≤ num_subsequences S N_u) :
    get_decoder_intervals S T N_u = .ok (planned S T N_u) := by
  unfold get_decoder_intervals planned
  rw [if_neg (by omega), if_neg (by omega), if_neg (by omega)]

theorem length_planned (S T N_u : Nat) : (planned S T N_u).length = T := by
  simp [planned, extend_last, length_intervals_loop]

/-- The intervals of the planner when `N_u + S < 2 ^ 64`: no sum or product of
the planner reaches `2 ^ 64`. -/
theorem getD_planned (S T N_u i : Nat) (hi : i < T) (hS : 0 < S)
    (hU : N_u + S < 2 ^ 64) :
    (planned S T N_u).getD i default
      = { begin := i * (num_subsequences S N_u / T * S)
          end_ := (i + 1) * (num_subsequences S N_u / T * S)
                    + (if i = T - 1 then num_subsequences S N_u % T * S else 0)
          sub := num_subsequences S N_u / T * i } := by
  have e64 : (2:Nat) ^ 64 = 18446744073709551616 := by norm_num
  rw [e64] at hU
  have hsp := (num_subsequences_spec S N_u hS).2
  have hdm := Nat.div_add_mod (num_subsequences S N_u) T
  have hNS : num_subsequences S N_u ≤ num_subsequences S N_u * S :=
    Nat.le_mul_of_pos_right _ hS
  have hsplit : T * (num_subsequences S N_u / T * S) + num_subsequences S N_u % T * S
      = num_subsequences S N_u * S := by
    calc T * (num_subsequences S N_u / T * S) + num_subsequences S N_u % T * S
        = (T * (num_subsequences S N_u / T) + num_subsequences S N_u % T) * S := by ring
      _ = num_subsequences S N_u * S := by rw [hdm]
  have h1 : 0 + T * (num_subsequences S N_u / T * S) < 18446744073709551616 := by omega
  have h2 : num_subsequences S N_u / T * (0 + T) < 18446744073709551616 := by
    rw [Nat.zero_add, Nat.mul_comm]
    omega
  unfold planned extend_last
  by_cases h : i = T - 1
  · subst h
    rw [getD_set_eq _ _ _ _ (by rw [length_intervals_loop]; omega)]
    rw [getD_intervals_loop _ _ _ _ _ _ (by omega) h1 h2]
    simp only [↓reduceIte, Nat.zero_add]
    have hT1 : (T - 1 + 1) * (num_subsequences S N_u / T * S)
        = T * (num_subsequences S N_u / T * S) := by
      rw [show T - 1 + 1 = T by omega]
    have hend : num_subsequences S N_u / T * S + (T - 1) * (num_subsequences S N_u / T * S)
        = T * (num_subsequences S N_u / T * S) := by
      rw [← hT1]; ring
    rw [hend, hT1, e64, Nat.mod_eq_of_lt (by omega)]
  · rw [getD_set_ne _ _ _ _ _ (by omega)]
    rw [getD_intervals_loop _ _ _ _ _ _ hi h1 h2]
    simp only [h, ↓reduceIte, Nat.zero_add, Nat.add_zero]
    congr 1; ring

theorem sum_range_counts (T q r : Nat) (f : Nat → Nat) (hT : 1 ≤ T)
    (h1 : ∀ i, i + 1 < T → f i = q) (h2 : f (T - 1) = q + r) :
    ((List.range T).map f).sum = T * q + r := by
  obtain ⟨n, rfl⟩ : ∃ n, T = n + 1 := ⟨T - 1, by omega⟩
  clear hT
  rw [List.range_succ, List.map_append, List.sum_append]
  simp only [Nat.add_sub_cancel] at h2
  simp only [List.map_cons, List.map_nil, List.sum_cons, List.sum_nil, h2]
  have : ((List.range n).map f).sum = n * q := by
    have hc : ∀ m, m ≤ n → ((List.range m).map f).sum = m * q := by
      intro m hm
      induction m with
      | zero => simp
      | succ m ih =>
        rw [List.range_succ, List.map_append, List.sum_append, ih (by omega)]
        simp only [List.map_cons, List.map_nil, List.sum_cons, List.sum_nil]
        rw [h1 m (by omega)]; ring
    exact hc n le_rfl
  rw [this]; ring

/-- C8 as stated fails: the planner computes in `size_t`.  With `S = 2^63`,
`T = 1` and `N_u = 2^64 - 1` there are `N_s = 2` subsequences, the product
`q * S = 2 * 2^63` wraps to 0, and the single interval is `{0, 0, 0}`: its end is
0, not `N_s * S = 2^64`. -/
theorem planner_layout_wraps :
    0 < 9223372036854775808
      ∧ num_subsequences 9223372036854775808 18446744073709551615 = 2
      ∧ 1 ≤ num_subsequences 9223372036854775808 18446744073709551615
      ∧ get_decoder_intervals 9223372036854775808 1 18446744073709551615
          = .ok [{ begin := 0, end_ := 0, sub := 0 }]
      ∧ (0 : Nat)
          ≠ num_subsequences 9223372036854775808 18446744073709551615 * 9223372036854775808
      ∧ ¬ (18446744073709551615 + 9223372036854775808 < 2 ^ 64) := by
  decide

/-- C8 (amended). Planner layout: for `S > 0`, `T >= 1`, `N_s >= T` and
`N_u + S < 2^64`, `get_decoder_intervals` returns `T` intervals; interval `i`
begins at `i*q*S` with first subsequence `i*q`, every interval but the last ends
`q*S` units after its begin, the last ends `(q + r)*S` units after its begin,
which is `N_s*S`; every begin is a multiple of `S` with `sub = begin / S`, and
the subsequence counts of the intervals sum to `N_s` (`q = N_s / T`,
`r = N_s mod T`). -/
theorem planner_layout (S T N_u : Nat) (hS : 0 < S) (hT : 1 ≤ T)
    (hN : T ≤ num_subsequences S N_u) (hU : N_u + S < 2 ^ 64) :
    ∃ ivs, get_decoder_intervals S T N_u = .ok ivs ∧ ivs.length = T
      ∧ (∀ i, i < T →
          (ivs.getD i default).begin = i * (num_subsequences S N_u / T) * S
          ∧ (ivs.getD i default).sub = i * (num_subsequences S N_u / T)
          ∧ (ivs.getD i default).begin % S = 0
          ∧ (ivs.getD i default).sub = (ivs.getD i default).begin / S)
      ∧ (∀ i, i + 1 < T →
          (ivs.getD i default).end_
            = (ivs.getD i default).begin + num_subsequences S N_u / T * S)
      ∧ (ivs.getD (T - 1) default).end_
          = (ivs.getD (T - 1) default).begin
              + (num_subsequences S N_u / T + num_subsequences S N_u % T) * S
      ∧ (ivs.getD (T - 1) default).end_ = num_subsequences S N_u * S
      ∧ ((List.range T).map
            (fun i => ((ivs.getD i default).end_ - (ivs.getD i default).begin) / S)).sum
          = num_subsequences S N_u := by
  refine ⟨planned S T N_u, get_decoder_intervals_eq S T N_u hS hT hN, length_planned S T N_u,
    ?_, ?_, ?_, ?_, ?_⟩
  · intro i hi
    rw [getD_planned S T N_u i hi hS hU]
    refine ⟨by ring, by ring, ?_, ?_⟩
    · simp [Nat.mul_mod_left, ← Nat.mul_assoc]
    · show _ = i * (num_subsequences S N_u / T * S) / S
      rw [← Nat.mul_assoc, Nat.mul_div_cancel _ hS]; ring
  · intro i hi
    rw [getD_planned S T N_u i (by omega) hS hU]
    simp only [show i ≠ T - 1 by omega, ↓reduceIte]
    ring
  · rw [getD_planned S T N_u (T - 1) (by omega) hS hU]
    simp only [↓reduceIte]
    ring
  · rw [getD_planned S T N_u (T - 1) (by omega) hS hU]
    simp only [↓reduceIte]
    have h := Nat.div_add_mod (num_subsequences S N_u) T
    have e : T - 1 + 1 = T := by omega
    rw [e]
    calc T * (num_subsequences S N_u / T * S) + num_subsequences S N_u % T * S
        = (T * (num_subsequences S N_u / T) + num_subsequences S N_u % T) * S := by ring
      _ = num_subsequences S N_u * S := by rw [h]
  · rw [sum_range_counts T (num_subsequences S N_u / T) (num_subsequences S N_u % T) _ hT]
    · exact Nat.div_add_mod _ _
    · intro i hi
      rw [getD_planned S T N_u i (by omega) hS hU]
      simp only [show i ≠ T - 1 by omega, ↓reduceIte, Nat.add_zero]
      rw [show (i + 1) * (num_subsequences S N_u / T * S) - i * (num_subsequences S N_u / T * S)
          = num_subsequences S N_u / T * S by
        rw [Nat.add_mul, Nat.one_mul]; omega]
      exact Nat.mul_div_cancel _ hS
    · rw [getD_planned S T N_u (T - 1) (by omega) hS hU]
      simp only [↓reduceIte]
      have e : T - 1 + 1 = T := by omega
      rw [e]
      rw [show T * (num_subsequences S N_u / T * S) + num_subsequences S N_u % T * S
            - (T - 1) * (num_subsequences S N_u / T * S)
          = (num_subsequences S N_u / T + num_subsequences S N_u % T) * S by
        have key : ∀ X : Nat, T * X = (T - 1) * X + X := by
          intro X
          obtain ⟨n, rfl⟩ : ∃ n, T = n + 1 := ⟨T - 1, by omega⟩
          simp [Nat.add_mul]
        rw [key (num_subsequences S N_u / T * S), Nat.add_mul]; omega]
      exact Nat.mul_div_cancel _ hS

/-- Witness of `planner_layout`: 10 units, subsequences of 4 units, 2 threads. -/
theorem planner_layout_witness :
    ∃ ivs, get_decoder_intervals 4 2 10 = .ok ivs ∧ ivs.length = 2
      ∧ (∀ i, i < 2 →
          (ivs.getD i default).begin = i * (num_subsequences 4 10 / 2) * 4
          ∧ (ivs.getD i default).sub = i * (num_subsequences 4 10 / 2)
          ∧ (ivs.getD i default).begin % 4 = 0
          ∧ (ivs.getD i default).sub = (ivs.getD i default).begin / 4)
      ∧ (∀ i, i + 1 < 2 →
          (ivs.getD i default).end_
            = (ivs.getD i default).begin + num_subsequences 4 10 / 2 * 4)
      ∧ (ivs.getD (2 - 1) default).end_
          = (ivs.getD (2 - 1) default).begin
              + (num_subsequences 4 10 / 2 + num_subsequences 4 10 % 2) * 4
      ∧ (ivs.getD (2 - 1) default).end_ = num_subsequences 4 10 * 4
      ∧ ((List.range 2).map
            (fun i => ((ivs.getD i default).end_ - (ivs.getD i default).begin) / 4)).sum
          = num_subsequences 4 10 :=
  planner_layout 4 2 10 (by decide) (by decide) (by decide) (by norm_num)

/-- C7 as stated fails: with 5 units and subsequences of 4 units the single
interval ends at unit 8, not at `N_u = 5`.  And the planner computes in
`size_t`: with `S = 2^63`, `T = 1` and `N_u = 2^64 - 1` (two subsequences) the
single interval is `{0, 0, 0}`, which is empty. -/
theorem planner_end_exceeds_input :
    get_decoder_intervals 4 1 5 = .ok [{ begin := 0, end_ := 8, sub := 0 }]
      ∧ 1 ≤ num_subsequences 4 5 ∧ (8 : Nat) ≠ 5
      ∧ get_decoder_intervals 9223372036854775808 1 18446744073709551615
          = .ok [{ begin := 0, end_ := 0, sub := 0 }]
      ∧ 1 ≤ num_subsequences 9223372036854775808 18446744073709551615
      ∧ ¬ (18446744073709551615 + 9223372036854775808 < 2 ^ 64) := by
  decide

/-- C7 (amended). Coverage invariant of the planner: for `S > 0`, `T >= 1`,
`N_s >= T` and `N_u + S < 2^64` the intervals partition `[0, N_s*S)`: the first begins at
0, each interval ends where the next begins, every interval is non-empty, and
the last ends at `N_s*S`, the least multiple of `S` that is at least `N_u`; it
equals `N_u` exactly when `S` divides `N_u`. -/
theorem planner_coverage (S T N_u : Nat) (hS : 0 < S) (hT : 1 ≤ T)
    (hN : T ≤ num_subsequences S N_u) (hU : N_u + S < 2 ^ 64) :
    ∃ ivs, get_decoder_intervals S T N_u = .ok ivs ∧ ivs.length = T
      ∧ (ivs.getD 0 default).begin = 0
      ∧ (∀ i, i + 1 < T → (ivs.getD i default).end_ = (ivs.getD (i + 1) default).begin)
      ∧ (∀ i, i < T → (ivs.getD i default).begin < (ivs.getD i default).end_)
      ∧ (ivs.getD (T - 1) default).end_ = num_subsequences S N_u * S
      ∧ N_u ≤ num_subsequences S N_u * S
      ∧ num_subsequences S N_u * S < N_u + S
      ∧ ((ivs.getD (T - 1) default).end_ = N_u ↔ N_u % S = 0) := by
  have hq : 0 < num_subsequences S N_u / T := Nat.div_pos hN (by omega)
  have hqS : 0 < num_subsequences S N_u / T * S := Nat.mul_pos hq hS
  have hlast : ((planned S T N_u).getD (T - 1) default).end_ = num_subsequences S N_u * S := by
    rw [getD_planned S T N_u (T - 1) (by omega) hS hU]
    simp only [↓reduceIte]
    have h := Nat.div_add_mod (num_subsequences S N_u) T
    have e : T - 1 + 1 = T := by omega
    rw [e]
    calc T * (num_subsequences S N_u / T * S) + num_subsequences S N_u % T * S
        = (T * (num_subsequences S N_u / T) + num_subsequences S N_u % T) * S := by ring
      _ = num_subsequences S N_u * S := by rw [h]
  refine ⟨planned S T N_u, get_decoder_intervals_eq S T N_u hS hT hN, length_planned S T N_u,
    ?_, ?_, ?_, hlast, (num_subsequences_spec S N_u hS).1, (num_subsequences_spec S N_u hS).2, ?_⟩
  · rw [getD_planned S T N_u 0 (by omega) hS hU]; simp
  · intro i hi
    rw [getD_planned S T N_u i (by omega) hS hU, getD_planned S T N_u (i + 1) hi hS hU]
    simp only [show i ≠ T - 1 by omega, ↓reduceIte, Nat.add_zero]
  · intro i hi
    rw [getD_planned S T N_u i hi hS hU]
    show i * _ < (i + 1) * _ + _
    rw [Nat.add_mul, Nat.one_mul]; omega
  · rw [hlast]
    constructor
    · intro h
      have : N_u = S * num_subsequences S N_u := by rw [Nat.mul_comm]; exact h.symm
      rw [this]; exact Nat.mul_mod_right _ _
    · intro h
      exact num_subsequences_of_dvd S N_u h

/-- Witness of `planner_coverage`: 10 units, subsequences of 4 units, 2 threads. -/
theorem planner_coverage_witness :
    ∃ ivs, get_decoder_intervals 4 2 10 = .ok ivs ∧ ivs.length = 2
      ∧ (ivs.getD 0 default).begin = 0
      ∧ (∀ i, i + 1 < 2 → (ivs.getD i default).end_ = (ivs.getD (i + 1) default).begin)
      ∧ (∀ i, i < 2 → (ivs.getD i default).begin < (ivs.getD i default).end_)
      ∧ (ivs.getD (2 - 1) default).end_ = num_subsequences 4 10 * 4
      ∧ 10 ≤ num_subsequences 4 10 * 4
      ∧ num_subsequences 4 10 * 4 < 10 + 4
      ∧ ((ivs.getD (2 - 1) default).end_ = 10 ↔ 10 % 4 = 0) :=
  planner_coverage 4 2 10 (by decide) (by decide) (by decide) (by norm_num)

/-! ## `prefix_sum` -/

theorem sum_symbols_succ (sync : List SubsequenceSyncPoint) (a n : Nat) :
    sum_symbols sync a (n + 1)
      = (sync.getD a default).num_symbols + sum_symbols sync (a + 1) n := by
  simp [sum_symbols, List.range'_succ]

theorem sum_symbols_add (sync : List SubsequenceSyncPoint) (a n m : Nat) :
    sum_symbols sync a (n + m) = sum_symbols sync a n + sum_symbols sync (a + n) m := by
  induction n generalizing a with
  | zero => simp [sum_symbols]
  | succ n ih =>
    rw [show n + 1 + m = (n + m) + 1 by omega, sum_symbols_succ, sum_symbols_succ, ih]
    rw [show a + 1 + n = a + (n + 1) by omega]
    omega

theorem sum_symbols_congr (s1 s2 : List SubsequenceSyncPoint) (a n : Nat)
    (h : ∀ j, a ≤ j → j < a + n → s1.getD j default = s2.getD j default) :
    sum_symbols s1 a n = sum_symbols s2 a n := by
  induction n generalizing a with
  | zero => simp [sum_symbols]
  | succ n ih =>
    rw [sum_symbols_succ, sum_symbols_succ, h a (by omega) (by omega),
      ih (a + 1) (fun j h1 h2 => h j (by omega) (by omega))]

theorem sum_symbols_mono (sync : List SubsequenceSyncPoint) (a n m : Nat) (h : n ≤ m) :
    sum_symbols sync a n ≤ sum_symbols sync a m := by
  obtain ⟨k, rfl⟩ : ∃ k, m = n + k := ⟨m - n, by omega⟩
  rw [sum_symbols_add]; omega

theorem prefix_sum_inner_mod (sync : List SubsequenceSyncPoint) (k pos sum : Nat)
    (hs : sum < 2 ^ 32) :
    prefix_sum_inner sync k pos sum = (sum + sum_symbols sync pos k) % 2 ^ 32 := by
  induction k generalizing pos sum with
  | zero =>
    simp only [prefix_sum_inner, sum_symbols, List.range'_zero, List.map_nil, List.sum_nil,
      Nat.add_zero]
    exact (Nat.mod_eq_of_lt hs).symm
  | succ k ih =>
    simp only [prefix_sum_inner]
    rw [ih (pos + 1) _ (Nat.mod_lt _ (by norm_num)), sum_symbols_succ]
    rw [Nat.add_mod, Nat.mod_mod, ← Nat.add_mod]
    congr 1; omega

theorem length_prefix_sum_outer (sync : List SubsequenceSyncPoint) (q n pos next sum : Nat) :
    (prefix_sum_outer sync q n pos next sum).length = n := by
  induction n generalizing pos next sum with
  | zero => rfl
  | succ n ih => simp [prefix_sum_outer, ih]

theorem getD_prefix_sum_outer (sync : List SubsequenceSyncPoint) (q n pos sum k : Nat)
    (hk : k < n) (hs : sum < 2 ^ 32) :
    (prefix_sum_outer sync q n pos (pos + q) sum).getD k 0
      = (sum + sum_symbols sync pos ((k + 1) * q)) % 2 ^ 32 := by
  induction n generalizing pos sum k with
  | zero => omega
  | succ n ih =>
    simp only [prefix_sum_outer]
    have h1 : pos + q - pos = q := by omega
    rw [h1]
    cases k with
    | zero => simp [prefix_sum_inner_mod sync q pos sum hs]
    | succ k =>
      rw [List.getD_cons_succ, ih (pos + q) _ k (by omega)
        (by rw [prefix_sum_inner_mod sync q pos sum hs]; exact Nat.mod_lt _ (by norm_num))]
      rw [prefix_sum_inner_mod sync q pos sum hs]
      rw [show (k + 1 + 1) * q = q + (k + 1) * q by ring, sum_symbols_add]
      rw [Nat.add_mod, Nat.mod_mod, ← Nat.add_mod]
      congr 1; omega

theorem prefix_sum_eq (sync : List SubsequenceSyncPoint) (N_s T : Nat) (hT : 1 ≤ T) :
    prefix_sum sync N_s T = .ok (prefix_sums sync N_s T) := by
  unfold prefix_sum prefix_sums
  rw [if_neg (by omega)]

theorem length_prefix_sums (sync : List SubsequenceSyncPoint) (N_s T : Nat) (hT : 1 ≤ T) :
    (prefix_sums sync N_s T).length = T := by
  simp [prefix_sums, length_prefix_sum_outer]; omega

theorem getD_prefix_sums (sync : List SubsequenceSyncPoint) (N_s T i : Nat) (hi : i < T) :
    (prefix_sums sync N_s T).getD i 0 = sum_symbols sync 0 (i * (N_s / T)) % 2 ^ 32 := by
  unfold prefix_sums
  cases i with
  | zero => simp [sum_symbols]
  | succ i =>
    rw [List.getD_cons_succ]
    have := getD_prefix_sum_outer sync (N_s / T) (T - 1) 0 0 i (by omega) (by norm_num)
    simp only [Nat.zero_add] at this
    rw [this]

/-- C6 as stated fails: the accumulator is a 32-bit integer, so with counts
`2^32 - 1` and `1` the third output position is `0`, not the sum `2^32`. -/
theorem prefix_sum_wraps :
    prefix_sum
        [{ state := 4, bit := 1, unit := 3, num_symbols := 4294967295 },
         { state := 4, bit := 1, unit := 3, num_symbols := 1 },
         { state := 4, bit := 1, unit := 3, num_symbols := 0 }] 3 3
      = .ok [0, 4294967295, 0]
    ∧ (0 : Nat) ≠ 4294967295 + 1 := by
  decide

/-- C6 (amended). For every `sync` and every `T >= 1`, `prefix_sum` sets
`out_positions[0] = 0` and, for `1 <= i < T`,
`out_positions[i] = (out_positions[i-1] + sum of sync[j].num_symbols over
[(i-1)*q, i*q)) mod 2^32` with `q = N_s / T`; so `out_positions[i]` is the total
`num_symbols` of the first `i*q` subsequences modulo `2^32`, it is that total
itself when the first `(T-1)*q` counts sum to less than `2^32`, and the entries
of `sync` at indices `>= (T-1)*q` do not enter the result. -/
theorem prefix_sum_spec (sync : List SubsequenceSyncPoint) (N_s T : Nat) (hT : 1 ≤ T) :
    ∃ out, prefix_sum sync N_s T = .ok out ∧ out.length = T ∧ out.getD 0 0 = 0
      ∧ (∀ i, 1 ≤ i → i < T →
          out.getD i 0
            = (out.getD (i - 1) 0 + sum_symbols sync ((i - 1) * (N_s / T)) (N_s / T)) % 2 ^ 32)
      ∧ (∀ i, i < T → out.getD i 0 = sum_symbols sync 0 (i * (N_s / T)) % 2 ^ 32)
      ∧ (sum_symbols sync 0 ((T - 1) * (N_s / T)) < 2 ^ 32 →
          ∀ i, i < T → out.getD i 0 = sum_symbols sync 0 (i * (N_s / T)))
      ∧ (∀ sync2 : List SubsequenceSyncPoint,
          (∀ j, j < (T - 1) * (N_s / T) → sync2.getD j default = sync.getD j default) →
          prefix_sum sync2 N_s T = .ok out) := by
  refine ⟨prefix_sums sync N_s T, prefix_sum_eq sync N_s T hT, length_prefix_sums sync N_s T hT,
    ?_, ?_, ?_, ?_, ?_⟩
  · rw [getD_prefix_sums sync N_s T 0 (by omega)]; simp [sum_symbols]
  · intro i h1 hi
    rw [getD_prefix_sums sync N_s T i hi, getD_prefix_sums sync N_s T (i - 1) (by omega)]
    obtain ⟨k, rfl⟩ : ∃ k, i = k + 1 := ⟨i - 1, by omega⟩
    simp only [Nat.add_sub_cancel]
    rw [show (k + 1) * (N_s / T) = k * (N_s / T) + N_s / T by ring, sum_symbols_add]
    simp only [Nat.zero_add]
    omega
  · intro i hi
    exact getD_prefix_sums sync N_s T i hi
  · intro hlt i hi
    rw [getD_prefix_sums sync N_s T i hi]
    apply Nat.mod_eq_of_lt
    refine lt_of_le_of_lt (sum_symbols_mono sync 0 _ _ ?_) hlt
    exact Nat.mul_le_mul_right _ (by omega)
  · intro sync2 h
    rw [prefix_sum_eq sync2 N_s T hT]
    congr 1
    apply ext_getD _ _ 0
    · rw [length_prefix_sums _ _ _ hT, length_prefix_sums _ _ _ hT]
    · intro i hi
      rw [length_prefix_sums _ _ _ hT] at hi
      rw [getD_prefix_sums _ _ _ _ hi, getD_prefix_sums _ _ _ _ hi]
      congr 1
      apply sum_symbols_congr
      intro j _ hj
      apply h
      have : i * (N_s / T) ≤ (T - 1) * (N_s / T) := Nat.mul_le_mul_right _ (by omega)
      omega

/-- Witness of `prefix_sum_spec`: three subsequences, three threads. -/
theorem prefix_sum_spec_witness :
    ∃ out,
      prefix_sum
          [{ state := 4, bit := 1, unit := 3, num_symbols := 7 },
           { state := 4, bit := 1, unit := 3, num_symbols := 5 },
           { state := 4, bit := 1, unit := 3, num_symbols := 9 }] 3 3 = .ok out
      ∧ out.length = 3 ∧ out.getD 0 0 = 0
      ∧ (∀ i, 1 ≤ i → i < 3 →
          out.getD i 0
            = (out.getD (i - 1) 0
                + sum_symbols
                    [{ state := 4, bit := 1, unit := 3, num_symbols := 7 },
                     { state := 4, bit := 1, unit := 3, num_symbols := 5 },
                     { state := 4, bit := 1, unit := 3, num_symbols := 9 }]
                    ((i - 1) * (3 / 3)) (3 / 3)) % 2 ^ 32)
      ∧ (∀ i, i < 3 →
          out.getD i 0
            = sum_symbols
                [{ state := 4, bit := 1, unit := 3, num_symbols := 7 },
                 { state := 4, bit := 1, unit := 3, num_symbols := 5 },
                 { state := 4, bit := 1, unit := 3, num_symbols := 9 }]
                0 (i * (3 / 3)) % 2 ^ 32)
      ∧ (sum_symbols
            [{ state := 4, bit := 1, unit := 3, num_symbols := 7 },
             { state := 4, bit := 1, unit := 3, num_symbols := 5 },
             { state := 4, bit := 1, unit := 3, num_symbols := 9 }]
            0 ((3 - 1) * (3 / 3)) < 2 ^ 32 →
          ∀ i, i < 3 →
            out.getD i 0
              = sum_symbols
                  [{ state := 4, bit := 1, unit := 3, num_symbols := 7 },
                   { state := 4, bit := 1, unit := 3, num_symbols := 5 },
                   { state := 4, bit := 1, unit := 3, num_symbols := 9 }]
                  0 (i * (3 / 3)))
      ∧ (∀ sync2 : List SubsequenceSyncPoint,
          (∀ j, j < (3 - 1) * (3 / 3) →
            sync2.getD j default
              = [{ state := 4, bit := 1, unit := 3, num_symbols := 7 },
                 { state := 4, bit := 1, unit := 3, num_symbols := 5 },
                 { state := 4, bit := 1, unit := 3, num_symbols := 9 }].getD j default) →
          prefix_sum sync2 3 3 = .ok out) :=
  prefix_sum_spec _ 3 3 (by decide)

/-! ## Machine arithmetic and the renormalisation loop -/

theorem not32_shl32_mask (sem : ShiftSem) (t : Nat) (ht : t < 32) :
    not32 (shl32 sem mask t) = 2 ^ t - 1 := by
  interval_cases t <;> cases sem <;> decide

theorem shl32_of_lt (sem : ShiftSem) (x t : Nat) (ht : t < 32) (h : x * 2 ^ t < 4294967296) :
    shl32 sem x t = x * 2 ^ t := by
  unfold shl32
  rw [if_pos ht, Nat.shiftLeft_eq]
  exact Nat.mod_eq_of_lt (by norm_num; exact h)

theorem shl32_one (sem : ShiftSem) (x : Nat) (h : x < 2147483648) :
    shl32 sem x 1 = 2 * x := by
  rw [shl32_of_lt sem x 1 (by norm_num) (by omega)]
  omega

theorem not32_shl32_mask_one (sem : ShiftSem) : not32 (shl32 sem mask 1) = 1 := by
  cases sem <;> decide

theorem land_one_le (sem : ShiftSem) (x : Nat) :
    not32 (shl32 sem mask 1) &&& x ≤ 1 := by
  rw [not32_shl32_mask_one]
  exact Nat.and_le_left

theorem pow_le_imp_lt_32 (t s : Nat) (h1 : 2 ^ t ≤ s) (h2 : s < 4294967296) : t < 32 := by
  by_contra h
  have : 2 ^ 32 ≤ 2 ^ t := Nat.pow_le_pow_right (by norm_num) (by omega)
  have e : (2:Nat) ^ 32 = 4294967296 := by norm_num
  omega

/-- The renormalisation loop ends within 32 iterations with a state of the
table. -/
theorem renormalize_spec (sem : ShiftSem) (L window : Nat) (hL : L ≤ 2147483648) :
    ∀ fuel s t, 2 ^ t ≤ s → s < 2 * L → 32 ≤ fuel + t →
      ∃ s1 t1, renormalize sem L window fuel s t = .ok (s1, t1)
        ∧ L ≤ s1 ∧ s1 < 2 * L ∧ t ≤ t1 ∧ t1 ≤ 31 ∧ (t1 = t → s1 = s) := by
  intro fuel
  induction fuel with
  | zero =>
    intro s t h1 h2 h3
    have := pow_le_imp_lt_32 t s h1 (by omega)
    omega
  | succ fuel ih =>
    intro s t h1 h2 h3
    have ht := pow_le_imp_lt_32 t s h1 (by omega)
    unfold renormalize
    by_cases hs : s < L
    · rw [if_pos hs]
      dsimp only
      have hb := land_one_le sem (shr32 sem window t)
      rw [shl32_one sem s (by omega)]
      have hlt : 2 * s + (not32 (shl32 sem mask 1) &&& shr32 sem window t)
          < 4294967296 := by omega
      have e : (2:Nat) ^ 32 = 4294967296 := by norm_num
      rw [e, Nat.mod_eq_of_lt hlt]
      have hpow : 2 ^ (t + 1) = 2 ^ t * 2 := Nat.pow_succ ..
      obtain ⟨s1, t1, e, g1, g2, g3, g4, _⟩ :=
        ih (2 * s + (not32 (shl32 sem mask 1) &&& shr32 sem window t)) (t + 1)
          (by omega) (by omega) (by omega)
      exact ⟨s1, t1, e, g1, g2, by omega, g4, by omega⟩
    · rw [if_neg hs]
      exact ⟨s, t, rfl, by omega, h2, le_rfl, by omega, fun _ => rfl⟩

theorem sub64_of_le (a b : Nat) (h : b ≤ a) (ha : a < 18446744073709551616) :
    sub64 a b = a - b := by
  unfold sub64
  have e : (2:Nat) ^ 64 = 18446744073709551616 := by norm_num
  rw [e]
  have hb : b % 18446744073709551616 = b := Nat.mod_eq_of_lt (by omega)
  rw [hb]
  have : a + 18446744073709551616 - b = (a - b) + 18446744073709551616 := by omega
  rw [this, Nat.add_mod_right, Nat.mod_eq_of_lt (by omega)]

theorem sub32_of_le (a b : Nat) (h : b ≤ a) (ha : a < 4294967296) : sub32 a b = a - b := by
  unfold sub32
  have e : (2:Nat) ^ 32 = 4294967296 := by norm_num
  rw [e]
  have hb : b % 4294967296 = b := Nat.mod_eq_of_lt (by omega)
  rw [hb]
  have : a + 4294967296 - b = (a - b) + 4294967296 := by omega
  rw [this, Nat.add_mod_right, Nat.mod_eq_of_lt (by omega)]

/-! ## The symbol loop -/

/-- One symbol step from a state of the table with `at < 32`. -/
theorem symbol_step_spec (sem : ShiftSem) (table : List CUHDCodetableItem) (write : Bool)
    (fuel : Nat) (l : Locals) (wf : WellFormedTable table) (hfuel : 32 ≤ fuel)
    (h1 : table.length ≤ l.current_state) (h2 : l.current_state < 2 * table.length)
    (h3 : l.at_ < 32) :
    ∃ l1 w, symbol_step sem table write fuel l = .ok (l1, w)
      ∧ SymbolPost table.length write l l1 w := by
  obtain ⟨hL0, hL31, hent⟩ := wf
  have hL : table.length ≤ 2147483648 := by norm_num at hL31; exact hL31
  have hidx : sub64 l.current_state table.length = l.current_state - table.length :=
    sub64_of_le _ _ h1 (by omega)
  obtain ⟨e1, e2, e3⟩ := hent (l.current_state - table.length) (by omega)
  unfold symbol_step
  simp only [hidx]
  generalize table.getD (l.current_state - table.length) default = hit at e1 e2 e3
  have hmul : (hit.next_state + 1) * 2 ^ hit.min_num_bits
      = hit.next_state * 2 ^ hit.min_num_bits + 2 ^ hit.min_num_bits := by ring
  have hpos : 1 ≤ 2 ^ hit.min_num_bits := Nat.one_le_two_pow
  have hge : 2 ^ hit.min_num_bits ≤ hit.next_state * 2 ^ hit.min_num_bits :=
    Nat.le_mul_of_pos_left _ (by omega)
  have ht : hit.min_num_bits < 32 :=
    pow_le_imp_lt_32 _ (hit.next_state * 2 ^ hit.min_num_bits) hge (by omega)
  have hshl : shl32 sem hit.next_state hit.min_num_bits
      = hit.next_state * 2 ^ hit.min_num_bits := shl32_of_lt sem _ _ ht (by omega)
  have hrev : not32 (shl32 sem mask hit.min_num_bits) &&& l.window
      ≤ 2 ^ hit.min_num_bits - 1 := by
    rw [not32_shl32_mask sem _ ht]
    exact Nat.and_le_left
  have e32 : (2:Nat) ^ 32 = 4294967296 := by norm_num
  have hs0 : (shl32 sem hit.next_state hit.min_num_bits
      + (not32 (shl32 sem mask hit.min_num_bits) &&& l.window)) % 2 ^ 32
      = hit.next_state * 2 ^ hit.min_num_bits
        + (not32 (shl32 sem mask hit.min_num_bits) &&& l.window) := by
    rw [hshl, e32]
    exact Nat.mod_eq_of_lt (by omega)
  rw [hs0]
  obtain ⟨s1, t1, er, g1, g2, g3, g4, g5⟩ :=
    renormalize_spec sem table.length l.window hL fuel
      (hit.next_state * 2 ^ hit.min_num_bits
        + (not32 (shl32 sem mask hit.min_num_bits) &&& l.window))
      hit.min_num_bits (by omega) (by omega) (by omega)
  rw [er]
  refine ⟨_, _, rfl, ?_⟩
  have hat : (l.at_ + t1) % 2 ^ 8 = l.at_ + t1 := by
    have e8 : (2:Nat) ^ 8 = 256 := by norm_num
    rw [e8]; exact Nat.mod_eq_of_lt (by omega)
  constructor
  · exact g1
  · exact g2
  · show l.at_ ≤ (l.at_ + t1) % 2 ^ 8
    rw [hat]; omega
  · show (l.at_ + t1) % 2 ^ 8 ≤ l.at_ + 31
    rw [hat]; omega
  · show (l.at_ + t1) % 2 ^ 8 = l.at_ → s1 < l.current_state
    rw [hat]
    intro h
    have ht1 : t1 = 0 := by omega
    have ht0 : hit.min_num_bits = 0 := by omega
    have hs1 := g5 (by omega)
    have := e3 ht0
    rw [ht0] at hrev hs1
    simp only [pow_zero, le_refl, tsub_eq_zero_of_le, nonpos_iff_eq_zero] at hrev
    rw [hrev] at hs1
    simp only [pow_zero, Nat.mul_one, Nat.add_zero] at hs1
    omega
  · rfl
  · rfl
  · rfl
  · rfl
  · rfl
  · rfl
  · rfl
  · intro hw
    subst hw
    simp

theorem symbol_loop_done (sem : ShiftSem) (table : List CUHDCodetableItem) (write : Bool)
    (fuel0 n : Nat) (l : Locals) (h : 32 ≤ l.at_) :
    symbol_loop sem table write fuel0 n l = .ok (l, []) := by
  cases n <;> unfold symbol_loop <;> rw [if_neg (by unfold bits_in_unit; omega)]

/-- The symbol loop ends, with `32 <= at <= 62` and a state of the table, when
it is given more iterations than `(32 - at) * L + (state - L)`. -/
theorem symbol_loop_spec (sem : ShiftSem) (table : List CUHDCodetableItem) (write : Bool)
    (fuel0 : Nat) (wf : WellFormedTable table) (hfuel : 32 ≤ fuel0) :
    ∀ n l, table.length ≤ l.current_state → l.current_state < 2 * table.length →
      l.at_ < 32 → (32 - l.at_) * table.length + (l.current_state - table.length) < n →
      ∃ l1 w, symbol_loop sem table write fuel0 n l = .ok (l1, w)
        ∧ LoopPost table.length write l l1 w := by
  intro n
  induction n with
  | zero => intro l _ _ _ h; omega
  | succ n ih =>
    intro l h1 h2 h3 h4
    obtain ⟨l1, w1, e1, p1⟩ := symbol_step_spec sem table write fuel0 l wf hfuel h1 h2 h3
    unfold symbol_loop
    rw [if_pos (by unfold bits_in_unit; exact h3), e1]
    dsimp only
    by_cases hat1 : l1.at_ < 32
    · have hmeasure : (32 - l1.at_) * table.length + (l1.current_state - table.length) < n := by
        have hsg := p1.state_ge
        have hsl := p1.state_lt
        have hag := p1.at_ge
        rcases Nat.eq_or_lt_of_le hag with heq | hlt
        · have := p1.decr heq.symm
          rw [← heq]; omega
        · have hstep : (32 - l1.at_) * table.length + table.length
              ≤ (32 - l.at_) * table.length := by
            have : (32 - l1.at_) + 1 ≤ 32 - l.at_ := by omega
            calc (32 - l1.at_) * table.length + table.length
                = ((32 - l1.at_) + 1) * table.length := by ring
              _ ≤ (32 - l.at_) * table.length := Nat.mul_le_mul_right _ this
          omega
      obtain ⟨l2, w2, e2, p2⟩ := ih l1 p1.state_ge p1.state_lt hat1 hmeasure
      rw [e2]
      refine ⟨l2, w1 ++ w2, rfl, ?_⟩
      exact
        { state_ge := p2.state_ge
          state_lt := p2.state_lt
          at_ge := p2.at_ge
          at_le := p2.at_le
          last_ge := p2.last_ge
          last_lt := p2.last_lt
          last_bit := p2.last_bit
          in_pos := p2.in_pos.trans p1.in_pos
          subsequence := p2.subsequence.trans p1.subsequence
          unit := p2.unit.trans p1.unit
          reset := p2.reset.trans p1.reset
          out_size := p2.out_size.trans p1.out_size
          no_write := fun hw => by
            obtain ⟨a1, b1⟩ := p1.no_write hw
            obtain ⟨a2, b2⟩ := p2.no_write hw
            exact ⟨by rw [a1, a2]; rfl, b2.trans b1⟩ }
    · rw [symbol_loop_done sem table write fuel0 n l1 (by omega)]
      refine ⟨l1, w1 ++ [], rfl, ?_⟩
      exact
        { state_ge := p1.state_ge
          state_lt := p1.state_lt
          at_ge := by omega
          at_le := by have := p1.at_le; omega
          last_ge := by rw [p1.last_state]; exact h1
          last_lt := by rw [p1.last_state]; exact h2
          last_bit := by rw [p1.last_bit]; exact h3
          in_pos := p1.in_pos
          subsequence := p1.subsequence
          unit := p1.unit
          reset := p1.reset
          out_size := p1.out_size
          no_write := fun hw => by
            obtain ⟨a1, b1⟩ := p1.no_write hw
            exact ⟨by rw [a1]; rfl, b1⟩ }

/-- Enough iterations for every symbol loop of a well-formed table. -/
theorem symbol_loop_fuel (table : List CUHDCodetableItem) (fuel0 : Nat) (l : Locals)
    (hfuel : 33 * table.length < fuel0)
    (h2 : l.current_state < 2 * table.length) :
    (32 - l.at_) * table.length + (l.current_state - table.length) < fuel0 := by
  have : (32 - l.at_) * table.length ≤ 32 * table.length :=
    Nat.mul_le_mul_right _ (by omega)
  omega

/-! ## The unit loop as a list of crossings -/

section refill_fields
variable (sem : ShiftSem) (in_ptr : List Nat) (l : Locals)

@[simp] theorem refill_current_state : (refill sem in_ptr l).current_state = l.current_state := by
  unfold refill; split <;> rfl
@[simp] theorem refill_in_pos : (refill sem in_ptr l).in_pos = l.in_pos := by
  unfold refill; split <;> rfl
@[simp] theorem refill_out_pos : (refill sem in_ptr l).out_pos = l.out_pos := by
  unfold refill; split <;> rfl
@[simp] theorem refill_out_size : (refill sem in_ptr l).out_size = l.out_size := by
  unfold refill; split <;> rfl
@[simp] theorem refill_current_subsequence :
    (refill sem in_ptr l).current_subsequence = l.current_subsequence := by
  unfold refill; split <;> rfl
@[simp] theorem refill_current_unit : (refill sem in_ptr l).current_unit = l.current_unit := by
  unfold refill; split <;> rfl
@[simp] theorem refill_last_state : (refill sem in_ptr l).last_state = l.last_state := by
  unfold refill; split <;> rfl
@[simp] theorem refill_last_bit : (refill sem in_ptr l).last_bit = l.last_bit := by
  unfold refill; split <;> rfl
@[simp] theorem refill_reset : (refill sem in_ptr l).reset = l.reset := by
  unfold refill; split <;> rfl
@[simp] theorem refill_num_symbols : (refill sem in_ptr l).num_symbols = l.num_symbols := by
  unfold refill; split <;> rfl

/-- The refill after a unit: `at` drops by 32. -/
theorem refill_at (h1 : 32 ≤ l.at_) (h2 : l.at_ ≤ 62) :
    (refill sem in_ptr l).at_ = l.at_ - 32 := by
  unfold refill bits_in_unit
  by_cases h : l.at_ = 32
  · rw [if_pos h]
    show 0 = l.at_ - 32
    omega
  · rw [if_neg h]
    show (l.at_ + 2 ^ 8 - 32) % 2 ^ 8 = l.at_ - 32
    have e8 : (2:Nat) ^ 8 = 256 := by norm_num
    rw [e8]
    omega

end refill_fields

theorem succ_mod_unit (u S : Nat) (h : u < S) (hS : S < 4294967296) :
    (u + 1) % 2 ^ 32 = u + 1 := by
  have e : (2:Nat) ^ 32 = 4294967296 := by norm_num
  rw [e]; exact Nat.mod_eq_of_lt (by omega)

/-- The crossings of a pass in steady state form a chain. -/
theorem crossings_steady (sem : ShiftSem) (a : KernelArgs) (in_ptr : List Nat)
    (table : List CUHDCodetableItem) (fuel0 : Nat) (wf : WellFormedTable table)
    (hfuel0 : 33 * table.length < fuel0) (hS32 : a.subsequence_size < 4294967296) :
    ∀ fuel l, table.length ≤ l.current_state → l.current_state < 2 * table.length →
      l.at_ < 32 → l.current_unit < a.subsequence_size →
      (!a.overflow || l.reset) = true → a.end_ ≤ l.in_pos + fuel →
      ∃ xs, crossings sem a in_ptr table fuel0 fuel l = .ok xs
        ∧ CrossChain a table.length l.current_subsequence
            (l.in_pos + (a.subsequence_size - l.current_unit)) xs := by
  intro fuel
  induction fuel with
  | zero =>
    intro l _ _ _ hu _ hend
    unfold crossings
    rw [if_neg (by omega)]
    exact ⟨[], rfl, CrossChain.nil _ _ (by omega)⟩
  | succ fuel ih =>
    intro l h1 h2 h3 hu hadv hend
    unfold crossings
    by_cases hin : l.in_pos < a.end_
    · rw [if_pos hin]
      obtain ⟨l1, w, e1, p1⟩ := symbol_loop_spec sem table a.write fuel0 wf
        (by have := wf.1; omega) fuel0 l h1 h2 h3 (symbol_loop_fuel table fuel0 l hfuel0 h2)
      rw [e1]
      dsimp only
      have hcu : (l1.current_unit + 1) % 2 ^ 32 = l.current_unit + 1 := by
        rw [p1.unit]; exact succ_mod_unit _ _ hu hS32
      rw [hcu]
      have hat1 := p1.at_le
      have hat2 := p1.at_ge
      by_cases hc : l.current_unit + 1 = a.subsequence_size
      · rw [if_pos hc]
        have hreset : (!a.overflow || l1.reset) = true := by rw [p1.reset]; exact hadv
        obtain ⟨xs, e2, ch⟩ := ih
          (refill sem in_ptr (cross_locals a
            { l1 with in_pos := l1.in_pos + 1, current_unit := l.current_unit + 1 }))
          (by simp [cross_locals]; exact p1.state_ge)
          (by simp [cross_locals]; exact p1.state_lt)
          (by rw [refill_at _ _ _ (by simpa [cross_locals] using hat2)
                (by simpa [cross_locals] using hat1)]
              simp only [cross_locals]; omega)
          (by simp [cross_locals]; omega)
          (by simp [cross_locals])
          (by simp [cross_locals]; rw [p1.in_pos]; omega)
        rw [e2]
        refine ⟨_, rfl, ?_⟩
        have hp : l.in_pos + (a.subsequence_size - l.current_unit) = l.in_pos + 1 := by omega
        rw [hp]
        refine CrossChain.cons _ _ _ _ (by omega) p1.subsequence hc
          (by show l1.in_pos + 1 = _; rw [p1.in_pos])
          ⟨p1.last_ge, p1.last_lt, p1.last_bit⟩ hreset ?_
        simp only [refill_current_subsequence, refill_in_pos, refill_current_unit,
          cross_locals, if_pos hreset, p1.subsequence, p1.in_pos, Nat.sub_zero] at ch
        exact ch
      · rw [if_neg hc]
        obtain ⟨xs, e2, ch⟩ := ih
          (refill sem in_ptr { l1 with in_pos := l1.in_pos + 1, current_unit := l.current_unit + 1 })
          (by simp; exact p1.state_ge)
          (by simp; exact p1.state_lt)
          (by rw [refill_at _ _ _ (by exact hat2) (by exact hat1)]; simp only; omega)
          (by simp; omega)
          (by simp; rw [p1.reset]; simpa using hadv)
          (by simp; rw [p1.in_pos]; omega)
        refine ⟨xs, e2, ?_⟩
        simp only [refill_current_subsequence, refill_in_pos, refill_current_unit,
          p1.subsequence, p1.in_pos] at ch
        have hp : l.in_pos + 1 + (a.subsequence_size - (l.current_unit + 1))
            = l.in_pos + (a.subsequence_size - l.current_unit) := by omega
        rw [hp] at ch
        exact ch
    · rw [if_neg hin]
      exact ⟨[], rfl, CrossChain.nil _ _ (by omega)⟩

theorem symbol_step_no_write (sem : ShiftSem) (table : List CUHDCodetableItem) (fuel : Nat)
    (l l1 : Locals) (w : List (Nat × Nat))
    (h : symbol_step sem table false fuel l = .ok (l1, w)) : w = [] := by
  unfold symbol_step at h
  dsimp only at h
  split at h
  · cases h
  · simp only [Bool.false_and, Bool.false_eq_true, ↓reduceIte, Except.ok.injEq,
      Prod.mk.injEq] at h
    exact h.2.symm

theorem symbol_loop_no_write (sem : ShiftSem) (table : List CUHDCodetableItem) (fuel0 : Nat) :
    ∀ n (l l1 : Locals) (w : List (Nat × Nat)),
      symbol_loop sem table false fuel0 n l = .ok (l1, w) → w = [] := by
  intro n
  induction n with
  | zero =>
    intro l l1 w h
    unfold symbol_loop at h
    split at h
    · cases h
    · simp only [Except.ok.injEq, Prod.mk.injEq] at h
      exact h.2.symm
  | succ n ih =>
    intro l l1 w h
    unfold symbol_loop at h
    split at h
    · split at h
      · cases h
      · rename_i l2 w1 e1
        split at h
        · cases h
        · rename_i l3 w2 e2
          simp only [Except.ok.injEq, Prod.mk.injEq] at h
          rw [← h.2, symbol_step_no_write sem table fuel0 l l2 w1 e1, ih l2 l3 w2 e2]
          rfl
    · simp only [Except.ok.injEq, Prod.mk.injEq] at h
      exact h.2.symm

theorem crossing_of_ne (a : KernelArgs) (l : Locals) (s : Shared)
    (h : l.current_unit ≠ a.subsequence_size) : crossing a l s = .continue_ l s := by
  unfold crossing
  rw [if_neg h]

theorem crossing_continue (a : KernelArgs) (l l1 : Locals) (s s1 : Shared)
    (hu : l.current_unit = a.subsequence_size)
    (h : crossing a l s = .continue_ l1 s1) : l1 = cross_locals a l := by
  unfold crossing at h
  rw [if_pos hu] at h
  dsimp only at h
  split at h
  · cases h
  · simp only [Step.continue_.injEq] at h
    rw [← h.1]
    rfl

/-- With `write = false` the unit loop is the crossing block applied at the
crossings of the pass, up to the first `return`. -/
theorem unit_loop_eq (sem : ShiftSem) (a : KernelArgs) (in_ptr : List Nat)
    (table : List CUHDCodetableItem) (fuel0 : Nat) (hw : a.write = false) :
    ∀ fuel l s xs, crossings sem a in_ptr table fuel0 fuel l = .ok xs →
      unit_loop sem a in_ptr table fuel0 fuel l s = .ok (fold_crossings a xs s) := by
  intro fuel
  induction fuel with
  | zero =>
    intro l s xs h
    unfold crossings at h
    unfold unit_loop
    split at h
    · cases h
    · rename_i hin
      rw [if_neg hin]
      cases h
      rfl
  | succ fuel ih =>
    intro l s xs h
    unfold crossings at h
    unfold unit_loop
    by_cases hin : l.in_pos < a.end_
    · rw [if_pos hin] at h
      rw [if_pos hin]
      cases hsl : symbol_loop sem table a.write fuel0 fuel0 l with
      | error e => rw [hsl] at h; cases h
      | ok r =>
        obtain ⟨l1, w⟩ := r
        rw [hsl] at h
        dsimp only at h ⊢
        have hw0 : w = [] := by
          rw [hw] at hsl
          exact symbol_loop_no_write sem table fuel0 fuel0 l l1 w hsl
        subst hw0
        have hs : ({ s with out := s.out ++ [] } : Shared) = s := by
          cases s; simp
        rw [hs]
        by_cases hc : (l1.current_unit + 1) % 2 ^ 32 = a.subsequence_size
        · rw [if_pos hc] at h
          cases hx : crossings sem a in_ptr table fuel0 fuel
              (refill sem in_ptr (cross_locals a
                { l1 with in_pos := l1.in_pos + 1
                          current_unit := (l1.current_unit + 1) % 2 ^ 32 })) with
          | error e => rw [hx] at h; cases h
          | ok xs1 =>
            rw [hx] at h
            cases h
            unfold fold_crossings
            cases hcr : crossing a
                { l1 with in_pos := l1.in_pos + 1
                          current_unit := (l1.current_unit + 1) % 2 ^ 32 } s with
            | returned s2 => rfl
            | continue_ l3 s3 =>
              dsimp only
              rw [crossing_continue a _ l3 s s3 hc hcr]
              exact ih _ s3 xs1 hx
        · rw [if_neg hc] at h
          rw [crossing_of_ne a _ s hc]
          dsimp only
          exact ih _ s xs h
    · rw [if_neg hin] at h
      rw [if_neg hin]
      cases h
      rfl

/-! ## The crossing block along a pass -/

theorem fold_crossings_cons (a : KernelArgs) (x : Locals) (xs : List Locals) (s : Shared) :
    fold_crossings a (x :: xs) s
      = match crossing a x s with
        | .returned s2 => s2
        | .continue_ _ s3 => fold_crossings a xs s3 := rfl

/-- What one pass through the crossing block leaves unchanged. -/
theorem crossing_frame (a : KernelArgs) (x : Locals) (s : Shared) :
    (crossing a x s).shared.out = s.out
      ∧ (crossing a x s).shared.out_positions = s.out_positions
      ∧ (crossing a x s).shared.sync.length = s.sync.length
      ∧ (crossing a x s).shared.thread_synced.length = s.thread_synced.length
      ∧ (∀ i, i ≠ x.current_subsequence →
          (crossing a x s).shared.sync.getD i default = s.sync.getD i default)
      ∧ (∀ m, m ≠ a.thread_id →
          (crossing a x s).shared.thread_synced.getD m false = s.thread_synced.getD m false)
      ∧ (s.thread_synced.getD a.thread_id false = true →
          (crossing a x s).shared.thread_synced.getD a.thread_id false = true) := by
  unfold crossing
  split
  · dsimp only
    split
    · simp only [Step.shared, List.length_set, true_and]
      refine ⟨?_, ?_, ?_⟩
      · intro i hi; exact getD_set_ne _ _ _ _ _ (Ne.symm hi)
      · intro m hm; exact getD_set_ne _ _ _ _ _ (Ne.symm hm)
      · intro h
        by_cases hl : a.thread_id < s.thread_synced.length
        · exact getD_set_eq _ _ _ _ hl
        · rw [List.set_eq_of_length_le (by omega)]; exact h
    · simp only [Step.shared, true_and]
      refine ⟨?_, ?_, ?_, ?_, ?_⟩
      · split <;> simp
      · split <;> simp
      · intro i hi
        split
        · exact getD_set_ne _ _ _ _ _ (Ne.symm hi)
        · rfl
      · intro m hm
        split
        · exact getD_set_ne _ _ _ _ _ (Ne.symm hm)
        · rfl
      · intro h
        split
        · by_cases hl : a.thread_id < s.thread_synced.length
          · exact getD_set_eq _ _ _ _ hl
          · rw [List.set_eq_of_length_le (by omega)]; exact h
        · exact h
  · simp [Step.shared]

/-- What a run of crossing blocks leaves unchanged. -/
theorem fold_frame (a : KernelArgs) :
    ∀ (xs : List Locals) (s : Shared),
      (fold_crossings a xs s).out = s.out
        ∧ (fold_crossings a xs s).out_positions = s.out_positions
        ∧ (fold_crossings a xs s).sync.length = s.sync.length
        ∧ (fold_crossings a xs s).thread_synced.length = s.thread_synced.length
        ∧ (∀ i, (∀ x ∈ xs, x.current_subsequence ≠ i) →
            (fold_crossings a xs s).sync.getD i default = s.sync.getD i default)
        ∧ (∀ m, m ≠ a.thread_id →
            (fold_crossings a xs s).thread_synced.getD m false = s.thread_synced.getD m false)
        ∧ (s.thread_synced.getD a.thread_id false = true →
            (fold_crossings a xs s).thread_synced.getD a.thread_id false = true) := by
  intro xs
  induction xs with
  | nil => intro s; simp [fold_crossings]
  | cons x xs ih =>
    intro s
    obtain ⟨f1, f2, f3, f4, f5, f6, f7⟩ := crossing_frame a x s
    rw [fold_crossings_cons]
    cases hcr : crossing a x s with
    | returned s2 =>
      rw [hcr] at f1 f2 f3 f4 f5 f6 f7
      simp only [Step.shared] at f1 f2 f3 f4 f5 f6 f7
      dsimp only
      exact ⟨f1, f2, f3, f4, fun i hi => f5 i (Ne.symm (hi x (List.mem_cons_self _ _))), f6, f7⟩
    | continue_ l3 s3 =>
      rw [hcr] at f1 f2 f3 f4 f5 f6 f7
      simp only [Step.shared] at f1 f2 f3 f4 f5 f6 f7
      dsimp only
      obtain ⟨g1, g2, g3, g4, g5, g6, g7⟩ := ih s3
      refine ⟨g1.trans f1, g2.trans f2, g3.trans f3, g4.trans f4, ?_, ?_, ?_⟩
      · intro i hi
        rw [g5 i (fun y hy => hi y (List.mem_cons_of_mem _ hy))]
        exact f5 i (Ne.symm (hi x (List.mem_cons_self _ _)))
      · intro m hm
        rw [g6 m hm]; exact f6 m hm
      · intro h
        exact g7 (f7 h)

theorem set_getD_self {α : Type} (l : List α) (i : Nat) (d : α) (h : i < l.length) :
    l.set i (l.getD i d) = l := by
  apply ext_getD _ _ d (by simp)
  intro j hj
  by_cases e : i = j
  · subst e; rw [getD_set_eq _ _ _ _ h]
  · rw [getD_set_ne _ _ _ _ _ e]

theorem chain_mem (a : KernelArgs) (L : Nat) :
    ∀ (xs : List Locals) (c p : Nat), CrossChain a L c p xs →
      ∀ x ∈ xs, c ≤ x.current_subsequence ∧ x.current_subsequence < c + xs.length
        ∧ x.current_unit = a.subsequence_size ∧ GoodCrossing L x
        ∧ (!a.overflow || x.reset) = true ∧ p ≤ x.in_pos ∧ x.in_pos ≤ a.end_ := by
  intro xs
  induction xs with
  | nil => intro c p _ x hx; cases hx
  | cons y ys ih =>
    intro c p h x hx
    cases h with
    | cons _ _ _ _ hp hc hu hi hg hr ht =>
      rcases List.mem_cons.1 hx with e | hmem
      · subst e
        simp only [List.length_cons]
        exact ⟨by omega, by omega, hu, hg, hr, by omega, by omega⟩
      · obtain ⟨m1, m2, m3, m4, m5, m6, m7⟩ := ih (c + 1) (p + a.subsequence_size) ht x hmem
        simp only [List.length_cons]
        exact ⟨by omega, by omega, m3, m4, m5, by omega, m7⟩

theorem chain_length (a : KernelArgs) (L : Nat) (hS : 0 < a.subsequence_size) :
    ∀ (xs : List Locals) (c p : Nat), CrossChain a L c p xs →
      ∀ b n, p = b + a.subsequence_size → a.end_ = b + n * a.subsequence_size →
        xs.length = n := by
  intro xs
  induction xs with
  | nil =>
    intro c p h b n hp he
    cases h with
    | nil _ _ hlt =>
      cases n with
      | zero => rfl
      | succ n =>
        rw [Nat.add_mul, Nat.one_mul] at he
        omega
  | cons y ys ih =>
    intro c p h b n hp he
    cases h with
    | cons _ _ _ _ hple hc hu hi hg hr ht =>
      cases n with
      | zero => simp only [Nat.zero_mul, Nat.add_zero] at he; omega
      | succ n =>
        have := ih (c + 1) (p + a.subsequence_size) ht (b + a.subsequence_size) n (by omega)
          (by rw [Nat.add_mul, Nat.one_mul] at he; omega)
        simp only [List.length_cons, this]

theorem crossing_entry_good (L S : Nat) (x : Locals) (hg : GoodCrossing L x)
    (hu : x.current_unit = S) (hS1 : 1 ≤ S) (hS32 : S < 4294967296) :
    GoodEntry L S (crossing_entry x) := by
  obtain ⟨g1, g2, g3⟩ := hg
  refine ⟨g1, g2, g3, ?_⟩
  show sub32 x.current_unit 1 = S - 1
  rw [hu, sub32_of_le S 1 hS1 hS32]

/-- A pass through the crossing block keeps a usable entry usable. -/
theorem crossing_good (a : KernelArgs) (L : Nat) (x : Locals) (s : Shared)
    (hg : GoodCrossing L x) (hu : x.current_unit = a.subsequence_size)
    (hS1 : 1 ≤ a.subsequence_size) (hS32 : a.subsequence_size < 4294967296)
    (h : GoodEntry L a.subsequence_size (s.sync.getD x.current_subsequence default)) :
    GoodEntry L a.subsequence_size
      ((crossing a x s).shared.sync.getD x.current_subsequence default) := by
  have hce := crossing_entry_good L a.subsequence_size x hg hu hS1 hS32
  by_cases hl : x.current_subsequence < s.sync.length
  · unfold crossing
    rw [if_pos hu]
    dsimp only
    split
    · simp only [Step.shared]
      rw [getD_set_eq _ _ _ _ hl]
      exact h
    · simp only [Step.shared]
      split
      · rw [getD_set_eq _ _ _ _ hl]
        exact hce
      · exact h
  · have hfr := (crossing_frame a x s).2.2.1
    have h1 : (crossing a x s).shared.sync.getD x.current_subsequence default = default := by
      apply List.getD_eq_default; omega
    have h2 : s.sync.getD x.current_subsequence default = default := by
      apply List.getD_eq_default; omega
    rw [h1]; rw [h2] at h; exact h

theorem fold_good (a : KernelArgs) (L : Nat)
    (hS1 : 1 ≤ a.subsequence_size) (hS32 : a.subsequence_size < 4294967296) :
    ∀ (xs : List Locals) (s : Shared),
      (∀ x ∈ xs, x.current_unit = a.subsequence_size ∧ GoodCrossing L x) →
      GoodSync L a.subsequence_size s.sync →
      GoodSync L a.subsequence_size (fold_crossings a xs s).sync := by
  intro xs
  induction xs with
  | nil => intro s _ h; exact h
  | cons x xs ih =>
    intro s hx hs
    obtain ⟨hu, hg⟩ := hx x (List.mem_cons_self _ _)
    obtain ⟨_, _, f3, _, f5, _, _⟩ := crossing_frame a x s
    have hstep : GoodSync L a.subsequence_size (crossing a x s).shared.sync := by
      intro i hi
      rw [f3] at hi
      by_cases e : i = x.current_subsequence
      · subst e
        exact crossing_good a L x s hg hu hS1 hS32 (hs _ hi)
      · rw [f5 i e]; exact hs i hi
    rw [fold_crossings_cons]
    cases hcr : crossing a x s with
    | returned s2 =>
      rw [hcr] at hstep
      exact hstep
    | continue_ l3 s3 =>
      rw [hcr] at hstep
      exact ih s3 (fun y hy => hx y (List.mem_cons_of_mem _ hy)) hstep

/-- In phase 1 the crossing block stores the sync point and goes on. -/
theorem crossing_phase1 (a : KernelArgs) (x : Locals) (s : Shared)
    (hov : a.overflow = false) (hw : a.write = false)
    (hu : x.current_unit = a.subsequence_size) :
    crossing a x s
      = .continue_ (cross_locals a x)
          { s with sync := s.sync.set x.current_subsequence (crossing_entry x) } := by
  unfold crossing
  rw [if_pos hu]
  simp [hov, hw, cross_locals, crossing_entry]

/-- Phase 1 leaves a usable entry for every subsequence of the chain. -/
theorem fold_phase1_good (a : KernelArgs) (L : Nat)
    (hov : a.overflow = false) (hw : a.write = false)
    (hS1 : 1 ≤ a.subsequence_size) (hS32 : a.subsequence_size < 4294967296) :
    ∀ (xs : List Locals) (c p : Nat) (s : Shared), CrossChain a L c p xs →
      ∀ i, c ≤ i → i < c + xs.length → i < s.sync.length →
        GoodEntry L a.subsequence_size ((fold_crossings a xs s).sync.getD i default) := by
  intro xs
  induction xs with
  | nil => intro c p s _ i h1 h2; simp at h2; omega
  | cons x xs ih =>
    intro c p s h i h1 h2 h3
    cases h with
    | cons _ _ _ _ hp hc hu hi hg hr ht =>
      rw [fold_crossings_cons, crossing_phase1 a x s hov hw hu]
      dsimp only
      by_cases e : i = c
      · subst e
        have hfr := (fold_frame a xs
          { s with sync := s.sync.set x.current_subsequence (crossing_entry x) }).2.2.2.2.1 i
          (fun y hy => by
            have := (chain_mem a L xs (i + 1) (p + a.subsequence_size) ht y hy).1
            omega)
        rw [hfr]
        show GoodEntry L a.subsequence_size
          ((s.sync.set x.current_subsequence (crossing_entry x)).getD i default)
        rw [hc, getD_set_eq _ _ _ _ h3]
        exact crossing_entry_good L a.subsequence_size x hg hu hS1 hS32
      · simp only [List.length_cons] at h2
        exact ih (c + 1) (p + a.subsequence_size) _ ht i (by omega) (by omega)
          (by simp only [List.length_set]; exact h3)

/-- In phase 2, after the first crossing, the block compares the derived sync
point with the stored one. -/
theorem crossing_phase2 (a : KernelArgs) (x : Locals) (s : Shared)
    (hov : a.overflow = true) (hw : a.write = false)
    (hu : x.current_unit = a.subsequence_size) (hr : x.reset = true) :
    crossing a x s
      = if (s.sync.getD x.current_subsequence default).state = x.last_state
            ∧ (s.sync.getD x.current_subsequence default).bit = x.last_bit
            ∧ (s.sync.getD x.current_subsequence default).unit = sub32 x.current_unit 1 then
          .returned { s with
            sync := s.sync.set x.current_subsequence
              { s.sync.getD x.current_subsequence default with num_symbols := x.num_symbols }
            thread_synced := s.thread_synced.set a.thread_id true }
        else
          .continue_ (cross_locals a x)
            { s with
              sync := s.sync.set x.current_subsequence (crossing_entry x)
              thread_synced :=
                if x.in_pos > a.num_units then s.thread_synced.set a.thread_id true
                else s.thread_synced } := by
  unfold crossing
  rw [if_pos hu]
  simp only [hov, hw, hr, Bool.and_self, Bool.true_and, Bool.and_eq_true, beq_iff_eq,
    Bool.not_true, Bool.or_true, Bool.not_false, decide_eq_true_eq]
  by_cases hm : (s.sync.getD x.current_subsequence default).state = x.last_state
            ∧ (s.sync.getD x.current_subsequence default).bit = x.last_bit
            ∧ (s.sync.getD x.current_subsequence default).unit = sub32 x.current_unit 1
  · rw [if_pos hm, if_pos ⟨⟨hm.1, hm.2.1⟩, hm.2.2⟩]
  · rw [if_neg hm, if_neg (fun h => hm ⟨h.1.1, h.1.2, h.2⟩)]
    simp [cross_locals, crossing_entry, hov, hr]

/-- A phase-2 pass that does not end with its flag set has stored the sync
point of its first compared crossing. -/
theorem fold_phase2_stored (a : KernelArgs) (L : Nat)
    (hov : a.overflow = true) (hw : a.write = false)
    (y : Locals) (ys : List Locals) (c p : Nat) (s : Shared)
    (h : CrossChain a L c p (y :: ys))
    (hc : c < s.sync.length) (ht : a.thread_id < s.thread_synced.length)
    (hflag : (fold_crossings a (y :: ys) s).thread_synced.getD a.thread_id false = false) :
    (fold_crossings a (y :: ys) s).sync.getD c default = crossing_entry y := by
  cases h with
  | cons _ _ _ _ hp hcs hu hi hg hr ht2 =>
    have hreset : y.reset = true := by simpa [hov] using hr
    rw [fold_crossings_cons, crossing_phase2 a y s hov hw hu hreset] at hflag ⊢
    by_cases hm : (s.sync.getD y.current_subsequence default).state = y.last_state
            ∧ (s.sync.getD y.current_subsequence default).bit = y.last_bit
            ∧ (s.sync.getD y.current_subsequence default).unit = sub32 y.current_unit 1
    · rw [if_pos hm] at hflag
      simp only at hflag
      rw [getD_set_eq _ _ _ _ ht] at hflag
      cases hflag
    · rw [if_neg hm] at hflag ⊢
      simp only
      have hfr := (fold_frame a ys
          { s with
            sync := s.sync.set y.current_subsequence (crossing_entry y)
            thread_synced :=
              if y.in_pos > a.num_units then s.thread_synced.set a.thread_id true
              else s.thread_synced }).2.2.2.2.1 c
          (fun z hz => by
            have := (chain_mem a L ys (c + 1) (p + a.subsequence_size) ht2 z hz).1
            omega)
      rw [hfr]
      show (s.sync.set y.current_subsequence (crossing_entry y)).getD c default = _
      rw [hcs, getD_set_eq _ _ _ _ hc]

/-- A phase-2 pass that finds the sync point of its first compared crossing
already stored sets its flag and changes nothing else. -/
theorem fold_phase2_match (a : KernelArgs) (L : Nat)
    (hov : a.overflow = true) (hw : a.write = false)
    (y : Locals) (ys : List Locals) (c p : Nat) (s : Shared)
    (h : CrossChain a L c p (y :: ys))
    (hc : c < s.sync.length)
    (hentry : s.sync.getD c default = crossing_entry y) :
    fold_crossings a (y :: ys) s
      = { s with thread_synced := s.thread_synced.set a.thread_id true } := by
  cases h with
  | cons _ _ _ _ hp hcs hu hi hg hr ht2 =>
    have hreset : y.reset = true := by simpa [hov] using hr
    rw [fold_crossings_cons, crossing_phase2 a y s hov hw hu hreset]
    rw [hcs, hentry]
    rw [if_pos ⟨rfl, rfl, rfl⟩]
    dsimp only
    have e : ({ crossing_entry y with num_symbols := y.num_symbols } : SubsequenceSyncPoint)
        = s.sync.getD c default := by rw [hentry]; rfl
    rw [e, set_getD_self _ _ _ hc]

/-! ## Kernel passes on the planned intervals -/

/-- Where the interval of worker `j` lies. -/
theorem args_geometry (S T N_u : Nat) (ov wr : Bool) (j : Nat)
    (hS : 0 < S) (hT : 1 ≤ T) (hN : T ≤ num_subsequences S N_u)
    (hU : N_u + S < 2 ^ 64) (hj : j < T) :
    (args_of S T N_u ov wr j).thread_id = j
      ∧ (args_of S T N_u ov wr j).subsequence_size = S
      ∧ (args_of S T N_u ov wr j).num_units = N_u
      ∧ (args_of S T N_u ov wr j).num_threads = T
      ∧ (args_of S T N_u ov wr j).overflow = ov
      ∧ (args_of S T N_u ov wr j).write = wr
      ∧ (args_of S T N_u ov wr j).subsequence = first_sub S T N_u j
      ∧ (args_of S T N_u ov wr j).end_
          = (args_of S T N_u ov wr j).begin + owned_count S T N_u j * S
      ∧ 1 ≤ owned_count S T N_u j
      ∧ first_sub S T N_u j + owned_count S T N_u j ≤ num_subsequences S N_u
      ∧ (args_of S T N_u ov wr j).begin < N_u
      ∧ (args_of S T N_u ov wr j).end_ < N_u + S
      ∧ (1 ≤ j → S ≤ (args_of S T N_u ov wr j).begin ∧ 1 ≤ first_sub S T N_u j) := by
  have hq : 0 < num_subsequences S N_u / T := Nat.div_pos hN (by omega)
  have hdm := Nat.div_add_mod (num_subsequences S N_u) T
  have hsp := num_subsequences_spec S N_u hS
  generalize hNs : num_subsequences S N_u = N at *
  generalize hqd : N / T = q at *
  generalize hrd : N % T = r at *
  have hg := getD_planned S T N_u j hj hS hU
  rw [hNs, hqd, hrd] at hg
  have hb : (args_of S T N_u ov wr j).begin = j * (q * S) := by
    show ((planned S T N_u).getD j default).begin = _
    rw [hg]
  have he : (args_of S T N_u ov wr j).end_
      = (j + 1) * (q * S) + (if j = T - 1 then r * S else 0) := by
    show ((planned S T N_u).getD j default).end_ = _
    rw [hg]
  have hs : (args_of S T N_u ov wr j).subsequence = q * j := by
    show ((planned S T N_u).getD j default).sub = _
    rw [hg]
  have hoc : owned_count S T N_u j = q + (if j = T - 1 then r else 0) := by
    unfold owned_count; rw [hNs, hqd, hrd]
  have hfs : first_sub S T N_u j = q * j := by
    unfold first_sub; rw [hNs, hqd]
  -- products
  have hjq : q * j + q ≤ T * q := by
    have : (j + 1) * q ≤ T * q := Nat.mul_le_mul_right _ (by omega)
    have e : (j + 1) * q = q * j + q := by ring
    omega
  have hTq : T * q + r = N := by rw [← hdm]
  have hprod : ∀ x y : Nat, x ≤ y → x * S ≤ y * S := fun x y h => Nat.mul_le_mul_right _ h
  refine ⟨rfl, rfl, rfl, rfl, rfl, rfl, by rw [hs, hfs], ?_, ?_, ?_, ?_, ?_, ?_⟩
  · rw [he, hb, hoc]
    by_cases e : j = T - 1
    · simp only [e, ↓reduceIte]; ring
    · simp only [e, ↓reduceIte]; ring
  · rw [hoc]; omega
  · rw [hfs, hoc]
    by_cases e : j = T - 1
    · simp only [e, ↓reduceIte]
      have : q * (T - 1) + q = T * q := by
        have e2 : T = (T - 1) + 1 := by omega
        conv_rhs => rw [e2]
        ring
      omega
    · simp only [e, ↓reduceIte]
      have : q * j + q + q ≤ T * q := by
        have : (j + 2) * q ≤ T * q := Nat.mul_le_mul_right _ (by omega)
        have e : (j + 2) * q = q * j + q + q := by ring
        omega
      omega
  · rw [hb]
    have h1 : q * j + 1 ≤ N := by omega
    have h2 := hprod (q * j + 1) N h1
    have e : (q * j + 1) * S = j * (q * S) + S := by ring
    omega
  · rw [he]
    have h1 : (j + 1) * (q * S) + (if j = T - 1 then r * S else 0) ≤ N * S := by
      by_cases e : j = T - 1
      · simp only [e, ↓reduceIte]
        have e2 : T - 1 + 1 = T := by omega
        rw [e2, ← hTq]
        have : (T * q + r) * S = T * (q * S) + r * S := by ring
        omega
      · simp only [e, ↓reduceIte, Nat.add_zero]
        have h3 := hprod ((j + 1) * q) N (by
          have : (j + 1) * q ≤ T * q := Nat.mul_le_mul_right _ (by omega)
          omega)
        have e3 : (j + 1) * q * S = (j + 1) * (q * S) := by ring
        omega
    omega
  · intro h1
    rw [hb, hfs]
    constructor
    · have h2 := hprod 1 (j * q) (Nat.mul_pos (by omega) hq)
      have e : j * q * S = j * (q * S) := by ring
      omega
    · exact Nat.mul_pos hq (by omega)

theorem fold_phase1_flags (a : KernelArgs) (L : Nat)
    (hov : a.overflow = false) (hw : a.write = false) :
    ∀ (xs : List Locals) (c p : Nat) (s : Shared), CrossChain a L c p xs →
      (fold_crossings a xs s).thread_synced = s.thread_synced := by
  intro xs
  induction xs with
  | nil => intro c p s _; rfl
  | cons x xs ih =>
    intro c p s h
    cases h with
    | cons _ _ _ _ hp hc hu hi hg hr ht =>
      rw [fold_crossings_cons, crossing_phase1 a x s hov hw hu]
      dsimp only
      rw [ih (c + 1) (p + a.subsequence_size) _ ht]

theorem first_at_lt (fb : Nat) (h1 : 1 ≤ fb) (h2 : fb ≤ 32) :
    sub64 bits_in_unit fb % 2 ^ 8 < 32 := by
  unfold bits_in_unit
  rw [sub64_of_le 32 fb h2 (by norm_num)]
  have e8 : (2:Nat) ^ 8 = 256 := by norm_num
  rw [e8]
  omega

/-- A phase-1 pass of worker `j` ends; it stores a usable sync point for every
subsequence of its interval and changes nothing else. -/
theorem phase1_pass (sem : ShiftSem) (S T N_u size_out : Nat) (inp : CUHDInputBuffer)
    (table : List CUHDCodetableItem) (v : ValidInput S T N_u inp table)
    (fuel : Nat) (hfuel : enough_fuel S T N_u table ≤ fuel)
    (j : Nat) (hj : j < T) (s : Shared) (hlen : s.sync.length = num_subsequences S N_u) :
    ∃ s1, decode_phase1 sem fuel (args_of S T N_u false false j) size_out inp table s = .ok s1
      ∧ s1.thread_synced = s.thread_synced ∧ s1.out_positions = s.out_positions
      ∧ s1.out = s.out ∧ s1.sync.length = s.sync.length
      ∧ (∀ i, ¬ Owns S T N_u j i → s1.sync.getD i default = s.sync.getD i default)
      ∧ (∀ i, Owns S T N_u j i → GoodEntry table.length S (s1.sync.getD i default)) := by
  obtain ⟨g1, g2, g3, g4, g5, g6, g7, g8, g9, g10, g11, g12, g13⟩ :=
    args_geometry S T N_u false false j v.size_pos v.threads_pos v.enough_subs v.units_lt hj
  generalize args_of S T N_u false false j = a at *
  have hS32 : a.subsequence_size < 4294967296 := by
    rw [g2]; have := v.size_lt; norm_num at this; exact this
  have hfuel' : 33 * table.length + N_u + S + T + 2 ≤ fuel := hfuel
  unfold decode_phase1
  rw [g5]
  simp only [Bool.false_and, Bool.false_eq_true, ↓reduceIte]
  obtain ⟨xs, ex, ch⟩ := crossings_steady sem a inp.compressed_data table fuel v.table_ok
    (by omega) hS32 fuel (initial_locals sem a size_out inp s)
    (by simp only [initial_locals, g5, g6]; simpa using v.state_ge)
    (by simp only [initial_locals, g5, g6]; simpa using v.state_lt)
    (by
      simp only [initial_locals, g5, g6, g1]
      simp only [Bool.false_and, Bool.or_self, Bool.false_eq_true, ↓reduceIte]
      split
      · exact first_at_lt _ v.bit_pos v.bit_le
      · norm_num)
    (by simp only [initial_locals, g5, g6, g2]; simpa using v.size_pos)
    (by simp [g5])
    (by simp only [initial_locals, g5, g6]; simp only [Bool.false_and, Bool.or_self,
          Bool.false_eq_true, ↓reduceIte]; omega)
  rw [unit_loop_eq sem a inp.compressed_data table fuel g6 fuel _ s xs ex]
  have hcs : (initial_locals sem a size_out inp s).current_subsequence = first_sub S T N_u j := by
    simp only [initial_locals]; exact g7
  have hpos : (initial_locals sem a size_out inp s).in_pos
      + (a.subsequence_size - (initial_locals sem a size_out inp s).current_unit)
      = a.begin + a.subsequence_size := by
    simp only [initial_locals, g5, g6]
    simp
  rw [hcs, hpos] at ch
  have hlen2 := chain_length a table.length (by rw [g2]; exact v.size_pos) xs _ _ ch a.begin
    (owned_count S T N_u j) rfl (by rw [g8, g2])
  obtain ⟨f1, f2, f3, f4, f5, f6, f7⟩ := fold_frame a xs s
  refine ⟨_, rfl, fold_phase1_flags a table.length g5 g6 xs _ _ s ch, f2, f1, f3, ?_, ?_⟩
  · intro i hi
    apply f5
    intro x hx e
    obtain ⟨m1, m2, _⟩ := chain_mem a table.length xs _ _ ch x hx
    apply hi
    unfold Owns
    rw [← e]
    omega
  · intro i hi
    unfold Owns at hi
    have := fold_phase1_good a table.length g5 g6 (by rw [g2]; exact v.size_pos) hS32 xs _ _ s ch
      i hi.1 (by omega) (by omega)
    rw [g2] at this
    exact this

/-- The crossings of a pass that starts in the last unit of the subsequence
before its interval: the crossing into the interval, then a chain. -/
theorem crossings_boot (sem : ShiftSem) (a : KernelArgs) (in_ptr : List Nat)
    (table : List CUHDCodetableItem) (fuel0 : Nat) (wf : WellFormedTable table)
    (hfuel0 : 33 * table.length < fuel0) (hS32 : a.subsequence_size < 4294967296)
    (fuel : Nat) (l : Locals)
    (h1 : table.length ≤ l.current_state) (h2 : l.current_state < 2 * table.length)
    (h3 : l.at_ < 32) (hu : l.current_unit + 1 = a.subsequence_size)
    (hin : l.in_pos < a.end_) (hend : a.end_ ≤ l.in_pos + 1 + fuel)
    (hov : a.overflow = true) (hr : l.reset = false) :
    ∃ x ys, crossings sem a in_ptr table fuel0 (fuel + 1) l = .ok (x :: ys)
      ∧ x.current_unit = a.subsequence_size ∧ x.reset = false ∧ x.in_pos = l.in_pos + 1
      ∧ CrossChain a table.length l.current_subsequence
          (l.in_pos + 1 + a.subsequence_size) ys := by
  unfold crossings
  rw [if_pos hin]
  obtain ⟨l1, w, e1, p1⟩ := symbol_loop_spec sem table a.write fuel0 wf
    (by have := wf.1; omega) fuel0 l h1 h2 h3 (symbol_loop_fuel table fuel0 l hfuel0 h2)
  rw [e1]
  dsimp only
  have hcu : (l1.current_unit + 1) % 2 ^ 32 = a.subsequence_size := by
    rw [p1.unit, succ_mod_unit _ a.subsequence_size (by omega) hS32]; exact hu
  rw [if_pos hcu, hcu]
  have hat1 := p1.at_le
  have hat2 := p1.at_ge
  have hnadv : (!a.overflow || l1.reset) = false := by rw [p1.reset, hov, hr]; rfl
  obtain ⟨ys, e2, ch⟩ := crossings_steady sem a in_ptr table fuel0 wf hfuel0 hS32 fuel
    (refill sem in_ptr (cross_locals a
      { l1 with in_pos := l1.in_pos + 1, current_unit := a.subsequence_size }))
    (by simp [cross_locals]; exact p1.state_ge)
    (by simp [cross_locals]; exact p1.state_lt)
    (by rw [refill_at _ _ _ (by simpa [cross_locals] using hat2)
          (by simpa [cross_locals] using hat1)]
        simp only [cross_locals]; omega)
    (by simp [cross_locals]; omega)
    (by simp [cross_locals])
    (by simp [cross_locals]; rw [p1.in_pos]; omega)
  rw [e2]
  refine ⟨_, ys, rfl, rfl, by show l1.reset = false; rw [p1.reset, hr],
    by show l1.in_pos + 1 = _; rw [p1.in_pos], ?_⟩
  simp only [refill_current_subsequence, refill_in_pos, refill_current_unit,
    cross_locals, hnadv, Bool.false_eq_true, ↓reduceIte, p1.subsequence, p1.in_pos,
    Nat.sub_zero] at ch
  exact ch

/-- In phase 2 the crossing into the interval compares and stores nothing. -/
theorem crossing_phase2_first (a : KernelArgs) (x : Locals) (s : Shared)
    (hov : a.overflow = true) (hu : x.current_unit = a.subsequence_size)
    (hr : x.reset = false) (hpos : x.in_pos ≤ a.num_units) :
    crossing a x s = .continue_ (cross_locals a x) s := by
  unfold crossing
  rw [if_pos hu]
  have : ¬ (x.in_pos > a.num_units) := by omega
  simp [hov, hr, cross_locals, this]

theorem initial_locals_boot (sem : ShiftSem) (a : KernelArgs) (size_out : Nat)
    (inp : CUHDInputBuffer) (s : Shared)
    (hboot : (a.overflow || (a.write && decide (a.thread_id > 0))) = true) :
    (initial_locals sem a size_out inp s).current_state
        = (s.sync.getD (sub64 a.subsequence 1) default).state
      ∧ (initial_locals sem a size_out inp s).at_
        = (s.sync.getD (sub64 a.subsequence 1) default).bit % 2 ^ 8
      ∧ (initial_locals sem a size_out inp s).in_pos
        = (sub64 a.begin a.subsequence_size
            + (s.sync.getD (sub64 a.subsequence 1) default).unit) % 2 ^ 64
      ∧ (initial_locals sem a size_out inp s).current_unit
        = (s.sync.getD (sub64 a.subsequence 1) default).unit
      ∧ (initial_locals sem a size_out inp s).current_subsequence = a.subsequence
      ∧ (initial_locals sem a size_out inp s).reset = (a.write && a.thread_id == 0) := by
  simp only [initial_locals, hboot, ↓reduceIte, and_self]

theorem initial_locals_congr (sem : ShiftSem) (a : KernelArgs) (size_out : Nat)
    (inp : CUHDInputBuffer) (s s2 : Shared) (hw : a.write = false)
    (h : s2.sync.getD (sub64 a.subsequence 1) default
      = s.sync.getD (sub64 a.subsequence 1) default) :
    initial_locals sem a size_out inp s2 = initial_locals sem a size_out inp s := by
  simp only [initial_locals, hw, h, Bool.false_eq_true, ↓reduceIte]

/-- The locals with which a pass of worker `j >= 1` starts from a usable sync
point: in the unit before its interval, with the recorded state and bit. -/
theorem boot_locals (sem : ShiftSem) (S T N_u size_out : Nat) (inp : CUHDInputBuffer)
    (table : List CUHDCodetableItem) (v : ValidInput S T N_u inp table)
    (ov wr : Bool) (hboot : (ov || wr) = true)
    (j : Nat) (h1 : 1 ≤ j) (hj : j < T) (s : Shared) (gs : GoodShared S T N_u table s) :
    sub64 (args_of S T N_u ov wr j).subsequence 1 = first_sub S T N_u j - 1
      ∧ table.length ≤ (initial_locals sem (args_of S T N_u ov wr j) size_out inp s).current_state
      ∧ (initial_locals sem (args_of S T N_u ov wr j) size_out inp s).current_state
          < 2 * table.length
      ∧ (initial_locals sem (args_of S T N_u ov wr j) size_out inp s).at_ < 32
      ∧ (initial_locals sem (args_of S T N_u ov wr j) size_out inp s).in_pos + 1
          = (args_of S T N_u ov wr j).begin
      ∧ (initial_locals sem (args_of S T N_u ov wr j) size_out inp s).current_unit + 1 = S
      ∧ (initial_locals sem (args_of S T N_u ov wr j) size_out inp s).current_subsequence
          = first_sub S T N_u j
      ∧ (initial_locals sem (args_of S T N_u ov wr j) size_out inp s).reset = false := by
  obtain ⟨g1, g2, g3, g4, g5, g6, g7, g8, g9, g10, g11, g12, g13⟩ :=
    args_geometry S T N_u ov wr j v.size_pos v.threads_pos v.enough_subs v.units_lt hj
  obtain ⟨hb, hs1⟩ := g13 h1
  generalize args_of S T N_u ov wr j = a at *
  have hbt : (a.overflow || (a.write && decide (a.thread_id > 0))) = true := by
    rw [g5, g6, g1]
    have : decide (j > 0) = true := by simpa using h1
    rw [this]; simpa using hboot
  obtain ⟨i1, i2, i3, i4, i5, i6⟩ := initial_locals_boot sem a size_out inp s hbt
  have hu64 := v.units_lt
  have e64 : (2:Nat) ^ 64 = 18446744073709551616 := by norm_num
  rw [e64] at hu64
  have hsub : sub64 a.subsequence 1 = first_sub S T N_u j - 1 := by
    rw [g7]
    have hsp := num_subsequences_spec S N_u v.size_pos
    have hle : first_sub S T N_u j ≤ num_subsequences S N_u * S := by
      have : num_subsequences S N_u ≤ num_subsequences S N_u * S :=
        Nat.le_mul_of_pos_right _ v.size_pos
      omega
    exact sub64_of_le _ _ hs1 (by omega)
  rw [hsub] at i1 i2 i3 i4
  have hge := gs.sync_good (first_sub S T N_u j - 1) (by rw [gs.sync_length]; omega)
  obtain ⟨e1, e2, e3, e4⟩ := hge
  have e8 : (2:Nat) ^ 8 = 256 := by norm_num
  refine ⟨hsub, by rw [i1]; exact e1, by rw [i1]; exact e2, ?_, ?_, ?_, by rw [i5, g7], ?_⟩
  · rw [i2, e8]; omega
  · rw [i3, e4, g2, sub64_of_le _ _ hb (by omega), e64]
    have := v.size_pos
    omega
  · rw [i4, e4]; have := v.size_pos; omega
  · rw [i6, g1]
    have : (j == 0) = false := by simpa using (show j ≠ 0 by omega)
    rw [this]; simp

/-- The crossings of a phase-2 pass of worker `j >= 1`, which depend on the
shared arrays through `sync[first_sub j - 1]` only, and what the pass does with
them. -/
theorem phase2_unfold (sem : ShiftSem) (S T N_u size_out : Nat) (inp : CUHDInputBuffer)
    (table : List CUHDCodetableItem) (v : ValidInput S T N_u inp table)
    (fuel : Nat) (hfuel : enough_fuel S T N_u table ≤ fuel)
    (j : Nat) (h1 : 1 ≤ j) (hj : j < T) (s : Shared) (gs : GoodShared S T N_u table s) :
    ∃ y ys, CrossChain (args_of S T N_u true false j) table.length (first_sub S T N_u j)
        ((args_of S T N_u true false j).begin + S) (y :: ys)
      ∧ (y :: ys).length = owned_count S T N_u j
      ∧ ∀ s2 : Shared,
          s2.sync.getD (first_sub S T N_u j - 1) default
            = s.sync.getD (first_sub S T N_u j - 1) default →
          s2.thread_synced.getD j false = false →
          decode_phase1 sem fuel (args_of S T N_u true false j) size_out inp table s2
            = .ok (fold_crossings (args_of S T N_u true false j) (y :: ys) s2) := by
  obtain ⟨g1, g2, g3, g4, g5, g6, g7, g8, g9, g10, g11, g12, g13⟩ :=
    args_geometry S T N_u true false j v.size_pos v.threads_pos v.enough_subs v.units_lt hj
  obtain ⟨b0, b1, b2, b3, b4, b5, b6, b7⟩ :=
    boot_locals sem S T N_u size_out inp table v true false rfl j h1 hj s gs
  generalize args_of S T N_u true false j = a at *
  have hS32 : a.subsequence_size < 4294967296 := by
    rw [g2]; have := v.size_lt; norm_num at this; exact this
  have hfuel' : 33 * table.length + N_u + S + T + 2 ≤ fuel := hfuel
  obtain ⟨f, rfl⟩ : ∃ f, fuel = f + 1 := ⟨fuel - 1, by omega⟩
  obtain ⟨x, zs, ex, x1, x2, x3, ch⟩ := crossings_boot sem a inp.compressed_data table (f + 1)
    v.table_ok (by omega) hS32 f (initial_locals sem a size_out inp s) b1 b2 b3
    (by rw [g2]; exact b5) (by have := v.size_pos; omega) (by omega) g5 b7
  rw [b6] at ch
  have hp : (initial_locals sem a size_out inp s).in_pos + 1 + a.subsequence_size
      = a.begin + S := by rw [b4, g2]
  rw [hp] at ch
  have hlen := chain_length a table.length (by rw [g2]; exact v.size_pos) zs _ _ ch a.begin
    (owned_count S T N_u j) (by rw [g2]) (by rw [g8, g2])
  cases zs with
  | nil => simp at hlen; omega
  | cons y ys =>
    refine ⟨y, ys, ch, hlen, ?_⟩
    intro s2 hs2 hflag
    unfold decode_phase1
    rw [g5, g1, hflag]
    simp only [Bool.and_false, Bool.false_eq_true, ↓reduceIte]
    have hl : initial_locals sem a size_out inp s2 = initial_locals sem a size_out inp s :=
      initial_locals_congr sem a size_out inp s s2 g6 (by rw [b0]; exact hs2)
    rw [hl, unit_loop_eq sem a inp.compressed_data table (f + 1) g6 (f + 1) _ s2 _ ex]
    rw [fold_crossings_cons, crossing_phase2_first a x s2 g5 x1 x2 (by rw [x3, b4, g3]; omega)]

/-- A phase-2 pass of worker `j >= 1` ends; it changes `sync` inside its
interval only and no flag but its own, which it never clears; a pass whose flag
is set changes nothing; and a pass that ends with its flag clear is followed, on
any arrays with the same `sync[first_sub j - 1]` and `sync[first_sub j]`, by a
pass that sets the flag and changes nothing else. -/
theorem phase2_pass (sem : ShiftSem) (S T N_u size_out : Nat) (inp : CUHDInputBuffer)
    (table : List CUHDCodetableItem) (v : ValidInput S T N_u inp table)
    (fuel : Nat) (hfuel : enough_fuel S T N_u table ≤ fuel)
    (j : Nat) (h1 : 1 ≤ j) (hj : j < T) (s : Shared) (gs : GoodShared S T N_u table s) :
    ∃ s1, decode_phase1 sem fuel (args_of S T N_u true false j) size_out inp table s = .ok s1
      ∧ GoodShared S T N_u table s1 ∧ s1.out = s.out ∧ s1.out_positions = s.out_positions
      ∧ (∀ i, ¬ Owns S T N_u j i → s1.sync.getD i default = s.sync.getD i default)
      ∧ (∀ m, m ≠ j → s1.thread_synced.getD m false = s.thread_synced.getD m false)
      ∧ (s.thread_synced.getD j false = true → s1 = s)
      ∧ (s1.thread_synced.getD j false = false →
          ∀ s2 : Shared, s2.sync.length = num_subsequences S N_u →
            s2.sync.getD (first_sub S T N_u j - 1) default
              = s.sync.getD (first_sub S T N_u j - 1) default →
            s2.sync.getD (first_sub S T N_u j) default
              = s1.sync.getD (first_sub S T N_u j) default →
            s2.thread_synced.getD j false = false →
            decode_phase1 sem fuel (args_of S T N_u true false j) size_out inp table s2
              = .ok { s2 with thread_synced := s2.thread_synced.set j true }) := by
  by_cases hf : s.thread_synced.getD j false = true
  · refine ⟨s, ?_, gs, rfl, rfl, fun _ _ => rfl, fun _ _ => rfl, fun _ => rfl, ?_⟩
    · unfold decode_phase1
      have e1 : (args_of S T N_u true false j).overflow = true := rfl
      have e2 : (args_of S T N_u true false j).thread_id = j := rfl
      rw [e1, e2, hf]
      simp
    · intro h; rw [hf] at h; cases h
  · have hf0 : s.thread_synced.getD j false = false := by simpa using hf
    obtain ⟨g1, g2, g3, g4, g5, g6, g7, g8, g9, g10, g11, g12, g13⟩ :=
      args_geometry S T N_u true false j v.size_pos v.threads_pos v.enough_subs v.units_lt hj
    obtain ⟨y, ys, ch, hlen, hrun⟩ :=
      phase2_unfold sem S T N_u size_out inp table v fuel hfuel j h1 hj s gs
    generalize args_of S T N_u true false j = a at *
    have hS32 : a.subsequence_size < 4294967296 := by
      rw [g2]; have := v.size_lt; norm_num at this; exact this
    obtain ⟨f1, f2, f3, f4, f5, f6, f7⟩ := fold_frame a (y :: ys) s
    have hmem := chain_mem a table.length (y :: ys) _ _ ch
    have hgood : GoodSync table.length S (fold_crossings a (y :: ys) s).sync := by
      have := fold_good a table.length (by rw [g2]; exact v.size_pos) hS32 (y :: ys) s
        (fun x hx => ⟨(hmem x hx).2.2.1, (hmem x hx).2.2.2.1⟩)
        (by rw [g2]; exact gs.sync_good)
      rw [g2] at this
      exact this
    have hfs : first_sub S T N_u j < num_subsequences S N_u := by omega
    refine ⟨_, hrun s rfl hf0, ⟨f3.trans gs.sync_length, f4.trans gs.flags_length, hgood⟩,
      f1, f2, ?_, ?_, fun h => absurd h hf, ?_⟩
    · intro i hi
      apply f5
      intro x hx e
      obtain ⟨m1, m2, _⟩ := hmem x hx
      apply hi
      unfold Owns
      rw [← e, ← hlen]
      omega
    · intro m hm
      exact f6 m (by rw [g1]; exact hm)
    · intro hflag s2 hl2 hb hc hf2
      rw [hrun s2 hb hf2]
      have hst := fold_phase2_stored a table.length g5 g6 y ys _ _ s ch
        (by rw [gs.sync_length]; exact hfs) (by rw [g1, gs.flags_length]; exact hj)
        (by rw [g1]; exact hflag)
      rw [fold_phase2_match a table.length g5 g6 y ys _ _ s2 ch (by rw [hl2]; exact hfs)
        (by rw [hc, hst]), g1]

/-- In phase 3 the crossing block touches no shared array. -/
theorem crossing_phase3 (a : KernelArgs) (x : Locals) (s : Shared)
    (hov : a.overflow = false) (hw : a.write = true) :
    ∃ l1, crossing a x s = .continue_ l1 s ∧ l1.current_state = x.current_state
      ∧ l1.at_ = x.at_ ∧ l1.in_pos = x.in_pos := by
  unfold crossing
  by_cases hu : x.current_unit = a.subsequence_size
  · rw [if_pos hu]
    simp only [hov, hw, Bool.false_and, Bool.false_eq_true, ↓reduceIte, Bool.not_false,
      Bool.true_or, Bool.not_true, Bool.and_false]
    exact ⟨_, rfl, rfl, rfl, rfl⟩
  · rw [if_neg hu]
    exact ⟨_, rfl, rfl, rfl, rfl⟩

/-- The unit loop of a phase-3 pass ends and changes only the output. -/
theorem unit_loop_phase3 (sem : ShiftSem) (a : KernelArgs) (in_ptr : List Nat)
    (table : List CUHDCodetableItem) (fuel0 : Nat) (wf : WellFormedTable table)
    (hfuel0 : 33 * table.length < fuel0) (hov : a.overflow = false) (hw : a.write = true) :
    ∀ fuel l s, table.length ≤ l.current_state → l.current_state < 2 * table.length →
      l.at_ < 32 → a.end_ ≤ l.in_pos + fuel →
      ∃ s1, unit_loop sem a in_ptr table fuel0 fuel l s = .ok s1
        ∧ s1.sync = s.sync ∧ s1.thread_synced = s.thread_synced
        ∧ s1.out_positions = s.out_positions := by
  intro fuel
  induction fuel with
  | zero =>
    intro l s _ _ _ hend
    unfold unit_loop
    rw [if_neg (by omega)]
    exact ⟨s, rfl, rfl, rfl, rfl⟩
  | succ fuel ih =>
    intro l s h1 h2 h3 hend
    unfold unit_loop
    by_cases hin : l.in_pos < a.end_
    · rw [if_pos hin]
      obtain ⟨l1, w, e1, p1⟩ := symbol_loop_spec sem table a.write fuel0 wf
        (by have := wf.1; omega) fuel0 l h1 h2 h3 (symbol_loop_fuel table fuel0 l hfuel0 h2)
      rw [e1]
      dsimp only
      obtain ⟨l3, e3, c1, c2, c3⟩ := crossing_phase3 a
        { l1 with in_pos := l1.in_pos + 1, current_unit := (l1.current_unit + 1) % 2 ^ 32 }
        { s with out := s.out ++ w } hov hw
      rw [e3]
      dsimp only
      have hat1 := p1.at_le
      have hat2 := p1.at_ge
      obtain ⟨s1, e4, q1, q2, q3⟩ := ih (refill sem in_ptr l3) { s with out := s.out ++ w }
        (by rw [refill_current_state, c1]; exact p1.state_ge)
        (by rw [refill_current_state, c1]; exact p1.state_lt)
        (by rw [refill_at _ _ _ (by rw [c2]; exact hat2) (by rw [c2]; exact hat1), c2]
            show l1.at_ - 32 < 32
            omega)
        (by rw [refill_in_pos, c3]; show a.end_ ≤ l1.in_pos + 1 + fuel; rw [p1.in_pos]; omega)
      exact ⟨s1, e4, q1, q2, q3⟩
    · rw [if_neg hin]
      exact ⟨s, rfl, rfl, rfl, rfl⟩

/-- A phase-3 pass of any worker ends and changes only the output. -/
theorem phase3_pass (sem : ShiftSem) (S T N_u size_out : Nat) (inp : CUHDInputBuffer)
    (table : List CUHDCodetableItem) (v : ValidInput S T N_u inp table)
    (fuel : Nat) (hfuel : enough_fuel S T N_u table ≤ fuel)
    (j : Nat) (hj : j < T) (s : Shared) (gs : GoodShared S T N_u table s) :
    ∃ s1, decode_phase1 sem fuel (args_of S T N_u false true j) size_out inp table s = .ok s1
      ∧ s1.sync = s.sync ∧ s1.thread_synced = s.thread_synced
      ∧ s1.out_positions = s.out_positions := by
  obtain ⟨g1, g2, g3, g4, g5, g6, g7, g8, g9, g10, g11, g12, g13⟩ :=
    args_geometry S T N_u false true j v.size_pos v.threads_pos v.enough_subs v.units_lt hj
  have hfuel' : 33 * table.length + N_u + S + T + 2 ≤ fuel := hfuel
  unfold decode_phase1
  rw [g5]
  simp only [Bool.false_and, Bool.false_eq_true, ↓reduceIte]
  by_cases h0 : j = 0
  · subst h0
    generalize args_of S T N_u false true 0 = a at *
    apply unit_loop_phase3 sem a inp.compressed_data table fuel v.table_ok (by omega) g5 g6
    · simp only [initial_locals, g5, g6, g1]; simpa using v.state_ge
    · simp only [initial_locals, g5, g6, g1]; simpa using v.state_lt
    · simp only [initial_locals, g5, g6, g1]
      simp only [gt_iff_lt, lt_self_iff_false, decide_False, Bool.and_false, Bool.or_self,
        Bool.false_eq_true, ↓reduceIte]
      exact first_at_lt _ v.bit_pos v.bit_le
    · simp only [initial_locals, g5, g6, g1]
      simp only [gt_iff_lt, lt_self_iff_false, decide_False, Bool.and_false, Bool.or_self,
        Bool.false_eq_true, ↓reduceIte]
      omega
  · obtain ⟨b0, b1, b2, b3, b4, b5, b6, b7⟩ :=
      boot_locals sem S T N_u size_out inp table v false true rfl j (by omega) hj s gs
    generalize args_of S T N_u false true j = a at *
    exact unit_loop_phase3 sem a inp.compressed_data table fuel v.table_ok (by omega) g5 g6
      fuel _ s b1 b2 b3 (by omega)

/-! ## The phases of `decode` -/

theorem first_sub_succ (S T N_u j : Nat) :
    first_sub S T N_u (j + 1) = first_sub S T N_u j + num_subsequences S N_u / T := by
  unfold first_sub; ring

theorem first_sub_mono (S T N_u j m : Nat) (h : j ≤ m) :
    first_sub S T N_u j ≤ first_sub S T N_u m := by
  unfold first_sub; exact Nat.mul_le_mul_left _ h

/-- The intervals of two different workers share no subsequence. -/
theorem owns_disjoint (S T N_u j m i : Nat) (hj : j < T) (hm : m < T)
    (h1 : Owns S T N_u j i) (h2 : Owns S T N_u m i) : j = m := by
  by_contra hne
  unfold Owns owned_count at h1 h2
  rcases Nat.lt_or_gt_of_ne hne with hlt | hgt
  · have := first_sub_mono S T N_u (j + 1) m (by omega)
    rw [first_sub_succ] at this
    have e : (if j = T - 1 then num_subsequences S N_u % T else 0) = 0 := by
      rw [if_neg (by omega)]
    rw [e] at h1
    omega
  · have := first_sub_mono S T N_u (m + 1) j (by omega)
    rw [first_sub_succ] at this
    have e : (if m = T - 1 then num_subsequences S N_u % T else 0) = 0 := by
      rw [if_neg (by omega)]
    rw [e] at h2
    omega

theorem owns_first (S T N_u j : Nat) (hT : 1 ≤ T) (hN : T ≤ num_subsequences S N_u) :
    Owns S T N_u j (first_sub S T N_u j) := by
  have hq : 0 < num_subsequences S N_u / T := Nat.div_pos hN (by omega)
  unfold Owns owned_count
  omega

theorem owns_pred (S T N_u j : Nat) (hT : 1 ≤ T) (hN : T ≤ num_subsequences S N_u)
    (h1 : 1 ≤ j) (hj : j < T) :
    Owns S T N_u (j - 1) (first_sub S T N_u j - 1) := by
  have hq : 0 < num_subsequences S N_u / T := Nat.div_pos hN (by omega)
  obtain ⟨m, rfl⟩ : ∃ m, j = m + 1 := ⟨j - 1, by omega⟩
  simp only [Nat.add_sub_cancel]
  rw [first_sub_succ]
  unfold Owns owned_count
  have e : (if m = T - 1 then num_subsequences S N_u % T else 0) = 0 := by
    rw [if_neg (by omega)]
  rw [e]
  omega

/-- Every subsequence lies in the interval of some worker. -/
theorem owns_cover (S T N_u i : Nat) (hT : 1 ≤ T) (hN : T ≤ num_subsequences S N_u)
    (hi : i < num_subsequences S N_u) : ∃ j, j < T ∧ Owns S T N_u j i := by
  have hq : 0 < num_subsequences S N_u / T := Nat.div_pos hN (by omega)
  have hdm := Nat.div_add_mod (num_subsequences S N_u) T
  by_cases h : i / (num_subsequences S N_u / T) < T - 1
  · refine ⟨i / (num_subsequences S N_u / T), by omega, ?_⟩
    unfold Owns owned_count first_sub
    rw [if_neg (by omega)]
    have h1 := Nat.div_add_mod i (num_subsequences S N_u / T)
    have h2 := Nat.mod_lt i hq
    constructor
    · omega
    · omega
  · refine ⟨T - 1, by omega, ?_⟩
    unfold Owns owned_count first_sub
    rw [if_pos rfl]
    have h3 : T - 1 ≤ i / (num_subsequences S N_u / T) := by omega
    have h4 : (T - 1) * (num_subsequences S N_u / T) ≤ i :=
      (Nat.le_div_iff_mul_le hq).1 h3
    have h5 : num_subsequences S N_u / T * (T - 1) + num_subsequences S N_u / T
        = T * (num_subsequences S N_u / T) := by
      obtain ⟨n, rfl⟩ : ∃ n, T = n + 1 := ⟨T - 1, by omega⟩
      simp only [Nat.add_sub_cancel]; ring
    constructor
    · rw [Nat.mul_comm]; exact h4
    · omega

section phase2
variable (sem : ShiftSem) (S T N_u size_out : Nat) (inp : CUHDInputBuffer)
  (table : List CUHDCodetableItem) (v : ValidInput S T N_u inp table)
  (fuel : Nat) (hfuel : enough_fuel S T N_u table ≤ fuel)
include v hfuel

/-- After its phase-2 pass a worker is settled. -/
theorem pass_ready (j : Nat) (h1 : 1 ≤ j) (hj : j < T) (s s1 : Shared)
    (gs : GoodShared S T N_u table s)
    (e : decode_phase1 sem fuel (args_of S T N_u true false j) size_out inp table s = .ok s1) :
    Ready sem fuel S T N_u size_out inp table j s1 := by
  obtain ⟨s1', e', _, _, _, fr, _, _, hd⟩ :=
    phase2_pass sem S T N_u size_out inp table v fuel hfuel j h1 hj s gs
  rw [e] at e'
  cases e'
  by_cases hf : s1.thread_synced.getD j false = true
  · exact Or.inl hf
  · right
    intro s2 hl hb hc hf2
    have hnot : ¬ Owns S T N_u j (first_sub S T N_u j - 1) := by
      intro h
      have := owns_disjoint S T N_u j (j - 1) _ hj (by omega) h
        (owns_pred S T N_u j v.threads_pos v.enough_subs h1 hj)
      omega
    exact hd (by simpa using hf) s2 hl (by rw [hb, fr _ hnot]) hc hf2

/-- The pass of a settled worker sets its flag and changes nothing else. -/
theorem ready_pass (j : Nat) (hj : j < T) (s s1 : Shared)
    (gs : GoodShared S T N_u table s)
    (hr : Ready sem fuel S T N_u size_out inp table j s)
    (e : decode_phase1 sem fuel (args_of S T N_u true false j) size_out inp table s = .ok s1) :
    s1.sync = s.sync ∧ s1.thread_synced.getD j false = true := by
  by_cases hf : s.thread_synced.getD j false = true
  · have : decode_phase1 sem fuel (args_of S T N_u true false j) size_out inp table s = .ok s := by
      unfold decode_phase1
      have e1 : (args_of S T N_u true false j).overflow = true := rfl
      have e2 : (args_of S T N_u true false j).thread_id = j := rfl
      rw [e1, e2, hf]
      simp
    rw [this] at e
    cases e
    exact ⟨rfl, hf⟩
  · rcases hr with h | h
    · exact absurd h hf
    · have := h s gs.sync_length rfl rfl (by simpa using hf)
      rw [this] at e
      cases e
      exact ⟨rfl, getD_set_eq _ _ _ _ (by rw [gs.flags_length]; exact hj)⟩

/-- A pass of worker `m` keeps worker `j` settled, provided worker `m` is
settled itself when it is the predecessor of `j`. -/
theorem ready_preserved (j m : Nat) (h1 : 1 ≤ j) (hj : j < T) (hm1 : 1 ≤ m) (hm : m < T)
    (s s1 : Shared) (gs : GoodShared S T N_u table s)
    (hr : Ready sem fuel S T N_u size_out inp table j s)
    (hpred : m + 1 = j → Ready sem fuel S T N_u size_out inp table m s)
    (e : decode_phase1 sem fuel (args_of S T N_u true false m) size_out inp table s = .ok s1) :
    Ready sem fuel S T N_u size_out inp table j s1 := by
  by_cases hmj : m = j
  · subst hmj
    exact Or.inl (ready_pass sem S T N_u size_out inp table v fuel hfuel m hm s s1 gs hr e).2
  · obtain ⟨s1', e', _, _, _, fr, ffl, _, _⟩ :=
      phase2_pass sem S T N_u size_out inp table v fuel hfuel m hm1 hm s gs
    rw [e] at e'
    cases e'
    have hflag : s1.thread_synced.getD j false = s.thread_synced.getD j false :=
      ffl j (fun h => hmj h.symm)
    have hown : s1.sync.getD (first_sub S T N_u j) default
        = s.sync.getD (first_sub S T N_u j) default := by
      apply fr
      intro h
      exact hmj (owns_disjoint S T N_u m j _ hm hj h
        (owns_first S T N_u j v.threads_pos v.enough_subs))
    have hprev : s1.sync.getD (first_sub S T N_u j - 1) default
        = s.sync.getD (first_sub S T N_u j - 1) default := by
      by_cases hp : m + 1 = j
      · rw [(ready_pass sem S T N_u size_out inp table v fuel hfuel m hm s s1 gs (hpred hp) e).1]
      · apply fr
        intro h
        have := owns_disjoint S T N_u m (j - 1) _ hm (by omega) h
          (owns_pred S T N_u j v.threads_pos v.enough_subs h1 hj)
        omega
    rcases hr with h | h
    · exact Or.inl (by rw [hflag]; exact h)
    · right
      intro s2 hl hb hc hf2
      exact h s2 hl (by rw [hb, hprev]) (by rw [hc, hown]) hf2

/-- A pass never clears a flag. -/
theorem flag_kept (j m : Nat) (hm1 : 1 ≤ m) (hm : m < T)
    (s s1 : Shared) (gs : GoodShared S T N_u table s)
    (hf : s.thread_synced.getD j false = true)
    (e : decode_phase1 sem fuel (args_of S T N_u true false m) size_out inp table s = .ok s1) :
    s1.thread_synced.getD j false = true := by
  obtain ⟨s1', e', _, _, _, _, ffl, hsame, _⟩ :=
    phase2_pass sem S T N_u size_out inp table v fuel hfuel m hm1 hm s gs
  rw [e] at e'
  cases e'
  by_cases hmj : m = j
  · subst hmj; rw [hsame hf]; exact hf
  · rw [ffl j (fun h => hmj h.symm)]; exact hf

end phase2

section rounds
variable (sem : ShiftSem) (S T N_u size_out : Nat) (inp : CUHDInputBuffer)
  (table : List CUHDCodetableItem) (v : ValidInput S T N_u inp table)
  (fuel : Nat) (hfuel : enough_fuel S T N_u table ≤ fuel)
include v hfuel

/-- One round of phase 2, run in any order over workers of `1..T-1`, when the
workers `1..k` are settled. -/
theorem phase2_round (k : Nat) (rest : List Nat) :
    ∀ s : Shared, (∀ m, m ∈ rest → 1 ≤ m ∧ m < T) → GoodShared S T N_u table s →
      (∀ j, 1 ≤ j → j ≤ k → j < T → Ready sem fuel S T N_u size_out inp table j s) →
      ∃ s1, run_workers sem fuel (planned S T N_u) S N_u T true false size_out inp table rest s
            = .ok s1
        ∧ GoodShared S T N_u table s1
        ∧ (∀ j, 1 ≤ j → j ≤ k → j < T → Ready sem fuel S T N_u size_out inp table j s1)
        ∧ (∀ j, s.thread_synced.getD j false = true → s1.thread_synced.getD j false = true)
        ∧ (∀ m, m ∈ rest → m ≤ k → s1.thread_synced.getD m false = true)
        ∧ (k + 1 < T → (Ready sem fuel S T N_u size_out inp table (k + 1) s ∨ k + 1 ∈ rest) →
            Ready sem fuel S T N_u size_out inp table (k + 1) s1)
        ∧ s1.out = s.out := by
  induction rest with
  | nil =>
    intro s _ gs hr
    exact ⟨s, rfl, gs, hr, fun _ h => h, fun m hm => absurd hm (List.not_mem_nil m),
      fun _ h => h.elim id (fun h => absurd h (List.not_mem_nil _)), rfl⟩
  | cons m rest ih =>
    intro s hmem gs hr
    have hm := hmem m (List.mem_cons_self m rest)
    obtain ⟨sa, ea, ga, oa, _, _, _, _, _⟩ :=
      phase2_pass sem S T N_u size_out inp table v fuel hfuel m hm.1 hm.2 s gs
    have ea' : decode_phase1 sem fuel (worker_args (planned S T N_u) S N_u T true false m)
        size_out inp table s = .ok sa := ea
    have hra : ∀ j, 1 ≤ j → j ≤ k → j < T →
        Ready sem fuel S T N_u size_out inp table j sa := by
      intro j h1 hk hT
      exact ready_preserved sem S T N_u size_out inp table v fuel hfuel j m h1 hT hm.1 hm.2 s sa
        gs (hr j h1 hk hT) (fun hp => hr m hm.1 (by omega) hm.2) ea
    obtain ⟨s1, e1, g1, r1, f1, d1, n1, o1⟩ :=
      ih sa (fun x hx => hmem x (List.mem_cons_of_mem m hx)) ga hra
    refine ⟨s1, ?_, g1, r1, ?_, ?_, ?_, by rw [o1, oa]⟩
    · rw [run_workers, ea']
      exact e1
    · intro j hf
      exact f1 j (flag_kept sem S T N_u size_out inp table v fuel hfuel j m hm.1 hm.2 s sa gs hf ea)
    · intro x hx hxk
      rcases List.mem_cons.mp hx with h | h
      · subst h
        exact f1 x (ready_pass sem S T N_u size_out inp table v fuel hfuel x hm.2 s sa gs
          (hr x hm.1 hxk hm.2) ea).2
      · exact d1 x h hxk
    · intro hkT hor
      apply n1 hkT
      rcases hor with h | h
      · left
        exact ready_preserved sem S T N_u size_out inp table v fuel hfuel (k + 1) m (by omega) hkT
          hm.1 hm.2 s sa gs h (fun hp => hr m hm.1 (by omega) hm.2) ea
      · rcases List.mem_cons.mp h with h | h
        · left
          rw [← h] at ea
          exact pass_ready sem S T N_u size_out inp table v fuel hfuel (k + 1) (by omega) hkT
            s sa gs ea
        · exact Or.inr h

/-- A round of phase 2 settles one more worker. -/
theorem phase2_round_inv (k : Nat) (order : List Nat)
    (hperm : order.Perm (List.range' 1 (T - 1))) (s : Shared)
    (hinv : Phase2Inv sem fuel S T N_u size_out inp table k s) :
    ∃ s1, run_workers sem fuel (planned S T N_u) S N_u T true false size_out inp table order s
          = .ok s1
      ∧ Phase2Inv sem fuel S T N_u size_out inp table (k + 1) s1 ∧ s1.out = s.out := by
  have hmem : ∀ m, m ∈ order ↔ 1 ≤ m ∧ m < T := by
    intro m
    rw [hperm.mem_iff, List.mem_range'_1]
    omega
  obtain ⟨s1, e1, g1, r1, f1, d1, n1, o1⟩ :=
    phase2_round sem S T N_u size_out inp table v fuel hfuel k order s
      (fun m hm => (hmem m).mp hm) hinv.good hinv.ready
  refine ⟨s1, e1, ⟨g1, ?_, ?_⟩, o1⟩
  · intro j h1 hk hT
    by_cases hjk : j ≤ k
    · exact r1 j h1 hjk hT
    · have : j = k + 1 := by omega
      subst this
      exact n1 hT (Or.inr ((hmem _).mpr ⟨h1, hT⟩))
  · intro j h1 hk hT
    exact d1 j ((hmem j).mpr ⟨h1, hT⟩) (by omega)

omit v hfuel in
/-- Once the workers `1..T-1` carry their flag the loop test succeeds. -/
theorem all_synced_of_inv (k : Nat) (hk : T ≤ k) (s : Shared)
    (hinv : Phase2Inv sem fuel S T N_u size_out inp table k s) :
    all_synced T s = true := by
  unfold all_synced
  rw [List.all_eq_true]
  intro j hj
  rw [List.mem_range'_1] at hj
  exact hinv.flagged j hj.1 (by omega) (by omega)

/-- The phase-2 loop, entered after `k < T` iterations, ends after at most `T`
iterations in all. -/
theorem phase2_loop_ok (order : Nat → List Nat)
    (hperm : ∀ k, (order k).Perm (List.range' 1 (T - 1))) (fuel2 : Nat) :
    ∀ (k : Nat) (s : Shared), k < T → T ≤ fuel2 + k →
      Phase2Inv sem fuel S T N_u size_out inp table k s →
      ∃ s1 n, phase2_loop sem fuel (planned S T N_u) S N_u T size_out inp table order fuel2 k s
            = .ok (s1, n)
        ∧ n ≤ T ∧ 1 ≤ n ∧ GoodShared S T N_u table s1 ∧ all_synced T s1 = true
        ∧ s1.out = s.out := by
  induction fuel2 with
  | zero => intro k s hk hf; omega
  | succ fuel2 ih =>
    intro k s hk hf hinv
    obtain ⟨sa, ea, ia, oa⟩ :=
      phase2_round_inv sem S T N_u size_out inp table v fuel hfuel k (order k) (hperm k) s hinv
    rw [phase2_loop, ea]
    by_cases hs : all_synced T sa = true
    · exact ⟨sa, k + 1, by simp [hs], by omega, by omega, ia.good, hs, oa⟩
    · have hk1 : k + 1 < T := by
        by_contra hc
        exact hs (all_synced_of_inv sem S T N_u size_out inp table fuel (k + 1) (by omega) sa ia)
      obtain ⟨s1, n, e1, hn, hn1, g1, a1, o1⟩ := ih (k + 1) sa hk1 (by omega) ia
      exact ⟨s1, n, by simp [hs, e1], hn, hn1, g1, a1, by rw [o1, oa]⟩

end rounds

section phases
variable (sem : ShiftSem) (S T N_u size_out : Nat) (inp : CUHDInputBuffer)
  (table : List CUHDCodetableItem) (v : ValidInput S T N_u inp table)
  (fuel : Nat) (hfuel : enough_fuel S T N_u table ≤ fuel)
include v hfuel

/-- Phase 1 over any list of workers: every worker returns, and the entries
of the workers that ran are usable sync points. -/
theorem phase1_round (rest : List Nat) :
    ∀ s : Shared, (∀ m, m ∈ rest → m < T) → s.sync.length = num_subsequences S N_u →
      ∃ s1, run_workers sem fuel (planned S T N_u) S N_u T false false size_out inp table rest s
            = .ok s1
        ∧ s1.thread_synced = s.thread_synced ∧ s1.sync.length = num_subsequences S N_u
        ∧ (∀ i, GoodEntry table.length S (s.sync.getD i default) →
            GoodEntry table.length S (s1.sync.getD i default))
        ∧ (∀ m, m ∈ rest → ∀ i, Owns S T N_u m i →
            GoodEntry table.length S (s1.sync.getD i default))
        ∧ s1.out = s.out := by
  induction rest with
  | nil =>
    intro s _ hl
    exact ⟨s, rfl, rfl, hl, fun _ h => h, fun m hm => absurd hm (List.not_mem_nil m), rfl⟩
  | cons m rest ih =>
    intro s hmem hl
    have hm := hmem m (List.mem_cons_self m rest)
    obtain ⟨sa, ea, fa, _, ua, la, ka, oa⟩ :=
      phase1_pass sem S T N_u size_out inp table v fuel hfuel m hm s hl
    have ea' : decode_phase1 sem fuel (worker_args (planned S T N_u) S N_u T false false m)
        size_out inp table s = .ok sa := ea
    have keep : ∀ i, GoodEntry table.length S (s.sync.getD i default) →
        GoodEntry table.length S (sa.sync.getD i default) := by
      intro i hi
      by_cases ho : Owns S T N_u m i
      · exact oa i ho
      · rw [ka i ho]; exact hi
    obtain ⟨s1, e1, f1, l1, k1, o1, u1⟩ :=
      ih sa (fun x hx => hmem x (List.mem_cons_of_mem m hx)) (by rw [la, hl])
    refine ⟨s1, ?_, by rw [f1, fa], l1, fun i hi => k1 i (keep i hi), ?_, by rw [u1, ua]⟩
    · rw [run_workers, ea']
      exact e1
    · intro x hx i ho
      rcases List.mem_cons.mp hx with h | h
      · subst h
        exact k1 i (oa i ho)
      · exact o1 x h i ho

end phases

/-! ## The stores of phase 3 -/

theorem writesFrom_nil (p bound : Nat) : WritesFrom p bound [] :=
  ⟨rfl, fun h => absurd rfl h⟩

theorem writesFrom_append (p bound : Nat) (w1 w2 : List (Nat × Nat))
    (h1 : WritesFrom p bound w1) (h2 : WritesFrom (p + w1.length) bound w2) :
    WritesFrom p bound (w1 ++ w2) := by
  obtain ⟨a1, b1⟩ := h1
  obtain ⟨a2, b2⟩ := h2
  constructor
  · rw [List.map_append, a1, a2, List.length_append, Nat.add_comm w1.length w2.length]
    exact List.range'_append_1 _ _ _
  · intro hne
    rw [List.length_append]
    by_cases hw2 : w2 = []
    · subst hw2
      have := b1 (by simpa using hne)
      simpa using this
    · have := b2 hw2
      omega

/-- The stores of one symbol step. -/
theorem symbol_step_writes (sem : ShiftSem) (table : List CUHDCodetableItem) (write : Bool)
    (fuel : Nat) (l l1 : Locals) (w : List (Nat × Nat))
    (h : symbol_step sem table write fuel l = .ok (l1, w)) :
    WritesFrom l.out_pos l.out_size w ∧ l1.out_pos = l.out_pos + w.length
      ∧ l1.out_size = l.out_size := by
  unfold symbol_step at h
  dsimp only at h
  split at h
  · cases h
  · simp only [Except.ok.injEq, Prod.mk.injEq] at h
    obtain ⟨h1, h2⟩ := h
    subst h1 h2
    by_cases hs : (write && l.reset && decide (l.out_pos < l.out_size)) = true
    · simp only [hs, if_true]
      have hlt : l.out_pos < l.out_size := by
        simp only [Bool.and_eq_true, decide_eq_true_eq] at hs
        exact hs.2
      refine ⟨⟨rfl, fun _ => ?_⟩, ?_⟩
      · show l.out_pos + 1 ≤ l.out_size
        omega
      · simp
    · simp only [hs]
      refine ⟨writesFrom_nil _ _, ?_⟩
      simp

/-- The stores of the symbol loop. -/
theorem symbol_loop_writes (sem : ShiftSem) (table : List CUHDCodetableItem) (write : Bool)
    (fuel0 : Nat) :
    ∀ n (l l1 : Locals) (w : List (Nat × Nat)),
      symbol_loop sem table write fuel0 n l = .ok (l1, w) →
      WritesFrom l.out_pos l.out_size w ∧ l1.out_pos = l.out_pos + w.length
        ∧ l1.out_size = l.out_size := by
  intro n
  induction n with
  | zero =>
    intro l l1 w h
    unfold symbol_loop at h
    split at h
    · cases h
    · simp only [Except.ok.injEq, Prod.mk.injEq] at h
      obtain ⟨h1, h2⟩ := h
      subst h1 h2
      exact ⟨writesFrom_nil _ _, rfl, rfl⟩
  | succ n ih =>
    intro l l1 w h
    unfold symbol_loop at h
    split at h
    · split at h
      · cases h
      · rename_i la wa ea
        split at h
        · cases h
        · rename_i lb wb eb
          simp only [Except.ok.injEq, Prod.mk.injEq] at h
          obtain ⟨h1, h2⟩ := h
          subst h1 h2
          obtain ⟨a1, a2, a3⟩ := symbol_step_writes sem table write fuel0 l la wa ea
          obtain ⟨b1, b2, b3⟩ := ih la lb wb eb
          rw [a2, a3] at b1
          refine ⟨writesFrom_append _ _ _ _ a1 b1, ?_, by rw [b3, a3]⟩
          rw [b2, a2, List.length_append]
          omega
    · simp only [Except.ok.injEq, Prod.mk.injEq] at h
      obtain ⟨h1, h2⟩ := h
      subst h1 h2
      exact ⟨writesFrom_nil _ _, rfl, rfl⟩

/-- In phase 3 the crossing block changes no shared array. -/
theorem crossing_phase3_eq (a : KernelArgs) (x : Locals) (s : Shared)
    (hov : a.overflow = false) (hw : a.write = true) :
    crossing a x s
      = .continue_ (if x.current_unit = a.subsequence_size then cross_locals a x else x) s := by
  unfold crossing
  by_cases hu : x.current_unit = a.subsequence_size
  · rw [if_pos hu, if_pos hu]
    simp [hov, hw, cross_locals]
  · rw [if_neg hu, if_neg hu]

theorem shared_append_nil (s : Shared) : { s with out := s.out ++ [] } = s := by
  cases s; simp

/-- The unit loop of a phase-3 pass appends to the output log a list of stores
that depends on the locals only: stores to consecutive positions from
`out_pos`, each below `out_size`. -/
theorem unit_loop_phase3_writes (sem : ShiftSem) (a : KernelArgs) (in_ptr : List Nat)
    (table : List CUHDCodetableItem) (fuel0 : Nat) (wf : WellFormedTable table)
    (hfuel0 : 33 * table.length < fuel0) (hov : a.overflow = false) (hw : a.write = true) :
    ∀ fuel l, table.length ≤ l.current_state → l.current_state < 2 * table.length →
      l.at_ < 32 → a.end_ ≤ l.in_pos + fuel →
      ∃ w, WritesFrom l.out_pos l.out_size w
        ∧ ∀ s, unit_loop sem a in_ptr table fuel0 fuel l s
            = .ok { s with out := s.out ++ w } := by
  intro fuel
  induction fuel with
  | zero =>
    intro l _ _ _ hend
    refine ⟨[], writesFrom_nil _ _, fun s => ?_⟩
    unfold unit_loop
    rw [if_neg (by omega), shared_append_nil]
  | succ fuel ih =>
    intro l h1 h2 h3 hend
    by_cases hin : l.in_pos < a.end_
    · obtain ⟨l1, w1, e1, p1⟩ := symbol_loop_spec sem table a.write fuel0 wf
        (by have := wf.1; omega) fuel0 l h1 h2 h3 (symbol_loop_fuel table fuel0 l hfuel0 h2)
      obtain ⟨q1, q2, q3⟩ := symbol_loop_writes sem table a.write fuel0 fuel0 l l1 w1 e1
      have hat1 := p1.at_le
      have hat2 := p1.at_ge
      generalize hx : ({ l1 with in_pos := l1.in_pos + 1,
                                 current_unit := (l1.current_unit + 1) % 2 ^ 32 } : Locals) = x
      have x1 : x.current_state = l1.current_state := by rw [← hx]
      have x2 : x.at_ = l1.at_ := by rw [← hx]
      have x3 : x.in_pos = l1.in_pos + 1 := by rw [← hx]
      have x4 : x.out_pos = l1.out_pos := by rw [← hx]
      have x5 : x.out_size = l1.out_size := by rw [← hx]
      generalize hy : (if x.current_unit = a.subsequence_size then cross_locals a x else x) = y
      have y1 : y.current_state = l1.current_state := by rw [← hy, ← x1]; split <;> rfl
      have y2 : y.at_ = l1.at_ := by rw [← hy, ← x2]; split <;> rfl
      have y3 : y.in_pos = l1.in_pos + 1 := by rw [← hy, ← x3]; split <;> rfl
      have y4 : y.out_pos = l1.out_pos := by rw [← hy, ← x4]; split <;> rfl
      have y5 : y.out_size = l1.out_size := by rw [← hy, ← x5]; split <;> rfl
      obtain ⟨w2, r1, r2⟩ := ih (refill sem in_ptr y)
        (by rw [refill_current_state, y1]; exact p1.state_ge)
        (by rw [refill_current_state, y1]; exact p1.state_lt)
        (by rw [refill_at _ _ _ (by rw [y2]; exact hat2) (by rw [y2]; exact hat1), y2]; omega)
        (by rw [refill_in_pos, y3, p1.in_pos]; omega)
      rw [refill_out_pos, refill_out_size, y4, y5, q2, q3] at r1
      refine ⟨w1 ++ w2, writesFrom_append _ _ _ _ q1 r1, fun s => ?_⟩
      unfold unit_loop
      rw [if_pos hin, e1]
      dsimp only
      rw [hx, crossing_phase3_eq a x _ hov hw, hy]
      dsimp only
      rw [r2]
      simp [List.append_assoc]
    · refine ⟨[], writesFrom_nil _ _, fun s => ?_⟩
      unfold unit_loop
      rw [if_neg hin, shared_append_nil]

theorem initial_locals_out (sem : ShiftSem) (a : KernelArgs) (size_out : Nat)
    (inp : CUHDInputBuffer) (s : Shared) (hw : a.write = true) :
    (initial_locals sem a size_out inp s).out_pos = s.out_positions.getD a.thread_id 0
      ∧ (initial_locals sem a size_out inp s).out_size
          = out_bound a.num_threads size_out s.out_positions a.thread_id := by
  simp only [initial_locals, hw, out_bound, ↓reduceIte, and_self]

theorem initial_locals_same (sem : ShiftSem) (a : KernelArgs) (size_out : Nat)
    (inp : CUHDInputBuffer) (s s2 : Shared) (h1 : s2.sync = s.sync)
    (h2 : s2.out_positions = s.out_positions) :
    initial_locals sem a size_out inp s2 = initial_locals sem a size_out inp s := by
  simp only [initial_locals, h1, h2]

/-- A phase-3 pass of worker `j` appends to the output log stores to the
consecutive positions `out_positions[j], out_positions[j] + 1, ...`, each below
the bound of the worker; the stores depend on `sync` and `out_positions` only. -/
theorem phase3_pass_writes (sem : ShiftSem) (S T N_u size_out : Nat) (inp : CUHDInputBuffer)
    (table : List CUHDCodetableItem) (v : ValidInput S T N_u inp table)
    (fuel : Nat) (hfuel : enough_fuel S T N_u table ≤ fuel)
    (j : Nat) (hj : j < T) (s : Shared) (gs : GoodShared S T N_u table s) :
    ∃ w, WritesFrom (s.out_positions.getD j 0) (out_bound T size_out s.out_positions j) w
      ∧ ∀ s2 : Shared, s2.sync = s.sync → s2.out_positions = s.out_positions →
          decode_phase1 sem fuel (args_of S T N_u false true j) size_out inp table s2
            = .ok { s2 with out := s2.out ++ w } := by
  obtain ⟨g1, g2, g3, g4, g5, g6, g7, g8, g9, g10, g11, g12, g13⟩ :=
    args_geometry S T N_u false true j v.size_pos v.threads_pos v.enough_subs v.units_lt hj
  have hfuel' : 33 * table.length + N_u + S + T + 2 ≤ fuel := hfuel
  have hstart : table.length
        ≤ (initial_locals sem (args_of S T N_u false true j) size_out inp s).current_state
      ∧ (initial_locals sem (args_of S T N_u false true j) size_out inp s).current_state
          < 2 * table.length
      ∧ (initial_locals sem (args_of S T N_u false true j) size_out inp s).at_ < 32
      ∧ (args_of S T N_u false true j).end_
          ≤ (initial_locals sem (args_of S T N_u false true j) size_out inp s).in_pos + fuel := by
    by_cases h0 : j = 0
    · subst h0
      generalize args_of S T N_u false true 0 = a at *
      refine ⟨?_, ?_, ?_, ?_⟩
      · simp only [initial_locals, g5, g6, g1]; simpa using v.state_ge
      · simp only [initial_locals, g5, g6, g1]; simpa using v.state_lt
      · simp only [initial_locals, g5, g6, g1]
        simp only [gt_iff_lt, lt_self_iff_false, decide_False, Bool.and_false, Bool.or_self,
          Bool.false_eq_true, ↓reduceIte]
        exact first_at_lt _ v.bit_pos v.bit_le
      · simp only [initial_locals, g5, g6, g1]
        simp only [gt_iff_lt, lt_self_iff_false, decide_False, Bool.and_false, Bool.or_self,
          Bool.false_eq_true, ↓reduceIte]
        omega
    · obtain ⟨b0, b1, b2, b3, b4, b5, b6, b7⟩ :=
        boot_locals sem S T N_u size_out inp table v false true rfl j (by omega) hj s gs
      exact ⟨b1, b2, b3, by omega⟩
  obtain ⟨o1, o2⟩ := initial_locals_out sem (args_of S T N_u false true j) size_out inp s g6
  rw [g1] at o1
  rw [g1, g4] at o2
  obtain ⟨w, hw, hrun⟩ := unit_loop_phase3_writes sem (args_of S T N_u false true j)
    inp.compressed_data table fuel v.table_ok (by omega) g5 g6 fuel _ hstart.1 hstart.2.1
    hstart.2.2.1 hstart.2.2.2
  rw [o1, o2] at hw
  refine ⟨w, hw, fun s2 e1 e2 => ?_⟩
  unfold decode_phase1
  rw [g5]
  simp only [Bool.false_and, Bool.false_eq_true, ↓reduceIte]
  rw [initial_locals_same sem _ size_out inp s s2 e1 e2]
  exact hrun s2

/-- The stores of thread `j` in phase 3. -/
theorem phase3_writes_ok (sem : ShiftSem) (S T N_u size_out : Nat) (inp : CUHDInputBuffer)
    (table : List CUHDCodetableItem) (v : ValidInput S T N_u inp table)
    (fuel : Nat) (hfuel : enough_fuel S T N_u table ≤ fuel)
    (j : Nat) (hj : j < T) (s : Shared) (gs : GoodShared S T N_u table s) :
    ∃ w, phase3_writes sem fuel S T N_u size_out inp table s.sync s.out_positions j = .ok w
      ∧ WritesFrom (s.out_positions.getD j 0) (out_bound T size_out s.out_positions j) w
      ∧ ∀ s2 : Shared, s2.sync = s.sync → s2.out_positions = s.out_positions →
          decode_phase1 sem fuel (args_of S T N_u false true j) size_out inp table s2
            = .ok { s2 with out := s2.out ++ w } := by
  obtain ⟨w, hw, hrun⟩ :=
    phase3_pass_writes sem S T N_u size_out inp table v fuel hfuel j hj s gs
  refine ⟨w, ?_, hw, hrun⟩
  unfold phase3_writes
  have := hrun { sync := s.sync, thread_synced := List.replicate T false,
                 out_positions := s.out_positions, out := [] } rfl rfl
  have e : worker_args (planned S T N_u) S N_u T false true j = args_of S T N_u false true j := rfl
  rw [e, this]
  rfl

/-! ## The run of `decode` -/

/-- Phase 3 over any list of workers: the log grows by the stores of the
workers, in the order in which they run. -/
theorem phase3_round (sem : ShiftSem) (S T N_u size_out : Nat) (inp : CUHDInputBuffer)
    (table : List CUHDCodetableItem) (fuel : Nat) (ws : Nat → List (Nat × Nat)) (s0 : Shared)
    (hws : ∀ j, j < T → ∀ s2 : Shared, s2.sync = s0.sync →
      s2.out_positions = s0.out_positions →
      decode_phase1 sem fuel (args_of S T N_u false true j) size_out inp table s2
        = .ok { s2 with out := s2.out ++ ws j })
    (rest : List Nat) :
    ∀ s : Shared, (∀ m, m ∈ rest → m < T) → s.sync = s0.sync →
      s.out_positions = s0.out_positions →
      run_workers sem fuel (planned S T N_u) S N_u T false true size_out inp table rest s
        = .ok { s with out := s.out ++ (rest.map ws).flatten } := by
  induction rest with
  | nil =>
    intro s _ _ _
    rw [run_workers]
    simp [shared_append_nil]
  | cons m rest ih =>
    intro s hmem h1 h2
    have hm := hmem m (List.mem_cons_self m rest)
    have ea : decode_phase1 sem fuel (worker_args (planned S T N_u) S N_u T false true m)
        size_out inp table s = .ok { s with out := s.out ++ ws m } := hws m hm s h1 h2
    rw [run_workers, ea]
    dsimp only
    rw [ih { s with out := s.out ++ ws m } (fun x hx => hmem x (List.mem_cons_of_mem m hx)) h1 h2]
    simp [List.append_assoc]

/-- The result of `decode` from the results of its first two phases: phase 3
changes the output log only, which is made of the stores of the phase-3 workers
in the order in which they ran. -/
theorem decode_of_phases (sem : ShiftSem) (S T N_u size_out : Nat) (inp : CUHDInputBuffer)
    (table : List CUHDCodetableItem) (v : ValidInput S T N_u inp table)
    (fuel : Nat) (hfuel : enough_fuel S T N_u table ≤ fuel)
    (sched : Schedule) (hs : sched.valid T) (junk : Nat → SubsequenceSyncPoint)
    (s1 s2 : Shared) (n : Nat)
    (e1 : run_workers sem fuel (planned S T N_u) S N_u T false false size_out inp table
        sched.phase1
        { sync := (List.range (num_subsequences S N_u)).map junk
          thread_synced := List.replicate T false
          out_positions := List.replicate T 0
          out := [] } = .ok s1)
    (e2 : phase2_loop sem fuel (planned S T N_u) S N_u T size_out inp table sched.phase2 fuel 0 s1
        = .ok (s2, n))
    (g2 : GoodShared S T N_u table s2) (u2 : s2.out = []) :
    ∃ r ws, decode sem fuel sched S T N_u size_out inp table junk = .ok r
      ∧ r.iterations = n ∧ r.shared.sync = s2.sync
      ∧ r.shared.thread_synced = s2.thread_synced
      ∧ r.shared.out_positions = prefix_sums s2.sync (num_subsequences S N_u) T
      ∧ r.shared.out = (sched.phase3.map ws).flatten
      ∧ ∀ j, j < T →
          phase3_writes sem fuel S T N_u size_out inp table r.shared.sync
              r.shared.out_positions j = .ok (ws j)
          ∧ WritesFrom (r.shared.out_positions.getD j 0)
              (out_bound T size_out r.shared.out_positions j) (ws j) := by
  have hT := v.threads_pos
  have hmemT : ∀ l : List Nat, l.Perm (List.range T) → ∀ m, m ∈ l → m < T := by
    intro l hl m hm
    exact List.mem_range.mp (hl.mem_iff.mp hm)
  generalize hsP : ({ s2 with out_positions := prefix_sums s2.sync (num_subsequences S N_u) T }
    : Shared) = sP
  have p1 : sP.sync = s2.sync := by rw [← hsP]
  have p2 : sP.thread_synced = s2.thread_synced := by rw [← hsP]
  have p3 : sP.out_positions = prefix_sums s2.sync (num_subsequences S N_u) T := by rw [← hsP]
  have p4 : sP.out = [] := by
    rw [← hsP]
    exact u2
  have gP : GoodShared S T N_u table sP :=
    ⟨by rw [p1]; exact g2.sync_length, by rw [p2]; exact g2.flags_length,
      by rw [p1]; exact g2.sync_good⟩
  have H : ∀ j, j < T → ∃ w,
      phase3_writes sem fuel S T N_u size_out inp table sP.sync sP.out_positions j = .ok w
      ∧ WritesFrom (sP.out_positions.getD j 0) (out_bound T size_out sP.out_positions j) w
      ∧ ∀ s2 : Shared, s2.sync = sP.sync → s2.out_positions = sP.out_positions →
          decode_phase1 sem fuel (args_of S T N_u false true j) size_out inp table s2
            = .ok { s2 with out := s2.out ++ w } :=
    fun j hj => phase3_writes_ok sem S T N_u size_out inp table v fuel hfuel j hj sP gP
  choose! ws h1 h2 h3 using H
  have e3 := phase3_round sem S T N_u size_out inp table fuel ws sP h3 sched.phase3 sP
    (hmemT _ hs.2.2) rfl rfl
  rw [p4, List.nil_append] at e3
  refine ⟨{ shared := { sP with out := (sched.phase3.map ws).flatten }, iterations := n }, ws,
    ?_, rfl, p1, p2, p3, rfl, fun j hj => ⟨h1 j hj, h2 j hj⟩⟩
  unfold decode
  simp only [get_decoder_intervals_eq S T N_u v.size_pos hT v.enough_subs, e1, e2,
    prefix_sum_eq _ _ _ hT, hsP, e3]

/-- On a valid input, under any valid schedule and whatever the fresh `sync`
array holds, `decode` returns, after at most `T` iterations of the phase-2
loop, with the flag of every worker `1..T-1` set; the output log is made of the
stores of the phase-3 workers, in the order in which they ran. -/
theorem decode_ok (sem : ShiftSem) (S T N_u size_out : Nat) (inp : CUHDInputBuffer)
    (table : List CUHDCodetableItem) (v : ValidInput S T N_u inp table)
    (fuel : Nat) (hfuel : enough_fuel S T N_u table ≤ fuel)
    (sched : Schedule) (hs : sched.valid T) (junk : Nat → SubsequenceSyncPoint) :
    ∃ r ws, decode sem fuel sched S T N_u size_out inp table junk = .ok r
      ∧ 1 ≤ r.iterations ∧ r.iterations ≤ T ∧ all_synced T r.shared = true
      ∧ GoodShared S T N_u table r.shared
      ∧ r.shared.out_positions = prefix_sums r.shared.sync (num_subsequences S N_u) T
      ∧ r.shared.out = (sched.phase3.map ws).flatten
      ∧ ∀ j, j < T →
          phase3_writes sem fuel S T N_u size_out inp table r.shared.sync
              r.shared.out_positions j = .ok (ws j)
          ∧ WritesFrom (r.shared.out_positions.getD j 0)
              (out_bound T size_out r.shared.out_positions j) (ws j) := by
  have hT := v.threads_pos
  have hmemT : ∀ l : List Nat, l.Perm (List.range T) → ∀ m, m ∈ l → m < T := by
    intro l hl m hm
    exact List.mem_range.mp (hl.mem_iff.mp hm)
  obtain ⟨s1, e1, f1, l1, _, o1, u1⟩ :=
    phase1_round sem S T N_u size_out inp table v fuel hfuel sched.phase1
      { sync := (List.range (num_subsequences S N_u)).map junk
        thread_synced := List.replicate T false
        out_positions := List.replicate T 0
        out := [] }
      (hmemT _ hs.1) (by simp)
  have g1 : GoodShared S T N_u table s1 := by
    refine ⟨l1, by rw [f1]; simp, ?_⟩
    intro i hi
    rw [l1] at hi
    obtain ⟨j, hj, ho⟩ := owns_cover S T N_u i hT v.enough_subs hi
    exact o1 j (hs.1.mem_iff.mpr (List.mem_range.mpr hj)) i ho
  have inv0 : Phase2Inv sem fuel S T N_u size_out inp table 0 s1 :=
    ⟨g1, fun j h1 h0 _ => by omega, fun j h1 h0 _ => by omega⟩
  have hf2 : T ≤ fuel + 0 := by
    have : enough_fuel S T N_u table ≤ fuel := hfuel
    unfold enough_fuel at this
    omega
  obtain ⟨s2, n, e2, hn, hn1, g2, a2, u2⟩ :=
    phase2_loop_ok sem S T N_u size_out inp table v fuel hfuel sched.phase2 hs.2.1 fuel 0 s1
      hT hf2 inv0
  obtain ⟨r, ws, e, q1, q2, q3, q4, q5, q6⟩ :=
    decode_of_phases sem S T N_u size_out inp table v fuel hfuel sched hs junk s1 s2 n e1 e2 g2
      (by rw [u2, u1])
  refine ⟨r, ws, e, by rw [q1]; exact hn1, by rw [q1]; exact hn, ?_, ?_, ?_, q5, q6⟩
  · unfold all_synced at a2 ⊢
    rw [q3]
    exact a2
  · exact ⟨by rw [q2]; exact g2.sync_length, by rw [q3]; exact g2.flags_length,
      by rw [q2]; exact g2.sync_good⟩
  · rw [q4, q2]

/-! ## Termination of `decode` -/

/-- The two-bit table is well formed. -/
theorem table_uniform4_ok : WellFormedTable table_uniform4 := by
  unfold WellFormedTable
  decide

/-- Eight units, `S = 4`, two threads, the two-bit table: a valid input, whatever
the units hold. -/
theorem valid_alternating (units : List Nat) :
    ValidInput 4 2 8 { input_alternating 8 with compressed_data := units } table_uniform4 :=
  { size_pos := by decide
    size_lt := by norm_num
    threads_pos := by decide
    enough_subs := by decide
    units_lt := by norm_num
    table_ok := table_uniform4_ok
    state_ge := by show 4 ≤ 6; decide
    state_lt := by show 6 < 2 * 4; decide
    bit_pos := by show 1 ≤ 31; decide
    bit_le := by show 31 ≤ 32; decide }

/-- The descending schedule is valid. -/
theorem descending_valid (T : Nat) : (descending T).valid T :=
  ⟨List.reverse_perm _, fun _ => List.reverse_perm _, List.reverse_perm _⟩

/-- The ascending schedule is valid. -/
theorem ascending_valid (T : Nat) : (ascending T).valid T :=
  ⟨List.Perm.refl _, fun _ => List.Perm.refl _, List.Perm.refl _⟩


/-- C9 (amended).  For every valid input (`0 < S < 2^32`, `T >= 1`, at least as
many subsequences as threads, `N_u + S < 2^64`, a well-formed table,
`first_state` in `[L, 2L)`, `first_bit` in `1..32`) and every order in which the
workers of a round finish, `decode` returns, the body of the phase-2 loop has run
at least once and at most `T` times, and on exit `thread_synced[i]` is set for
every `i` in `1..T-1`.  (Every loop is given `enough_fuel` iterations.) -/
theorem phase2_iterations_le_threads (sem : ShiftSem) (S T N_u size_out : Nat)
    (inp : CUHDInputBuffer) (table : List CUHDCodetableItem)
    (v : ValidInput S T N_u inp table) (fuel : Nat) (hfuel : enough_fuel S T N_u table ≤ fuel)
    (sched : Schedule) (hs : sched.valid T) (junk : Nat → SubsequenceSyncPoint) :
    ∃ r, decode sem fuel sched S T N_u size_out inp table junk = .ok r
      ∧ 1 ≤ r.iterations ∧ r.iterations ≤ T ∧ all_synced T r.shared = true := by
  obtain ⟨r, _, e, h1, h2, h3, _⟩ :=
    decode_ok sem S T N_u size_out inp table v fuel hfuel sched hs junk
  exact ⟨r, e, h1, h2, h3⟩

/-- Instance of `phase2_iterations_le_threads`: eight units `0x55555555`,
`S = 4`, two threads, ascending order. -/
theorem phase2_iterations_le_threads_witness :
    ValidInput 4 2 8 (input_alternating 8) table_uniform4
      ∧ enough_fuel 4 2 8 table_uniform4 ≤ 148
      ∧ (ascending 2).valid 2
      ∧ ∃ r, decode .zero 148 (ascending 2) 4 2 8 128 (input_alternating 8) table_uniform4
              no_junk = .ok r
          ∧ 1 ≤ r.iterations ∧ r.iterations ≤ 2 ∧ all_synced 2 r.shared = true :=
  ⟨valid_alternating _, by decide, ascending_valid 2,
    phase2_iterations_le_threads .zero 4 2 8 128 (input_alternating 8) table_uniform4
      (valid_alternating _) 148 (by decide) (ascending 2) (ascending_valid 2) no_junk⟩

/-- C10 (amended).  For a well-formed table and a valid configuration with
`0 < S < 2^32`, `T >= 1`, `N_s >= T`, `N_u + S < 2^64`, `first_state` in
`[L, 2L)` and `first_bit` in `1..32`, `decode` returns for every content `units`
of the compressed stream, under every order in which the workers of a round
finish and whatever the fresh `sync` array holds: no kernel pass and no loop of
`decode` needs more than `enough_fuel` iterations. -/
theorem decode_terminates (sem : ShiftSem) (S T N_u size_out : Nat)
    (inp : CUHDInputBuffer) (table : List CUHDCodetableItem)
    (v : ValidInput S T N_u inp table) (units : List Nat)
    (fuel : Nat) (hfuel : enough_fuel S T N_u table ≤ fuel)
    (sched : Schedule) (hs : sched.valid T) (junk : Nat → SubsequenceSyncPoint) :
    ∃ r, decode sem fuel sched S T N_u size_out { inp with compressed_data := units } table junk
      = .ok r := by
  have v2 : ValidInput S T N_u { inp with compressed_data := units } table :=
    { size_pos := v.size_pos
      size_lt := v.size_lt
      threads_pos := v.threads_pos
      enough_subs := v.enough_subs
      units_lt := v.units_lt
      table_ok := v.table_ok
      state_ge := v.state_ge
      state_lt := v.state_lt
      bit_pos := v.bit_pos
      bit_le := v.bit_le }
  obtain ⟨r, _, e, _⟩ :=
    decode_ok sem S T N_u size_out { inp with compressed_data := units } table v2 fuel hfuel
      sched hs junk
  exact ⟨r, e⟩

/-- Instance of `decode_terminates`: the stream of eight units `0x55555555` with
one bit of unit 3 flipped, two threads finishing in descending order. -/
theorem decode_terminates_witness :
    ValidInput 4 2 8 (input_alternating 8) table_uniform4
      ∧ enough_fuel 4 2 8 table_uniform4 ≤ 148
      ∧ (descending 2).valid 2
      ∧ ∃ r, decode .wrap 148 (descending 2) 4 2 8 128
              { input_alternating 8 with
                compressed_data := [0x55555555, 0x55555555, 0x55555555, 0x55515555,
                  0x55555555, 0x55555555, 0x55555555, 0x55555555, 0, 0] }
              table_uniform4 no_junk = .ok r :=
  ⟨valid_alternating _, by decide, descending_valid 2,
    decode_terminates .wrap 4 2 8 128 (input_alternating 8) table_uniform4
      (valid_alternating _) _ 148 (by decide) (descending 2) (descending_valid 2) no_junk⟩

/-! ## The stores of the threads in phase 3 -/

theorem writesFrom_mem (p bound : Nat) (w : List (Nat × Nat)) (h : WritesFrom p bound w)
    (x : Nat) (hx : x ∈ w.map Prod.fst) : p ≤ x ∧ x < p + w.length ∧ x < bound := by
  obtain ⟨h1, h2⟩ := h
  rw [h1, List.mem_range'_1] at hx
  have hne : w ≠ [] := by
    intro h0
    subst h0
    simp at hx
    omega
  have := h2 hne
  omega

/-- Without wrap-around the array of `prefix_sum` is non-decreasing. -/
theorem prefix_sums_mono (sync : List SubsequenceSyncPoint) (N_s T i j : Nat)
    (hsum : sum_symbols sync 0 ((T - 1) * (N_s / T)) < 2 ^ 32) (hij : i ≤ j) (hj : j < T) :
    (prefix_sums sync N_s T).getD i 0 ≤ (prefix_sums sync N_s T).getD j 0 := by
  rw [getD_prefix_sums sync N_s T i (by omega), getD_prefix_sums sync N_s T j hj]
  have h1 : sum_symbols sync 0 (i * (N_s / T)) ≤ sum_symbols sync 0 (j * (N_s / T)) :=
    sum_symbols_mono sync 0 _ _ (Nat.mul_le_mul_right _ hij)
  have h2 : sum_symbols sync 0 (j * (N_s / T)) ≤ sum_symbols sync 0 ((T - 1) * (N_s / T)) :=
    sum_symbols_mono sync 0 _ _ (Nat.mul_le_mul_right _ (by omega))
  rw [Nat.mod_eq_of_lt (by omega), Nat.mod_eq_of_lt (by omega)]
  exact h1

/-- C5 (amended).  On a valid input, under every order of the workers, `decode`
returns and its output log is made of the stores of the phase-3 workers in the
order in which they ran; thread `i` stores to the positions `out_positions[i]`,
`out_positions[i] + 1`, ... in this order, each one below its bound
(`out_positions[i+1]` for `i < T - 1`, `size_out` for the last thread); and when
the symbol counts recorded for the first `(T-1) * (N_s / T)` subsequences sum to
less than `2^32`, no position is stored to by two distinct threads. -/
theorem phase3_writes_increasing_disjoint (sem : ShiftSem) (S T N_u size_out : Nat)
    (inp : CUHDInputBuffer) (table : List CUHDCodetableItem)
    (v : ValidInput S T N_u inp table) (fuel : Nat) (hfuel : enough_fuel S T N_u table ≤ fuel)
    (sched : Schedule) (hs : sched.valid T) (junk : Nat → SubsequenceSyncPoint) :
    ∃ r ws, decode sem fuel sched S T N_u size_out inp table junk = .ok r
      ∧ r.shared.out = (sched.phase3.map ws).flatten
      ∧ (∀ i, i < T →
          phase3_writes sem fuel S T N_u size_out inp table r.shared.sync
              r.shared.out_positions i = .ok (ws i)
          ∧ (ws i).map Prod.fst
              = List.range' (r.shared.out_positions.getD i 0) (ws i).length
          ∧ ∀ p, p ∈ (ws i).map Prod.fst →
              p < out_bound T size_out r.shared.out_positions i)
      ∧ (sum_symbols r.shared.sync 0 ((T - 1) * (num_subsequences S N_u / T)) < 2 ^ 32 →
          ∀ i j, i < T → j < T → i ≠ j →
            ∀ p, p ∈ (ws i).map Prod.fst → p ∉ (ws j).map Prod.fst) := by
  obtain ⟨r, ws, e, _, _, _, _, hop, hout, hw⟩ :=
    decode_ok sem S T N_u size_out inp table v fuel hfuel sched hs junk
  refine ⟨r, ws, e, hout, fun i hi => ⟨(hw i hi).1, (hw i hi).2.1,
    fun p hp => (writesFrom_mem _ _ _ (hw i hi).2 p hp).2.2⟩, ?_⟩
  intro hsum
  have hT64 : T < 18446744073709551616 := by
    have h1 := v.enough_subs
    have h2 := (num_subsequences_spec S N_u v.size_pos)
    have h3 := v.units_lt
    have e64 : (2:Nat) ^ 64 = 18446744073709551616 := by norm_num
    rw [e64] at h3
    have h4 : num_subsequences S N_u ≤ N_u := by
      by_contra hc
      have a1 : (N_u + 1) * S ≤ num_subsequences S N_u * S :=
        Nat.mul_le_mul_right S (by omega)
      have a2 : N_u ≤ N_u * S := Nat.le_mul_of_pos_right N_u v.size_pos
      rw [Nat.succ_mul] at a1
      omega
    omega
  have key : ∀ i j, i < j → j < T → ∀ p, p ∈ (ws i).map Prod.fst →
      p ∈ (ws j).map Prod.fst → False := by
    intro i j hij hj p hpi hpj
    have a := (writesFrom_mem _ _ _ (hw i (by omega)).2 p hpi).2.2
    have b := (writesFrom_mem _ _ _ (hw j hj).2 p hpj).1
    have hb : out_bound T size_out r.shared.out_positions i
        = r.shared.out_positions.getD (i + 1) 0 := by
      unfold out_bound
      rw [sub64_of_le T 1 (by omega) hT64, if_pos (by omega)]
    rw [hb, hop] at a
    rw [hop] at b
    have := prefix_sums_mono r.shared.sync (num_subsequences S N_u) T (i + 1) j hsum
      (by omega) hj
    omega
  intro i j hi hj hne p hpi hpj
  rcases Nat.lt_or_gt_of_ne hne with h | h
  · exact key i j h hj p hpi hpj
  · exact key j i h hi p hpj hpi

/-- Instance of `phase3_writes_increasing_disjoint`: eight units `0x55555555`,
`S = 4`, two threads finishing in descending order. -/
theorem phase3_writes_increasing_disjoint_witness :
    ValidInput 4 2 8 (input_alternating 8) table_uniform4
      ∧ enough_fuel 4 2 8 table_uniform4 ≤ 148
      ∧ (descending 2).valid 2
      ∧ ∃ r ws, decode .zero 148 (descending 2) 4 2 8 128 (input_alternating 8) table_uniform4
              no_junk = .ok r
          ∧ r.shared.out = ((descending 2).phase3.map ws).flatten
          ∧ (∀ i, i < 2 →
              phase3_writes .zero 148 4 2 8 128 (input_alternating 8) table_uniform4
                  r.shared.sync r.shared.out_positions i = .ok (ws i)
              ∧ (ws i).map Prod.fst
                  = List.range' (r.shared.out_positions.getD i 0) (ws i).length
              ∧ ∀ p, p ∈ (ws i).map Prod.fst →
                  p < out_bound 2 128 r.shared.out_positions i)
          ∧ (sum_symbols r.shared.sync 0 ((2 - 1) * (num_subsequences 4 8 / 2)) < 2 ^ 32 →
              ∀ i j, i < 2 → j < 2 → i ≠ j →
                ∀ p, p ∈ (ws i).map Prod.fst → p ∉ (ws j).map Prod.fst) :=
  ⟨valid_alternating _, by decide, descending_valid 2,
    phase3_writes_increasing_disjoint .zero 4 2 8 128 (input_alternating 8) table_uniform4
      (valid_alternating _) 148 (by decide) (descending 2) (descending_valid 2) no_junk⟩

/-! ## The run of `decode` on a table with long runs of symbols that read no bit -/

theorem length_chain_table (L : Nat) : (chain_table L).length = L := by
  simp [chain_table]

theorem getD_chain_table (L i : Nat) (hi : i < L) :
    (chain_table L).getD i default
      = if i = 0 then ⟨0, L - 1, 1⟩ else ⟨1, L + i - 1, 0⟩ := by
  unfold chain_table
  rw [List.getD_eq_getElem?_getD, List.getElem?_map, List.getElem?_range hi]
  rfl

theorem chain_table_ok (L : Nat) (h2 : 2 ≤ L) (hL : L ≤ 2147483648) :
    WellFormedTable (chain_table L) := by
  unfold WellFormedTable
  rw [length_chain_table]
  refine ⟨by omega, by norm_num; omega, fun i hi => ?_⟩
  rw [getD_chain_table L i hi]
  by_cases h0 : i = 0
  · subst h0
    simp only [↓reduceIte]
    refine ⟨by omega, ?_, fun h => by omega⟩
    show (L - 1 + 1) * 2 ^ 1 ≤ 2 * L
    omega
  · simp only [h0, ↓reduceIte]
    refine ⟨by omega, ?_, fun _ => by omega⟩
    show (L + i - 1 + 1) * 2 ^ 0 ≤ 2 * L
    omega

theorem shl32_zero (sem : ShiftSem) (k : Nat) : shl32 sem 0 k = 0 := by
  unfold shl32
  cases sem <;> simp

theorem shr32_zero (sem : ShiftSem) (k : Nat) : shr32 sem 0 k = 0 := by
  unfold shr32
  cases sem <;> simp

theorem renormalize_done (sem : ShiftSem) (L window fuel s t : Nat) (h : L ≤ s) :
    renormalize sem L window fuel s t = .ok (s, t) := by
  cases fuel <;> unfold renormalize <;> rw [if_neg (by omega)]

/-- One symbol step on the table `chain_table L` over a window of zeros. -/
theorem chain_step (sem : ShiftSem) (L : Nat) (write : Bool) (fuel : Nat) (l : Locals)
    (h2 : 2 ≤ L) (hL : L ≤ 2147483648) (i : Nat) (hi : i < L)
    (hs : l.current_state = L + i) (hat : l.at_ < 32) (hw0 : l.window = 0) (hn0 : l.next = 0) :
    ∃ w, symbol_step sem (chain_table L) write fuel l
        = .ok ({ l with
                 current_state := if i = 0 then 2 * L - 2 else L + i - 1
                 at_ := if i = 0 then l.at_ + 1 else l.at_
                 last_state := L + i
                 last_bit := l.at_
                 num_symbols := (l.num_symbols + 1) % 4294967296
                 out_pos := l.out_pos + w.length }, w)
      ∧ w.length = if (write && l.reset && decide (l.out_pos < l.out_size)) = true then 1 else 0 := by
  have e32 : (2:Nat) ^ 32 = 4294967296 := by norm_num
  have e8 : (2:Nat) ^ 8 = 256 := by norm_num
  have hidx : sub64 l.current_state L = i := by
    rw [hs, sub64_of_le _ _ (by omega) (by omega)]
    omega
  unfold symbol_step
  simp only [length_chain_table, hidx, getD_chain_table L i hi, hw0, hn0, shr32_zero, shl32_zero,
    Nat.and_zero, Nat.add_zero, Nat.zero_mod, ite_self, e32, e8]
  by_cases h0 : i = 0
  · subst h0
    simp only [↓reduceIte]
    rw [shl32_one sem (L - 1) (by omega)]
    rw [Nat.mod_eq_of_lt (by omega), renormalize_done sem L 0 fuel _ 1 (by omega)]
    dsimp only
    rw [Nat.mod_eq_of_lt (by omega : l.at_ + 1 < 256)]
    have e1 : 2 * (L - 1) = 2 * L - 2 := by omega
    by_cases hst : (write && l.reset && decide (l.out_pos < l.out_size)) = true
    · refine ⟨[(l.out_pos, 0)], ?_, by simp [hst]⟩
      simp only [hst, ↓reduceIte, e1, hs, List.length_singleton]
    · refine ⟨[], ?_, by simp [hst]⟩
      simp only [hst, ↓reduceIte, e1, hs, List.length_nil, Nat.add_zero]
      rfl
  · simp only [h0, ↓reduceIte]
    rw [shl32_of_lt sem (L + i - 1) 0 (by norm_num) (by omega)]
    simp only [pow_zero, Nat.mul_one]
    rw [Nat.mod_eq_of_lt (by omega), renormalize_done sem L 0 fuel _ 0 (by omega)]
    dsimp only
    simp only [Nat.add_zero]
    rw [Nat.mod_eq_of_lt (by omega : l.at_ < 256)]
    by_cases hst : (write && l.reset && decide (l.out_pos < l.out_size)) = true
    · refine ⟨[(l.out_pos, 1)], ?_, by simp [hst]⟩
      simp only [hst, ↓reduceIte, hs, List.length_singleton]
    · refine ⟨[], ?_, by simp [hst]⟩
      simp only [hst, ↓reduceIte, hs, List.length_nil, Nat.add_zero]
      rfl

/-- The symbol loop on the table `chain_table L` over a window of zeros, from
state `L + i` at bit `at`: it decodes `i + 1 + (31 - at) * (L - 1)` symbols and
ends in state `2 * L - 2`, the last symbol read from state `L` at bit 31. -/
theorem chain_loop (sem : ShiftSem) (L : Nat) (write : Bool) (fuel0 : Nat)
    (h2 : 2 ≤ L) (hL : L ≤ 2147483648) :
    ∀ n (l : Locals) (i : Nat), i < L → l.current_state = L + i → l.at_ < 32 →
      l.window = 0 → l.next = 0 → i + 1 + (31 - l.at_) * (L - 1) ≤ n →
      ∃ w, symbol_loop sem (chain_table L) write fuel0 n l
          = .ok ({ l with
                   current_state := 2 * L - 2
                   at_ := 32
                   last_state := L
                   last_bit := 31
                   num_symbols :=
                     (l.num_symbols + (i + 1 + (31 - l.at_) * (L - 1))) % 4294967296
                   out_pos := l.out_pos + w.length }, w)
        ∧ w.length = if (write && l.reset) = true
            then min (i + 1 + (31 - l.at_) * (L - 1)) (l.out_size - l.out_pos) else 0 := by
  intro n
  induction n with
  | zero => intro l i _ _ _ _ _ h; omega
  | succ n ih =>
    intro l i hi hs hat hw0 hn0 hn
    obtain ⟨w1, e1, len1⟩ := chain_step sem L write fuel0 l h2 hL i hi hs hat hw0 hn0
    unfold symbol_loop
    rw [if_pos (by unfold bits_in_unit; exact hat), e1]
    dsimp only
    by_cases h0 : i = 0
    · subst h0
      simp only [↓reduceIte] at e1 ⊢
      by_cases ha : l.at_ + 1 < 32
      · have hprod : (31 - l.at_) * (L - 1) = (31 - (l.at_ + 1)) * (L - 1) + (L - 1) := by
          have : 31 - l.at_ = (31 - (l.at_ + 1)) + 1 := by omega
          rw [this, Nat.succ_mul]
        obtain ⟨w2, e2, len2⟩ := ih
          { l with current_state := 2 * L - 2, at_ := l.at_ + 1, last_state := L + 0,
                   last_bit := l.at_, num_symbols := (l.num_symbols + 1) % 4294967296,
                   out_pos := l.out_pos + w1.length }
          (L - 2) (by omega) (by show 2 * L - 2 = L + (L - 2); omega) ha hw0 hn0
          (by show L - 2 + 1 + (31 - (l.at_ + 1)) * (L - 1) ≤ n; omega)
        dsimp only at e2 len2
        rw [e2]
        refine ⟨w1 ++ w2, ?_, ?_⟩
        · simp only [Except.ok.injEq, Prod.mk.injEq, Locals.mk.injEq, and_true, true_and,
            List.length_append]
          exact ⟨by omega, by omega⟩
        · rw [List.length_append]
          by_cases hwr : (write && l.reset) = true
          · by_cases hlt : l.out_pos < l.out_size
            · simp only [hwr, hlt, decide_True, Bool.and_self, ↓reduceIte] at len1 len2 ⊢
              omega
            · simp only [hwr, hlt, decide_False, Bool.and_false, Bool.false_eq_true,
                ↓reduceIte] at len1 len2 ⊢
              omega
          · simp only [hwr, Bool.false_and, Bool.false_eq_true, ↓reduceIte] at len1 len2 ⊢
            omega
      · have ha31 : l.at_ = 31 := by omega
        rw [symbol_loop_done sem _ write fuel0 n _ (by show 32 ≤ l.at_ + 1; omega)]
        refine ⟨w1 ++ [], ?_, ?_⟩
        · simp only [Except.ok.injEq, Prod.mk.injEq, Locals.mk.injEq, and_true, true_and,
            List.append_nil, ha31]
          simp
        · rw [List.append_nil, len1, ha31]
          by_cases hwr : (write && l.reset) = true
          · by_cases hlt : l.out_pos < l.out_size
            · simp only [hwr, hlt, decide_True, Bool.and_self, ↓reduceIte]
              omega
            · simp only [hwr, hlt, decide_False, Bool.and_false, Bool.false_eq_true,
                ↓reduceIte]
              omega
          · simp only [hwr, Bool.false_and, Bool.false_eq_true, ↓reduceIte]
    · simp only [h0, ↓reduceIte] at e1 ⊢
      obtain ⟨w2, e2, len2⟩ := ih
        { l with current_state := L + i - 1, at_ := l.at_, last_state := L + i,
                 last_bit := l.at_, num_symbols := (l.num_symbols + 1) % 4294967296,
                 out_pos := l.out_pos + w1.length }
        (i - 1) (by omega) (by show L + i - 1 = L + (i - 1); omega) hat hw0 hn0
        (by show i - 1 + 1 + (31 - l.at_) * (L - 1) ≤ n; omega)
      dsimp only at e2 len2
      rw [e2]
      refine ⟨w1 ++ w2, ?_, ?_⟩
      · simp only [Except.ok.injEq, Prod.mk.injEq, Locals.mk.injEq, and_true, true_and,
          List.length_append]
        exact ⟨by omega, by omega⟩
      · rw [List.length_append]
        by_cases hwr : (write && l.reset) = true
        · by_cases hlt : l.out_pos < l.out_size
          · simp only [hwr, hlt, decide_True, Bool.and_self, ↓reduceIte] at len1 len2 ⊢
            omega
          · simp only [hwr, hlt, decide_False, Bool.and_false, Bool.false_eq_true,
              ↓reduceIte] at len1 len2 ⊢
            omega
        · simp only [hwr, Bool.false_and, Bool.false_eq_true, ↓reduceIte] at len1 len2 ⊢
          omega

theorem zero_units (n k : Nat) : (List.replicate n 0).getD k 0 = 0 := by
  rw [List.getD_eq_getElem?_getD, List.getElem?_replicate]
  split <;> rfl

theorem unit_loop_done (sem : ShiftSem) (a : KernelArgs) (in_ptr : List Nat)
    (table : List CUHDCodetableItem) (fuel0 fuel : Nat) (l : Locals) (s : Shared)
    (h : ¬ l.in_pos < a.end_) : unit_loop sem a in_ptr table fuel0 fuel l s = .ok s := by
  cases fuel <;> unfold unit_loop <;> rw [if_neg h]

theorem refill_full (sem : ShiftSem) (in_ptr : List Nat) (l : Locals) (h : l.at_ = 32) :
    refill sem in_ptr l
      = { l with window := in_ptr.getD l.in_pos 0, next := in_ptr.getD (l.in_pos + 1) 0,
                 at_ := 0 } := by
  unfold refill
  rw [if_pos (by unfold bits_in_unit; exact h)]

/-- The arguments of the three workers on twelve units with `S = 4`. -/
theorem args_chain (ov wr : Bool) (j : Nat) (hj : j < 3) :
    args_of 4 3 12 ov wr j
      = { thread_id := j, begin := 4 * j, end_ := 4 * j + 4, subsequence := j,
          subsequence_size := 4, num_units := 12, num_threads := 3, overflow := ov,
          write := wr } := by
  interval_cases j <;> rfl

/-- One pass through the body of the unit loop on the table `chain_table L`
over units of zeros. -/
theorem chain_unit (sem : ShiftSem) (L : Nat) (a : KernelArgs) (n fuel0 : Nat)
    (h2 : 2 ≤ L) (hL : L ≤ 2147483648) (f : Nat) (l : Locals) (s : Shared)
    (i : Nat) (hi : i < L) (hs : l.current_state = L + i) (hat : l.at_ < 32)
    (hw0 : l.window = 0) (hn0 : l.next = 0)
    (hfuel : i + 1 + (31 - l.at_) * (L - 1) ≤ fuel0) (hin : l.in_pos < a.end_) :
    ∃ w, (w.length = if (a.write && l.reset) = true
            then min (i + 1 + (31 - l.at_) * (L - 1)) (l.out_size - l.out_pos) else 0)
      ∧ unit_loop sem a (List.replicate n 0) (chain_table L) fuel0 (f + 1) l s
        = match crossing a
              { l with current_state := 2 * L - 2, at_ := 32, last_state := L, last_bit := 31,
                       num_symbols :=
                         (l.num_symbols + (i + 1 + (31 - l.at_) * (L - 1))) % 4294967296,
                       out_pos := l.out_pos + w.length, in_pos := l.in_pos + 1,
                       current_unit := (l.current_unit + 1) % 4294967296 }
              { s with out := s.out ++ w } with
          | .returned s2 => .ok s2
          | .continue_ l3 s3 =>
              unit_loop sem a (List.replicate n 0) (chain_table L) fuel0 f
                (refill sem (List.replicate n 0) l3) s3 := by
  obtain ⟨w, e, len⟩ := chain_loop sem L a.write fuel0 h2 hL fuel0 l i hi hs hat hw0 hn0 hfuel
  refine ⟨w, len, ?_⟩
  have e32 : (2:Nat) ^ 32 = 4294967296 := by norm_num
  rw [unit_loop, if_pos hin, e, e32]

/-- A pass through the body of the unit loop that does not end a subsequence,
on the table `chain_table L` over units of zeros. -/
theorem chain_unit_plain (sem : ShiftSem) (L : Nat) (a : KernelArgs) (n fuel0 : Nat)
    (h2 : 2 ≤ L) (hL : L ≤ 2147483648) (f : Nat) (l : Locals) (s : Shared)
    (i : Nat) (hi : i < L) (hs : l.current_state = L + i) (hat : l.at_ < 32)
    (hw0 : l.window = 0) (hn0 : l.next = 0)
    (hfuel : i + 1 + (31 - l.at_) * (L - 1) ≤ fuel0) (hin : l.in_pos < a.end_)
    (hu : (l.current_unit + 1) % 4294967296 ≠ a.subsequence_size) :
    ∃ w, (w.length = if (a.write && l.reset) = true
            then min (i + 1 + (31 - l.at_) * (L - 1)) (l.out_size - l.out_pos) else 0)
      ∧ unit_loop sem a (List.replicate n 0) (chain_table L) fuel0 (f + 1) l s
        = unit_loop sem a (List.replicate n 0) (chain_table L) fuel0 f
            { l with current_state := 2 * L - 2, at_ := 0, last_state := L, last_bit := 31,
                     num_symbols :=
                       (l.num_symbols + (i + 1 + (31 - l.at_) * (L - 1))) % 4294967296,
                     out_pos := l.out_pos + w.length, in_pos := l.in_pos + 1,
                     current_unit := (l.current_unit + 1) % 4294967296 }
            { s with out := s.out ++ w } := by
  obtain ⟨w, len, e⟩ := chain_unit sem L a n fuel0 h2 hL f l s i hi hs hat hw0 hn0 hfuel hin
  refine ⟨w, len, ?_⟩
  rw [e, crossing_of_ne _ _ _ hu]
  dsimp only
  rw [refill_full _ _ _ rfl]
  simp only [zero_units, hw0, hn0]

/-- A run of `m + 1` passes through the body of the unit loop inside one
subsequence, on the table `chain_table L` over units of zeros. -/
theorem chain_units (sem : ShiftSem) (L : Nat) (a : KernelArgs) (n fuel0 : Nat)
    (h2 : 2 ≤ L) (hL : L ≤ 2147483648) (hf0 : 32 * (L - 1) ≤ fuel0)
    (hS : a.subsequence_size ≤ 4294967296) :
    ∀ (m f : Nat) (l : Locals) (s : Shared) (i : Nat), i < L → l.current_state = L + i →
      l.at_ < 32 → l.window = 0 → l.next = 0 → i + 1 + (31 - l.at_) * (L - 1) ≤ fuel0 →
      l.in_pos + m < a.end_ → l.current_unit + m + 1 < a.subsequence_size →
      ∃ w, (w.length = if (a.write && l.reset) = true
              then min (i + 1 + (31 - l.at_) * (L - 1) + m * (32 * (L - 1)))
                (l.out_size - l.out_pos) else 0)
        ∧ unit_loop sem a (List.replicate n 0) (chain_table L) fuel0 (f + (m + 1)) l s
          = unit_loop sem a (List.replicate n 0) (chain_table L) fuel0 f
              { l with current_state := 2 * L - 2, at_ := 0, last_state := L, last_bit := 31,
                       num_symbols :=
                         (l.num_symbols + (i + 1 + (31 - l.at_) * (L - 1) + m * (32 * (L - 1))))
                           % 4294967296,
                       out_pos := l.out_pos + w.length, in_pos := l.in_pos + (m + 1),
                       current_unit := l.current_unit + (m + 1) }
              { s with out := s.out ++ w } := by
  intro m
  induction m with
  | zero =>
    intro f l s i hi hs hat hw0 hn0 hfuel hin hu
    have hmod : (l.current_unit + 1) % 4294967296 = l.current_unit + 1 :=
      Nat.mod_eq_of_lt (by omega)
    obtain ⟨w, len, e⟩ := chain_unit_plain sem L a n fuel0 h2 hL f l s i hi hs hat hw0 hn0 hfuel
      (by omega) (by rw [hmod]; omega)
    refine ⟨w, ?_, ?_⟩
    · rw [len]; simp
    · rw [e, hmod]
      simp
  | succ m ih =>
    intro f l s i hi hs hat hw0 hn0 hfuel hin hu
    have hmod : (l.current_unit + 1) % 4294967296 = l.current_unit + 1 :=
      Nat.mod_eq_of_lt (by omega)
    obtain ⟨w1, len1, e1⟩ := chain_unit_plain sem L a n fuel0 h2 hL (f + (m + 1)) l s i hi hs hat
      hw0 hn0 hfuel (by omega) (by rw [hmod]; omega)
    rw [hmod] at e1
    obtain ⟨w2, len2, e2⟩ := ih f
      { l with current_state := 2 * L - 2, at_ := 0, last_state := L, last_bit := 31,
               num_symbols := (l.num_symbols + (i + 1 + (31 - l.at_) * (L - 1))) % 4294967296,
               out_pos := l.out_pos + w1.length, in_pos := l.in_pos + 1,
               current_unit := l.current_unit + 1 }
      { s with out := s.out ++ w1 } (L - 2) (by omega) (by show 2 * L - 2 = L + (L - 2); omega)
      (by show 0 < 32; omega) hw0 hn0
      (by show L - 2 + 1 + (31 - 0) * (L - 1) ≤ fuel0; omega)
      (by show l.in_pos + 1 + m < a.end_; omega)
      (by show l.current_unit + 1 + m + 1 < a.subsequence_size; omega)
    dsimp only at e2 len2
    have hsucc : (m + 1) * (32 * (L - 1)) = m * (32 * (L - 1)) + 32 * (L - 1) := Nat.succ_mul _ _
    have hK : L - 2 + 1 + (31 - 0) * (L - 1) = 32 * (L - 1) := by omega
    rw [hK] at e2 len2
    refine ⟨w1 ++ w2, ?_, ?_⟩
    · rw [List.length_append, hsucc]
      by_cases hwr : (a.write && l.reset) = true
      · simp only [hwr, ↓reduceIte] at len1 len2 ⊢
        omega
      · simp only [hwr, Bool.false_eq_true, ↓reduceIte] at len1 len2 ⊢
        omega
    · have hfe : f + (m + 1 + 1) = f + (m + 1) + 1 := by omega
      rw [hfe, e1, e2, hsucc]
      congr 1
      · simp only [Locals.mk.injEq, and_true, true_and, List.length_append]
        refine ⟨by omega, by omega, by omega, by omega⟩
      · simp [List.append_assoc]

/-- A phase-1 pass of worker `j` on the zero units records the entry
`{L, 31, 3, count mod 2^32}` for subsequence `j`, where `count` is
`127 * (L - 1)` for worker 0, which starts at bit 1, and `128 * (L - 1)` for the
others. -/
theorem chain_phase1 (sem : ShiftSem) (L : Nat) (h2 : 2 ≤ L) (hL : L ≤ 2147483648)
    (fuel size_out : Nat) (hfuel : 32 * L + 5 ≤ fuel) (j : Nat) (hj : j < 3) (s : Shared) :
    decode_phase1 sem fuel (args_of 4 3 12 false false j) size_out (input_zero L) (chain_table L) s
      = .ok { s with
              sync := s.sync.set j
                (SubsequenceSyncPoint.mk L 31 3
                  (((if j = 0 then 127 else 128) * (L - 1)) % 4294967296)) } := by
  obtain ⟨f, rfl⟩ : ∃ f, fuel = f + 4 := ⟨fuel - 4, by omega⟩
  rw [args_chain false false j hj]
  unfold decode_phase1
  simp only [Bool.false_and, Bool.false_eq_true, ↓reduceIte]
  have hinit : initial_locals sem
      { thread_id := j, begin := 4 * j, end_ := 4 * j + 4, subsequence := j, subsequence_size := 4,
        num_units := 12, num_threads := 3, overflow := false, write := false }
      size_out (input_zero L) s
      = { current_state := 2 * L - 2, at_ := if j = 0 then 1 else 0, in_pos := 4 * j, out_pos := 0,
          out_size := 0, current_subsequence := j, current_unit := 0, window := 0, next := 0,
          last_state := 0, last_bit := 0, reset := false, num_symbols := 0 } := by
    have e1 : sub64 bits_in_unit 31 = 1 := by
      unfold bits_in_unit
      rw [sub64_of_le 32 31 (by omega) (by omega)]
    simp only [initial_locals, input_zero, zero_units, shr32_zero, shl32_zero, e1,
      Bool.false_and, Bool.or_self, Bool.false_eq_true, ↓reduceIte, Nat.add_zero, Nat.zero_mod]
    by_cases h0 : j = 0 <;> simp [h0]
  rw [hinit]
  clear hinit
  have hat : (if j = 0 then 1 else 0) < 32 := by split <;> omega
  have hK : (31 - (if j = 0 then 1 else 0)) * (L - 1) ≤ 31 * (L - 1) :=
    Nat.mul_le_mul_right _ (by omega)
  obtain ⟨w1, len1, e1⟩ := chain_units sem L
    { thread_id := j, begin := 4 * j, end_ := 4 * j + 4, subsequence := j, subsequence_size := 4,
      num_units := 12, num_threads := 3, overflow := false, write := false }
    14 (f + 4) h2 hL (by omega) (by show 4 ≤ 4294967296; omega) 2 (f + 1)
    { current_state := 2 * L - 2, at_ := if j = 0 then 1 else 0, in_pos := 4 * j, out_pos := 0,
      out_size := 0, current_subsequence := j, current_unit := 0, window := 0, next := 0,
      last_state := 0, last_bit := 0, reset := false, num_symbols := 0 }
    s (L - 2) (by omega) (by show 2 * L - 2 = L + (L - 2); omega) hat rfl rfl
    (by show L - 2 + 1 + (31 - (if j = 0 then 1 else 0)) * (L - 1) ≤ f + 4; omega)
    (by show 4 * j + 2 < 4 * j + 4; omega) (by show 0 + 2 + 1 < 4; omega)
  have hw1 : w1 = [] := by
    simp only [Bool.false_and, Bool.false_eq_true, ↓reduceIte] at len1
    exact List.length_eq_zero.mp len1
  subst hw1
  dsimp only at e1
  clear len1
  obtain ⟨w2, len2, e2⟩ := chain_unit sem L
    { thread_id := j, begin := 4 * j, end_ := 4 * j + 4, subsequence := j, subsequence_size := 4,
      num_units := 12, num_threads := 3, overflow := false, write := false }
    14 (f + 4) h2 hL f
    { current_state := 2 * L - 2, at_ := 0, in_pos := 4 * j + (2 + 1),
      out_pos := 0 + ([] : List (Nat × Nat)).length,
      out_size := 0, current_subsequence := j, current_unit := 0 + (2 + 1), window := 0, next := 0,
      last_state := L, last_bit := 31, reset := false,
      num_symbols := (0 + (L - 2 + 1 + (31 - (if j = 0 then 1 else 0)) * (L - 1)
        + 2 * (32 * (L - 1)))) % 4294967296 }
    { s with out := s.out ++ [] }
    (L - 2) (by omega) (by show 2 * L - 2 = L + (L - 2); omega) (by show 0 < 32; omega) rfl rfl
    (by show L - 2 + 1 + (31 - 0) * (L - 1) ≤ f + 4; omega)
    (by show 4 * j + (2 + 1) < 4 * j + 4; omega)
  have hw2 : w2 = [] := by
    simp only [Bool.false_and, Bool.false_eq_true, ↓reduceIte] at len2
    exact List.length_eq_zero.mp len2
  subst hw2
  dsimp only at e2
  clear len2
  show unit_loop sem _ (List.replicate 14 0) (chain_table L) (f + 4) (f + 1 + (2 + 1)) _ s = _
  rw [e1, e2]
  clear e1 e2
  simp only [crossing, Nat.zero_add, Nat.reduceAdd, Nat.reduceMod, ↓reduceIte, Bool.false_and,
    Bool.false_eq_true, Bool.not_false, Bool.true_or, Bool.and_self, List.append_nil]
  rw [unit_loop_done _ _ _ _ _ _ _ _ (by rw [refill_in_pos]; show ¬ 4 * j + 3 + 1 < 4 * j + 4; omega)]
  rw [sub32_of_le 4 1 (by omega) (by omega)]
  have hn : ((L - 2 + 1 + (31 - if j = 0 then 1 else 0) * (L - 1) + 2 * (32 * (L - 1)))
        % 4294967296 + (L - 2 + 1 + (31 - 0) * (L - 1))) % 4294967296
      = ((if j = 0 then 127 else 128) * (L - 1)) % 4294967296 := by
    by_cases h0 : j = 0
    · simp only [h0, ↓reduceIte, Nat.reduceSub]
      omega
    · simp only [h0, ↓reduceIte, Nat.sub_zero]
      omega
  rw [hn]

/-- A phase-2 pass of worker `j >= 1` on the zero units: started from the entry
`{L, 31, 3, _}` of its predecessor it meets its own entry `{L, 31, 3, _}`,
records the count `128 * (L - 1)` modulo `2^32` and sets its flag. -/
theorem chain_phase2 (sem : ShiftSem) (L : Nat) (h2 : 2 ≤ L) (hL : L ≤ 2147483648)
    (fuel size_out : Nat) (hfuel : 32 * L + 5 ≤ fuel) (j : Nat) (h1 : 1 ≤ j) (hj : j < 3)
    (s : Shared) (c0 c1 : Nat)
    (hprev : s.sync.getD (j - 1) default = ⟨L, 31, 3, c0⟩)
    (hown : s.sync.getD j default = ⟨L, 31, 3, c1⟩)
    (hflag : s.thread_synced.getD j false = false) :
    decode_phase1 sem fuel (args_of 4 3 12 true false j) size_out (input_zero L) (chain_table L) s
      = .ok { s with
              sync := s.sync.set j ⟨L, 31, 3, (128 * (L - 1)) % 4294967296⟩
              thread_synced := s.thread_synced.set j true } := by
  obtain ⟨f, rfl⟩ : ∃ f, fuel = f + 5 := ⟨fuel - 5, by omega⟩
  rw [args_chain true false j hj]
  unfold decode_phase1
  simp only [hflag, Bool.and_false, Bool.false_eq_true, ↓reduceIte]
  have e64 : sub64 j 1 = j - 1 := sub64_of_le j 1 h1 (by omega)
  have e65 : sub64 (4 * j) 4 = 4 * j - 4 := sub64_of_le _ 4 (by omega) (by omega)
  have hinit : initial_locals sem
      { thread_id := j, begin := 4 * j, end_ := 4 * j + 4, subsequence := j, subsequence_size := 4,
        num_units := 12, num_threads := 3, overflow := true, write := false }
      size_out (input_zero L) s
      = { current_state := L, at_ := 31, in_pos := 4 * j - 1, out_pos := 0,
          out_size := 0, current_subsequence := j, current_unit := 3, window := 0, next := 0,
          last_state := 0, last_bit := 0, reset := false, num_symbols := 0 } := by
    have e2 : (4 * j - 4 + 3) % 2 ^ 64 = 4 * j - 1 := by
      have e : (2:Nat) ^ 64 = 18446744073709551616 := by norm_num
      rw [e, Nat.mod_eq_of_lt (by omega)]
      omega
    simp only [initial_locals, input_zero, zero_units, shr32_zero, shl32_zero, e64, e65, hprev, e2,
      Bool.true_or, Bool.false_and, Bool.false_eq_true, ↓reduceIte, Nat.add_zero, Nat.zero_mod]
    norm_num
  rw [hinit]
  clear hinit
  obtain ⟨w, len, e⟩ := chain_unit sem L
    { thread_id := j, begin := 4 * j, end_ := 4 * j + 4, subsequence := j, subsequence_size := 4,
      num_units := 12, num_threads := 3, overflow := true, write := false }
    14 (f + 5) h2 hL (f + 4)
    { current_state := L, at_ := 31, in_pos := 4 * j - 1, out_pos := 0,
      out_size := 0, current_subsequence := j, current_unit := 3, window := 0, next := 0,
      last_state := 0, last_bit := 0, reset := false, num_symbols := 0 }
    s 0 (by omega) rfl (by show 31 < 32; omega) rfl rfl
    (by show 0 + 1 + (31 - 31) * (L - 1) ≤ f + 5; omega)
    (by show 4 * j - 1 < 4 * j + 4; omega)
  have hw : w = [] := by
    simp only [Bool.false_and, Bool.false_eq_true, ↓reduceIte] at len
    exact List.length_eq_zero.mp len
  subst hw
  dsimp only at e
  clear len
  show unit_loop sem _ (List.replicate 14 0) (chain_table L) (f + 5) (f + 4 + 1) _ s = _
  rw [e]
  clear e
  have hj3 : ¬ (4 * j - 1 + 1 > 12) := by omega
  simp only [crossing, Nat.reduceAdd, Nat.reduceMod, ↓reduceIte, Bool.true_and, Bool.false_and,
    Bool.false_eq_true, Bool.not_true, Bool.or_self, Bool.and_self, List.append_nil, hj3,
    decide_False, Bool.and_false, Bool.not_false]
  rw [refill_full _ _ _ rfl]
  simp only [zero_units]
  obtain ⟨w1, len1, e1⟩ := chain_units sem L
    { thread_id := j, begin := 4 * j, end_ := 4 * j + 4, subsequence := j, subsequence_size := 4,
      num_units := 12, num_threads := 3, overflow := true, write := false }
    14 (f + 5) h2 hL (by omega) (by show 4 ≤ 4294967296; omega) 2 (f + 1)
    { current_state := 2 * L - 2, at_ := 0, in_pos := 4 * j - 1 + 1,
      out_pos := 0 + ([] : List (Nat × Nat)).length,
      out_size := 0, current_subsequence := j, current_unit := 0, window := 0, next := 0,
      last_state := L, last_bit := 31, reset := true, num_symbols := 0 }
    { sync := s.sync, thread_synced := s.thread_synced, out_positions := s.out_positions,
      out := s.out }
    (L - 2) (by omega) (by show 2 * L - 2 = L + (L - 2); omega) (by show 0 < 32; omega) rfl rfl
    (by show L - 2 + 1 + (31 - 0) * (L - 1) ≤ f + 5; omega)
    (by show 4 * j - 1 + 1 + 2 < 4 * j + 4; omega) (by show 0 + 2 + 1 < 4; omega)
  have hw1 : w1 = [] := by
    simp only [Bool.false_and, Bool.false_eq_true, ↓reduceIte] at len1
    exact List.length_eq_zero.mp len1
  subst hw1
  dsimp only at e1
  clear len1
  obtain ⟨w2, len2, e2⟩ := chain_unit sem L
    { thread_id := j, begin := 4 * j, end_ := 4 * j + 4, subsequence := j, subsequence_size := 4,
      num_units := 12, num_threads := 3, overflow := true, write := false }
    14 (f + 5) h2 hL f
    { current_state := 2 * L - 2, at_ := 0, in_pos := 4 * j - 1 + 1 + (2 + 1),
      out_pos := 0 + ([] : List (Nat × Nat)).length + ([] : List (Nat × Nat)).length,
      out_size := 0, current_subsequence := j, current_unit := 0 + (2 + 1), window := 0, next := 0,
      last_state := L, last_bit := 31, reset := true,
      num_symbols := (0 + (L - 2 + 1 + (31 - 0) * (L - 1) + 2 * (32 * (L - 1)))) % 4294967296 }
    { sync := s.sync, thread_synced := s.thread_synced, out_positions := s.out_positions,
      out := s.out ++ [] }
    (L - 2) (by omega) (by show 2 * L - 2 = L + (L - 2); omega) (by show 0 < 32; omega) rfl rfl
    (by show L - 2 + 1 + (31 - 0) * (L - 1) ≤ f + 5; omega)
    (by show 4 * j - 1 + 1 + (2 + 1) < 4 * j + 4; omega)
  have hw2 : w2 = [] := by
    simp only [Bool.false_and, Bool.false_eq_true, ↓reduceIte] at len2
    exact List.length_eq_zero.mp len2
  subst hw2
  dsimp only at e2
  clear len2
  have hfe : f + 4 = f + 1 + (2 + 1) := by omega
  rw [hfe, e1, e2]
  clear e1 e2
  have hn : ((L - 2 + 1 + (31 - 0) * (L - 1) + 2 * (32 * (L - 1))) % 4294967296
      + (L - 2 + 1 + (31 - 0) * (L - 1))) % 4294967296 = (128 * (L - 1)) % 4294967296 := by
    omega
  simp only [crossing, Nat.zero_add, Nat.reduceAdd, Nat.reduceMod, ↓reduceIte, Bool.true_and,
    hown, sub32_of_le 4 1 (by omega) (by omega), beq_self_eq_true, Bool.and_self,
    List.append_nil, hn, Nat.reduceSub]

/-- The phase-3 pass of worker 0 on the zero units stores
`min (127 * (L - 1)) (out_positions[1] - out_positions[0])` symbols. -/
theorem chain_phase3_first (sem : ShiftSem) (L : Nat) (h2 : 2 ≤ L) (hL : L ≤ 2147483648)
    (fuel size_out : Nat) (hfuel : 32 * L + 5 ≤ fuel) (s : Shared) :
    ∃ w, decode_phase1 sem fuel (args_of 4 3 12 false true 0) size_out (input_zero L)
          (chain_table L) s = .ok { s with out := s.out ++ w }
      ∧ w.length
          = min (127 * (L - 1)) (s.out_positions.getD 1 0 - s.out_positions.getD 0 0) := by
  obtain ⟨f, rfl⟩ : ∃ f, fuel = f + 4 := ⟨fuel - 4, by omega⟩
  rw [args_chain false true 0 (by omega)]
  unfold decode_phase1
  simp only [Bool.false_and, Bool.false_eq_true, ↓reduceIte]
  have e1 : sub64 bits_in_unit 31 = 1 := by
    unfold bits_in_unit
    rw [sub64_of_le 32 31 (by omega) (by omega)]
  have e3 : sub64 3 1 = 2 := by rw [sub64_of_le 3 1 (by omega) (by omega)]
  have hinit : initial_locals sem
      { thread_id := 0, begin := 4 * 0, end_ := 4 * 0 + 4, subsequence := 0, subsequence_size := 4,
        num_units := 12, num_threads := 3, overflow := false, write := true }
      size_out (input_zero L) s
      = { current_state := 2 * L - 2, at_ := 1, in_pos := 0,
          out_pos := s.out_positions.getD 0 0, out_size := s.out_positions.getD 1 0,
          current_subsequence := 0, current_unit := 0, window := 0, next := 0,
          last_state := 0, last_bit := 0, reset := true, num_symbols := 0 } := by
    simp only [initial_locals, input_zero, zero_units, shr32_zero, shl32_zero, e1, e3]
    simp
  rw [hinit]
  clear hinit
  obtain ⟨w1, len1, e1⟩ := chain_units sem L
    { thread_id := 0, begin := 4 * 0, end_ := 4 * 0 + 4, subsequence := 0, subsequence_size := 4,
      num_units := 12, num_threads := 3, overflow := false, write := true }
    14 (f + 4) h2 hL (by omega) (by show 4 ≤ 4294967296; omega) 2 (f + 1)
    { current_state := 2 * L - 2, at_ := 1, in_pos := 0,
      out_pos := s.out_positions.getD 0 0, out_size := s.out_positions.getD 1 0,
      current_subsequence := 0, current_unit := 0, window := 0, next := 0,
      last_state := 0, last_bit := 0, reset := true, num_symbols := 0 }
    s (L - 2) (by omega) (by show 2 * L - 2 = L + (L - 2); omega) (by show 1 < 32; omega) rfl rfl
    (by show L - 2 + 1 + (31 - 1) * (L - 1) ≤ f + 4; omega)
    (by show 0 + 2 < 4 * 0 + 4; omega) (by show 0 + 2 + 1 < 4; omega)
  dsimp only at e1 len1
  obtain ⟨w2, len2, e2⟩ := chain_unit sem L
    { thread_id := 0, begin := 4 * 0, end_ := 4 * 0 + 4, subsequence := 0, subsequence_size := 4,
      num_units := 12, num_threads := 3, overflow := false, write := true }
    14 (f + 4) h2 hL f
    { current_state := 2 * L - 2, at_ := 0, in_pos := 0 + (2 + 1),
      out_pos := s.out_positions.getD 0 0 + w1.length, out_size := s.out_positions.getD 1 0,
      current_subsequence := 0, current_unit := 0 + (2 + 1), window := 0, next := 0,
      last_state := L, last_bit := 31, reset := true,
      num_symbols := (0 + (L - 2 + 1 + (31 - 1) * (L - 1) + 2 * (32 * (L - 1)))) % 4294967296 }
    { s with out := s.out ++ w1 }
    (L - 2) (by omega) (by show 2 * L - 2 = L + (L - 2); omega) (by show 0 < 32; omega) rfl rfl
    (by show L - 2 + 1 + (31 - 0) * (L - 1) ≤ f + 4; omega)
    (by show 0 + (2 + 1) < 4 * 0 + 4; omega)
  dsimp only at e2 len2
  refine ⟨w1 ++ w2, ?_, ?_⟩
  · show unit_loop sem _ (List.replicate 14 0) (chain_table L) (f + 4) (f + 1 + (2 + 1)) _ s = _
    rw [e1, e2, crossing_phase3_eq _ _ _ rfl rfl]
    dsimp only
    rw [unit_loop_done _ _ _ _ _ _ _ _ (by
      rw [refill_in_pos]
      show ¬ (if (0 + (2 + 1) + 1) % 4294967296 = 4 then _ else _ : Locals).in_pos < 4 * 0 + 4
      split <;> (show ¬ 0 + (2 + 1) + 1 < 4 * 0 + 4; omega))]
    simp [List.append_assoc]
  · simp only [Bool.and_self, ↓reduceIte] at len1 len2
    rw [List.length_append]
    omega

/-- The phase-3 pass of worker 2 on the zero units, started from the entry
`{L, 31, 3, _}`, stores `min (128 * (L - 1)) (size_out - out_positions[2])`
symbols. -/
theorem chain_phase3_last (sem : ShiftSem) (L : Nat) (h2 : 2 ≤ L) (hL : L ≤ 2147483648)
    (fuel size_out : Nat) (hfuel : 32 * L + 5 ≤ fuel) (s : Shared) (c : Nat)
    (hprev : s.sync.getD 1 default = ⟨L, 31, 3, c⟩) :
    ∃ w, decode_phase1 sem fuel (args_of 4 3 12 false true 2) size_out (input_zero L)
          (chain_table L) s = .ok { s with out := s.out ++ w }
      ∧ w.length = min (128 * (L - 1)) (size_out - s.out_positions.getD 2 0) := by
  obtain ⟨f, rfl⟩ : ∃ f, fuel = f + 5 := ⟨fuel - 5, by omega⟩
  rw [args_chain false true 2 (by omega)]
  unfold decode_phase1
  simp only [Bool.false_and, Bool.false_eq_true, ↓reduceIte]
  have e3 : sub64 3 1 = 2 := by rw [sub64_of_le 3 1 (by omega) (by omega)]
  have e4 : sub64 2 1 = 1 := by rw [sub64_of_le 2 1 (by omega) (by omega)]
  have e5 : sub64 (4 * 2) 4 = 4 := by rw [sub64_of_le _ 4 (by omega) (by omega)]
  have hinit : initial_locals sem
      { thread_id := 2, begin := 4 * 2, end_ := 4 * 2 + 4, subsequence := 2, subsequence_size := 4,
        num_units := 12, num_threads := 3, overflow := false, write := true }
      size_out (input_zero L) s
      = { current_state := L, at_ := 31, in_pos := 7,
          out_pos := s.out_positions.getD 2 0, out_size := size_out,
          current_subsequence := 2, current_unit := 3, window := 0, next := 0,
          last_state := 0, last_bit := 0, reset := false, num_symbols := 0 } := by
    simp only [initial_locals, input_zero, zero_units, shr32_zero, shl32_zero, e3, e4, e5, hprev]
    norm_num
  rw [hinit]
  clear hinit
  obtain ⟨w0, len0, e0⟩ := chain_unit sem L
    { thread_id := 2, begin := 4 * 2, end_ := 4 * 2 + 4, subsequence := 2, subsequence_size := 4,
      num_units := 12, num_threads := 3, overflow := false, write := true }
    14 (f + 5) h2 hL (f + 4)
    { current_state := L, at_ := 31, in_pos := 7,
      out_pos := s.out_positions.getD 2 0, out_size := size_out,
      current_subsequence := 2, current_unit := 3, window := 0, next := 0,
      last_state := 0, last_bit := 0, reset := false, num_symbols := 0 }
    s 0 (by omega) rfl (by show 31 < 32; omega) rfl rfl
    (by show 0 + 1 + (31 - 31) * (L - 1) ≤ f + 5; omega)
    (by show 7 < 4 * 2 + 4; omega)
  have hw : w0 = [] := by
    simp only [Bool.and_false, Bool.false_eq_true, ↓reduceIte] at len0
    exact List.length_eq_zero.mp len0
  subst hw
  dsimp only at e0
  clear len0
  obtain ⟨w1, len1, e1⟩ := chain_units sem L
    { thread_id := 2, begin := 4 * 2, end_ := 4 * 2 + 4, subsequence := 2, subsequence_size := 4,
      num_units := 12, num_threads := 3, overflow := false, write := true }
    14 (f + 5) h2 hL (by omega) (by show 4 ≤ 4294967296; omega) 2 (f + 1)
    { current_state := 2 * L - 2, at_ := 0, in_pos := 8,
      out_pos := s.out_positions.getD 2 0, out_size := size_out,
      current_subsequence := 3, current_unit := 0, window := 0, next := 0,
      last_state := L, last_bit := 31, reset := true, num_symbols := 0 }
    s (L - 2) (by omega) (by show 2 * L - 2 = L + (L - 2); omega) (by show 0 < 32; omega) rfl rfl
    (by show L - 2 + 1 + (31 - 0) * (L - 1) ≤ f + 5; omega)
    (by show 8 + 2 < 4 * 2 + 4; omega) (by show 0 + 2 + 1 < 4; omega)
  dsimp only at e1 len1
  obtain ⟨w2, len2, e2⟩ := chain_unit sem L
    { thread_id := 2, begin := 4 * 2, end_ := 4 * 2 + 4, subsequence := 2, subsequence_size := 4,
      num_units := 12, num_threads := 3, overflow := false, write := true }
    14 (f + 5) h2 hL f
    { current_state := 2 * L - 2, at_ := 0, in_pos := 8 + (2 + 1),
      out_pos := s.out_positions.getD 2 0 + w1.length, out_size := size_out,
      current_subsequence := 3, current_unit := 0 + (2 + 1), window := 0, next := 0,
      last_state := L, last_bit := 31, reset := true,
      num_symbols := (0 + (L - 2 + 1 + (31 - 0) * (L - 1) + 2 * (32 * (L - 1)))) % 4294967296 }
    { s with out := s.out ++ w1 }
    (L - 2) (by omega) (by show 2 * L - 2 = L + (L - 2); omega) (by show 0 < 32; omega) rfl rfl
    (by show L - 2 + 1 + (31 - 0) * (L - 1) ≤ f + 5; omega)
    (by show 8 + (2 + 1) < 4 * 2 + 4; omega)
  dsimp only at e2 len2
  refine ⟨w1 ++ w2, ?_, ?_⟩
  · show unit_loop sem _ (List.replicate 14 0) (chain_table L) (f + 5) (f + 4 + 1) _ s = _
    rw [e0, crossing_phase3_eq _ _ _ rfl rfl]
    dsimp only
    have hs : ({ sync := s.sync, thread_synced := s.thread_synced,
                 out_positions := s.out_positions, out := s.out ++ [] } : Shared) = s := by
      cases s; simp
    rw [hs]
    have hl : refill sem (List.replicate 14 0)
        (if (3 + 1) % 4294967296 = 4 then
          cross_locals
            { thread_id := 2, begin := 4 * 2, end_ := 4 * 2 + 4, subsequence := 2,
              subsequence_size := 4, num_units := 12, num_threads := 3, overflow := false,
              write := true }
            { current_state := 2 * L - 2, at_ := 32, in_pos := 7 + 1,
              out_pos := s.out_positions.getD 2 0 + ([] : List (Nat × Nat)).length,
              out_size := size_out,
              current_subsequence := 2, current_unit := (3 + 1) % 4294967296, window := 0,
              next := 0, last_state := L, last_bit := 31, reset := false,
              num_symbols := (0 + (0 + 1 + (31 - 31) * (L - 1))) % 4294967296 }
        else
            { current_state := 2 * L - 2, at_ := 32, in_pos := 7 + 1,
              out_pos := s.out_positions.getD 2 0 + ([] : List (Nat × Nat)).length,
              out_size := size_out,
              current_subsequence := 2, current_unit := (3 + 1) % 4294967296, window := 0,
              next := 0, last_state := L, last_bit := 31, reset := false,
              num_symbols := (0 + (0 + 1 + (31 - 31) * (L - 1))) % 4294967296 })
        = { current_state := 2 * L - 2, at_ := 0, in_pos := 8,
            out_pos := s.out_positions.getD 2 0, out_size := size_out,
            current_subsequence := 3, current_unit := 0, window := 0, next := 0,
            last_state := L, last_bit := 31, reset := true, num_symbols := 0 } := by
      rw [if_pos (by norm_num)]
      rw [refill_full _ _ _ rfl]
      simp [cross_locals, zero_units]
    have hfe : f + 4 = f + 1 + (2 + 1) := by omega
    rw [hl, hfe, e1, e2, crossing_phase3_eq _ _ _ rfl rfl]
    dsimp only
    rw [unit_loop_done _ _ _ _ _ _ _ _ (by
      rw [refill_in_pos]
      show ¬ (if (0 + (2 + 1) + 1) % 4294967296 = 4 then _ else _ : Locals).in_pos < 4 * 2 + 4
      split <;> (show ¬ 8 + (2 + 1) + 1 < 4 * 2 + 4; omega))]
    simp [List.append_assoc]
  · simp only [Bool.and_self, ↓reduceIte] at len1 len2
    rw [List.length_append]
    omega

theorem valid_chain (L : Nat) (h2 : 2 ≤ L) (hL : L ≤ 2147483648) :
    ValidInput 4 3 12 (input_zero L) (chain_table L) :=
  { size_pos := by decide
    size_lt := by norm_num
    threads_pos := by decide
    enough_subs := by decide
    units_lt := by norm_num
    table_ok := chain_table_ok L h2 hL
    state_ge := by rw [length_chain_table]; show L ≤ 2 * L - 2; omega
    state_lt := by rw [length_chain_table]; show 2 * L - 2 < 2 * L; omega
    bit_pos := by show 1 ≤ 31; decide
    bit_le := by show 31 ≤ 32; decide }

/-- Phase 1 of `decode` on the zero units, workers in ascending order. -/
theorem chain_run_phase1 (sem : ShiftSem) (L : Nat) (h2 : 2 ≤ L) (hL : L ≤ 2147483648)
    (fuel size_out : Nat) (hfuel : 32 * L + 5 ≤ fuel) (junk : Nat → SubsequenceSyncPoint) :
    run_workers sem fuel (planned 4 3 12) 4 12 3 false false size_out (input_zero L) (chain_table L)
        [0, 1, 2]
        { sync := [junk 0, junk 1, junk 2]
          thread_synced := [false, false, false]
          out_positions := [0, 0, 0]
          out := [] }
      = .ok { sync := [⟨L, 31, 3, (127 * (L - 1)) % 4294967296⟩,
                       ⟨L, 31, 3, (128 * (L - 1)) % 4294967296⟩,
                       ⟨L, 31, 3, (128 * (L - 1)) % 4294967296⟩]
              thread_synced := [false, false, false]
              out_positions := [0, 0, 0]
              out := [] } := by
  have a0 := chain_phase1 sem L h2 hL fuel size_out hfuel 0 (by omega)
  have a1 := chain_phase1 sem L h2 hL fuel size_out hfuel 1 (by omega)
  have a2 := chain_phase1 sem L h2 hL fuel size_out hfuel 2 (by omega)
  have b0 : ∀ s, decode_phase1 sem fuel (worker_args (planned 4 3 12) 4 12 3 false false 0) size_out
      (input_zero L) (chain_table L) s = _ := a0
  have b1 : ∀ s, decode_phase1 sem fuel (worker_args (planned 4 3 12) 4 12 3 false false 1) size_out
      (input_zero L) (chain_table L) s = _ := a1
  have b2 : ∀ s, decode_phase1 sem fuel (worker_args (planned 4 3 12) 4 12 3 false false 2) size_out
      (input_zero L) (chain_table L) s = _ := a2
  simp only [run_workers, b0, b1, b2]
  simp

/-- The one iteration of phase 2 of `decode` on the zero units, workers in
ascending order: both workers meet their entry and set their flag. -/
theorem chain_run_phase2 (sem : ShiftSem) (L : Nat) (h2 : 2 ≤ L) (hL : L ≤ 2147483648)
    (fuel size_out : Nat) (hfuel : 32 * L + 5 ≤ fuel) :
    run_workers sem fuel (planned 4 3 12) 4 12 3 true false size_out (input_zero L) (chain_table L)
        [1, 2]
        { sync := [⟨L, 31, 3, (127 * (L - 1)) % 4294967296⟩,
                   ⟨L, 31, 3, (128 * (L - 1)) % 4294967296⟩,
                   ⟨L, 31, 3, (128 * (L - 1)) % 4294967296⟩]
          thread_synced := [false, false, false]
          out_positions := [0, 0, 0]
          out := [] }
      = .ok { sync := [⟨L, 31, 3, (127 * (L - 1)) % 4294967296⟩,
                       ⟨L, 31, 3, (128 * (L - 1)) % 4294967296⟩,
                       ⟨L, 31, 3, (128 * (L - 1)) % 4294967296⟩]
              thread_synced := [false, true, true]
              out_positions := [0, 0, 0]
              out := [] } := by
  have a1 := chain_phase2 sem L h2 hL fuel size_out hfuel 1 (by omega) (by omega)
    { sync := [⟨L, 31, 3, (127 * (L - 1)) % 4294967296⟩,
               ⟨L, 31, 3, (128 * (L - 1)) % 4294967296⟩,
               ⟨L, 31, 3, (128 * (L - 1)) % 4294967296⟩]
      thread_synced := [false, false, false]
      out_positions := [0, 0, 0]
      out := [] } _ _ rfl rfl rfl
  have a2 := chain_phase2 sem L h2 hL fuel size_out hfuel 2 (by omega) (by omega)
    { sync := [⟨L, 31, 3, (127 * (L - 1)) % 4294967296⟩,
               ⟨L, 31, 3, (128 * (L - 1)) % 4294967296⟩,
               ⟨L, 31, 3, (128 * (L - 1)) % 4294967296⟩]
      thread_synced := [false, true, false]
      out_positions := [0, 0, 0]
      out := [] } _ _ rfl rfl rfl
  have b1 : decode_phase1 sem fuel (worker_args (planned 4 3 12) 4 12 3 true false 1) size_out
      (input_zero L) (chain_table L) _ = _ := a1
  have b2 : decode_phase1 sem fuel (worker_args (planned 4 3 12) 4 12 3 true false 2) size_out
      (input_zero L) (chain_table L) _ = _ := a2
  rw [run_workers, b1]
  simp only [List.set_cons_succ, List.set_cons_zero]
  rw [run_workers, b2]
  simp only [List.set_cons_succ, List.set_cons_zero]
  rfl

/-- The run of `decode` with three threads on the zero units and the table
`chain_table L`: the recorded counts, the output positions and the number of
stores of the workers 0 and 2 in phase 3. -/
theorem chain_decode (sem : ShiftSem) (L : Nat) (h2 : 2 ≤ L) (hL : L ≤ 2147483648)
    (fuel size_out : Nat) (hfuel : 33 * L + 21 ≤ fuel) (junk : Nat → SubsequenceSyncPoint) :
    ∃ r w0 w2, decode sem fuel (ascending 3) 4 3 12 size_out (input_zero L) (chain_table L) junk
        = .ok r
      ∧ r.shared.sync = [⟨L, 31, 3, (127 * (L - 1)) % 4294967296⟩,
                         ⟨L, 31, 3, (128 * (L - 1)) % 4294967296⟩,
                         ⟨L, 31, 3, (128 * (L - 1)) % 4294967296⟩]
      ∧ r.shared.out_positions
          = [0, (127 * (L - 1)) % 4294967296,
              ((127 * (L - 1)) % 4294967296 + (128 * (L - 1)) % 4294967296) % 4294967296]
      ∧ phase3_writes sem fuel 4 3 12 size_out (input_zero L) (chain_table L) r.shared.sync
          r.shared.out_positions 0 = .ok w0
      ∧ phase3_writes sem fuel 4 3 12 size_out (input_zero L) (chain_table L) r.shared.sync
          r.shared.out_positions 2 = .ok w2
      ∧ w0.map Prod.fst = List.range' 0 w0.length
      ∧ w0.length = min (127 * (L - 1)) ((127 * (L - 1)) % 4294967296)
      ∧ w2.map Prod.fst
          = List.range'
              (((127 * (L - 1)) % 4294967296 + (128 * (L - 1)) % 4294967296) % 4294967296)
              w2.length
      ∧ w2.length
          = min (128 * (L - 1))
              (size_out
                - ((127 * (L - 1)) % 4294967296 + (128 * (L - 1)) % 4294967296) % 4294967296) := by
  have v := valid_chain L h2 hL
  have hf : enough_fuel 4 3 12 (chain_table L) ≤ fuel := by
    unfold enough_fuel
    rw [length_chain_table]
    omega
  obtain ⟨f, hfe⟩ : ∃ f, fuel = f + 1 := ⟨fuel - 1, by omega⟩
  have e1 := chain_run_phase1 sem L h2 hL fuel size_out (by omega) junk
  have e2 : phase2_loop sem fuel (planned 4 3 12) 4 12 3 size_out (input_zero L) (chain_table L)
      (ascending 3).phase2 fuel 0
      { sync := [⟨L, 31, 3, (127 * (L - 1)) % 4294967296⟩,
                 ⟨L, 31, 3, (128 * (L - 1)) % 4294967296⟩,
                 ⟨L, 31, 3, (128 * (L - 1)) % 4294967296⟩]
        thread_synced := [false, false, false]
        out_positions := [0, 0, 0]
        out := [] }
      = .ok ({ sync := [⟨L, 31, 3, (127 * (L - 1)) % 4294967296⟩,
                        ⟨L, 31, 3, (128 * (L - 1)) % 4294967296⟩,
                        ⟨L, 31, 3, (128 * (L - 1)) % 4294967296⟩]
               thread_synced := [false, true, true]
               out_positions := [0, 0, 0]
               out := [] }, 1) := by
    have e := chain_run_phase2 sem L h2 hL fuel size_out (by omega)
    have hl : (ascending 3).phase2 0 = [1, 2] := rfl
    conv_lhs => arg 11; rw [hfe]
    rw [phase2_loop, hl, e]
    rfl
  have g2 : GoodShared 4 3 12 (chain_table L)
      { sync := [⟨L, 31, 3, (127 * (L - 1)) % 4294967296⟩,
                 ⟨L, 31, 3, (128 * (L - 1)) % 4294967296⟩,
                 ⟨L, 31, 3, (128 * (L - 1)) % 4294967296⟩]
        thread_synced := [false, true, true]
        out_positions := [0, 0, 0]
        out := [] } := by
    refine ⟨by show 3 = num_subsequences 4 12; decide, rfl, ?_⟩
    intro i hi
    rw [length_chain_table]
    have hi3 : i < 3 := hi
    interval_cases i <;> exact ⟨by show L ≤ L; omega, by show L < 2 * L; omega,
      by show 31 < 32; omega, rfl⟩
  obtain ⟨r, ws, e, q1, q2, q3, q4, q5, q6⟩ :=
    decode_of_phases sem 4 3 12 size_out (input_zero L) (chain_table L) v fuel hf (ascending 3)
      (ascending_valid 3) junk _ _ 1 e1 e2 g2 rfl
  have hq2 : r.shared.sync = [⟨L, 31, 3, (127 * (L - 1)) % 4294967296⟩,
                         ⟨L, 31, 3, (128 * (L - 1)) % 4294967296⟩,
                         ⟨L, 31, 3, (128 * (L - 1)) % 4294967296⟩] := q2
  have hop : r.shared.out_positions
      = [0, (127 * (L - 1)) % 4294967296,
          ((127 * (L - 1)) % 4294967296 + (128 * (L - 1)) % 4294967296) % 4294967296] := by
    rw [q4]
    have hn : num_subsequences 4 12 = 3 := by decide
    have e32 : (2:Nat) ^ 32 = 4294967296 := by norm_num
    simp only [hn, prefix_sums, prefix_sum_outer, prefix_sum_inner, Nat.div_self, Nat.reduceSub,
      Nat.reduceAdd, Nat.lt_add_one, Nat.zero_add, List.getD_cons_zero, List.getD_cons_succ,
      Nat.sub_zero, e32, Nat.mod_mod]
  obtain ⟨x0, y0⟩ := q6 0 (by omega)
  obtain ⟨x2, y2⟩ := q6 2 (by omega)
  obtain ⟨w0, c0, d0⟩ := chain_phase3_first sem L h2 hL fuel size_out (by omega)
    { sync := r.shared.sync, thread_synced := List.replicate 3 false,
      out_positions := r.shared.out_positions, out := [] }
  obtain ⟨w2, c2, d2⟩ := chain_phase3_last sem L h2 hL fuel size_out (by omega)
    { sync := r.shared.sync, thread_synced := List.replicate 3 false,
      out_positions := r.shared.out_positions, out := [] } ((128 * (L - 1)) % 4294967296)
    (by show r.shared.sync.getD 1 default = _; rw [hq2]; rfl)
  have z0 : ws 0 = w0 := by
    have : phase3_writes sem fuel 4 3 12 size_out (input_zero L) (chain_table L) r.shared.sync
        r.shared.out_positions 0 = .ok w0 := by
      unfold phase3_writes
      have c0' : decode_phase1 sem fuel (worker_args (planned 4 3 12) 4 12 3 false true 0) size_out
          (input_zero L) (chain_table L) _ = _ := c0
      rw [c0']
      rfl
    rw [this] at x0
    cases x0
    rfl
  have z2 : ws 2 = w2 := by
    have : phase3_writes sem fuel 4 3 12 size_out (input_zero L) (chain_table L) r.shared.sync
        r.shared.out_positions 2 = .ok w2 := by
      unfold phase3_writes
      have c2' : decode_phase1 sem fuel (worker_args (planned 4 3 12) 4 12 3 false true 2) size_out
          (input_zero L) (chain_table L) _ = _ := c2
      rw [c2']
      rfl
    rw [this] at x2
    cases x2
    rfl
  rw [z0] at x0 y0
  rw [z2] at x2 y2
  refine ⟨r, w0, w2, e, hq2, hop, x0, x2, ?_, ?_, ?_, ?_⟩
  · have := y0.1
    rw [hop] at this
    exact this
  · rw [d0]
    show min _ (r.shared.out_positions.getD 1 0 - r.shared.out_positions.getD 0 0) = _
    rw [hop]
    rfl
  · have := y2.1
    rw [hop] at this
    exact this
  · rw [d2]
    show min _ (size_out - r.shared.out_positions.getD 2 0) = _
    rw [hop]
    rfl



/-- On the table `chain_table (2^25)` the twelve zero units hold
`383 * (2^25 - 1)` symbols; the counts of the first two subsequences sum to more
than `2^32`, `out_positions[2]` wraps around to a value below `out_positions[1]`,
and the position `out_positions[2]` is stored to by worker 0 and by worker 2. -/
theorem chain_overlap (sem : ShiftSem) :
    ∃ r w0 w2,
      decode sem 1107296277 (ascending 3) 4 3 12 12851347073 (input_zero 33554432)
          (chain_table 33554432) no_junk = .ok r
      ∧ r.shared.sync = [⟨33554432, 31, 3, 4261412737⟩, ⟨33554432, 31, 3, 4294967168⟩,
                         ⟨33554432, 31, 3, 4294967168⟩]
      ∧ r.shared.out_positions = [0, 4261412737, 4261412609]
      ∧ phase3_writes sem 1107296277 4 3 12 12851347073 (input_zero 33554432)
          (chain_table 33554432) r.shared.sync r.shared.out_positions 0 = .ok w0
      ∧ phase3_writes sem 1107296277 4 3 12 12851347073 (input_zero 33554432)
          (chain_table 33554432) r.shared.sync r.shared.out_positions 2 = .ok w2
      ∧ 4261412609 ∈ w0.map Prod.fst ∧ 4261412609 ∈ w2.map Prod.fst := by
  obtain ⟨r, w0, w2, e, hs, hop, x0, x2, m0, l0, m2, l2⟩ :=
    chain_decode sem 33554432 (by norm_num) (by norm_num) 1107296277 12851347073
      (by norm_num) no_junk
  have a1 : 127 * (33554432 - 1) % 4294967296 = 4261412737 := by norm_num
  have a2 : 128 * (33554432 - 1) % 4294967296 = 4294967168 := by norm_num
  have a3 : (4261412737 + 4294967168) % 4294967296 = 4261412609 := by norm_num
  have a4 : 127 * (33554432 - 1) = 4261412737 := by norm_num
  have a5 : 128 * (33554432 - 1) = 4294967168 := by norm_num
  rw [a1, a2] at hs
  rw [a1, a2, a3] at hop m2 l2
  rw [a1, a4] at l0
  rw [a5] at l2
  refine ⟨r, w0, w2, e, hs, hop, x0, x2, ?_, ?_⟩
  · rw [m0, List.mem_range'_1, l0]
    norm_num
  · rw [m2, List.mem_range'_1, l2]
    norm_num

/-- C5 as stated fails.  The twelve zero units, decoded with the table
`chain_table (2^25)` (a well-formed table), `S = 4` and three threads, hold
`383 * (2^25 - 1)` symbols.  Phases 1 and 2 record the counts 4261412737,
4294967168 and 4294967168; the 32-bit sum of the first two wraps around, so that
`out_positions = [0, 4261412737, 4261412609]`, and in phase 3 the position
4261412609 is stored to by thread 0 and by thread 2.  Both shift semantics
agree. -/
theorem phase3_writes_overlap_after_wrap :
    ValidInput 4 3 12 (input_zero 33554432) (chain_table 33554432)
    ∧ (∃ r w0 w2,
        decode .zero 1107296277 (ascending 3) 4 3 12 12851347073 (input_zero 33554432)
            (chain_table 33554432) no_junk = .ok r
        ∧ r.shared.sync = [⟨33554432, 31, 3, 4261412737⟩, ⟨33554432, 31, 3, 4294967168⟩,
                           ⟨33554432, 31, 3, 4294967168⟩]
        ∧ r.shared.out_positions = [0, 4261412737, 4261412609]
        ∧ phase3_writes .zero 1107296277 4 3 12 12851347073 (input_zero 33554432)
            (chain_table 33554432) r.shared.sync r.shared.out_positions 0 = .ok w0
        ∧ phase3_writes .zero 1107296277 4 3 12 12851347073 (input_zero 33554432)
            (chain_table 33554432) r.shared.sync r.shared.out_positions 2 = .ok w2
        ∧ 4261412609 ∈ w0.map Prod.fst ∧ 4261412609 ∈ w2.map Prod.fst)
    ∧ (∃ r w0 w2,
        decode .wrap 1107296277 (ascending 3) 4 3 12 12851347073 (input_zero 33554432)
            (chain_table 33554432) no_junk = .ok r
        ∧ r.shared.sync = [⟨33554432, 31, 3, 4261412737⟩, ⟨33554432, 31, 3, 4294967168⟩,
                           ⟨33554432, 31, 3, 4294967168⟩]
        ∧ r.shared.out_positions = [0, 4261412737, 4261412609]
        ∧ phase3_writes .wrap 1107296277 4 3 12 12851347073 (input_zero 33554432)
            (chain_table 33554432) r.shared.sync r.shared.out_positions 0 = .ok w0
        ∧ phase3_writes .wrap 1107296277 4 3 12 12851347073 (input_zero 33554432)
            (chain_table 33554432) r.shared.sync r.shared.out_positions 2 = .ok w2
        ∧ 4261412609 ∈ w0.map Prod.fst ∧ 4261412609 ∈ w2.map Prod.fst) :=
  ⟨valid_chain 33554432 (by norm_num) (by norm_num), chain_overlap .zero, chain_overlap .wrap⟩


/-! ## The per-symbol step -/

theorem appended_state_succ (w s t k : Nat) :
    appended_state w s t (k + 1) = appended_state w (2 * s + (w >>> t) % 2) (t + 1) k := by
  induction k with
  | zero => simp [appended_state]
  | succ k ih =>
    rw [appended_state, ih, appended_state]
    have : t + (k + 1) = t + 1 + k := by omega
    rw [this]

/-- The renormalisation loop appends window bits until the state reaches the
table: it stops at the least number of bits for which it does. -/
theorem renormalize_appended (sem : ShiftSem) (L window : Nat) (hL : L ≤ 2147483648) :
    ∀ fuel s t, 2 ^ t ≤ s → s < 2 * L → 32 ≤ fuel + t →
      ∃ n, renormalize sem L window fuel s t = .ok (appended_state window s t n, t + n)
        ∧ L ≤ appended_state window s t n
        ∧ (∀ m, m < n → appended_state window s t m < L)
        ∧ t + n ≤ 31 := by
  intro fuel
  induction fuel with
  | zero =>
    intro s t h1 h2 h3
    have := pow_le_imp_lt_32 t s h1 (by omega)
    omega
  | succ fuel ih =>
    intro s t h1 h2 h3
    have ht := pow_le_imp_lt_32 t s h1 (by omega)
    unfold renormalize
    by_cases hs : s < L
    · rw [if_pos hs]
      dsimp only
      have hbit : not32 (shl32 sem mask 1) &&& shr32 sem window t = (window >>> t) % 2 := by
        rw [not32_shl32_mask_one, Nat.one_and_eq_mod_two]
        unfold shr32
        rw [if_pos ht]
      have hb : (window >>> t) % 2 ≤ 1 := by omega
      rw [shl32_one sem s (by omega), hbit]
      have e : (2:Nat) ^ 32 = 4294967296 := by norm_num
      rw [e, Nat.mod_eq_of_lt (by omega)]
      have hpow : 2 ^ (t + 1) = 2 ^ t * 2 := Nat.pow_succ ..
      obtain ⟨n, e1, g1, g2, g3⟩ :=
        ih (2 * s + (window >>> t) % 2) (t + 1) (by omega) (by omega) (by omega)
      refine ⟨n + 1, ?_, ?_, ?_, by omega⟩
      · rw [e1, appended_state_succ]
        have : t + 1 + n = t + (n + 1) := by omega
        rw [this]
      · rw [appended_state_succ]; exact g1
      · intro m hm
        cases m with
        | zero => exact hs
        | succ m => rw [appended_state_succ]; exact g2 m (by omega)
    · rw [if_neg hs]
      exact ⟨0, rfl, by show L ≤ s; omega, fun m hm => by omega, by omega⟩

/-- The renormalisation loop from a positive 32-bit state: it appends window
bits until the state reaches the table and stops at the least number of bits for
which it does; a state below `2 * L` stays below `2 * L`. -/
theorem renormalize_appended_any (sem : ShiftSem) (L window : Nat) (hL : L ≤ 2147483648) :
    ∀ fuel s t, 2 ^ t ≤ s → s < 4294967296 → 32 ≤ fuel + t →
      ∃ n, renormalize sem L window fuel s t = .ok (appended_state window s t n, t + n)
        ∧ L ≤ appended_state window s t n
        ∧ (∀ m, m < n → appended_state window s t m < L)
        ∧ t + n ≤ 31
        ∧ (s < 2 * L → appended_state window s t n < 2 * L) := by
  intro fuel
  induction fuel with
  | zero =>
    intro s t h1 h2 h3
    have := pow_le_imp_lt_32 t s h1 h2
    omega
  | succ fuel ih =>
    intro s t h1 h2 h3
    have ht := pow_le_imp_lt_32 t s h1 h2
    unfold renormalize
    by_cases hs : s < L
    · rw [if_pos hs]
      dsimp only
      have hbit : not32 (shl32 sem mask 1) &&& shr32 sem window t = (window >>> t) % 2 := by
        rw [not32_shl32_mask_one, Nat.one_and_eq_mod_two]
        unfold shr32
        rw [if_pos ht]
      have hb : (window >>> t) % 2 ≤ 1 := by omega
      rw [shl32_one sem s (by omega), hbit]
      have e : (2:Nat) ^ 32 = 4294967296 := by norm_num
      rw [e, Nat.mod_eq_of_lt (by omega)]
      have hpow : 2 ^ (t + 1) = 2 ^ t * 2 := Nat.pow_succ ..
      obtain ⟨n, e1, g1, g2, g3, g4⟩ :=
        ih (2 * s + (window >>> t) % 2) (t + 1) (by omega) (by omega) (by omega)
      refine ⟨n + 1, ?_, ?_, ?_, by omega, fun _ => ?_⟩
      · rw [e1, appended_state_succ]
        have : t + 1 + n = t + (n + 1) := by omega
        rw [this]
      · rw [appended_state_succ]; exact g1
      · intro m hm
        cases m with
        | zero => exact hs
        | succ m => rw [appended_state_succ]; exact g2 m (by omega)
      · rw [appended_state_succ]; exact g4 (by omega)
    · rw [if_neg hs]
      exact ⟨0, rfl, by show L ≤ s; omega, fun m hm => by omega, by omega, fun h => h⟩

/-- The per-symbol step from a state whose entry has `next_state >= 1` and loads
a state that fits in 32 bits. -/
theorem symbol_step_core (sem : ShiftSem) (table : List CUHDCodetableItem) (write : Bool)
    (fuel : Nat) (l : Locals) (hL : table.length ≤ 2147483648) (hfuel : 32 ≤ fuel)
    (h1 : table.length ≤ l.current_state) (h2 : l.current_state < 2 * table.length)
    (h3 : l.at_ < 32)
    (e1 : 1 ≤ (table.getD (l.current_state - table.length) default).next_state)
    (e2 : ((table.getD (l.current_state - table.length) default).next_state + 1)
        * 2 ^ (table.getD (l.current_state - table.length) default).min_num_bits
        ≤ 4294967296) :
    ∃ n l1 w, symbol_step sem table write fuel l = .ok (l1, w)
      ∧ l1.current_state
          = spec_step_state (table.getD (l.current_state - table.length) default) l.window n
      ∧ table.length
          ≤ spec_step_state (table.getD (l.current_state - table.length) default) l.window n
      ∧ (∀ m, m < n →
          spec_step_state (table.getD (l.current_state - table.length) default) l.window m
            < table.length)
      ∧ l1.at_
          = l.at_ + ((table.getD (l.current_state - table.length) default).min_num_bits + n)
      ∧ (((table.getD (l.current_state - table.length) default).next_state + 1)
            * 2 ^ (table.getD (l.current_state - table.length) default).min_num_bits
            ≤ 2 * table.length →
          l1.current_state < 2 * table.length) := by
  have hidx : sub64 l.current_state table.length = l.current_state - table.length :=
    sub64_of_le _ _ h1 (by omega)
  unfold symbol_step spec_step_state
  simp only [hidx]
  generalize table.getD (l.current_state - table.length) default = hit at e1 e2
  have hmul : (hit.next_state + 1) * 2 ^ hit.min_num_bits
      = hit.next_state * 2 ^ hit.min_num_bits + 2 ^ hit.min_num_bits := by ring
  have hpos : 1 ≤ 2 ^ hit.min_num_bits := Nat.one_le_two_pow
  have hge : 2 ^ hit.min_num_bits ≤ hit.next_state * 2 ^ hit.min_num_bits :=
    Nat.le_mul_of_pos_left _ (by omega)
  have ht : hit.min_num_bits < 32 :=
    pow_le_imp_lt_32 _ (hit.next_state * 2 ^ hit.min_num_bits) hge (by omega)
  have hshl : shl32 sem hit.next_state hit.min_num_bits
      = hit.next_state * 2 ^ hit.min_num_bits := shl32_of_lt sem _ _ ht (by omega)
  have hrev : not32 (shl32 sem mask hit.min_num_bits) &&& l.window
      = l.window % 2 ^ hit.min_num_bits := by
    rw [not32_shl32_mask sem _ ht, Nat.and_comm]
    exact Nat.and_pow_two_sub_one_eq_mod _ _
  have hlow : l.window % 2 ^ hit.min_num_bits < 2 ^ hit.min_num_bits :=
    Nat.mod_lt _ (by omega)
  have hor : (hit.next_state <<< hit.min_num_bits) ||| (l.window % 2 ^ hit.min_num_bits)
      = hit.next_state * 2 ^ hit.min_num_bits + l.window % 2 ^ hit.min_num_bits := by
    rw [Nat.shiftLeft_eq, Nat.mul_comm, ← Nat.mul_add_lt_is_or hlow]
  have e32 : (2:Nat) ^ 32 = 4294967296 := by norm_num
  rw [hshl, hrev, hor, e32, Nat.mod_eq_of_lt (by omega)]
  obtain ⟨n, er, g1, g2, g3, g4⟩ :=
    renormalize_appended_any sem table.length l.window hL fuel
      (hit.next_state * 2 ^ hit.min_num_bits + l.window % 2 ^ hit.min_num_bits)
      hit.min_num_bits (by omega) (by omega) (by omega)
  rw [er]
  refine ⟨n, _, _, rfl, rfl, g1, g2, ?_, fun hb => g4 (by omega)⟩
  show (l.at_ + (hit.min_num_bits + n)) % 2 ^ 8 = _
  have e8 : (2:Nat) ^ 8 = 256 := by norm_num
  rw [e8]
  exact Nat.mod_eq_of_lt (by omega)

/-- From the state 0 with a window of zeros the renormalisation loop never
ends. -/
theorem renormalize_zero_state (sem : ShiftSem) :
    ∀ fuel t, renormalize sem 1 0 fuel 0 t = .error .out_of_fuel := by
  intro fuel
  induction fuel with
  | zero =>
    intro t
    unfold renormalize
    rw [if_pos (by decide)]
  | succ fuel ih =>
    intro t
    unfold renormalize
    rw [if_pos (by decide)]
    dsimp only
    rw [shl32_zero, shr32_zero, Nat.and_zero]
    exact ih (t + 1)

/-- On the one-entry table `{0, 0, 0}` the step from state 1 with a window of
zeros never returns. -/
theorem symbol_step_entry_zero (sem : ShiftSem) (fuel : Nat) :
    symbol_step sem [⟨0, 0, 0⟩] false fuel (locals_at 1 0 0) = .error .out_of_fuel := by
  have hidx : sub64 (locals_at 1 0 0).current_state
      ([⟨0, 0, 0⟩] : List CUHDCodetableItem).length = 0 := by decide
  unfold symbol_step
  simp only [hidx, List.getD_cons_zero]
  have hw : (locals_at 1 0 0).window = 0 := rfl
  rw [hw, shl32_zero, Nat.and_zero]
  simp only [List.length_singleton]
  rw [show (0 + 0) % 2 ^ 32 = 0 from by norm_num, renormalize_zero_state]

/-- C15 as stated fails.  The claim names no condition on the table.  On the
one-entry table `{0, 0, 0}` the step from state 1 (in `[1, 2)`) with a window of
zeros loads the state 0 and appends zero bits for ever: it returns for no bound
on the iterations.  On the one-entry table `{0, 2^31, 1}` the loaded state
`2^31 << 1` does not fit the 32-bit state: the step from state 1 with window 1
ends in state 1, where the claim has `(2^31 << 1) | 1 = 2^32 + 1`. -/
theorem symbol_step_fails_without_table_conditions :
    ([⟨0, 0, 0⟩] : List CUHDCodetableItem).length ≤ (locals_at 1 0 0).current_state
      ∧ (locals_at 1 0 0).current_state < 2 * ([⟨0, 0, 0⟩] : List CUHDCodetableItem).length
      ∧ (¬ ∃ (sem : ShiftSem) (fuel : Nat) (r : Locals × List (Nat × Nat)),
            symbol_step sem [⟨0, 0, 0⟩] false fuel (locals_at 1 0 0) = .ok r)
      ∧ (symbol_step .zero [⟨0, 2147483648, 1⟩] false 32 (locals_at 1 0 1)).map
            (fun r => (r.1.current_state, r.1.at_)) = .ok (1, 1)
      ∧ (symbol_step .wrap [⟨0, 2147483648, 1⟩] false 32 (locals_at 1 0 1)).map
            (fun r => (r.1.current_state, r.1.at_)) = .ok (1, 1)
      ∧ spec_step_state ⟨0, 2147483648, 1⟩ 1 0 = 4294967297 := by
  refine ⟨by decide, by decide, ?_, by decide!, by decide!, by decide!⟩
  rintro ⟨sem, fuel, r, h⟩
  rw [symbol_step_entry_zero] at h
  cases h

/-- C15 (amended).  For a state `s` in `[num_states, 2 * num_states)` of a table
of at most `2^31` states whose entry `hit = table[s - num_states]` has
`next_state >= 1` and `(next_state + 1) << min_num_bits <= 2^32`, at a bit offset
`at < 32`, the per-symbol step of the kernel returns; with `t0 = hit.min_num_bits`
the new state is `(hit.next_state << t0) | (w mod 2^t0)` followed by `n` window
bits `t0, t0 + 1, ...` appended one at a time, where `n` is the least number for
which the state so built reaches `num_states`; the step consumes
`taken = t0 + n` bits and `at` advances by exactly `taken`.  (The renormalisation
loop is given 32 iterations or more.) -/
theorem symbol_step_formula (sem : ShiftSem) (table : List CUHDCodetableItem) (write : Bool)
    (fuel : Nat) (l : Locals) (hL : table.length ≤ 2147483648) (hfuel : 32 ≤ fuel)
    (h1 : table.length ≤ l.current_state) (h2 : l.current_state < 2 * table.length)
    (h3 : l.at_ < 32)
    (e1 : 1 ≤ (table.getD (l.current_state - table.length) default).next_state)
    (e2 : ((table.getD (l.current_state - table.length) default).next_state + 1)
        * 2 ^ (table.getD (l.current_state - table.length) default).min_num_bits
        ≤ 4294967296) :
    ∃ n l1 w, symbol_step sem table write fuel l = .ok (l1, w)
      ∧ l1.current_state
          = spec_step_state (table.getD (l.current_state - table.length) default) l.window n
      ∧ table.length
          ≤ spec_step_state (table.getD (l.current_state - table.length) default) l.window n
      ∧ (∀ m, m < n →
          spec_step_state (table.getD (l.current_state - table.length) default) l.window m
            < table.length)
      ∧ l1.at_
          = l.at_ + ((table.getD (l.current_state - table.length) default).min_num_bits + n) := by
  obtain ⟨n, l1, w, a, b, c, d, e, _⟩ :=
    symbol_step_core sem table write fuel l hL hfuel h1 h2 h3 e1 e2
  exact ⟨n, l1, w, a, b, c, d, e⟩

/-- Instance of `symbol_step_formula`: state 4 of the table `table_renorm` at bit
0 with the window `0x55555555`.  The entry loads the state `(1 << 1) | 1 = 3`,
below the four states of the table, and one more window bit is appended: the step
ends in state 6 with `taken = 2`.  The table of scenario S1 of the specification
meets the conditions as well. -/
theorem symbol_step_formula_witness :
    table_renorm.length ≤ 2147483648 ∧ 32 ≤ 32
      ∧ table_renorm.length ≤ (locals_at 4 0 0x55555555).current_state
      ∧ (locals_at 4 0 0x55555555).current_state < 2 * table_renorm.length
      ∧ (locals_at 4 0 0x55555555).at_ < 32
      ∧ spec_step_state (table_renorm.getD 0 default) 0x55555555 0 < table_renorm.length
      ∧ (symbol_step .zero table_renorm true 32 (locals_at 4 0 0x55555555)).map
            (fun r => (r.1.current_state, r.1.at_)) = .ok (6, 2)
      ∧ (∀ i, i < table_spec_s1.length →
            1 ≤ (table_spec_s1.getD i default).next_state
            ∧ ((table_spec_s1.getD i default).next_state + 1)
                * 2 ^ (table_spec_s1.getD i default).min_num_bits ≤ 4294967296)
      ∧ ∃ n l1 w, symbol_step .zero table_renorm true 32 (locals_at 4 0 0x55555555)
            = .ok (l1, w)
          ∧ l1.current_state
              = spec_step_state (table_renorm.getD
                  ((locals_at 4 0 0x55555555).current_state - table_renorm.length) default)
                  (locals_at 4 0 0x55555555).window n
          ∧ table_renorm.length
              ≤ spec_step_state (table_renorm.getD
                  ((locals_at 4 0 0x55555555).current_state - table_renorm.length) default)
                  (locals_at 4 0 0x55555555).window n
          ∧ (∀ m, m < n →
              spec_step_state (table_renorm.getD
                  ((locals_at 4 0 0x55555555).current_state - table_renorm.length) default)
                  (locals_at 4 0 0x55555555).window m < table_renorm.length)
          ∧ l1.at_ = (locals_at 4 0 0x55555555).at_
              + ((table_renorm.getD
                  ((locals_at 4 0 0x55555555).current_state - table_renorm.length)
                  default).min_num_bits + n) :=
  ⟨by decide, by decide, by decide, by decide, by decide, by decide, by decide!, by decide,
    symbol_step_formula .zero table_renorm true 32 (locals_at 4 0 0x55555555)
      (by decide) (by decide) (by decide) (by decide) (by decide) (by decide) (by decide)⟩

/-- The table `table_skewed16` is well formed. -/
theorem table_skewed16_ok : WellFormedTable table_skewed16 := by
  unfold WellFormedTable
  decide

/-- C16 as stated fails: on the table of scenario S1 of the specification
(`num_states = 4`) the step from state 4 loads `next_state = 4` with one bit and
ends in state 8 or 9, outside `[4, 8)`; the next lookup `table[8 - 4]` is past
the four entries of the table. -/
theorem range_invariant_fails_table_s1 :
    (symbol_step .zero table_spec_s1 false 32 (locals_at 4 0 0)).map
        (fun r => r.1.current_state) = .ok 8
    ∧ (symbol_step .wrap table_spec_s1 false 32 (locals_at 4 0 1)).map
        (fun r => r.1.current_state) = .ok 9
    ∧ table_spec_s1.length = 4
    ∧ table_spec_s1.length ≤ (locals_at 4 0 0).current_state
    ∧ (locals_at 4 0 0).current_state < 2 * table_spec_s1.length
    ∧ ¬ 8 < 2 * table_spec_s1.length
    ∧ ¬ sub64 8 table_spec_s1.length < table_spec_s1.length := by
  decide!

/-- C16 (amended).  For every decoder table of `num_states <= 2^31` entries, each
with `next_state >= 1` and `(next_state + 1) * 2^min_num_bits <= 2 * num_states`,
and every bit window, if the state before a per-symbol step lies in
`[num_states, 2 * num_states)` (and `at < 32`, as at every step of the kernel)
then the step returns and the state after it, renormalisation included, lies in
`[num_states, 2 * num_states)`; the lookups `table[state - num_states]` before
and after the step are within the table.  (The renormalisation loop is given 32
iterations or more.) -/
theorem range_invariant (sem : ShiftSem) (table : List CUHDCodetableItem) (write : Bool)
    (fuel : Nat) (l : Locals) (hL : table.length ≤ 2147483648)
    (hent : ∀ i, i < table.length →
      1 ≤ (table.getD i default).next_state
      ∧ ((table.getD i default).next_state + 1) * 2 ^ (table.getD i default).min_num_bits
          ≤ 2 * table.length)
    (hfuel : 32 ≤ fuel)
    (h1 : table.length ≤ l.current_state) (h2 : l.current_state < 2 * table.length)
    (h3 : l.at_ < 32) :
    ∃ l1 w, symbol_step sem table write fuel l = .ok (l1, w)
      ∧ table.length ≤ l1.current_state ∧ l1.current_state < 2 * table.length
      ∧ sub64 l.current_state table.length < table.length
      ∧ sub64 l1.current_state table.length < table.length := by
  obtain ⟨e1, e2⟩ := hent (l.current_state - table.length) (by omega)
  obtain ⟨n, l1, w, a, b, c, _, _, f⟩ :=
    symbol_step_core sem table write fuel l hL hfuel h1 h2 h3 e1 (by omega)
  have hge : table.length ≤ l1.current_state := by rw [b]; exact c
  have hlt := f e2
  refine ⟨l1, w, a, hge, hlt, ?_, ?_⟩
  · rw [sub64_of_le _ _ h1 (by omega)]; omega
  · rw [sub64_of_le _ _ hge (by omega)]
    omega

/-- Instance of `range_invariant`: state 24 of the table `table_skewed16`, whose
entry reloads four bits. -/
theorem range_invariant_witness :
    table_skewed16.length ≤ 2147483648
      ∧ (∀ i, i < table_skewed16.length →
          1 ≤ (table_skewed16.getD i default).next_state
          ∧ ((table_skewed16.getD i default).next_state + 1)
              * 2 ^ (table_skewed16.getD i default).min_num_bits ≤ 2 * table_skewed16.length)
      ∧ 32 ≤ 32
      ∧ table_skewed16.length ≤ (locals_at 24 0 0x11111111).current_state
      ∧ (locals_at 24 0 0x11111111).current_state < 2 * table_skewed16.length
      ∧ (locals_at 24 0 0x11111111).at_ < 32
      ∧ ∃ l1 w, symbol_step .wrap table_skewed16 false 32 (locals_at 24 0 0x11111111)
            = .ok (l1, w)
          ∧ table_skewed16.length ≤ l1.current_state
          ∧ l1.current_state < 2 * table_skewed16.length
          ∧ sub64 (locals_at 24 0 0x11111111).current_state table_skewed16.length
              < table_skewed16.length
          ∧ sub64 l1.current_state table_skewed16.length < table_skewed16.length :=
  ⟨by decide, by decide, by decide, by decide, by decide, by decide,
    range_invariant .wrap table_skewed16 false 32 (locals_at 24 0 0x11111111)
      (by decide) (by decide) (by decide) (by decide) (by decide) (by decide)⟩
/-! ## The comparison of phase 2 -/

/-- C12 (amended).  `decode` fails before a worker is started in three cases
only: `S = 0` and `T = 0` (a division by zero at line 26 or 288) and `N_s < T`
(the `assert` at line 284).  In every other configuration, whatever `S mod 4`
and the number of states of the table are, the planner returns its intervals,
and `decode` goes on to start the workers of phase 1 on them. -/
theorem decode_configuration_faults (sem : ShiftSem) (fuel : Nat) (sched : Schedule)
    (S T N_u size_out : Nat) (inp : CUHDInputBuffer) (table : List CUHDCodetableItem)
    (junk : Nat → SubsequenceSyncPoint) :
    (S = 0 → decode sem fuel sched S T N_u size_out inp table junk = .error .division_by_zero)
    ∧ (0 < S → num_subsequences S N_u < T →
        decode sem fuel sched S T N_u size_out inp table junk = .error .assertion_failed)
    ∧ (0 < S → T = 0 →
        decode sem fuel sched S T N_u size_out inp table junk = .error .division_by_zero)
    ∧ (0 < S → 1 ≤ T → T ≤ num_subsequences S N_u →
        get_decoder_intervals S T N_u = .ok (planned S T N_u)
        ∧ ∀ e, run_workers sem fuel (planned S T N_u) S N_u T false false size_out inp table
              sched.phase1
              { sync := (List.range (num_subsequences S N_u)).map junk
                thread_synced := List.replicate T false
                out_positions := List.replicate T 0
                out := [] } = .error e →
            decode sem fuel sched S T N_u size_out inp table junk = .error e) := by
  refine ⟨?_, ?_, ?_, ?_⟩
  · intro h
    unfold decode get_decoder_intervals
    rw [if_pos h]
  · intro h1 h2
    unfold decode get_decoder_intervals
    rw [if_neg (by omega)]
    simp only [h2, ↓reduceIte]
  · intro h1 h2
    unfold decode get_decoder_intervals
    rw [if_neg (by omega)]
    simp only [h2, Nat.not_lt_zero, ↓reduceIte]
  · intro h1 h2 h3
    refine ⟨get_decoder_intervals_eq S T N_u h1 h2 h3, fun e he => ?_⟩
    unfold decode
    simp only [get_decoder_intervals_eq S T N_u h1 h2 h3, he]

/-! ## Subsequences of `2^32` units or more -/

/-- With `subsequence_size >= 2^32` the 32-bit unit counter never equals the
subsequence size: the crossing block is never entered, and a unit loop that does
not store to the output, when it ends, leaves the shared arrays as they are. -/
theorem unit_loop_large_size (sem : ShiftSem) (a : KernelArgs) (in_ptr : List Nat)
    (table : List CUHDCodetableItem) (fuel0 : Nat) (hw : a.write = false)
    (hS : 4294967296 ≤ a.subsequence_size) :
    ∀ fuel l s r, unit_loop sem a in_ptr table fuel0 fuel l s = .ok r → r = s := by
  intro fuel
  induction fuel with
  | zero =>
    intro l s r h
    unfold unit_loop at h
    by_cases hin : l.in_pos < a.end_
    · rw [if_pos hin] at h; cases h
    · rw [if_neg hin] at h; cases h; rfl
  | succ fuel ih =>
    intro l s r h
    unfold unit_loop at h
    by_cases hin : l.in_pos < a.end_
    · rw [if_pos hin] at h
      cases hsl : symbol_loop sem table a.write fuel0 fuel0 l with
      | error e => rw [hsl] at h; cases h
      | ok p =>
        obtain ⟨l1, w⟩ := p
        rw [hsl] at h
        dsimp only at h
        have hw0 : w = [] :=
          symbol_loop_no_write sem table fuel0 fuel0 l l1 w (by rw [← hw]; exact hsl)
        subst hw0
        have hlt : (l1.current_unit + 1) % 2 ^ 32 < 4294967296 := by
          have e32 : (2:Nat) ^ 32 = 4294967296 := by norm_num
          rw [e32]
          exact Nat.mod_lt _ (by norm_num)
        have hne : ({ l1 with in_pos := l1.in_pos + 1
                              current_unit := (l1.current_unit + 1) % 2 ^ 32 } : Locals).current_unit
            ≠ a.subsequence_size := by
          show (l1.current_unit + 1) % 2 ^ 32 ≠ a.subsequence_size
          omega
        rw [crossing_of_ne a _ _ hne] at h
        dsimp only at h
        rw [shared_append_nil] at h
        exact ih _ _ _ h
    · rw [if_neg hin] at h; cases h; rfl

/-- With `S >= 2^32` a pass of phase 1 or 2 that ends leaves the shared arrays
as they are: no sync point is deposited and no flag is set. -/
theorem decode_phase1_large_size (sem : ShiftSem) (fuel : Nat) (a : KernelArgs)
    (size_out : Nat) (inp : CUHDInputBuffer) (table : List CUHDCodetableItem) (s r : Shared)
    (hw : a.write = false) (hS : 4294967296 ≤ a.subsequence_size)
    (h : decode_phase1 sem fuel a size_out inp table s = .ok r) : r = s := by
  unfold decode_phase1 at h
  by_cases hf : (a.overflow && s.thread_synced.getD a.thread_id false) = true
  · rw [if_pos hf] at h; cases h; rfl
  · rw [if_neg hf] at h
    exact unit_loop_large_size sem a inp.compressed_data table fuel hw hS fuel _ s r h

theorem run_workers_large_size (sem : ShiftSem) (fuel : Nat) (ivs : List DecoderInterval)
    (S N_u T : Nat) (ov : Bool) (size_out : Nat) (inp : CUHDInputBuffer)
    (table : List CUHDCodetableItem) (hS : 4294967296 ≤ S) :
    ∀ (order : List Nat) (s r : Shared),
      run_workers sem fuel ivs S N_u T ov false size_out inp table order s = .ok r → r = s := by
  intro order
  induction order with
  | nil =>
    intro s r h
    unfold run_workers at h
    cases h
    rfl
  | cons i rest ih =>
    intro s r h
    unfold run_workers at h
    cases hd : decode_phase1 sem fuel (worker_args ivs S N_u T ov false i) size_out inp table s with
    | error e => rw [hd] at h; cases h
    | ok s1 =>
      rw [hd] at h
      dsimp only at h
      have := decode_phase1_large_size sem fuel _ size_out inp table s s1 rfl hS hd
      subst this
      exact ih _ _ h

/-- With `S >= 2^32` the phase-2 loop does not exit unless every flag was set
before. -/
theorem phase2_loop_large_size (sem : ShiftSem) (fuel0 : Nat) (ivs : List DecoderInterval)
    (S N_u T : Nat) (size_out : Nat) (inp : CUHDInputBuffer)
    (table : List CUHDCodetableItem) (order : Nat → List Nat) (hS : 4294967296 ≤ S) :
    ∀ (fuel k : Nat) (s : Shared) (r : Shared × Nat), all_synced T s = false →
      phase2_loop sem fuel0 ivs S N_u T size_out inp table order fuel k s ≠ .ok r := by
  intro fuel
  induction fuel with
  | zero =>
    intro k s r _ h
    unfold phase2_loop at h
    cases h
  | succ fuel ih =>
    intro k s r hs h
    unfold phase2_loop at h
    cases hd : run_workers sem fuel0 ivs S N_u T true false size_out inp table (order k) s with
    | error e => rw [hd] at h; cases h
    | ok s1 =>
      rw [hd] at h
      dsimp only at h
      have := run_workers_large_size sem fuel0 ivs S N_u T true size_out inp table hS _ _ _ hd
      subst this
      rw [hs] at h
      simp only [Bool.false_eq_true, ↓reduceIte] at h
      exact ih _ _ _ hs h

/-- With `S >= 2^32` and two threads or more `decode` never returns: phase 1
deposits nothing, no flag is ever set, and the phase-2 loop has no exit. -/
theorem decode_large_size (sem : ShiftSem) (fuel : Nat) (sched : Schedule)
    (S T N_u size_out : Nat) (inp : CUHDInputBuffer) (table : List CUHDCodetableItem)
    (junk : Nat → SubsequenceSyncPoint) (r : DecodeResult)
    (hS : 4294967296 ≤ S) (hT : 2 ≤ T) :
    decode sem fuel sched S T N_u size_out inp table junk ≠ .ok r := by
  intro h
  unfold decode at h
  dsimp only at h
  cases hg : get_decoder_intervals S T N_u with
  | error e => rw [hg] at h; cases h
  | ok ivs =>
    rw [hg] at h
    dsimp only at h
    cases h1 : run_workers sem fuel ivs S N_u T false false size_out inp table sched.phase1
        { sync := (List.range (num_subsequences S N_u)).map junk
          thread_synced := List.replicate T false
          out_positions := List.replicate T 0
          out := [] } with
    | error e => rw [h1] at h; cases h
    | ok s1 =>
      rw [h1] at h
      dsimp only at h
      have e1 := run_workers_large_size sem fuel ivs S N_u T false size_out inp table hS _ _ _ h1
      subst e1
      have hall : all_synced T
          { sync := (List.range (num_subsequences S N_u)).map junk
            thread_synced := List.replicate T false
            out_positions := List.replicate T 0
            out := [] } = false := by
        unfold all_synced
        rw [List.all_eq_false]
        refine ⟨1, ?_, ?_⟩
        · rw [List.mem_range']
          exact ⟨0, by omega, by omega⟩
        · simp
      cases h2 : phase2_loop sem fuel ivs S N_u T size_out inp table sched.phase2 fuel 0
          { sync := (List.range (num_subsequences S N_u)).map junk
            thread_synced := List.replicate T false
            out_positions := List.replicate T 0
            out := [] } with
      | error e => rw [h2] at h; cases h
      | ok p =>
        exact phase2_loop_large_size sem fuel ivs S N_u T size_out inp table sched.phase2 hS
          fuel 0 _ p hall h2

/-- C10 as stated fails: `current_unit` is a 32-bit counter compared with the
`size_t` subsequence size.  With `S = 2^32`, two threads and `N_u = 2^33` units
(two subsequences, `N_u + S < 2^64`) the counter never equals `S`, phase 1
deposits nothing, no flag is ever set and the phase-2 loop has no exit: `decode`
returns for no content of the units, no order of the workers and no number of
loop iterations. -/
theorem decode_never_returns_at_size_2_32 :
    0 < 4294967296
      ∧ 2 ≤ num_subsequences 4294967296 8589934592
      ∧ 8589934592 + 4294967296 < 2 ^ 64
      ∧ WellFormedTable table_uniform4
      ∧ ¬ ∃ (sem : ShiftSem) (fuel : Nat) (sched : Schedule) (size_out : Nat)
          (units : List Nat) (junk : Nat → SubsequenceSyncPoint) (r : DecodeResult),
          decode sem fuel sched 4294967296 2 8589934592 size_out
            { input_alternating 8 with compressed_data := units } table_uniform4 junk = .ok r :=
  ⟨by decide, by decide, by norm_num, table_uniform4_ok,
    fun ⟨sem, fuel, sched, size_out, units, junk, r, h⟩ =>
      decode_large_size sem fuel sched 4294967296 2 8589934592 size_out _ table_uniform4 junk r
        (by decide) (by decide) h⟩
/-! ## The reads of the compressed input -/

theorem symbol_step_in_pos (sem : ShiftSem) (table : List CUHDCodetableItem) (write : Bool)
    (fuel : Nat) (l l1 : Locals) (w : List (Nat × Nat))
    (h : symbol_step sem table write fuel l = .ok (l1, w)) : l1.in_pos = l.in_pos := by
  unfold symbol_step at h
  dsimp only at h
  split at h
  · cases h
  · simp only [Except.ok.injEq, Prod.mk.injEq] at h
    rw [← h.1]

theorem symbol_loop_in_pos (sem : ShiftSem) (table : List CUHDCodetableItem) (write : Bool)
    (fuel0 : Nat) :
    ∀ n (l l1 : Locals) (w : List (Nat × Nat)),
      symbol_loop sem table write fuel0 n l = .ok (l1, w) → l1.in_pos = l.in_pos := by
  intro n
  induction n with
  | zero =>
    intro l l1 w h
    unfold symbol_loop at h
    split at h
    · cases h
    · simp only [Except.ok.injEq, Prod.mk.injEq] at h
      rw [← h.1]
  | succ n ih =>
    intro l l1 w h
    unfold symbol_loop at h
    split at h
    · split at h
      · cases h
      · rename_i la wa ea
        split at h
        · cases h
        · rename_i lb wb eb
          simp only [Except.ok.injEq, Prod.mk.injEq] at h
          rw [← h.1, ih la lb wb eb, symbol_step_in_pos sem table write fuel0 l la wa ea]
    · simp only [Except.ok.injEq, Prod.mk.injEq] at h
      rw [← h.1]

theorem crossing_in_pos (a : KernelArgs) (x l3 : Locals) (s s3 : Shared)
    (h : crossing a x s = .continue_ l3 s3) : l3.in_pos = x.in_pos := by
  by_cases hu : x.current_unit = a.subsequence_size
  · rw [crossing_continue a x l3 s s3 hu h]
    rfl
  · rw [crossing_of_ne a x s hu] at h
    simp only [Step.continue_.injEq] at h
    rw [← h.1]

/-- Every index the unit loop reads is at most `end + 1`. -/
theorem unit_loop_reads_le (sem : ShiftSem) (a : KernelArgs) (in_ptr : List Nat)
    (table : List CUHDCodetableItem) (fuel0 : Nat) :
    ∀ fuel l s r, unit_loop_reads sem a in_ptr table fuel0 fuel l s = .ok r →
      ∀ i, i ∈ r → i ≤ a.end_ + 1 := by
  intro fuel
  induction fuel with
  | zero =>
    intro l s r h
    unfold unit_loop_reads at h
    split at h
    · cases h
    · cases h
      intro i hi
      cases hi
  | succ fuel ih =>
    intro l s r h
    unfold unit_loop_reads at h
    split at h
    · rename_i hin
      split at h
      · cases h
      · rename_i l1 w e1
        split at h
        · cases h
          intro i hi
          cases hi
        · rename_i l3 s3 e3
          split at h
          · cases h
          · rename_i r2 e2
            cases h
            have h1 := symbol_loop_in_pos sem table a.write fuel0 fuel0 l l1 w e1
            have h3 := crossing_in_pos a _ l3 _ s3 e3
            have h3' : l3.in_pos = l1.in_pos + 1 := h3
            intro i hi
            rcases List.mem_cons.mp hi with e | hi
            · omega
            · rcases List.mem_cons.mp hi with e | hi
              · omega
              · exact ih _ _ _ e2 i hi
    · cases h
      intro i hi
      cases hi

/-- A unit loop that returns has a list of reads. -/
theorem unit_loop_reads_ok (sem : ShiftSem) (a : KernelArgs) (in_ptr : List Nat)
    (table : List CUHDCodetableItem) (fuel0 : Nat) :
    ∀ fuel l s s1, unit_loop sem a in_ptr table fuel0 fuel l s = .ok s1 →
      ∃ r, unit_loop_reads sem a in_ptr table fuel0 fuel l s = .ok r := by
  intro fuel
  induction fuel with
  | zero =>
    intro l s s1 h
    unfold unit_loop at h
    unfold unit_loop_reads
    split at h
    · cases h
    · rename_i hin
      rw [if_neg hin]
      exact ⟨[], rfl⟩
  | succ fuel ih =>
    intro l s s1 h
    unfold unit_loop at h
    unfold unit_loop_reads
    split at h
    · rename_i hin
      rw [if_pos hin]
      split at h
      · cases h
      · rename_i l1 w e1
        try rw [e1]
        try dsimp only
        split at h
        · rename_i s2 e3
          try rw [e3]
          exact ⟨[], rfl⟩
        · rename_i l3 s3 e3
          try rw [e3]
          try dsimp only
          obtain ⟨r, er⟩ := ih _ _ _ h
          rw [er]
          exact ⟨_, rfl⟩
    · rename_i hin
      rw [if_neg hin]
      exact ⟨[], rfl⟩

theorem crossing_no_return (a : KernelArgs) (x : Locals) (s s2 : Shared)
    (hov : a.overflow = false) (h : crossing a x s = .returned s2) : False := by
  unfold crossing at h
  split at h
  · simp only [hov, Bool.false_and, Bool.false_eq_true, ↓reduceIte] at h
    cases h
  · cases h

/-- A pass that is not cut short by a `return` reads the index `end + 1`. -/
theorem unit_loop_reads_last (sem : ShiftSem) (a : KernelArgs) (in_ptr : List Nat)
    (table : List CUHDCodetableItem) (fuel0 : Nat) (hov : a.overflow = false) :
    ∀ fuel l s r, unit_loop_reads sem a in_ptr table fuel0 fuel l s = .ok r →
      l.in_pos < a.end_ → a.end_ + 1 ∈ r := by
  intro fuel
  induction fuel with
  | zero =>
    intro l s r h hin
    unfold unit_loop_reads at h
    rw [if_pos hin] at h
    cases h
  | succ fuel ih =>
    intro l s r h hin
    unfold unit_loop_reads at h
    rw [if_pos hin] at h
    split at h
    · cases h
    · rename_i l1 w e1
      split at h
      · rename_i s2 e3
        exact (crossing_no_return a _ _ s2 hov e3).elim
      · rename_i l3 s3 e3
        split at h
        · cases h
        · rename_i r2 e2
          cases h
          have h1 := symbol_loop_in_pos sem table a.write fuel0 fuel0 l l1 w e1
          have h3 : l3.in_pos = l1.in_pos + 1 := crossing_in_pos a _ l3 _ s3 e3
          by_cases hlast : l.in_pos + 1 = a.end_
          · have : l3.in_pos + 1 = a.end_ + 1 := by omega
            rw [this]
            exact List.mem_cons_of_mem _ (List.mem_cons_self _ _)
          · exact List.mem_cons_of_mem _ (List.mem_cons_of_mem _
              (ih _ _ _ e2 (by rw [refill_in_pos]; omega)))

/-- The reads of a pass that returns. -/
theorem decode_phase1_reads_ok (sem : ShiftSem) (fuel : Nat) (a : KernelArgs) (size_out : Nat)
    (inp : CUHDInputBuffer) (table : List CUHDCodetableItem) (s s1 : Shared)
    (h : decode_phase1 sem fuel a size_out inp table s = .ok s1)
    (hin : (initial_locals sem a size_out inp s).in_pos ≤ a.end_) :
    ∃ r, decode_phase1_reads sem fuel a size_out inp table s = .ok r
      ∧ (∀ i, i ∈ r → i ≤ a.end_ + 1)
      ∧ (a.overflow = false → (initial_locals sem a size_out inp s).in_pos < a.end_ →
          a.end_ + 1 ∈ r) := by
  unfold decode_phase1 at h
  unfold decode_phase1_reads
  split at h
  · rename_i hc
    rw [if_pos hc]
    refine ⟨[], rfl, fun i hi => (by cases hi), fun hov _ => ?_⟩
    rw [hov] at hc
    simp at hc
  · rename_i hc
    rw [if_neg hc]
    obtain ⟨r, er⟩ := unit_loop_reads_ok sem a inp.compressed_data table fuel fuel _ _ _ h
    rw [er]
    refine ⟨_, rfl, ?_, ?_⟩
    · intro i hi
      rcases List.mem_cons.mp hi with e | hi
      · omega
      · rcases List.mem_cons.mp hi with e | hi
        · omega
        · exact unit_loop_reads_le sem a inp.compressed_data table fuel fuel _ _ _ er i hi
    · intro hov hlt
      exact List.mem_cons_of_mem _ (List.mem_cons_of_mem _
        (unit_loop_reads_last sem a inp.compressed_data table fuel hov fuel _ _ _ er hlt))

theorem args_end_le (S T N_u : Nat) (ov wr : Bool) (j : Nat) (hT : 1 ≤ T) (hj : j < T)
    (hS : 0 < S) (hU : N_u + S < 2 ^ 64) :
    (args_of S T N_u ov wr j).end_ ≤ num_subsequences S N_u * S
      ∧ (j = T - 1 → (args_of S T N_u ov wr j).end_ = num_subsequences S N_u * S) := by
  have hg := getD_planned S T N_u j hj hS hU
  have he : (args_of S T N_u ov wr j).end_
      = (j + 1) * (num_subsequences S N_u / T * S)
          + (if j = T - 1 then num_subsequences S N_u % T * S else 0) := by
    show ((planned S T N_u).getD j default).end_ = _
    rw [hg]
  have hdm := Nat.div_add_mod (num_subsequences S N_u) T
  generalize num_subsequences S N_u = N at *
  generalize hq : N / T = q at *
  generalize hr : N % T = r at *
  have hN' : N * S = T * (q * S) + r * S := by rw [← hdm]; ring
  rw [he, hN']
  by_cases e : j = T - 1
  · simp only [e, ↓reduceIte]
    have : T - 1 + 1 = T := by omega
    rw [this]
    exact ⟨le_rfl, fun _ => rfl⟩
  · simp only [e, ↓reduceIte, Nat.add_zero]
    refine ⟨?_, fun h => h.elim⟩
    have : (j + 1) * (q * S) ≤ T * (q * S) := Nat.mul_le_mul_right _ (by omega)
    omega

/-- C11 (amended).  On a valid input, in each of the three modes in which
`decode` runs the kernel, the pass of worker `j` returns and every index at
which it reads the compressed input is at most `end + 1`, where `end` is the end
of the interval of the worker; `end` is at most `N_s * S` and equals it for the
last worker, and a phase-1 pass does read the index `end + 1`.  So the reads
reach the index `N_s * S + 1` and not beyond. -/
theorem input_reads_bound (sem : ShiftSem) (S T N_u size_out : Nat) (inp : CUHDInputBuffer)
    (table : List CUHDCodetableItem) (v : ValidInput S T N_u inp table)
    (fuel : Nat) (hfuel : enough_fuel S T N_u table ≤ fuel)
    (j : Nat) (hj : j < T) (s : Shared) (hlen : s.sync.length = num_subsequences S N_u) :
    (∃ r, decode_phase1_reads sem fuel (args_of S T N_u false false j) size_out inp table s = .ok r
        ∧ (∀ i, i ∈ r → i ≤ (args_of S T N_u false false j).end_ + 1)
        ∧ (args_of S T N_u false false j).end_ + 1 ∈ r)
    ∧ (GoodShared S T N_u table s → 1 ≤ j →
        ∃ r, decode_phase1_reads sem fuel (args_of S T N_u true false j) size_out inp table s
            = .ok r
          ∧ ∀ i, i ∈ r → i ≤ (args_of S T N_u false false j).end_ + 1)
    ∧ (GoodShared S T N_u table s →
        ∃ r, decode_phase1_reads sem fuel (args_of S T N_u false true j) size_out inp table s
            = .ok r
          ∧ ∀ i, i ∈ r → i ≤ (args_of S T N_u false false j).end_ + 1)
    ∧ (args_of S T N_u false false j).end_ ≤ num_subsequences S N_u * S
    ∧ (j = T - 1 → (args_of S T N_u false false j).end_ = num_subsequences S N_u * S) := by
  have hend := args_end_le S T N_u false false j v.threads_pos hj v.size_pos v.units_lt
  refine ⟨?_, ?_, ?_, hend.1, hend.2⟩
  · obtain ⟨g1, g2, g3, g4, g5, g6, g7, g8, g9, g10, g11, g12, g13⟩ :=
      args_geometry S T N_u false false j v.size_pos v.threads_pos v.enough_subs v.units_lt hj
    obtain ⟨s1, e1, _⟩ := phase1_pass sem S T N_u size_out inp table v fuel hfuel j hj s hlen
    have hin : (initial_locals sem (args_of S T N_u false false j) size_out inp s).in_pos
        = (args_of S T N_u false false j).begin := by
      simp only [initial_locals, g5, g6, Bool.false_and, Bool.or_self, Bool.false_eq_true,
        ↓reduceIte]
    have hpos : 0 < owned_count S T N_u j * S := Nat.mul_pos (by omega) v.size_pos
    obtain ⟨r, er, h1, h2⟩ := decode_phase1_reads_ok sem fuel _ size_out inp table s s1 e1
      (by rw [hin, g8]; omega)
    exact ⟨r, er, h1, h2 g5 (by rw [hin, g8]; omega)⟩
  · intro gs h1
    obtain ⟨s1, e1, _⟩ := phase2_pass sem S T N_u size_out inp table v fuel hfuel j h1 hj s gs
    obtain ⟨b0, b1, b2, b3, b4, b5, b6, b7⟩ :=
      boot_locals sem S T N_u size_out inp table v true false rfl j h1 hj s gs
    obtain ⟨g1, g2, g3, g4, g5, g6, g7, g8, g9, g10, g11, g12, g13⟩ :=
      args_geometry S T N_u true false j v.size_pos v.threads_pos v.enough_subs v.units_lt hj
    obtain ⟨r, er, h1, _⟩ := decode_phase1_reads_ok sem fuel _ size_out inp table s s1 e1
      (by rw [g8]; omega)
    exact ⟨r, er, h1⟩
  · intro gs
    obtain ⟨s1, e1, _⟩ := phase3_pass sem S T N_u size_out inp table v fuel hfuel j hj s gs
    obtain ⟨g1, g2, g3, g4, g5, g6, g7, g8, g9, g10, g11, g12, g13⟩ :=
      args_geometry S T N_u false true j v.size_pos v.threads_pos v.enough_subs v.units_lt hj
    have hin : (initial_locals sem (args_of S T N_u false true j) size_out inp s).in_pos
        ≤ (args_of S T N_u false true j).end_ := by
      by_cases h0 : j = 0
      · subst h0
        have : (initial_locals sem (args_of S T N_u false true 0) size_out inp s).in_pos
            = (args_of S T N_u false true 0).begin := by
          simp only [initial_locals, g5, g6, g1]
          simp
        rw [this, g8]; omega
      · obtain ⟨b0, b1, b2, b3, b4, b5, b6, b7⟩ :=
          boot_locals sem S T N_u size_out inp table v false true rfl j (by omega) hj s gs
        rw [g8]; omega
    obtain ⟨r, er, h1, _⟩ := decode_phase1_reads_ok sem fuel _ size_out inp table s s1 e1 hin
    exact ⟨r, er, h1⟩

/-- Instance of `input_reads_bound`: worker 1 of two on eight units. -/
theorem input_reads_bound_witness :
    ValidInput 4 2 8 (input_alternating 8) table_uniform4
      ∧ enough_fuel 4 2 8 table_uniform4 ≤ 148 ∧ 1 < 2
      ∧ (List.replicate 2 (default : SubsequenceSyncPoint)).length = num_subsequences 4 8
      ∧ ∃ r, decode_phase1_reads .zero 148 (args_of 4 2 8 false false 1) 128
              (input_alternating 8) table_uniform4
              { sync := List.replicate 2 default, thread_synced := [false, false],
                out_positions := [0, 0], out := [] } = .ok r
          ∧ (∀ i, i ∈ r → i ≤ (args_of 4 2 8 false false 1).end_ + 1)
          ∧ (args_of 4 2 8 false false 1).end_ + 1 ∈ r :=
  ⟨valid_alternating _, by decide, by decide, by decide,
    (input_reads_bound .zero 4 2 8 128 (input_alternating 8) table_uniform4
      (valid_alternating _) 148 (by decide) 1 (by decide)
      { sync := List.replicate 2 default, thread_synced := [false, false],
        out_positions := [0, 0], out := [] } (by decide)).1⟩

/-! ## Runs of the transition system and the loops of the kernel -/

/-- A run is determined by its first locals. -/
theorem trace_det (next : Locals → Except Fault Locals) (stop : Locals → Prop) :
    ∀ l ts lf, Trace next stop l ts lf →
      ∀ ts2 lf2, Trace next stop l ts2 lf2 → ts = ts2 ∧ lf = lf2 := by
  intro l ts lf h
  induction h with
  | done l h =>
    intro ts2 lf2 h2
    cases h2 with
    | done _ _ => exact ⟨rfl, rfl⟩
    | step _ l1 _ ts h3 e t => exact absurd h h3
  | step l l1 lf ts h e t ih =>
    intro ts2 lf2 h2
    cases h2 with
    | done _ h3 => exact absurd h3 h
    | step _ l2 _ ts3 _ e2 t2 =>
      rw [e] at e2
      cases e2
      obtain ⟨a, b⟩ := ih _ _ t2
      exact ⟨by rw [a], b⟩

/-- The stores of a per-symbol step are those of `store_of`. -/
theorem symbol_step_log (sem : ShiftSem) (table : List CUHDCodetableItem) (write : Bool)
    (fuel : Nat) (l l1 : Locals) (w : List (Nat × Nat))
    (h : symbol_step sem table write fuel l = .ok (l1, w)) :
    w = (store_of table write l).toList := by
  unfold symbol_step at h
  dsimp only at h
  split at h
  · cases h
  · simp only [Except.ok.injEq, Prod.mk.injEq] at h
    rw [← h.2]
    unfold store_of symbol_of
    by_cases hst : (write && l.reset && decide (l.out_pos < l.out_size)) = true
    · rw [if_pos hst, if_pos hst]; rfl
    · rw [if_neg hst, if_neg hst]; rfl

theorem step_locals_of (sem : ShiftSem) (table : List CUHDCodetableItem) (write : Bool)
    (fuel : Nat) (l l1 : Locals) (w : List (Nat × Nat))
    (h : symbol_step sem table write fuel l = .ok (l1, w)) :
    step_locals sem table write fuel l = .ok l1 := by
  unfold step_locals
  rw [h]

theorem step_locals_inv (sem : ShiftSem) (table : List CUHDCodetableItem) (write : Bool)
    (fuel : Nat) (l l1 : Locals)
    (h : step_locals sem table write fuel l = .ok l1) :
    ∃ w, symbol_step sem table write fuel l = .ok (l1, w) := by
  unfold step_locals at h
  cases hs : symbol_step sem table write fuel l with
  | error e => rw [hs] at h; cases h
  | ok p =>
    obtain ⟨l2, w⟩ := p
    rw [hs] at h
    cases h
    exact ⟨w, rfl⟩

/-- The symbol loop as a run: its steps are the locals of a run of
`step_locals` that stops when `at` reaches 32, and its stores are those of the
steps. -/
theorem symbol_loop_steps_trace (sem : ShiftSem) (table : List CUHDCodetableItem)
    (write : Bool) (fuel0 : Nat) :
    ∀ n (l l1 : Locals) (w : List (Nat × Nat)),
      symbol_loop sem table write fuel0 n l = .ok (l1, w) →
      ∃ ts, symbol_loop_steps sem table write fuel0 n l = .ok ts
        ∧ Trace (step_locals sem table write fuel0) (fun t => 32 ≤ t.at_) l ts l1
        ∧ w = ts.filterMap (store_of table write) := by
  intro n
  induction n with
  | zero =>
    intro l l1 w h
    rw [symbol_loop] at h
    rw [symbol_loop_steps]
    by_cases hat : l.at_ < bits_in_unit
    · rw [if_pos hat] at h; cases h
    · rw [if_neg hat] at h
      rw [if_neg hat]
      cases h
      exact ⟨[], rfl, Trace.done _ (by unfold bits_in_unit at hat; omega), rfl⟩
  | succ n ih =>
    intro l l1 w h
    rw [symbol_loop] at h
    rw [symbol_loop_steps]
    by_cases hat : l.at_ < bits_in_unit
    · rw [if_pos hat] at h
      rw [if_pos hat]
      cases hs : symbol_step sem table write fuel0 l with
      | error e => rw [hs] at h; cases h
      | ok p =>
        obtain ⟨la, wa⟩ := p
        rw [hs] at h
        dsimp only at h ⊢
        cases hl : symbol_loop sem table write fuel0 n la with
        | error e => rw [hl] at h; cases h
        | ok q =>
          obtain ⟨lb, wb⟩ := q
          obtain ⟨ts, e1, e2, e3⟩ := ih la lb wb hl
          rw [hl] at h
          dsimp only at h
          cases h
          rw [e1]
          refine ⟨l :: ts, rfl, ?_, ?_⟩
          · exact Trace.step l la _ ts (by unfold bits_in_unit at hat; omega)
              (step_locals_of sem table write fuel0 l la wa hs) e2
          · rw [symbol_step_log sem table write fuel0 l la wa hs, e3]
            cases hst : store_of table write l with
            | none => simp [List.filterMap_cons, hst]
            | some v => simp [List.filterMap_cons, hst]
    · rw [if_neg hat] at h
      rw [if_neg hat]
      cases h
      exact ⟨[], rfl, Trace.done _ (by unfold bits_in_unit at hat; omega), rfl⟩

/-- Without `overflow` the crossing block does not return. -/
theorem crossing_no_overflow (a : KernelArgs) (x : Locals) (s : Shared)
    (hov : a.overflow = false) :
    ∃ s3, crossing a x s
      = .continue_ (if x.current_unit = a.subsequence_size then cross_locals a x else x) s3 := by
  cases hw : a.write with
  | true => exact ⟨s, crossing_phase3_eq a x s hov hw⟩
  | false =>
    by_cases hu : x.current_unit = a.subsequence_size
    · rw [if_pos hu, crossing_phase1 a x s hov hw hu]
      exact ⟨_, rfl⟩
    · rw [if_neg hu, crossing_of_ne a x s hu]
      exact ⟨_, rfl⟩

theorem advance_inner (sem : ShiftSem) (a : KernelArgs) (in_ptr : List Nat)
    (table : List CUHDCodetableItem) (fuel0 : Nat) (l l1 : Locals)
    (e : step_locals sem table a.write fuel0 l = .ok l1) (h : l1.at_ < 32) :
    advance sem a in_ptr table fuel0 l = .ok l1 := by
  obtain ⟨w, hs⟩ := step_locals_inv sem table a.write fuel0 l l1 e
  unfold advance
  rw [hs]
  dsimp only
  rw [if_pos (by unfold bits_in_unit; exact h)]

theorem advance_last (sem : ShiftSem) (a : KernelArgs) (in_ptr : List Nat)
    (table : List CUHDCodetableItem) (fuel0 : Nat) (l l1 : Locals)
    (e : step_locals sem table a.write fuel0 l = .ok l1) (h : 32 ≤ l1.at_) :
    advance sem a in_ptr table fuel0 l = .ok (after_unit sem a in_ptr l1) := by
  obtain ⟨w, hs⟩ := step_locals_inv sem table a.write fuel0 l l1 e
  unfold advance after_unit
  rw [hs]
  dsimp only
  rw [if_neg (by unfold bits_in_unit; omega)]
  by_cases hc : (l1.current_unit + 1) % 2 ^ 32 = a.subsequence_size
  · rw [if_pos hc, if_pos hc]
  · rw [if_neg hc, if_neg hc]

/-- The steps of one unit followed by a run from the next unit are a run. -/
theorem trace_unit (sem : ShiftSem) (a : KernelArgs) (in_ptr : List Nat)
    (table : List CUHDCodetableItem) (fuel0 : Nat) (ts2 : List Locals) (lf : Locals) :
    ∀ l ts l1, Trace (step_locals sem table a.write fuel0) (fun t => 32 ≤ t.at_) l ts l1 →
      l.at_ < 32 → l.in_pos < a.end_ →
      Trace (advance sem a in_ptr table fuel0) (fun t => a.end_ ≤ t.in_pos)
        (after_unit sem a in_ptr l1) ts2 lf →
      Trace (advance sem a in_ptr table fuel0) (fun t => a.end_ ≤ t.in_pos) l (ts ++ ts2) lf := by
  intro l ts l1 h
  induction h with
  | done l h => intro hat; omega
  | step l l2 l1 ts h e t ih =>
    intro hat hin h2
    obtain ⟨w, hs⟩ := step_locals_inv sem table a.write fuel0 l l2 e
    have hp := symbol_step_in_pos sem table a.write fuel0 l l2 w hs
    by_cases hat2 : l2.at_ < 32
    · exact Trace.step l l2 lf (ts ++ ts2) (by omega)
        (advance_inner sem a in_ptr table fuel0 l l2 e hat2) (ih hat2 (by omega) h2)
    · cases t with
      | done _ _ =>
        exact Trace.step l _ lf ts2 (by omega)
          (advance_last sem a in_ptr table fuel0 l l2 e (by omega)) h2
      | step _ l3 _ ts3 h3 _ _ => exact absurd (by omega) h3

/-- Of the steps of one unit only the last can end a subsequence. -/
theorem cross_of_unit (sem : ShiftSem) (a : KernelArgs)
    (table : List CUHDCodetableItem) (fuel0 : Nat) :
    ∀ l ts l1, Trace (step_locals sem table a.write fuel0) (fun t => 32 ≤ t.at_) l ts l1 →
      l.at_ < 32 →
      ts.filterMap (cross_of sem a table fuel0)
        = if (l1.current_unit + 1) % 2 ^ 32 = a.subsequence_size then
            [{ l1 with in_pos := l1.in_pos + 1, current_unit := (l1.current_unit + 1) % 2 ^ 32 }]
          else [] := by
  intro l ts l1 h
  induction h with
  | done l h => intro hat; omega
  | step l l2 l1 ts h e t ih =>
    intro hat
    obtain ⟨w, hs⟩ := step_locals_inv sem table a.write fuel0 l l2 e
    by_cases hat2 : l2.at_ < 32
    · have hc : cross_of sem a table fuel0 l = none := by
        unfold cross_of
        rw [hs]
        dsimp only
        rw [if_pos (by unfold bits_in_unit; exact hat2)]
      rw [List.filterMap_cons, hc]
      exact ih hat2
    · cases t with
      | done _ _ =>
        unfold cross_of
        rw [List.filterMap_cons, hs]
        dsimp only
        rw [if_neg (by unfold bits_in_unit; omega)]
        by_cases hc : (l2.current_unit + 1) % 2 ^ 32 = a.subsequence_size
        · rw [if_pos hc, if_pos hc]; rfl
        · rw [if_neg hc, if_neg hc]; rfl
      | step _ l3 _ ts3 h3 _ _ => exact absurd (by omega) h3

theorem after_unit_fields (sem : ShiftSem) (a : KernelArgs) (in_ptr : List Nat) (l1 : Locals) :
    (after_unit sem a in_ptr l1).current_state = l1.current_state
      ∧ (after_unit sem a in_ptr l1).in_pos = l1.in_pos + 1
      ∧ (after_unit sem a in_ptr l1).out_pos = l1.out_pos
      ∧ (after_unit sem a in_ptr l1).out_size = l1.out_size
      ∧ (32 ≤ l1.at_ → l1.at_ ≤ 62 → (after_unit sem a in_ptr l1).at_ = l1.at_ - 32) := by
  unfold after_unit
  by_cases hc : (l1.current_unit + 1) % 2 ^ 32 = a.subsequence_size
  · rw [if_pos hc]
    refine ⟨by rw [refill_current_state]; rfl, by rw [refill_in_pos]; rfl,
      by rw [refill_out_pos]; rfl, by rw [refill_out_size]; rfl, fun h1 h2 => ?_⟩
    exact refill_at sem in_ptr _ h1 h2
  · rw [if_neg hc]
    refine ⟨by rw [refill_current_state], by rw [refill_in_pos],
      by rw [refill_out_pos], by rw [refill_out_size], fun h1 h2 => ?_⟩
    exact refill_at sem in_ptr _ h1 h2

/-- The unit loop of a pass without `overflow` as a run of `advance` that stops
at `end`: its steps are the locals of the run, the crossings are those of the
steps that end a subsequence, and in phase 3 the stores are those of the
steps. -/
theorem unit_loop_steps_trace (sem : ShiftSem) (a : KernelArgs) (in_ptr : List Nat)
    (table : List CUHDCodetableItem) (fuel0 : Nat) (wf : WellFormedTable table)
    (hfuel0 : 33 * table.length < fuel0) (hov : a.overflow = false) :
    ∀ fuel l s, table.length ≤ l.current_state → l.current_state < 2 * table.length →
      l.at_ < 32 → a.end_ ≤ l.in_pos + fuel →
      ∃ ts lf, unit_loop_steps sem a in_ptr table fuel0 fuel l s = .ok ts
        ∧ Trace (advance sem a in_ptr table fuel0) (fun t => a.end_ ≤ t.in_pos) l ts lf
        ∧ crossings sem a in_ptr table fuel0 fuel l
            = .ok (ts.filterMap (cross_of sem a table fuel0))
        ∧ (a.write = true →
            unit_loop sem a in_ptr table fuel0 fuel l s
              = .ok { s with out := s.out ++ ts.filterMap (store_of table a.write) }) := by
  intro fuel
  induction fuel with
  | zero =>
    intro l s _ _ _ hend
    refine ⟨[], l, ?_, Trace.done _ (by omega), ?_, fun _ => ?_⟩
    · rw [unit_loop_steps, if_neg (by omega)]
    · rw [crossings, if_neg (by omega)]; rfl
    · rw [unit_loop, if_neg (by omega)]
      simp only [List.filterMap_nil, shared_append_nil]
  | succ fuel ih =>
    intro l s h1 h2 h3 hend
    by_cases hin : l.in_pos < a.end_
    · obtain ⟨l1, w1, e1, p1⟩ := symbol_loop_spec sem table a.write fuel0 wf
        (by have := wf.1; omega) fuel0 l h1 h2 h3 (symbol_loop_fuel table fuel0 l hfuel0 h2)
      obtain ⟨t1, et, tr, ew⟩ := symbol_loop_steps_trace sem table a.write fuel0 fuel0 l l1 w1 e1
      have hat1 := p1.at_le
      have hat2 := p1.at_ge
      obtain ⟨f1, f2, f3, f4, f5⟩ := after_unit_fields sem a in_ptr l1
      obtain ⟨s3, ec⟩ := crossing_no_overflow a
        { l1 with in_pos := l1.in_pos + 1, current_unit := (l1.current_unit + 1) % 2 ^ 32 }
        { s with out := s.out ++ w1 } hov
      have ec2 : crossing a
          { l1 with in_pos := l1.in_pos + 1, current_unit := (l1.current_unit + 1) % 2 ^ 32 }
          { s with out := s.out ++ w1 }
          = .continue_
              (if (l1.current_unit + 1) % 2 ^ 32 = a.subsequence_size then
                cross_locals a
                  { l1 with in_pos := l1.in_pos + 1
                            current_unit := (l1.current_unit + 1) % 2 ^ 32 }
              else { l1 with in_pos := l1.in_pos + 1
                             current_unit := (l1.current_unit + 1) % 2 ^ 32 }) s3 := ec
      obtain ⟨ts2, lf, r1, r2, r3, r4⟩ := ih (after_unit sem a in_ptr l1) s3
        (by rw [f1]; exact p1.state_ge) (by rw [f1]; exact p1.state_lt)
        (by rw [f5 hat2 hat1]; omega) (by rw [f2, p1.in_pos]; omega)
      refine ⟨t1 ++ ts2, lf, ?_, ?_, ?_, fun hw => ?_⟩
      · rw [unit_loop_steps, if_pos hin, e1]
        dsimp only
        rw [et]
        dsimp only
        rw [ec2]
        dsimp only
        unfold after_unit at r1
        rw [r1]
      · exact trace_unit sem a in_ptr table fuel0 ts2 lf l t1 l1 tr h3 hin r2
      · rw [crossings, if_pos hin, e1]
        dsimp only
        rw [List.filterMap_append, cross_of_unit sem a table fuel0 l t1 l1 tr h3]
        unfold after_unit at r3
        by_cases hc : (l1.current_unit + 1) % 2 ^ 32 = a.subsequence_size
        · rw [if_pos hc, if_pos hc]
          rw [if_pos hc] at r3
          rw [r3]
          rfl
        · rw [if_neg hc, if_neg hc]
          rw [if_neg hc] at r3
          rw [r3]
          rfl
      · have ec3 := crossing_phase3_eq a
          { l1 with in_pos := l1.in_pos + 1, current_unit := (l1.current_unit + 1) % 2 ^ 32 }
          { s with out := s.out ++ w1 } hov hw
        rw [ec2] at ec3
        simp only [Step.continue_.injEq, true_and] at ec3
        have r5 := r4 hw
        rw [unit_loop, if_pos hin, e1]
        dsimp only
        rw [ec2]
        dsimp only
        unfold after_unit at r5
        rw [r5, ec3, List.filterMap_append, ← ew]
        simp [List.append_assoc]
    · refine ⟨[], l, ?_, Trace.done _ (by omega), ?_, fun _ => ?_⟩
      · rw [unit_loop_steps, if_neg hin]
      · rw [crossings, if_neg hin]; rfl
      · rw [unit_loop, if_neg hin]
        simp only [List.filterMap_nil, shared_append_nil]

theorem symbol_step_num (sem : ShiftSem) (table : List CUHDCodetableItem) (write : Bool)
    (fuel : Nat) (l l1 : Locals) (w : List (Nat × Nat))
    (h : symbol_step sem table write fuel l = .ok (l1, w)) :
    l1.num_symbols = (l.num_symbols + 1) % 4294967296
      ∧ l1.out_pos = l.out_pos + w.length := by
  unfold symbol_step at h
  dsimp only at h
  split at h
  · cases h
  · simp only [Except.ok.injEq, Prod.mk.injEq] at h
    rw [← h.1, ← h.2]
    refine ⟨by norm_num, ?_⟩
    by_cases hst : (write && l.reset && decide (l.out_pos < l.out_size)) = true
    · rw [if_pos hst, if_pos hst]; rfl
    · rw [if_neg hst, if_neg hst]; rfl

/-- The three ways in which a step leads to the next one: inside the unit, into
the next unit of the subsequence, or into the next subsequence. -/
theorem advance_spec (sem : ShiftSem) (a : KernelArgs) (in_ptr : List Nat)
    (table : List CUHDCodetableItem) (fuel0 : Nat) (wf : WellFormedTable table)
    (hfuel0 : 32 ≤ fuel0) (hS32 : a.subsequence_size < 4294967296)
    (l : Locals) (hi : StepInv a table.length l) :
    ∃ l1 w, symbol_step sem table a.write fuel0 l = .ok (l1, w)
      ∧ SymbolPost table.length a.write l l1 w
      ∧ l1.num_symbols = (l.num_symbols + 1) % 4294967296
      ∧ l1.out_pos = l.out_pos + w.length
      ∧ w = (store_of table a.write l).toList
      ∧ ((l1.at_ < 32 ∧ advance sem a in_ptr table fuel0 l = .ok l1
            ∧ cross_of sem a table fuel0 l = none)
        ∨ (32 ≤ l1.at_ ∧ l.current_unit + 1 < a.subsequence_size
            ∧ advance sem a in_ptr table fuel0 l
                = .ok (refill sem in_ptr
                    { l1 with in_pos := l1.in_pos + 1, current_unit := l.current_unit + 1 })
            ∧ cross_of sem a table fuel0 l = none)
        ∨ (32 ≤ l1.at_ ∧ l.current_unit + 1 = a.subsequence_size
            ∧ advance sem a in_ptr table fuel0 l
                = .ok (refill sem in_ptr
                    (cross_locals a
                      { l1 with in_pos := l1.in_pos + 1, current_unit := a.subsequence_size }))
            ∧ cross_of sem a table fuel0 l
                = some { l1 with in_pos := l1.in_pos + 1
                                 current_unit := a.subsequence_size })) := by
  obtain ⟨h1, h2, h3, hu⟩ := hi
  obtain ⟨l1, w, e, p⟩ := symbol_step_spec sem table a.write fuel0 l wf hfuel0 h1 h2 h3
  obtain ⟨n1, n2⟩ := symbol_step_num sem table a.write fuel0 l l1 w e
  have hlog := symbol_step_log sem table a.write fuel0 l l1 w e
  have hmod : (l1.current_unit + 1) % 2 ^ 32 = l.current_unit + 1 := by
    rw [p.unit]
    have e32 : (2:Nat) ^ 32 = 4294967296 := by norm_num
    rw [e32]
    omega
  refine ⟨l1, w, e, p, n1, n2, hlog, ?_⟩
  by_cases hat : l1.at_ < 32
  · left
    refine ⟨hat, ?_, ?_⟩
    · unfold advance
      rw [e]
      dsimp only
      rw [if_pos (by unfold bits_in_unit; exact hat)]
    · unfold cross_of
      rw [e]
      dsimp only
      rw [if_pos (by unfold bits_in_unit; exact hat)]
  · right
    by_cases hc : l.current_unit + 1 = a.subsequence_size
    · right
      refine ⟨by omega, hc, ?_, ?_⟩
      · unfold advance
        rw [e]
        dsimp only
        rw [if_neg (by unfold bits_in_unit; omega), hmod, if_pos hc, hc]
      · unfold cross_of
        rw [e]
        dsimp only
        rw [if_neg (by unfold bits_in_unit; omega), hmod, if_pos hc, hc]
    · left
      refine ⟨by omega, by omega, ?_, ?_⟩
      · unfold advance
        rw [e]
        dsimp only
        rw [if_neg (by unfold bits_in_unit; omega), hmod, if_neg hc]
      · unfold cross_of
        rw [e]
        dsimp only
        rw [if_neg (by unfold bits_in_unit; omega), hmod, if_neg hc]

theorem advance_post (sem : ShiftSem) (a : KernelArgs) (in_ptr : List Nat)
    (table : List CUHDCodetableItem) (fuel0 : Nat) (wf : WellFormedTable table)
    (hfuel0 : 32 ≤ fuel0) (hS32 : a.subsequence_size < 4294967296)
    (l l2 : Locals) (hi : StepInv a table.length l)
    (e : advance sem a in_ptr table fuel0 l = .ok l2) :
    AdvancePost a table.length l l2 := by
  obtain ⟨l1, w, es, p, n1, n2, hlog, hcase⟩ :=
    advance_spec sem a in_ptr table fuel0 wf hfuel0 hS32 l hi
  obtain ⟨h1, h2, h3, hu⟩ := hi
  have hge := p.at_ge
  have hle := p.at_le
  rcases hcase with ⟨c1, c2, _⟩ | ⟨c1, c2, c3, _⟩ | ⟨c1, c2, c3, _⟩
  · rw [c2] at e
    cases e
    exact
      { inv := ⟨p.state_ge, p.state_lt, c1, by rw [p.unit]; exact hu⟩
        out_size := p.out_size
        pos_ge := by rw [p.in_pos]
        pos_le := by rw [p.in_pos]; omega
        same := fun _ => ⟨p.unit, p.subsequence, n1, p.reset, hge⟩
        unit_lt := fun _ => ⟨by rw [if_pos p.in_pos]; exact p.unit, p.subsequence, n1, p.reset⟩
        unit_last := fun _ hp => by rw [p.in_pos] at hp; omega }
  · rw [c3] at e
    cases e
    have hat : (refill sem in_ptr
        { l1 with in_pos := l1.in_pos + 1, current_unit := l.current_unit + 1 }).at_
        = l1.at_ - 32 :=
      refill_at sem in_ptr _ c1 (show l1.at_ ≤ 62 by omega)
    exact
      { inv := ⟨by rw [refill_current_state]; exact p.state_ge,
                by rw [refill_current_state]; exact p.state_lt,
                by rw [hat]; omega, by rw [refill_current_unit]; exact c2⟩
        out_size := by rw [refill_out_size]; exact p.out_size
        pos_ge := by rw [refill_in_pos]; show l.in_pos ≤ l1.in_pos + 1; rw [p.in_pos]; omega
        pos_le := by rw [refill_in_pos]; show l1.in_pos + 1 ≤ l.in_pos + 1; rw [p.in_pos]
        same := fun hp => by
          rw [refill_in_pos] at hp
          have : l1.in_pos + 1 = l.in_pos := hp
          rw [p.in_pos] at this
          omega
        unit_lt := fun _ => by
          have hp : (refill sem in_ptr
              { l1 with in_pos := l1.in_pos + 1, current_unit := l.current_unit + 1 }).in_pos
              ≠ l.in_pos := by
            rw [refill_in_pos]
            show l1.in_pos + 1 ≠ l.in_pos
            rw [p.in_pos]
            omega
          rw [if_neg hp]
          exact ⟨by rw [refill_current_unit], by rw [refill_current_subsequence]; exact p.subsequence,
            by rw [refill_num_symbols]; exact n1, by rw [refill_reset]; exact p.reset⟩
        unit_last := fun h _ => by omega }
  · rw [c3] at e
    cases e
    have hat : (refill sem in_ptr
        (cross_locals a
          { l1 with in_pos := l1.in_pos + 1, current_unit := a.subsequence_size })).at_
        = l1.at_ - 32 :=
      refill_at sem in_ptr _ c1 (show l1.at_ ≤ 62 by omega)
    exact
      { inv := ⟨by rw [refill_current_state]; exact p.state_ge,
                by rw [refill_current_state]; exact p.state_lt,
                by rw [hat]; omega,
                by rw [refill_current_unit]; show 0 < a.subsequence_size; omega⟩
        out_size := by rw [refill_out_size]; exact p.out_size
        pos_ge := by rw [refill_in_pos]; show l.in_pos ≤ l1.in_pos + 1; rw [p.in_pos]; omega
        pos_le := by rw [refill_in_pos]; show l1.in_pos + 1 ≤ l.in_pos + 1; rw [p.in_pos]
        same := fun hp => by
          rw [refill_in_pos] at hp
          have : l1.in_pos + 1 = l.in_pos := hp
          rw [p.in_pos] at this
          omega
        unit_lt := fun h => by omega
        unit_last := fun _ _ =>
          ⟨by rw [refill_current_unit]; rfl, by rw [refill_num_symbols]; rfl,
            by rw [refill_reset]; rfl, by
              rw [refill_current_subsequence]
              show (if (!a.overflow || l1.reset) = true then l1.current_subsequence + 1
                    else l1.current_subsequence) = _
              rw [p.reset, p.subsequence]⟩ }

theorem div_of_align (c u S : Nat) (hu : u < S) : (c * S + u) / S = c := by
  have hS : 0 < S := by omega
  rw [Nat.add_comm, Nat.add_mul_div_right _ _ hS, Nat.div_eq_of_lt hu, Nat.zero_add]

/-- Along a run every step keeps the invariants of a step, and `in_pos` does
not decrease. -/
theorem trace_inv (sem : ShiftSem) (a : KernelArgs) (in_ptr : List Nat)
    (table : List CUHDCodetableItem) (fuel0 : Nat) (wf : WellFormedTable table)
    (hfuel0 : 32 ≤ fuel0) (hS32 : a.subsequence_size < 4294967296)
    (stop : Locals → Prop) :
    ∀ l ts lf, Trace (advance sem a in_ptr table fuel0) stop l ts lf →
      StepInv a table.length l →
      (∀ t, t ∈ ts → StepInv a table.length t ∧ l.in_pos ≤ t.in_pos ∧ ¬ stop t)
        ∧ StepInv a table.length lf ∧ l.in_pos ≤ lf.in_pos ∧ stop lf
        ∧ lf.out_size = l.out_size := by
  intro l ts lf h
  induction h with
  | done l h =>
    intro hi
    exact ⟨fun t ht => (by cases ht), hi, le_rfl, h, rfl⟩
  | step l l1 lf ts h e t ih =>
    intro hi
    have p := advance_post sem a in_ptr table fuel0 wf hfuel0 hS32 l l1 hi e
    obtain ⟨g1, g2, g3, g4, g5⟩ := ih p.inv
    have := p.pos_ge
    refine ⟨fun t ht => ?_, g2, by omega, g4, by rw [g5, p.out_size]⟩
    rcases List.mem_cons.mp ht with rfl | ht
    · exact ⟨hi, le_rfl, h⟩
    · obtain ⟨q1, q2, q3⟩ := g1 t ht
      exact ⟨q1, by omega, q3⟩

theorem advance_aligned (sem : ShiftSem) (a : KernelArgs) (in_ptr : List Nat)
    (table : List CUHDCodetableItem) (fuel0 : Nat) (wf : WellFormedTable table)
    (hfuel0 : 32 ≤ fuel0) (hS32 : a.subsequence_size < 4294967296)
    (hov : a.overflow = false)
    (l l2 : Locals) (hi : StepInv a table.length l) (ha : Aligned a l)
    (e : advance sem a in_ptr table fuel0 l = .ok l2) : Aligned a l2 := by
  have p := advance_post sem a in_ptr table fuel0 wf hfuel0 hS32 l l2 hi e
  have hu := hi.2.2.2
  have h1 := p.pos_ge
  have h2 := p.pos_le
  unfold Aligned at ha ⊢
  by_cases hp : l2.in_pos = l.in_pos
  · obtain ⟨q1, q2, _⟩ := p.same hp
    rw [hp, q1, q2, ha]
  · have hp1 : l2.in_pos = l.in_pos + 1 := by omega
    by_cases hc : l.current_unit + 1 = a.subsequence_size
    · obtain ⟨q1, _, _, q4⟩ := p.unit_last hc hp1
      rw [hov] at q4
      simp only [Bool.not_false, Bool.true_or, ↓reduceIte] at q4
      rw [hp1, q1, q4, ha, Nat.add_mul]
      omega
    · obtain ⟨q1, q2, _⟩ := p.unit_lt (by omega)
      rw [if_neg hp] at q1
      rw [hp1, q1, q2, ha]
      omega

/-- The sync point of every crossing of a run, in terms of the steps of the run:
the state and the bit offset are those at the start of the last step that began
in the subsequence, and the count is the number of steps that began in it, plus
the count the run started with if it started inside the subsequence, reduced
modulo `2^32`. -/
theorem deposit_trace (sem : ShiftSem) (a : KernelArgs) (in_ptr : List Nat)
    (table : List CUHDCodetableItem) (fuel0 : Nat) (wf : WellFormedTable table)
    (hfuel0 : 32 ≤ fuel0) (hS32 : a.subsequence_size < 4294967296)
    (hov : a.overflow = false) (stop : Locals → Prop) :
    ∀ l ts lf, Trace (advance sem a in_ptr table fuel0) stop l ts lf →
      StepInv a table.length l → Aligned a l →
      ∀ x, x ∈ ts.filterMap (cross_of sem a table fuel0) →
        ∃ pre t post, ts = pre ++ t :: post
          ∧ t.in_pos / a.subsequence_size = x.current_subsequence
          ∧ (∀ t2, t2 ∈ post → x.current_subsequence < t2.in_pos / a.subsequence_size)
          ∧ l.current_subsequence ≤ x.current_subsequence
          ∧ x.current_unit = a.subsequence_size
          ∧ (x.in_pos = (x.current_subsequence + 1) * a.subsequence_size
              ∧ t.in_pos + 1 = x.in_pos)
          ∧ crossing_entry x
            = { state := t.current_state, bit := t.at_, unit := a.subsequence_size - 1,
                num_symbols :=
                  ((if x.current_subsequence = l.current_subsequence then l.num_symbols else 0)
                    + (ts.filter
                        (fun t => decide (t.in_pos / a.subsequence_size
                          = x.current_subsequence))).length) % 4294967296 } := by
  intro l ts lf h
  induction h with
  | done l h =>
    intro _ _ x hx
    cases hx
  | step l l1 lf ts h e t ih =>
    intro hi ha x hx
    have hu := hi.2.2.2
    have hdiv : l.in_pos / a.subsequence_size = l.current_subsequence := by
      rw [ha]; exact div_of_align _ _ _ hu
    have p := advance_post sem a in_ptr table fuel0 wf hfuel0 hS32 l l1 hi e
    have ha1 := advance_aligned sem a in_ptr table fuel0 wf hfuel0 hS32 hov l l1 hi ha e
    have hdiv1 : l1.in_pos / a.subsequence_size = l1.current_subsequence := by
      rw [ha1]; exact div_of_align _ _ _ p.inv.2.2.2
    obtain ⟨g1, _⟩ := trace_inv sem a in_ptr table fuel0 wf hfuel0 hS32 stop l1 ts lf t p.inv
    have hrest : ∀ t2, t2 ∈ ts → l1.current_subsequence ≤ t2.in_pos / a.subsequence_size := by
      intro t2 ht2
      rw [← hdiv1]
      exact Nat.div_le_div_right (g1 t2 ht2).2.1
    obtain ⟨la, w, es, sp, n1, n2, hlog, hcase⟩ :=
      advance_spec sem a in_ptr table fuel0 wf hfuel0 hS32 l hi
    have hp1 := p.pos_ge
    have hp2 := p.pos_le
    rw [List.filterMap_cons] at hx
    have hnocross : cross_of sem a table fuel0 l = none →
        l1.current_subsequence = l.current_subsequence
          ∧ l1.num_symbols = (l.num_symbols + 1) % 4294967296 := by
      intro hnone
      rcases hcase with ⟨c1, c2, c3⟩ | ⟨c1, c2, c3, c4⟩ | ⟨c1, c2, c3, c4⟩
      · rw [c2] at e
        cases e
        exact ⟨sp.subsequence, n1⟩
      · obtain ⟨_, q2, q3, _⟩ := p.unit_lt c2
        exact ⟨q2, q3⟩
      · rw [c4] at hnone
        cases hnone
    cases hc : cross_of sem a table fuel0 l with
    | none =>
      rw [hc] at hx
      obtain ⟨k1, k2⟩ := hnocross hc
      obtain ⟨pre, t0, post, r1, r2, r3, r4, r5, r6, r7⟩ := ih p.inv ha1 x hx
      refine ⟨l :: pre, t0, post, by rw [r1]; rfl, r2, r3, by omega, r5, r6, ?_⟩
      rw [r7, k1, k2]
      congr 1
      by_cases hxc : x.current_subsequence = l.current_subsequence
      · rw [if_pos hxc, if_pos hxc, List.filter_cons, hdiv,
          if_pos (by rw [hxc]; exact decide_eq_true rfl), List.length_cons]
        omega
      · rw [if_neg hxc, if_neg hxc, List.filter_cons, hdiv,
          if_neg (by rw [decide_eq_true_eq]; exact fun h => hxc h.symm)]
    | some x0 =>
      rw [hc] at hx
      rcases hcase with ⟨c1, c2, c3⟩ | ⟨c1, c2, c3, c4⟩ | ⟨c1, c2, c3, c4⟩
      · rw [c3] at hc; cases hc
      · rw [c4] at hc; cases hc
      · rw [c4] at hc
        cases hc
        have hin1 : l1.in_pos = l.in_pos + 1 := by
          rw [c3] at e
          cases e
          rw [refill_in_pos]
          show la.in_pos + 1 = l.in_pos + 1
          rw [sp.in_pos]
        obtain ⟨q1, q2, q3, q4⟩ := p.unit_last c2 hin1
        rw [hov] at q4
        simp only [Bool.not_false, Bool.true_or, ↓reduceIte] at q4
        rcases List.mem_cons.mp hx with rfl | hx
        · refine ⟨[], l, ts, rfl, ?_, ?_, ?_, rfl, ?_, ?_⟩
          · rw [hdiv]; exact sp.subsequence.symm
          · intro t2 ht2
            have := hrest t2 ht2
            show la.current_subsequence < _
            rw [sp.subsequence]
            omega
          · show l.current_subsequence ≤ la.current_subsequence
            rw [sp.subsequence]
          · refine ⟨?_, ?_⟩
            · show la.in_pos + 1 = (la.current_subsequence + 1) * a.subsequence_size
              rw [sp.in_pos, sp.subsequence, ha, Nat.add_mul]
              omega
            · show l.in_pos + 1 = la.in_pos + 1
              rw [sp.in_pos]
          · have hfil : (l :: ts).filter
                (fun t => decide (t.in_pos / a.subsequence_size = la.current_subsequence))
                = [l] := by
              rw [List.filter_cons, hdiv,
                if_pos (by rw [sp.subsequence]; exact decide_eq_true rfl)]
              congr 1
              rw [List.filter_eq_nil_iff]
              intro t2 ht2
              have := hrest t2 ht2
              simp only [decide_eq_true_eq]
              rw [sp.subsequence]
              omega
            show crossing_entry _ = { state := _, bit := _, unit := _, num_symbols :=
              ((if la.current_subsequence = l.current_subsequence then l.num_symbols else 0)
                + ((l :: ts).filter (fun t => decide (t.in_pos / a.subsequence_size
                    = la.current_subsequence))).length) % 4294967296 }
            rw [hfil, if_pos sp.subsequence]
            unfold crossing_entry
            show SubsequenceSyncPoint.mk la.last_state la.last_bit
                (sub32 a.subsequence_size 1) la.num_symbols = _
            rw [sp.last_state, sp.last_bit, n1, sub32_of_le _ _ (by omega) hS32]
            rfl
        · obtain ⟨pre, t0, post, r1, r2, r3, r4, r5, r6, r7⟩ := ih p.inv ha1 x hx
          have hne : x.current_subsequence ≠ l.current_subsequence := by omega
          refine ⟨l :: pre, t0, post, by rw [r1]; rfl, r2, r3, by omega, r5, r6, ?_⟩
          rw [r7, q2, ite_self, if_neg hne, List.filter_cons, hdiv,
            if_neg (by rw [decide_eq_true_eq]; exact fun h => hne h.symm)]

/-! ## The deposits of phase 1 -/

theorem args_begin (S T N_u : Nat) (ov wr : Bool) (j : Nat) (hj : j < T)
    (hS : 0 < S) (hU : N_u + S < 2 ^ 64) :
    (args_of S T N_u ov wr j).begin = first_sub S T N_u j * S := by
  show ((planned S T N_u).getD j default).begin = _
  rw [getD_planned S T N_u j hj hS hU]
  unfold first_sub
  show j * (num_subsequences S N_u / T * S) = num_subsequences S N_u / T * j * S
  ring

theorem chain_subsequences (a : KernelArgs) (L : Nat) :
    ∀ (xs : List Locals) (c p : Nat), CrossChain a L c p xs →
      xs.map (fun x => x.current_subsequence) = List.range' c xs.length := by
  intro xs
  induction xs with
  | nil => intro c p _; rfl
  | cons x xs ih =>
    intro c p h
    cases h with
    | cons _ _ _ _ hp hc hu hi hg hr ht =>
      rw [List.map_cons, List.length_cons, List.range'_succ, ih (c + 1) _ ht, hc]

/-- In phase 1 the entry of every crossing of the chain is the one left in
`sync`. -/
theorem fold_phase1_entry (a : KernelArgs) (L : Nat)
    (hov : a.overflow = false) (hw : a.write = false) :
    ∀ (xs : List Locals) (c p : Nat) (s : Shared), CrossChain a L c p xs →
      ∀ x, x ∈ xs → x.current_subsequence < s.sync.length →
        (fold_crossings a xs s).sync.getD x.current_subsequence default = crossing_entry x := by
  intro xs
  induction xs with
  | nil => intro c p s _ x hx; cases hx
  | cons y xs ih =>
    intro c p s h x hx hlen
    cases h with
    | cons _ _ _ _ hp hc hu hi hg hr ht =>
      rw [fold_crossings_cons, crossing_phase1 a y s hov hw hu]
      dsimp only
      rcases List.mem_cons.mp hx with rfl | hx
      · have hfr := (fold_frame a xs
          { s with sync := s.sync.set x.current_subsequence (crossing_entry x) }).2.2.2.2.1
          x.current_subsequence
          (fun z hz => by
            have := (chain_mem a L xs (c + 1) (p + a.subsequence_size) ht z hz).1
            omega)
        rw [hfr]
        show (s.sync.set x.current_subsequence (crossing_entry x)).getD _ default = _
        rw [getD_set_eq _ _ _ _ hlen]
      · exact ih (c + 1) (p + a.subsequence_size) _ ht x hx
          (by simp only [List.length_set]; exact hlen)

/-- The locals with which a phase-1 pass enters the unit loop. -/
theorem initial_locals_phase1 (sem : ShiftSem) (a : KernelArgs) (size_out : Nat)
    (inp : CUHDInputBuffer) (s : Shared) (hov : a.overflow = false) (hw : a.write = false) :
    (initial_locals sem a size_out inp s).current_state = inp.first_state
      ∧ (initial_locals sem a size_out inp s).at_
          = (if a.thread_id = 0 then sub64 bits_in_unit inp.first_bit % 2 ^ 8 else 0)
      ∧ (initial_locals sem a size_out inp s).in_pos = a.begin
      ∧ (initial_locals sem a size_out inp s).current_unit = 0
      ∧ (initial_locals sem a size_out inp s).current_subsequence = a.subsequence
      ∧ (initial_locals sem a size_out inp s).num_symbols = 0
      ∧ ∀ s2, initial_locals sem a size_out inp s2 = initial_locals sem a size_out inp s := by
  simp only [initial_locals, hov, hw, Bool.false_and, Bool.or_self, Bool.false_eq_true,
    ↓reduceIte, true_and, implies_true, and_self]

/-- The phase-1 pass of worker `j`, in terms of its per-symbol steps: it is the
crossing block applied once for every subsequence of the interval, in ascending
order, and the entry of each crossing holds the state and the bit offset at the
start of the last step that began in the subsequence and the number of steps
that began in it, modulo `2^32`. -/
theorem phase1_pass_deposit (sem : ShiftSem) (S T N_u size_out : Nat) (inp : CUHDInputBuffer)
    (table : List CUHDCodetableItem) (v : ValidInput S T N_u inp table)
    (fuel : Nat) (hfuel : enough_fuel S T N_u table ≤ fuel) (j : Nat) (hj : j < T) :
    ∃ ts xs,
      (∀ s, decode_phase1_steps sem fuel (args_of S T N_u false false j) size_out inp table s
          = .ok ts)
      ∧ (∀ s, decode_phase1 sem fuel (args_of S T N_u false false j) size_out inp table s
          = .ok (fold_crossings (args_of S T N_u false false j) xs s))
      ∧ xs.map (fun x => x.current_subsequence)
          = List.range' (first_sub S T N_u j) (owned_count S T N_u j)
      ∧ (∀ x, x ∈ xs → ∀ s,
          crossing (args_of S T N_u false false j) x s
            = .continue_ (cross_locals (args_of S T N_u false false j) x)
                { s with sync := s.sync.set x.current_subsequence (crossing_entry x) })
      ∧ (∀ x, x ∈ xs → ∀ s : Shared, s.sync.length = num_subsequences S N_u →
          (fold_crossings (args_of S T N_u false false j) xs s).sync.getD
              x.current_subsequence default = crossing_entry x)
      ∧ (∀ x, x ∈ xs →
          ∃ pre t post, ts = pre ++ t :: post
            ∧ t.in_pos / S = x.current_subsequence
            ∧ (∀ t2, t2 ∈ post → x.current_subsequence < t2.in_pos / S)
            ∧ crossing_entry x
              = { state := t.current_state, bit := t.at_, unit := S - 1,
                  num_symbols :=
                    (ts.filter (fun t => decide (t.in_pos / S = x.current_subsequence))).length
                      % 4294967296 }
            ∧ t.in_pos + 1 = (x.current_subsequence + 1) * S) := by
  obtain ⟨g1, g2, g3, g4, g5, g6, g7, g8, g9, g10, g11, g12, g13⟩ :=
    args_geometry S T N_u false false j v.size_pos v.threads_pos v.enough_subs v.units_lt hj
  have gb := args_begin S T N_u false false j hj v.size_pos v.units_lt
  generalize args_of S T N_u false false j = a at *
  have hS32 : a.subsequence_size < 4294967296 := by
    rw [g2]; have := v.size_lt; norm_num at this; exact this
  have hfuel' : 33 * table.length + N_u + S + T + 2 ≤ fuel := hfuel
  have hL := v.table_ok.1
  obtain ⟨i1, i2, i3, i4, i5, i6, i7⟩ :=
    initial_locals_phase1 sem a size_out inp
      { sync := [], thread_synced := [], out_positions := [], out := [] } g5 g6
  generalize hl0 : initial_locals sem a size_out inp
      { sync := [], thread_synced := [], out_positions := [], out := [] } = l0 at *
  have hat : l0.at_ < 32 := by
    rw [i2]
    split
    · exact first_at_lt _ v.bit_pos v.bit_le
    · norm_num
  have hinv : StepInv a table.length l0 :=
    ⟨by rw [i1]; exact v.state_ge, by rw [i1]; exact v.state_lt, hat,
      by rw [i4, g2]; exact v.size_pos⟩
  have hal : Aligned a l0 := by
    unfold Aligned
    rw [i3, i4, i5, g7, g2, gb]
    rfl
  have hend : a.end_ ≤ l0.in_pos + fuel := by rw [i3]; omega
  obtain ⟨ts, lf, e1, tr, e3, _⟩ := unit_loop_steps_trace sem a inp.compressed_data table fuel
    v.table_ok (by omega) g5 fuel l0
    { sync := [], thread_synced := [], out_positions := [], out := [] }
    hinv.1 hinv.2.1 hat hend
  obtain ⟨xs, ex, ch⟩ := crossings_steady sem a inp.compressed_data table fuel v.table_ok
    (by omega) hS32 fuel l0 hinv.1 hinv.2.1 hat hinv.2.2.2 (by simp [g5]) hend
  rw [ex] at e3
  have hxs : xs = ts.filterMap (cross_of sem a table fuel) := by
    simp only [Except.ok.injEq] at e3
    exact e3
  have hpos : l0.in_pos + (a.subsequence_size - l0.current_unit)
      = a.begin + a.subsequence_size := by
    rw [i3, i4]; rfl
  rw [i5, hpos] at ch
  have hlen2 := chain_length a table.length (by rw [g2]; exact v.size_pos) xs _ _ ch a.begin
    (owned_count S T N_u j) rfl (by rw [g8, g2])
  refine ⟨ts, xs, fun s => ?_, fun s => ?_, ?_, fun x hx s => ?_, fun x hx s hs => ?_,
    fun x hx => ?_⟩
  · unfold decode_phase1_steps
    rw [g5]
    simp only [Bool.false_and, Bool.false_eq_true, ↓reduceIte]
    rw [i7 s]
    obtain ⟨ts2, lf2, e1', tr', _⟩ := unit_loop_steps_trace sem a inp.compressed_data table fuel
      v.table_ok (by omega) g5 fuel l0 s hinv.1 hinv.2.1 hat hend
    rw [e1', (trace_det _ _ l0 ts lf tr ts2 lf2 tr').1]
  · unfold decode_phase1
    rw [g5]
    simp only [Bool.false_and, Bool.false_eq_true, ↓reduceIte]
    rw [i7 s, unit_loop_eq sem a inp.compressed_data table fuel g6 fuel _ s xs ex]
  · rw [chain_subsequences a table.length xs _ _ ch, hlen2, g7]
  · exact crossing_phase1 a x s g5 g6 (chain_mem a table.length xs _ _ ch x hx).2.2.1
  · obtain ⟨m1, m2, _⟩ := chain_mem a table.length xs _ _ ch x hx
    exact fold_phase1_entry a table.length g5 g6 xs _ _ s ch x hx (by rw [hs]; omega)
  · rw [hxs] at hx
    obtain ⟨pre, t, post, r1, r2, r3, r4, r5, r6, r7⟩ :=
      deposit_trace sem a inp.compressed_data table fuel v.table_ok (by omega) hS32 g5 _
        l0 ts lf tr hinv hal x hx
    rw [g2] at r2 r3 r7 r6
    refine ⟨pre, t, post, r1, r2, r3, ?_, by rw [r6.2, r6.1]⟩
    rw [r7, i6]
    simp only [ite_self, Nat.zero_add]

/-- Phase 1 over any list of workers: the entry that the owner `m0` of
subsequence `j` leaves in `sync[j]` is still there at the end of the round. -/
theorem phase1_round_entry (sem : ShiftSem) (S T N_u size_out : Nat) (inp : CUHDInputBuffer)
    (table : List CUHDCodetableItem) (v : ValidInput S T N_u inp table)
    (fuel : Nat) (hfuel : enough_fuel S T N_u table ≤ fuel)
    (m0 j : Nat) (hm0 : m0 < T) (ho : Owns S T N_u m0 j) (e : SubsequenceSyncPoint)
    (hpass : ∀ s s1 : Shared, s.sync.length = num_subsequences S N_u →
      decode_phase1 sem fuel (args_of S T N_u false false m0) size_out inp table s = .ok s1 →
      s1.sync.getD j default = e) (rest : List Nat) :
    ∀ s : Shared, (∀ m, m ∈ rest → m < T) → s.sync.length = num_subsequences S N_u →
      ∃ s1, run_workers sem fuel (planned S T N_u) S N_u T false false size_out inp table rest s
            = .ok s1
        ∧ s1.sync.length = num_subsequences S N_u
        ∧ (m0 ∈ rest → s1.sync.getD j default = e)
        ∧ (s.sync.getD j default = e → s1.sync.getD j default = e) := by
  induction rest with
  | nil =>
    intro s _ hl
    exact ⟨s, rfl, hl, fun h => absurd h (List.not_mem_nil m0), fun h => h⟩
  | cons m rest ih =>
    intro s hmem hl
    have hm := hmem m (List.mem_cons_self m rest)
    obtain ⟨sa, ea, fa, _, ua, la, ka, oa⟩ :=
      phase1_pass sem S T N_u size_out inp table v fuel hfuel m hm s hl
    have ea2 : decode_phase1 sem fuel (worker_args (planned S T N_u) S N_u T false false m)
        size_out inp table s = .ok sa := ea
    obtain ⟨s1, e1, l1, k1, k2⟩ :=
      ih sa (fun x hx => hmem x (List.mem_cons_of_mem m hx)) (by rw [la, hl])
    have hsa : m = m0 ∨ s.sync.getD j default = e → sa.sync.getD j default = e := by
      intro h
      by_cases hmm : m = m0
      · subst hmm
        exact hpass s sa hl ea
      · rcases h with h | h
        · exact absurd h hmm
        · rw [ka j (fun hc => hmm (owns_disjoint S T N_u m m0 j hm hm0 hc ho))]
          exact h
    refine ⟨s1, ?_, l1, fun h => ?_, fun h => k2 (hsa (Or.inr h))⟩
    · rw [run_workers, ea2]
      exact e1
    · rcases List.mem_cons.mp h with h | h
      · exact k2 (hsa (Or.inl h.symm))
      · exact k1 h

/-- C18 (amended).  For every valid configuration (`0 < S < 2^32`, `T >= 1`,
`N_s >= T`, `N_u + S < 2^64`, a well-formed table, `first_state` in `[L, 2L)`,
`first_bit` in `1..32`) and every order of the workers, the passes of phase 1,
each loop given `enough_fuel` iterations, return, and for every worker `i` with the
per-symbol steps `ts` of its pass: the pass is the crossing block applied once
for each subsequence of the interval of `i`, in ascending order, each time
storing one entry; every subsequence has exactly one owner; and when phase 2
starts `sync[j]`, for `j` in the interval of `i`, holds the state and the bit
offset at the start of the last step of `ts` that began in subsequence `j`, the
unit `S - 1`, and the number of steps of `ts` that began in subsequence `j`
reduced modulo `2^32`. -/
theorem phase1_deposit (sem : ShiftSem) (S T N_u size_out : Nat) (inp : CUHDInputBuffer)
    (table : List CUHDCodetableItem) (v : ValidInput S T N_u inp table)
    (fuel : Nat) (hfuel : enough_fuel S T N_u table ≤ fuel)
    (sched : Schedule) (hs : sched.valid T) (junk : Nat → SubsequenceSyncPoint) :
    ∃ s1,
      run_workers sem fuel (planned S T N_u) S N_u T false false size_out inp table sched.phase1
          { sync := (List.range (num_subsequences S N_u)).map junk
            thread_synced := List.replicate T false
            out_positions := List.replicate T 0
            out := [] } = .ok s1
      ∧ s1.sync.length = num_subsequences S N_u
      ∧ (∀ j, j < num_subsequences S N_u →
          ∃ i, i < T ∧ Owns S T N_u i j ∧ ∀ m, m < T → Owns S T N_u m j → m = i)
      ∧ ∀ i, i < T →
          ∃ ts xs,
            (∀ s, decode_phase1_steps sem fuel (args_of S T N_u false false i) size_out inp
                table s = .ok ts)
            ∧ (∀ s, decode_phase1 sem fuel (args_of S T N_u false false i) size_out inp table s
                = .ok (fold_crossings (args_of S T N_u false false i) xs s))
            ∧ xs.map (fun x => x.current_subsequence)
                = List.range' (first_sub S T N_u i) (owned_count S T N_u i)
            ∧ (∀ x, x ∈ xs → ∀ s,
                crossing (args_of S T N_u false false i) x s
                  = .continue_ (cross_locals (args_of S T N_u false false i) x)
                      { s with sync := s.sync.set x.current_subsequence (crossing_entry x) })
            ∧ ∀ j, Owns S T N_u i j →
                ∃ pre t post, ts = pre ++ t :: post
                  ∧ t.in_pos / S = j
                  ∧ (∀ t2, t2 ∈ post → j < t2.in_pos / S)
                  ∧ s1.sync.getD j default
                    = { state := t.current_state, bit := t.at_, unit := S - 1,
                        num_symbols :=
                          (ts.filter (fun t => decide (t.in_pos / S = j))).length
                            % 4294967296 } := by
  have hlen0 : ((List.range (num_subsequences S N_u)).map junk).length
      = num_subsequences S N_u := by simp
  have hmem : ∀ m, m ∈ sched.phase1 → m < T := fun m hm =>
    List.mem_range.mp ((hs.1.mem_iff).mp hm)
  obtain ⟨s1, e1, _, l1, _⟩ := phase1_round sem S T N_u size_out inp table v fuel hfuel
    sched.phase1
    { sync := (List.range (num_subsequences S N_u)).map junk,
        thread_synced := List.replicate T false, out_positions := List.replicate T 0,
        out := [] } hmem hlen0
  refine ⟨s1, e1, l1, fun j hj => ?_, fun i hi => ?_⟩
  · obtain ⟨i, hi, ho⟩ := owns_cover S T N_u j v.threads_pos v.enough_subs hj
    exact ⟨i, hi, ho, fun m hm hom => owns_disjoint S T N_u m i j hm hi hom ho⟩
  · obtain ⟨ts, xs, a1, a2, a3, a4, a5, a6⟩ :=
      phase1_pass_deposit sem S T N_u size_out inp table v fuel hfuel i hi
    refine ⟨ts, xs, a1, a2, a3, a4, fun j ho => ?_⟩
    have hjm : j ∈ xs.map (fun x => x.current_subsequence) := by
      rw [a3, List.mem_range']
      unfold Owns at ho
      exact ⟨j - first_sub S T N_u i, by omega, by omega⟩
    obtain ⟨x, hx, hxj⟩ := List.mem_map.mp hjm
    obtain ⟨pre, t, post, r1, r2, r3, r4, _⟩ := a6 x hx
    have hxj2 : x.current_subsequence = j := hxj
    rw [hxj2] at r2 r3 r4
    refine ⟨pre, t, post, r1, r2, r3, ?_⟩
    rw [← r4]
    obtain ⟨s2, e2, l2, k1, _⟩ := phase1_round_entry sem S T N_u size_out inp table v fuel hfuel
      i j hi ho (crossing_entry x)
      (fun s sa hl ea => by
        rw [a2 s] at ea
        cases ea
        have := a5 x hx s hl
        rw [hxj2] at this
        exact this)
      sched.phase1
      { sync := (List.range (num_subsequences S N_u)).map junk,
        thread_synced := List.replicate T false, out_positions := List.replicate T 0,
        out := [] } hmem hlen0
    rw [e1] at e2
    cases e2
    exact k1 ((hs.1.mem_iff).mpr (List.mem_range.mpr hi))

/-- Instance of `phase1_deposit`: eight units `0x55555555`, `S = 4`, two
threads, ascending order. -/
theorem phase1_deposit_witness :
    ValidInput 4 2 8 (input_alternating 8) table_uniform4
      ∧ enough_fuel 4 2 8 table_uniform4 ≤ 148
      ∧ (ascending 2).valid 2
      ∧ ∃ s1,
          run_workers .zero 148 (planned 4 2 8) 4 8 2 false false 128 (input_alternating 8)
              table_uniform4 (ascending 2).phase1
              { sync := (List.range (num_subsequences 4 8)).map no_junk
                thread_synced := List.replicate 2 false
                out_positions := List.replicate 2 0
                out := [] } = .ok s1
          ∧ s1.sync.length = num_subsequences 4 8 :=
  ⟨valid_alternating _, by decide, ascending_valid 2,
    let ⟨s1, a, b, _⟩ := phase1_deposit .zero 4 2 8 128 (input_alternating 8) table_uniform4
      (valid_alternating _) 148 (by decide) (ascending 2) (ascending_valid 2) no_junk
    ⟨s1, a, b⟩⟩

theorem enough_fuel_chain (L fuel : Nat) (h : 33 * L + 21 ≤ fuel) :
    enough_fuel 4 3 12 (chain_table L) ≤ fuel := by
  unfold enough_fuel
  rw [length_chain_table]
  omega

/-- C18 as stated fails for the count.  On twelve zero units with `S = 4`, three
threads and the table `chain_table` on `2^25 + 1` states, `2^32` symbols begin
in subsequence 1; the 32-bit counter `num_symbols` wraps and phase 1 leaves
`sync[1].num_symbols = 0`, although the pass of worker 1 has steps that began in
subsequence 1.  And the unit counter `current_unit` has 32 bits: with `S = 2^32`
it never equals `S`, and a phase-1 pass that ends has written no entry of
`sync`. -/
theorem deposit_count_wraps :
    ValidInput 4 3 12 (input_zero 33554433) (chain_table 33554433)
    ∧ (∃ s1 ts,
        run_workers .zero 1107296310 (planned 4 3 12) 4 12 3 false false 0 (input_zero 33554433)
            (chain_table 33554433) (ascending 3).phase1
            { sync := (List.range (num_subsequences 4 12)).map no_junk
              thread_synced := List.replicate 3 false
              out_positions := List.replicate 3 0
              out := [] } = .ok s1
        ∧ decode_phase1_steps .zero 1107296310 (args_of 4 3 12 false false 1) 0
            (input_zero 33554433) (chain_table 33554433)
            { sync := (List.range (num_subsequences 4 12)).map no_junk
              thread_synced := List.replicate 3 false
              out_positions := List.replicate 3 0
              out := [] } = .ok ts
        ∧ (s1.sync.getD 1 default).num_symbols = 0
        ∧ (ts.filter (fun t => decide (t.in_pos / 4 = 1))).length ≠ 0)
    ∧ (∃ s1 ts,
        run_workers .wrap 1107296310 (planned 4 3 12) 4 12 3 false false 0 (input_zero 33554433)
            (chain_table 33554433) (ascending 3).phase1
            { sync := (List.range (num_subsequences 4 12)).map no_junk
              thread_synced := List.replicate 3 false
              out_positions := List.replicate 3 0
              out := [] } = .ok s1
        ∧ decode_phase1_steps .wrap 1107296310 (args_of 4 3 12 false false 1) 0
            (input_zero 33554433) (chain_table 33554433)
            { sync := (List.range (num_subsequences 4 12)).map no_junk
              thread_synced := List.replicate 3 false
              out_positions := List.replicate 3 0
              out := [] } = .ok ts
        ∧ (s1.sync.getD 1 default).num_symbols = 0
        ∧ (ts.filter (fun t => decide (t.in_pos / 4 = 1))).length ≠ 0)
    ∧ 2 ≤ num_subsequences 4294967296 8589934592
    ∧ ¬ ∃ (sem : ShiftSem) (fuel j size_out : Nat) (units : List Nat) (s r : Shared),
        decode_phase1 sem fuel (args_of 4294967296 2 8589934592 false false j) size_out
            { input_alternating 8 with compressed_data := units } table_uniform4 s = .ok r
          ∧ r.sync ≠ s.sync := by
  have v := valid_chain 33554433 (by norm_num) (by norm_num)
  have hf : enough_fuel 4 3 12 (chain_table 33554433) ≤ 1107296310 :=
    enough_fuel_chain 33554433 1107296310 (by norm_num)
  have main : ∀ sem : ShiftSem, ∃ s1 ts,
      run_workers sem 1107296310 (planned 4 3 12) 4 12 3 false false 0 (input_zero 33554433)
          (chain_table 33554433) (ascending 3).phase1
          { sync := (List.range (num_subsequences 4 12)).map no_junk
            thread_synced := List.replicate 3 false
            out_positions := List.replicate 3 0
            out := [] } = .ok s1
      ∧ decode_phase1_steps sem 1107296310 (args_of 4 3 12 false false 1) 0
          (input_zero 33554433) (chain_table 33554433)
          { sync := (List.range (num_subsequences 4 12)).map no_junk
            thread_synced := List.replicate 3 false
            out_positions := List.replicate 3 0
            out := [] } = .ok ts
      ∧ (s1.sync.getD 1 default).num_symbols = 0
      ∧ (ts.filter (fun t => decide (t.in_pos / 4 = 1))).length ≠ 0 := by
    intro sem
    have e1 := chain_run_phase1 sem 33554433 (by norm_num) (by norm_num) 1107296310 0
      (by norm_num) no_junk
    obtain ⟨ts, xs, a1, a2, a3, a4, a5, a6⟩ :=
      phase1_pass_deposit sem 4 3 12 0 (input_zero 33554433) (chain_table 33554433) v
        1107296310 hf 1 (by norm_num)
    refine ⟨_, ts, e1, a1 _, ?_, ?_⟩
    · show (128 * (33554433 - 1)) % 4294967296 = 0
      norm_num
    · have hjm : 1 ∈ xs.map (fun x => x.current_subsequence) := by
        rw [a3]
        decide
      obtain ⟨x, hx, hxj⟩ := List.mem_map.mp hjm
      obtain ⟨pre, t, post, r1, r2, _⟩ := a6 x hx
      have hxj2 : x.current_subsequence = 1 := hxj
      rw [hxj2] at r2
      have hmem : t ∈ ts.filter (fun t => decide (t.in_pos / 4 = 1)) := by
        rw [List.mem_filter, r1]
        exact ⟨by simp, by simpa using r2⟩
      intro h0
      rw [List.length_eq_zero] at h0
      rw [h0] at hmem
      cases hmem
  exact ⟨v, main .zero, main .wrap, by decide,
    fun ⟨sem, fuel, j, size_out, units, s, r, h, hne⟩ =>
      hne (by rw [decode_phase1_large_size sem fuel _ size_out _ table_uniform4 s r rfl
        (show 4294967296 ≤ 4294967296 from le_rfl) h])⟩

/-! ## The bit window -/

theorem window_entry (u v k : Nat) (h2 : k < 32) :
    ((u + 4294967296 * v) >>> k) % 4294967296
      = (u >>> k + (v <<< (32 - k)) % 4294967296) % 4294967296 := by
  have hp : (4294967296 : Nat) = 2 ^ k * 2 ^ (32 - k) := by
    rw [← Nat.pow_add]
    have : k + (32 - k) = 32 := by omega
    rw [this]
  rw [Nat.shiftRight_eq_div_pow, Nat.shiftRight_eq_div_pow, Nat.shiftLeft_eq]
  have e1 : (u + 4294967296 * v) / 2 ^ k = u / 2 ^ k + 2 ^ (32 - k) * v := by
    conv_lhs => rw [hp, Nat.mul_assoc]
    rw [Nat.add_mul_div_left _ _ (Nat.two_pow_pos k)]
  rw [e1, Nat.mul_comm v, Nat.add_mod, Nat.add_mod (u / 2 ^ k) ((2 ^ (32 - k) * v) % 4294967296),
    Nat.mod_mod]

theorem window_shift (x q t : Nat) (hq : q = x / 4294967296) (ht : t < 32) :
    (x >>> t) % 4294967296
      = ((x % 4294967296) >>> t
          + (if t > 0 then (q <<< (32 - t)) % 4294967296 else 0)) % 4294967296 := by
  by_cases h0 : t = 0
  · subst h0
    simp
  · rw [if_pos (by omega)]
    have hp : (4294967296 : Nat) = 2 ^ t * 2 ^ (32 - t) := by
      rw [← Nat.pow_add]
      have : t + (32 - t) = 32 := by omega
      rw [this]
    rw [Nat.shiftRight_eq_div_pow, Nat.shiftRight_eq_div_pow, Nat.shiftLeft_eq]
    have hx : x = x % 4294967296 + 4294967296 * q := by
      rw [hq]; exact (Nat.mod_add_div x 4294967296).symm
    generalize x % 4294967296 = r at hx ⊢
    have e1 : x / 2 ^ t = r / 2 ^ t + 2 ^ (32 - t) * q := by
      conv_lhs => rw [hx, hp, Nat.mul_assoc]
      rw [Nat.add_mul_div_left _ _ (Nat.two_pow_pos t)]
    rw [e1, Nat.mul_comm q, Nat.add_mod,
      Nat.add_mod (r / 2 ^ t) ((2 ^ (32 - t) * q) % 4294967296), Nat.mod_mod]

theorem window_high (u v k : Nat) (hu : u < 4294967296) :
    (u + 4294967296 * v) >>> k / 4294967296 = v >>> k := by
  rw [Nat.shiftRight_eq_div_pow, Nat.shiftRight_eq_div_pow]
  have e : (u + 4294967296 * v) / 2 ^ k / 4294967296
      = (u + 4294967296 * v) / 4294967296 / 2 ^ k := by
    rw [Nat.div_div_eq_div_mul, Nat.div_div_eq_div_mul, Nat.mul_comm (2 ^ k)]
  rw [e, Nat.add_mul_div_left _ _ (by norm_num), Nat.div_eq_of_lt hu, Nat.zero_add]

/-- On entry the window is the stream's, when the entry offset is not 0 or a
shift by 32 yields zero. -/
theorem windowOK_initial (sem : ShiftSem) (a : KernelArgs) (size_out : Nat)
    (inp : CUHDInputBuffer) (s : Shared)
    (hat : (initial_locals sem a size_out inp s).at_ < 32)
    (h : 1 ≤ (initial_locals sem a size_out inp s).at_ ∨ sem = .zero) :
    WindowOK inp.compressed_data (initial_locals sem a size_out inp s) := by
  generalize hl : initial_locals sem a size_out inp s = l at *
  have hw : l.window = (shr32 sem (inp.compressed_data.getD l.in_pos 0) l.at_
      + shl32 sem (inp.compressed_data.getD (l.in_pos + 1) 0) (sub64 bits_in_unit l.at_))
        % 2 ^ 32 := by
    rw [← hl]; rfl
  have hn : l.next = shr32 sem (inp.compressed_data.getD (l.in_pos + 1) 0) l.at_ := by
    rw [← hl]; rfl
  have e32 : (2:Nat) ^ 32 = 4294967296 := by norm_num
  have hsub : sub64 bits_in_unit l.at_ = 32 - l.at_ := by
    unfold bits_in_unit
    exact sub64_of_le 32 _ (by omega) (by norm_num)
  unfold WindowOK
  rw [hw, hn, hsub, e32]
  have hshr : ∀ x, shr32 sem x l.at_ = x >>> l.at_ := by
    intro x; unfold shr32; rw [if_pos hat]
  rw [hshr, hshr]
  refine ⟨?_, rfl⟩
  by_cases h0 : l.at_ = 0
  · have hz : sem = .zero := by
      rcases h with h | h
      · omega
      · exact h
    subst hz
    rw [h0]
    have : shl32 .zero (inp.compressed_data.getD (l.in_pos + 1) 0) (32 - 0) = 0 := by
      unfold shl32; rfl
    rw [this]
    simp only [Nat.shiftRight_zero, Nat.add_zero]
    rw [Nat.add_mul_mod_self_left]
  · have hshl : shl32 sem (inp.compressed_data.getD (l.in_pos + 1) 0) (32 - l.at_)
        = (inp.compressed_data.getD (l.in_pos + 1) 0 <<< (32 - l.at_)) % 4294967296 := by
      unfold shl32; rw [if_pos (by omega), e32]
    rw [hshl, window_entry _ _ _ hat]

/-- The window refill makes the window the stream's. -/
theorem windowOK_refill (sem : ShiftSem) (units : List Nat) (l : Locals) (hu : UnitsOK units)
    (h1 : 32 ≤ l.at_) (h2 : l.at_ ≤ 62) : WindowOK units (refill sem units l) := by
  unfold WindowOK
  have hat := refill_at sem units l h1 h2
  rw [refill_in_pos, hat]
  unfold refill bits_in_unit
  by_cases h : l.at_ = 32
  · rw [if_pos h]
    dsimp only
    rw [h]
    simp only [Nat.sub_self, Nat.shiftRight_zero, and_true]
    rw [Nat.add_mul_mod_self_left, Nat.mod_eq_of_lt (hu _)]
  · rw [if_neg h]
    dsimp only
    have e8 : (l.at_ + 2 ^ 8 - 32) % 2 ^ 8 = l.at_ - 32 := by
      have e8 : (2:Nat) ^ 8 = 256 := by norm_num
      rw [e8]; omega
    have e32 : (2:Nat) ^ 32 = 4294967296 := by norm_num
    rw [e8, e32]
    have hsub : sub64 32 (l.at_ - 32) = 32 - (l.at_ - 32) :=
      sub64_of_le 32 _ (by omega) (by norm_num)
    have hshr : ∀ x, shr32 sem x (l.at_ - 32) = x >>> (l.at_ - 32) := by
      intro x; unfold shr32; rw [if_pos (by omega)]
    have hshl : shl32 sem (units.getD (l.in_pos + 1) 0) (32 - (l.at_ - 32))
        = (units.getD (l.in_pos + 1) 0 <<< (32 - (l.at_ - 32))) % 4294967296 := by
      unfold shl32; rw [if_pos (by omega), e32]
    rw [hsub, hshr, hshr, hshl, window_entry _ _ _ (by omega)]
    exact ⟨rfl, rfl⟩

/-- The window arithmetic of a per-symbol step: the step takes `t1 <= 31` bits
and shifts the window and `next` by `t1`. -/
theorem symbol_step_shape (sem : ShiftSem) (table : List CUHDCodetableItem) (write : Bool)
    (fuel : Nat) (l : Locals) (wf : WellFormedTable table) (hfuel : 32 ≤ fuel)
    (h1 : table.length ≤ l.current_state) (h2 : l.current_state < 2 * table.length)
    (h3 : l.at_ < 32) :
    ∃ l1 w t1, symbol_step sem table write fuel l = .ok (l1, w) ∧ t1 ≤ 31
      ∧ l1.at_ = l.at_ + t1
      ∧ l1.window
          = (l.window >>> t1
              + (if t1 > 0 then (l.next <<< (32 - t1)) % 4294967296 else 0)) % 4294967296
      ∧ l1.next = l.next >>> t1 := by
  obtain ⟨hL0, hL31, hent⟩ := wf
  have hL : table.length ≤ 2147483648 := by norm_num at hL31; exact hL31
  have hidx : sub64 l.current_state table.length = l.current_state - table.length :=
    sub64_of_le _ _ h1 (by omega)
  obtain ⟨e1, e2, e3⟩ := hent (l.current_state - table.length) (by omega)
  unfold symbol_step
  simp only [hidx]
  generalize table.getD (l.current_state - table.length) default = hit at e1 e2 e3
  have hmul : (hit.next_state + 1) * 2 ^ hit.min_num_bits
      = hit.next_state * 2 ^ hit.min_num_bits + 2 ^ hit.min_num_bits := by ring
  have hpos : 1 ≤ 2 ^ hit.min_num_bits := Nat.one_le_two_pow
  have hge : 2 ^ hit.min_num_bits ≤ hit.next_state * 2 ^ hit.min_num_bits :=
    Nat.le_mul_of_pos_left _ (by omega)
  have ht : hit.min_num_bits < 32 :=
    pow_le_imp_lt_32 _ (hit.next_state * 2 ^ hit.min_num_bits) hge (by omega)
  have hshl : shl32 sem hit.next_state hit.min_num_bits
      = hit.next_state * 2 ^ hit.min_num_bits := shl32_of_lt sem _ _ ht (by omega)
  have hrev : not32 (shl32 sem mask hit.min_num_bits) &&& l.window
      ≤ 2 ^ hit.min_num_bits - 1 := by
    rw [not32_shl32_mask sem _ ht]
    exact Nat.and_le_left
  have e32 : (2:Nat) ^ 32 = 4294967296 := by norm_num
  have hs0 : (shl32 sem hit.next_state hit.min_num_bits
      + (not32 (shl32 sem mask hit.min_num_bits) &&& l.window)) % 2 ^ 32
      = hit.next_state * 2 ^ hit.min_num_bits
        + (not32 (shl32 sem mask hit.min_num_bits) &&& l.window) := by
    rw [hshl, e32]
    exact Nat.mod_eq_of_lt (by omega)
  rw [hs0]
  obtain ⟨s1, t1, er, g1, g2, g3, g4, g5⟩ :=
    renormalize_spec sem table.length l.window hL fuel
      (hit.next_state * 2 ^ hit.min_num_bits
        + (not32 (shl32 sem mask hit.min_num_bits) &&& l.window))
      hit.min_num_bits (by omega) (by omega) (by omega)
  rw [er]
  refine ⟨_, _, t1, rfl, g4, ?_, ?_, ?_⟩
  · show (l.at_ + t1) % 2 ^ 8 = l.at_ + t1
    have e8 : (2:Nat) ^ 8 = 256 := by norm_num
    rw [e8]; exact Nat.mod_eq_of_lt (by omega)
  · show (shr32 sem l.window t1
        + (if t1 > 0 then shl32 sem l.next (sub64 bits_in_unit t1) else 0)) % 2 ^ 32 = _
    have hshr : shr32 sem l.window t1 = l.window >>> t1 := by
      unfold shr32; rw [if_pos (by omega)]
    rw [hshr, e32]
    by_cases h0 : t1 > 0
    · rw [if_pos h0, if_pos h0]
      have hsub : sub64 bits_in_unit t1 = 32 - t1 := by
        unfold bits_in_unit
        exact sub64_of_le 32 _ (by omega) (by norm_num)
      have : shl32 sem l.next (32 - t1) = (l.next <<< (32 - t1)) % 4294967296 := by
        unfold shl32; rw [if_pos (by omega), e32]
      rw [hsub, this]
    · rw [if_neg h0, if_neg h0]
  · show shr32 sem l.next t1 = _
    unfold shr32; rw [if_pos (by omega)]

/-- A per-symbol step keeps the window the stream's. -/
theorem windowOK_step (sem : ShiftSem) (table : List CUHDCodetableItem) (write : Bool)
    (fuel : Nat) (units : List Nat) (l l1 : Locals) (w : List (Nat × Nat))
    (wf : WellFormedTable table) (hfuel : 32 ≤ fuel)
    (h1 : table.length ≤ l.current_state) (h2 : l.current_state < 2 * table.length)
    (h3 : l.at_ < 32) (hu : UnitsOK units)
    (h : symbol_step sem table write fuel l = .ok (l1, w)) (hw : WindowOK units l) :
    WindowOK units l1 := by
  obtain ⟨l2, w2, t1, e, b1, b2, b3, b4⟩ :=
    symbol_step_shape sem table write fuel l wf hfuel h1 h2 h3
  rw [h] at e
  simp only [Except.ok.injEq, Prod.mk.injEq] at e
  obtain ⟨e1, _⟩ := e
  subst e1
  have hp := symbol_step_in_pos sem table write fuel l l1 w h
  obtain ⟨w1, w2⟩ := hw
  unfold WindowOK
  rw [hp, b2, b3, b4, w2, ← Nat.shiftRight_add]
  refine ⟨?_, rfl⟩
  rw [Nat.shiftRight_add,
    window_shift _ (units.getD (l.in_pos + 1) 0 >>> l.at_) t1
      (window_high _ _ _ (hu _)).symm (by omega), ← w1]

/-- A per-symbol step from locals that agree leads to locals that agree. -/
theorem symbol_step_sim (sem : ShiftSem) (table : List CUHDCodetableItem) (write write2 : Bool)
    (fuel : Nat) (l l1 l2 : Locals) (w : List (Nat × Nat))
    (h : symbol_step sem table write fuel l = .ok (l1, w)) (hs : Sim l l2) :
    ∃ l3 w2, symbol_step sem table write2 fuel l2 = .ok (l3, w2) ∧ Sim l1 l3 := by
  obtain ⟨s1, s2, s3, s4, s5⟩ := hs
  unfold symbol_step at h ⊢
  dsimp only at h ⊢
  rw [s1, s4, s5, s2] at h
  split at h
  · cases h
  · rename_i cs tk hr
    try rw [hr]
    try dsimp only
    simp only [Except.ok.injEq, Prod.mk.injEq] at h
    refine ⟨_, _, rfl, ?_⟩
    rw [← h.1]
    exact ⟨rfl, rfl, s3, rfl, rfl⟩

theorem crossing_continue_fields (a : KernelArgs) (x l3 : Locals) (s s3 : Shared)
    (h : crossing a x s = .continue_ l3 s3) :
    l3.current_state = x.current_state ∧ l3.at_ = x.at_ ∧ l3.in_pos = x.in_pos := by
  by_cases hu : x.current_unit = a.subsequence_size
  · rw [crossing_continue a x l3 s s3 hu h]
    exact ⟨rfl, rfl, rfl⟩
  · rw [crossing_of_ne a x s hu] at h
    simp only [Step.continue_.injEq] at h
    rw [← h.1]
    exact ⟨rfl, rfl, rfl⟩

/-- The steps of one unit: they stay in the unit, keep the window the stream's,
and the last of them leaves the unit. -/
theorem unit_steps_facts (sem : ShiftSem) (table : List CUHDCodetableItem) (write : Bool)
    (fuel0 : Nat) (units : List Nat) (wf : WellFormedTable table) (hfuel0 : 32 ≤ fuel0)
    (hu : UnitsOK units) :
    ∀ l ts l1, Trace (step_locals sem table write fuel0) (fun t => 32 ≤ t.at_) l ts l1 →
      table.length ≤ l.current_state → l.current_state < 2 * table.length →
      (∀ t, t ∈ ts → t.in_pos = l.in_pos ∧ table.length ≤ t.current_state
          ∧ t.current_state < 2 * table.length ∧ t.at_ < 32
          ∧ (WindowOK units l → WindowOK units t))
        ∧ (∀ pre t, ts = pre ++ [t] →
            ∃ w, symbol_step sem table write fuel0 t = .ok (l1, w))
        ∧ 32 ≤ l1.at_ := by
  intro l ts l1 h
  induction h with
  | done l h =>
    intro _ _
    refine ⟨fun t ht => (by cases ht), fun pre t e => ?_, h⟩
    have := congrArg List.length e
    simp at this
  | step l l2 l1 ts h e t ih =>
    intro h1 h2
    have hat : l.at_ < 32 := by omega
    obtain ⟨w, hs⟩ := step_locals_inv sem table write fuel0 l l2 e
    obtain ⟨l2b, wb, eb, pb⟩ := symbol_step_spec sem table write fuel0 l wf hfuel0 h1 h2 hat
    rw [hs] at eb
    simp only [Except.ok.injEq, Prod.mk.injEq] at eb
    obtain ⟨eb1, _⟩ := eb
    subst eb1
    obtain ⟨g1, g2, g3⟩ := ih pb.state_ge pb.state_lt
    refine ⟨fun t0 ht0 => ?_, fun pre t0 e0 => ?_, g3⟩
    · rcases List.mem_cons.mp ht0 with rfl | ht0
      · exact ⟨rfl, h1, h2, hat, fun hw => hw⟩
      · obtain ⟨q1, q2, q3, q4, q5⟩ := g1 t0 ht0
        exact ⟨by rw [q1, pb.in_pos], q2, q3, q4, fun hw =>
          q5 (windowOK_step sem table write fuel0 units l l2 w wf hfuel0 h1 h2 hat hu hs hw)⟩
    · cases pre with
      | nil =>
        simp only [List.nil_append, List.cons.injEq] at e0
        obtain ⟨e01, e02⟩ := e0
        subst e01
        subst e02
        cases t with
        | done _ _ => exact ⟨w, hs⟩
      | cons p pre =>
        simp only [List.cons_append, List.cons.injEq] at e0
        exact g2 pre t0 e0.2

/-- The steps of a unit loop in any mode: `in_pos` does not drop below its
value on entry, and a step that is the last one of its unit starts from a state
of the table with the stream's window and leaves the unit, provided the window
was the stream's on entry or the step is in a later unit than the entry. -/
theorem unit_loop_steps_final (sem : ShiftSem) (a : KernelArgs) (in_ptr : List Nat)
    (table : List CUHDCodetableItem) (fuel0 : Nat) (wf : WellFormedTable table)
    (hfuel0 : 33 * table.length < fuel0) (hu : UnitsOK in_ptr) :
    ∀ fuel l s ts, unit_loop_steps sem a in_ptr table fuel0 fuel l s = .ok ts →
      table.length ≤ l.current_state → l.current_state < 2 * table.length → l.at_ < 32 →
      (∀ t, t ∈ ts → l.in_pos ≤ t.in_pos)
        ∧ ∀ pre t post, ts = pre ++ t :: post → (∀ t2, t2 ∈ post → t.in_pos < t2.in_pos) →
            (WindowOK in_ptr l ∨ l.in_pos < t.in_pos) →
            table.length ≤ t.current_state ∧ t.current_state < 2 * table.length
              ∧ t.at_ < 32 ∧ WindowOK in_ptr t
              ∧ ∃ l1 w, symbol_step sem table a.write fuel0 t = .ok (l1, w) ∧ 32 ≤ l1.at_ := by
  intro fuel
  induction fuel with
  | zero =>
    intro l s ts h _ _ _
    rw [unit_loop_steps] at h
    by_cases hin : l.in_pos < a.end_
    · rw [if_pos hin] at h; cases h
    · rw [if_neg hin] at h
      cases h
      exact ⟨fun t ht => (by cases ht), fun pre t post e => by
        have := congrArg List.length e
        simp at this
        omega⟩
  | succ fuel ih =>
    intro l s ts h h1 h2 h3
    rw [unit_loop_steps] at h
    by_cases hin : l.in_pos < a.end_
    · rw [if_pos hin] at h
      have hfuel32 : 32 ≤ fuel0 := by have := wf.1; omega
      obtain ⟨l1, w1, e1, p1⟩ := symbol_loop_spec sem table a.write fuel0 wf
        hfuel32 fuel0 l h1 h2 h3 (symbol_loop_fuel table fuel0 l hfuel0 h2)
      obtain ⟨tu, et, tr, _⟩ := symbol_loop_steps_trace sem table a.write fuel0 fuel0 l l1 w1 e1
      obtain ⟨u1, u2, u3⟩ :=
        unit_steps_facts sem table a.write fuel0 in_ptr wf hfuel32 hu l tu l1 tr h1 h2
      rw [e1] at h
      dsimp only at h
      rw [et] at h
      dsimp only at h
      -- the steps of this unit
      have hunit : ∀ pre t post, tu = pre ++ t :: post →
          (∀ t2, t2 ∈ post → t.in_pos < t2.in_pos) →
          (WindowOK in_ptr l ∨ l.in_pos < t.in_pos) →
          table.length ≤ t.current_state ∧ t.current_state < 2 * table.length
            ∧ t.at_ < 32 ∧ WindowOK in_ptr t
            ∧ ∃ l1 w, symbol_step sem table a.write fuel0 t = .ok (l1, w) ∧ 32 ≤ l1.at_ := by
        intro pre t post e hlast hw
        have htm : t ∈ tu := by rw [e]; simp
        obtain ⟨q1, q2, q3, q4, q5⟩ := u1 t htm
        have hpost : post = [] := by
          cases post with
          | nil => rfl
          | cons p post =>
            have hp : p ∈ tu := by rw [e]; simp
            have := (u1 p hp).1
            have := hlast p (List.mem_cons_self p post)
            omega
        subst hpost
        obtain ⟨w, hs⟩ := u2 pre t e
        refine ⟨q2, q3, q4, q5 ?_, l1, w, hs, u3⟩
        rcases hw with hw | hw
        · exact hw
        · omega
      cases hc : crossing a
          { l1 with in_pos := l1.in_pos + 1, current_unit := (l1.current_unit + 1) % 2 ^ 32 }
          { s with out := s.out ++ w1 } with
      | returned s2 =>
        rw [hc] at h
        dsimp only at h
        cases h
        exact ⟨fun t ht => by rw [(u1 t ht).1], hunit⟩
      | continue_ l3 s3 =>
        rw [hc] at h
        dsimp only at h
        obtain ⟨c1, c2, c3⟩ := crossing_continue_fields a _ l3 _ s3 hc
        have c2b : l3.at_ = l1.at_ := c2
        have c3b : l3.in_pos = l1.in_pos + 1 := c3
        have c1b : l3.current_state = l1.current_state := c1
        cases hr : unit_loop_steps sem a in_ptr table fuel0 fuel (refill sem in_ptr l3) s3 with
        | error e => rw [hr] at h; cases h
        | ok r =>
          rw [hr] at h
          dsimp only at h
          cases h
          have hat3 : (refill sem in_ptr l3).at_ = l3.at_ - 32 :=
            refill_at sem in_ptr l3 (by rw [c2b]; exact p1.at_ge) (by rw [c2b]; exact p1.at_le)
          obtain ⟨r1, r2⟩ := ih (refill sem in_ptr l3) s3 r hr
            (by rw [refill_current_state, c1b]; exact p1.state_ge)
            (by rw [refill_current_state, c1b]; exact p1.state_lt)
            (by rw [hat3, c2b]; have := p1.at_le; omega)
          have hwr : WindowOK in_ptr (refill sem in_ptr l3) :=
            windowOK_refill sem in_ptr l3 hu (by rw [c2b]; exact p1.at_ge)
              (by rw [c2b]; exact p1.at_le)
          have hrpos : ∀ t, t ∈ r → l.in_pos + 1 ≤ t.in_pos := by
            intro t ht
            have := r1 t ht
            rw [refill_in_pos, c3b, p1.in_pos] at this
            exact this
          refine ⟨fun t ht => ?_, fun pre t post e hlast hw => ?_⟩
          · rcases List.mem_append.mp ht with ht | ht
            · rw [(u1 t ht).1]
            · have := hrpos t ht
              omega
          · rcases List.append_eq_append_iff.mp e with ⟨m, e1, e2⟩ | ⟨m, e1, e2⟩
            · exact r2 m t post e2 hlast (Or.inl hwr)
            · cases m with
              | nil =>
                simp only [List.nil_append] at e2
                exact r2 [] t post e2.symm hlast (Or.inl hwr)
              | cons m0 m =>
                simp only [List.cons_append, List.cons.injEq] at e2
                obtain ⟨e3, e4⟩ := e2
                subst e3
                exact hunit pre t m e1
                  (fun t2 ht2 => hlast t2 (by rw [e4]; exact List.mem_append_left _ ht2)) hw
    · rw [if_neg hin] at h
      cases h
      exact ⟨fun t ht => (by cases ht), fun pre t post e => by
        have := congrArg List.length e
        simp at this
        omega⟩

/-! ## The first symbol of a pass that starts from a sync point -/

/-- A pass of worker `i >= 1` in phase 2 or 3 whose entry `sync[first_sub - 1]`
holds the state and the bit of a step that leaves the unit `begin - 1` with the
stream's window: the pass starts in that unit, in that state and at that bit,
and its first step leaves the unit. -/
theorem boot_first_step (sem : ShiftSem) (S T N_u size_out : Nat) (inp : CUHDInputBuffer)
    (table : List CUHDCodetableItem) (v : ValidInput S T N_u inp table)
    (fuel : Nat) (hfuel : enough_fuel S T N_u table ≤ fuel)
    (ov wr : Bool) (hboot : (ov || wr) = true)
    (i : Nat) (h1 : 1 ≤ i) (hi : i < T) (s : Shared) (gs : GoodShared S T N_u table s)
    (t l1 : Locals) (w : List (Nat × Nat))
    (hunit : t.in_pos + 1 = (args_of S T N_u false false i).begin)
    (hstate : (s.sync.getD (first_sub S T N_u i - 1) default).state = t.current_state)
    (hbit : (s.sync.getD (first_sub S T N_u i - 1) default).bit = t.at_)
    (ht1 : table.length ≤ t.current_state) (ht2 : t.current_state < 2 * table.length)
    (ht3 : t.at_ < 32) (hw : WindowOK inp.compressed_data t)
    (hs : symbol_step sem table false fuel t = .ok (l1, w)) (hat : 32 ≤ l1.at_) :
    (initial_locals sem (args_of S T N_u ov wr i) size_out inp s).in_pos + 1
        = (args_of S T N_u false false i).begin
      ∧ (initial_locals sem (args_of S T N_u ov wr i) size_out inp s).at_ = t.at_
      ∧ (initial_locals sem (args_of S T N_u ov wr i) size_out inp s).current_state
          = t.current_state
      ∧ (initial_locals sem (args_of S T N_u ov wr i) size_out inp s).reset = false
      ∧ (initial_locals sem (args_of S T N_u ov wr i) size_out inp s).current_unit + 1 = S
      ∧ Sim t (initial_locals sem (args_of S T N_u ov wr i) size_out inp s)
      ∧ ∃ l3 w3, symbol_step sem table wr fuel
            (initial_locals sem (args_of S T N_u ov wr i) size_out inp s) = .ok (l3, w3)
          ∧ 32 ≤ l3.at_ := by
  have hfuel2 : 33 * table.length + N_u + S + T + 2 ≤ fuel := hfuel
  obtain ⟨b1, b2, b3, b4, b5, b6, b7, b8⟩ :=
    boot_locals sem S T N_u size_out inp table v ov wr hboot i h1 hi s gs
  have hbo : ((args_of S T N_u ov wr i).overflow
      || ((args_of S T N_u ov wr i).write
          && decide ((args_of S T N_u ov wr i).thread_id > 0))) = true := by
    show (ov || (wr && decide (i > 0))) = true
    cases ov
    · simp only [Bool.false_or] at hboot
      subst hboot
      simp
      omega
    · rfl
  obtain ⟨c1, c2, _⟩ := initial_locals_boot sem (args_of S T N_u ov wr i) size_out inp s hbo
  rw [b1] at c1 c2
  have hbeg : (args_of S T N_u ov wr i).begin = (args_of S T N_u false false i).begin := rfl
  have hge := gs.sync_good (first_sub S T N_u i - 1) (by
    rw [gs.sync_length]
    have := first_sub_mono S T N_u i (T - 1) (by omega)
    obtain ⟨_, _, _, _, _, _, _, _, g9, g10, _⟩ :=
      args_geometry S T N_u ov wr (T - 1) v.size_pos v.threads_pos v.enough_subs v.units_lt (by omega)
    omega)
  have hbit2 : (s.sync.getD (first_sub S T N_u i - 1) default).bit % 2 ^ 8
      = (s.sync.getD (first_sub S T N_u i - 1) default).bit := by
    have := hge.2.2.1
    have e8 : (2:Nat) ^ 8 = 256 := by norm_num
    rw [e8]
    omega
  rw [hbit2, hbit] at c2
  rw [hstate] at c1
  obtain ⟨_, _, es, ps⟩ := symbol_step_spec sem table false fuel t v.table_ok (by omega)
    ht1 ht2 ht3
  rw [hs] at es
  simp only [Except.ok.injEq, Prod.mk.injEq] at es
  obtain ⟨es1, _⟩ := es
  subst es1
  have hle := ps.at_le
  have hwl : WindowOK inp.compressed_data
      (initial_locals sem (args_of S T N_u ov wr i) size_out inp s) :=
    windowOK_initial sem _ size_out inp s b4 (Or.inl (by rw [c2]; omega))
  have hpos : t.in_pos
      = (initial_locals sem (args_of S T N_u ov wr i) size_out inp s).in_pos := by
    rw [hbeg] at b5
    omega
  have hsim : Sim t (initial_locals sem (args_of S T N_u ov wr i) size_out inp s) := by
    obtain ⟨w1, w2⟩ := hw
    obtain ⟨x1, x2⟩ := hwl
    refine ⟨c1.symm, c2.symm, hpos, ?_, ?_⟩
    · rw [w1, x1, c2, hpos]
    · rw [w2, x2, c2, hpos]
  obtain ⟨l3, w3, e3, s3⟩ := symbol_step_sim sem table false wr fuel t l1 _ w hs hsim
  exact ⟨by rw [← hbeg]; exact b5, c2, c1, b8, b6, hsim, l3, w3, e3, by rw [← s3.2.1]; exact hat⟩

/-- The locals with which worker 0 enters the unit loop in phase 3. -/
theorem initial_locals_first (sem : ShiftSem) (a : KernelArgs) (size_out : Nat)
    (inp : CUHDInputBuffer) (s : Shared) (hov : a.overflow = false) (ht : a.thread_id = 0)
    (hw : a.write = true) (hb : inp.first_bit ≤ 32) :
    (initial_locals sem a size_out inp s).current_state = inp.first_state
      ∧ (initial_locals sem a size_out inp s).at_ = 32 - inp.first_bit
      ∧ (initial_locals sem a size_out inp s).in_pos = a.begin
      ∧ (initial_locals sem a size_out inp s).reset = true
      ∧ (initial_locals sem a size_out inp s).current_unit = 0 := by
  have e8 : sub64 bits_in_unit inp.first_bit % 2 ^ 8 = 32 - inp.first_bit := by
    unfold bits_in_unit
    rw [sub64_of_le 32 _ hb (by norm_num)]
    have e8 : (2:Nat) ^ 8 = 256 := by norm_num
    rw [e8]
    omega
  simp only [initial_locals, hov, ht, hw, e8]
  simp

theorem unitsOK_of_mem (units : List Nat) (h : ∀ x, x ∈ units → x < 4294967296) :
    UnitsOK units := by
  intro i
  by_cases hi : i < units.length
  · rw [List.getD_eq_getElem _ _ hi]
    exact h _ (List.getElem_mem hi)
  · rw [List.getD_eq_default _ _ (by omega)]
    norm_num

/-- C2, failing input.  Sixteen units `0x55555555`, the two-bit table, `S = 4`:
the single-threaded run fills the 256 output positions with symbol 2, the run
with four threads whose phase-2 workers finish in the order 3, 2, 1 fills the
last 64 positions with symbol 1.  Both shift semantics agree. -/
theorem decode_output_depends_on_threads :
    (decode .zero 64 (descending 1) 4 1 16 256 (input_alternating 16) table_uniform4 no_junk).map
        (output_buffer (List.replicate 256 0))
      = .ok (List.replicate 256 2)
    ∧ (decode .zero 64 (descending 4) 4 4 16 256 (input_alternating 16) table_uniform4 no_junk).map
        (output_buffer (List.replicate 256 0))
      = .ok (List.replicate 192 2 ++ List.replicate 64 1)
    ∧ (decode .wrap 64 (descending 1) 4 1 16 256 (input_alternating 16) table_uniform4 no_junk).map
        (output_buffer (List.replicate 256 0))
      = .ok (List.replicate 256 2)
    ∧ (decode .wrap 64 (descending 4) 4 4 16 256 (input_alternating 16) table_uniform4 no_junk).map
        (output_buffer (List.replicate 256 0))
      = .ok (List.replicate 192 2 ++ List.replicate 64 1) := by
  decide!

/-- C3, failing input.  On the input of `decode_output_depends_on_threads` the
phase-2 loop ends after two iterations with `sync[2] = {5, 30, 3, 64}`, while
decoding subsequence 2 from `sync[1] = {6, 31, 3, 64}` yields `{6, 31, 3, 64}`. -/
theorem sync_inconsistent_after_phase2 :
    (decode .zero 64 (descending 4) 4 4 16 256 (input_alternating 16) table_uniform4 no_junk).map
        (fun r => (r.shared.sync, r.shared.thread_synced, r.iterations))
      = .ok ([⟨6, 31, 3, 64⟩, ⟨6, 31, 3, 64⟩, ⟨5, 30, 3, 64⟩, ⟨5, 30, 3, 64⟩],
             [false, true, true, true], 2)
    ∧ redecode_subsequence .zero 64 4 16 256 (input_alternating 16) table_uniform4
        [⟨6, 31, 3, 64⟩, ⟨6, 31, 3, 64⟩, ⟨5, 30, 3, 64⟩, ⟨5, 30, 3, 64⟩] 2
      = .ok ⟨6, 31, 3, 64⟩
    ∧ (decode .wrap 64 (descending 4) 4 4 16 256 (input_alternating 16) table_uniform4 no_junk).map
        (fun r => (r.shared.sync, r.shared.thread_synced, r.iterations))
      = .ok ([⟨6, 31, 3, 64⟩, ⟨6, 31, 3, 64⟩, ⟨5, 30, 3, 64⟩, ⟨5, 30, 3, 64⟩],
             [false, true, true, true], 2)
    ∧ redecode_subsequence .wrap 64 4 16 256 (input_alternating 16) table_uniform4
        [⟨6, 31, 3, 64⟩, ⟨6, 31, 3, 64⟩, ⟨5, 30, 3, 64⟩, ⟨5, 30, 3, 64⟩] 2
      = .ok ⟨6, 31, 3, 64⟩ := by
  decide!

/-- C4, failing input.  Sixteen units `0x11111111`, the table `table_skewed16`,
`S = 4`, 128 output positions: the single-threaded run stores to the positions
0..127 in turn; with four threads whose workers finish in descending order only
the positions 0..95 are stored to (`out_positions` is `[0, 32, 64, 160]`). -/
theorem output_positions_left_unwritten :
    (decode .zero 64 (descending 1) 4 1 16 128 input_nibbles table_skewed16 no_junk).map
        written_positions
      = .ok (List.range 128)
    ∧ (decode .zero 64 (descending 4) 4 4 16 128 input_nibbles table_skewed16 no_junk).map
        (fun r => (r.shared.out_positions, written_positions r))
      = .ok ([0, 32, 64, 160], List.range' 64 32 ++ List.range' 32 32 ++ List.range' 0 32)
    ∧ (decode .wrap 64 (descending 1) 4 1 16 128 input_nibbles table_skewed16 no_junk).map
        written_positions
      = .ok (List.range 128)
    ∧ (decode .wrap 64 (descending 4) 4 4 16 128 input_nibbles table_skewed16 no_junk).map
        (fun r => (r.shared.out_positions, written_positions r))
      = .ok ([0, 32, 64, 160], List.range' 64 32 ++ List.range' 32 32 ++ List.range' 0 32) := by
  decide!

/-- C9 as stated fails: with two threads on eight units `0x55555555` and the
two-bit table the phase-2 loop runs twice, more than `T - 1 = 1` times.  And with
`S = 2^32`, two threads and `N_u = 2^33` units the 32-bit unit counter never
equals `S`, no flag is ever set, and the loop exits after no number of
iterations, whatever the units hold. -/
theorem phase2_two_iterations_two_threads :
    (decode .zero 64 (ascending 2) 4 2 8 128 (input_alternating 8) table_uniform4 no_junk).map
        (fun r => r.iterations) = .ok 2
    ∧ (decode .wrap 64 (ascending 2) 4 2 8 128 (input_alternating 8) table_uniform4 no_junk).map
        (fun r => r.iterations) = .ok 2
    ∧ 2 ≤ num_subsequences 4 8 ∧ ¬ (2 ≤ 2 - 1)
    ∧ 2 ≤ num_subsequences 4294967296 8589934592
    ∧ ¬ ∃ (sem : ShiftSem) (fuel : Nat) (sched : Schedule) (size_out : Nat)
        (units : List Nat) (junk : Nat → SubsequenceSyncPoint) (r : DecodeResult),
        decode sem fuel sched 4294967296 2 8589934592 size_out
          { input_alternating 8 with compressed_data := units } table_uniform4 junk = .ok r :=
  ⟨by decide!, by decide!, by decide, by decide, by decide,
    fun ⟨sem, fuel, sched, size_out, units, junk, r, h⟩ =>
      decode_large_size sem fuel sched 4294967296 2 8589934592 size_out _ table_uniform4 junk r
        (by decide) (by decide) h⟩

/-- C12 as stated fails: with `S = 3`, which is not a multiple of 4, `decode`
raises no error; it starts its workers and fills the 96 output positions, with
one thread and with two. -/
theorem decode_accepts_size_three :
    ¬ (3 % 4 = 0)
    ∧ get_decoder_intervals 3 2 6 = .ok [⟨0, 3, 0⟩, ⟨3, 6, 1⟩]
    ∧ (decode .zero 64 (ascending 2) 3 2 6 96 (input_alternating 6) table_uniform4 no_junk).map
        (fun r => (written_positions r, output_buffer (List.replicate 96 0) r))
      = .ok (List.range' 0 48 ++ List.range' 48 48, List.replicate 96 2)
    ∧ (decode .wrap 64 (ascending 1) 3 1 6 96 (input_alternating 6) table_uniform4 no_junk).map
        (fun r => (written_positions r, output_buffer (List.replicate 96 0) r))
      = .ok (List.range 96, List.replicate 96 2) := by
  decide!

/-- C13, failing input.  Eight units `0x55555555` hold 128 symbols.  With
`uncompressed_size = 10` the run with two threads returns normally and thread 0
stores to the positions 0..63, of which 10..63 are past the output buffer; the
run with one thread returns normally with the positions 0..9 stored and the
other 118 symbols dropped. -/
theorem output_overrun_not_reported :
    (decode .zero 64 (ascending 1) 4 1 8 128 (input_alternating 8) table_uniform4 no_junk).map
        written_positions = .ok (List.range 128)
    ∧ (decode .zero 64 (ascending 2) 4 2 8 10 (input_alternating 8) table_uniform4 no_junk).map
        (fun r => (r.shared.out_positions, written_positions r)) = .ok ([0, 64], List.range 64)
    ∧ (decode .zero 64 (ascending 1) 4 1 8 10 (input_alternating 8) table_uniform4 no_junk).map
        written_positions = .ok (List.range 10)
    ∧ (decode .wrap 64 (ascending 2) 4 2 8 10 (input_alternating 8) table_uniform4 no_junk).map
        (fun r => (r.shared.out_positions, written_positions r)) = .ok ([0, 64], List.range 64)
    ∧ (decode .wrap 64 (ascending 1) 4 1 8 10 (input_alternating 8) table_uniform4 no_junk).map
        written_positions = .ok (List.range 10) := by
  decide!

/-- C11 as stated fails: with `N_u = 8` and `S = 4` the phase-1 pass of the last
worker reads the indices 8 and 9, and 9 is past `N_u`: behind the units 0..7 the
array needs two more units, not one.  With `N_u = 6`, where the last subsequence
is short, the single worker reads up to index 9 as well, three past `N_u`. -/
theorem input_read_past_one_pad :
    decode_phase1_reads .zero 64 (args_of 4 2 8 false false 1) 128 (input_alternating 8)
        table_uniform4
        { sync := List.replicate 2 default, thread_synced := [false, false],
          out_positions := [0, 0], out := [] }
      = .ok [4, 5, 5, 6, 6, 7, 7, 8, 8, 9]
    ∧ decode_phase1_reads .wrap 64 (args_of 4 2 8 false false 1) 128 (input_alternating 8)
        table_uniform4
        { sync := List.replicate 2 default, thread_synced := [false, false],
          out_positions := [0, 0], out := [] }
      = .ok [4, 5, 5, 6, 6, 7, 7, 8, 8, 9]
    ∧ ¬ 9 ≤ 8
    ∧ decode_phase1_reads .zero 64 (args_of 4 1 6 false false 0) 96 (input_alternating 6)
        table_uniform4
        { sync := List.replicate 2 default, thread_synced := [false],
          out_positions := [0], out := [] }
      = .ok [0, 1, 1, 2, 2, 3, 3, 4, 4, 5, 5, 6, 6, 7, 7, 8, 8, 9]
    ∧ ¬ 9 ≤ 6 := by
  decide!

/-- The input `input_offset_zero` is valid for one thread and `S = 4`. -/
theorem valid_offset_zero : ValidInput 4 1 4 input_offset_zero table_uniform4 :=
  { size_pos := by decide
    size_lt := by norm_num
    threads_pos := by decide
    enough_subs := by decide
    units_lt := by norm_num
    table_ok := table_uniform4_ok
    state_ge := by show 4 ≤ 4; decide
    state_lt := by show 4 < 2 * 4; decide
    bit_pos := by show 1 ≤ 32; decide
    bit_le := by show 32 ≤ 32; decide }

/-- C17, failing input.  The input is valid.  With `first_bit = 32` thread 0 enters the kernel at bit
offset 0 and line 161 shifts the 32-bit `copy_next` by 32.  On the units
0, 1, 0, 0 the stream bits 0..31 are zero.  When the shift uses its count modulo
32, the window of the first per-symbol step is `in_ptr[0] + in_ptr[1] = 1`, not
the 32 stream bits from position 0, and the run decodes the symbols 0, 1, 0, 0
where the stream holds 0, 0, 0, 0; when the shift yields zero, the window is 0
and the run decodes 0, 0, 0, 0. -/
theorem window_wrong_at_entry_offset_zero :
    ValidInput 4 1 4 input_offset_zero table_uniform4
    ∧ (∀ k, k < 32 → stream_bit input_offset_zero.compressed_data (32 * 0 + 0 + k) = 0)
    ∧ (decode_phase1_steps .wrap 64 (args_of 4 1 4 false false 0) 64 input_offset_zero
          table_uniform4
          { sync := [default], thread_synced := [false], out_positions := [0], out := [] }).map
        (fun ts => ts.head?.map (fun l => (l.in_pos, l.at_, l.window)))
      = .ok (some (0, 0, 1))
    ∧ (decode_phase1_steps .zero 64 (args_of 4 1 4 false false 0) 64 input_offset_zero
          table_uniform4
          { sync := [default], thread_synced := [false], out_positions := [0], out := [] }).map
        (fun ts => ts.head?.map (fun l => (l.in_pos, l.at_, l.window)))
      = .ok (some (0, 0, 0))
    ∧ (decode .wrap 64 (ascending 1) 4 1 4 64 input_offset_zero table_uniform4 no_junk).map
        (fun r => (output_buffer (List.replicate 64 0) r).take 4) = .ok [0, 1, 0, 0]
    ∧ (decode .zero 64 (ascending 1) 4 1 4 64 input_offset_zero table_uniform4 no_junk).map
        (fun r => (output_buffer (List.replicate 64 0) r).take 4) = .ok [0, 0, 0, 0] :=
  ⟨valid_offset_zero, by decide!⟩
/-! ## Passes that decode the same stretch of the stream -/

theorem refill_sim (sem : ShiftSem) (in_ptr : List Nat) (x y : Locals)
    (h1 : x.current_state = y.current_state) (h2 : x.at_ = y.at_) (h3 : x.in_pos = y.in_pos) :
    Sim (refill sem in_ptr x) (refill sem in_ptr y) := by
  unfold refill Sim
  rw [h2, h3]
  by_cases h : y.at_ = bits_in_unit
  · rw [if_pos h, if_pos h]
    exact ⟨h1, rfl, rfl, rfl, rfl⟩
  · rw [if_neg h, if_neg h]
    exact ⟨h1, rfl, rfl, rfl, rfl⟩

/-- The step that follows, from locals that agree, leads to locals that agree,
whatever the mode and the interval of the two passes. -/
theorem advance_sim (sem : ShiftSem) (a a2 : KernelArgs) (in_ptr : List Nat)
    (table : List CUHDCodetableItem) (fuel0 : Nat) (l l1 l2 l3 : Locals) (hs : Sim l l2)
    (e : advance sem a in_ptr table fuel0 l = .ok l1)
    (e2 : advance sem a2 in_ptr table fuel0 l2 = .ok l3) : Sim l1 l3 := by
  unfold advance at e e2
  cases hstep : symbol_step sem table a.write fuel0 l with
  | error err => rw [hstep] at e; cases e
  | ok p =>
    obtain ⟨m, w⟩ := p
    obtain ⟨m2, w2, hstep2, hm⟩ := symbol_step_sim sem table a.write a2.write fuel0 l m l2 w hstep hs
    rw [hstep] at e
    rw [hstep2] at e2
    dsimp only at e e2
    obtain ⟨s1, s2, s3, s4, s5⟩ := hm
    by_cases hat : m.at_ < bits_in_unit
    · rw [if_pos hat] at e
      rw [if_pos (by rw [← s2]; exact hat)] at e2
      cases e
      cases e2
      exact ⟨s1, s2, s3, s4, s5⟩
    · rw [if_neg hat] at e
      rw [if_neg (by rw [← s2]; exact hat)] at e2
      by_cases hc : (m.current_unit + 1) % 2 ^ 32 = a.subsequence_size
      · rw [if_pos hc] at e
        cases e
        by_cases hc2 : (m2.current_unit + 1) % 2 ^ 32 = a2.subsequence_size
        · rw [if_pos hc2] at e2
          cases e2
          exact refill_sim sem in_ptr _ _ s1 s2 (by show m.in_pos + 1 = m2.in_pos + 1; rw [s3])
        · rw [if_neg hc2] at e2
          cases e2
          exact refill_sim sem in_ptr _ _ s1 s2 (by show m.in_pos + 1 = m2.in_pos + 1; rw [s3])
      · rw [if_neg hc] at e
        cases e
        by_cases hc2 : (m2.current_unit + 1) % 2 ^ 32 = a2.subsequence_size
        · rw [if_pos hc2] at e2
          cases e2
          exact refill_sim sem in_ptr _ _ s1 s2 (by show m.in_pos + 1 = m2.in_pos + 1; rw [s3])
        · rw [if_neg hc2] at e2
          cases e2
          exact refill_sim sem in_ptr _ _ s1 s2 (by show m.in_pos + 1 = m2.in_pos + 1; rw [s3])

/-- Two runs from locals that agree, the first up to `E` and the second up to
`E2 >= E`: the steps of the first agree, one by one, with the steps the second
makes before `E`. -/
theorem trace_lockstep (sem : ShiftSem) (a a2 : KernelArgs) (in_ptr : List Nat)
    (table : List CUHDCodetableItem) (fuel0 : Nat) (wf : WellFormedTable table)
    (hfuel0 : 32 ≤ fuel0) (hS32 : a2.subsequence_size < 4294967296)
    (E E2 : Nat) (hE : E ≤ E2) :
    ∀ l ts lf, Trace (advance sem a in_ptr table fuel0) (fun t => E ≤ t.in_pos) l ts lf →
      ∀ l2 ts2 lf2, Trace (advance sem a2 in_ptr table fuel0) (fun t => E2 ≤ t.in_pos) l2 ts2 lf2 →
        Sim l l2 → StepInv a2 table.length l2 →
        ∃ r1 r2, ts2 = r1 ++ r2 ∧ List.Forall₂ Sim ts r1 ∧ ∀ t, t ∈ r2 → E ≤ t.in_pos := by
  intro l ts lf h
  induction h with
  | done l h =>
    intro l2 ts2 lf2 h2 hs hi
    refine ⟨[], ts2, rfl, List.Forall₂.nil, fun t ht => ?_⟩
    obtain ⟨g1, _⟩ := trace_inv sem a2 in_ptr table fuel0 wf hfuel0 hS32 _ l2 ts2 lf2 h2 hi
    have := (g1 t ht).2.1
    have h3 : E ≤ l.in_pos := h
    rw [hs.2.2.1] at h3
    omega
  | step l l1 lf ts h e t ih =>
    intro l2 ts2 lf2 h2 hs hi
    have hp : l.in_pos = l2.in_pos := hs.2.2.1
    cases h2 with
    | done _ hstop =>
      have h3 : E2 ≤ l2.in_pos := hstop
      exact absurd (show E ≤ l.in_pos by omega) h
    | step _ l3 _ ts3 hn e2 t2 =>
      have hs1 := advance_sim sem a a2 in_ptr table fuel0 l l1 l2 l3 hs e e2
      have p := advance_post sem a2 in_ptr table fuel0 wf hfuel0 hS32 l2 l3 hi e2
      obtain ⟨r1, r2, q1, q2, q3⟩ := ih l3 ts3 lf2 t2 hs1 p.inv
      exact ⟨l2 :: r1, r2, by rw [q1]; rfl, List.Forall₂.cons hs q2, q3⟩

/-- The part of a run from one of its steps on is a run. -/
theorem trace_suffix (next : Locals → Except Fault Locals) (stop : Locals → Prop) :
    ∀ l ts lf, Trace next stop l ts lf →
      ∀ pre t post, ts = pre ++ t :: post → Trace next stop t (t :: post) lf := by
  intro l ts lf h
  induction h with
  | done l h =>
    intro pre t post e
    have := congrArg List.length e
    simp at this
    omega
  | step l l1 lf ts h e t ih =>
    intro pre t0 post e0
    cases pre with
    | nil =>
      simp only [List.nil_append, List.cons.injEq] at e0
      obtain ⟨e1, e2⟩ := e0
      subst e1
      subst e2
      exact Trace.step l l1 lf ts h e t
    | cons p pre =>
      simp only [List.cons_append, List.cons.injEq] at e0
      exact ih pre t0 post e0.2

/-- Along a run `in_pos` does not decrease. -/
theorem trace_sorted (sem : ShiftSem) (a : KernelArgs) (in_ptr : List Nat)
    (table : List CUHDCodetableItem) (fuel0 : Nat) (wf : WellFormedTable table)
    (hfuel0 : 32 ≤ fuel0) (hS32 : a.subsequence_size < 4294967296)
    (stop : Locals → Prop) :
    ∀ l ts lf, Trace (advance sem a in_ptr table fuel0) stop l ts lf →
      StepInv a table.length l → ts.Pairwise (fun x y => x.in_pos ≤ y.in_pos) := by
  intro l ts lf h
  induction h with
  | done l h => intro _; exact List.Pairwise.nil
  | step l l1 lf ts h e t ih =>
    intro hi
    have p := advance_post sem a in_ptr table fuel0 wf hfuel0 hS32 l l1 hi e
    obtain ⟨g1, _⟩ := trace_inv sem a in_ptr table fuel0 wf hfuel0 hS32 stop l1 ts lf t p.inv
    refine List.Pairwise.cons (fun t0 ht0 => ?_) (ih p.inv)
    have := (g1 t0 ht0).2.1
    have := p.pos_ge
    omega

theorem forall2_sim_symbols (table : List CUHDCodetableItem) :
    ∀ (xs ys : List Locals), List.Forall₂ Sim xs ys →
      xs.map (symbol_of table) = ys.map (symbol_of table)
        ∧ xs.map (fun t => t.in_pos) = ys.map (fun t => t.in_pos) := by
  intro xs ys h
  induction h with
  | nil => exact ⟨rfl, rfl⟩
  | cons hxy _ ih =>
    refine ⟨?_, ?_⟩
    · rw [List.map_cons, List.map_cons, ih.1]
      unfold symbol_of
      rw [hxy.1]
    · rw [List.map_cons, List.map_cons, ih.2, hxy.2.2.1]

theorem advance_out_pos (sem : ShiftSem) (a : KernelArgs) (in_ptr : List Nat)
    (table : List CUHDCodetableItem) (fuel0 : Nat) (wf : WellFormedTable table)
    (hfuel0 : 32 ≤ fuel0) (hS32 : a.subsequence_size < 4294967296)
    (l l2 : Locals) (hi : StepInv a table.length l)
    (e : advance sem a in_ptr table fuel0 l = .ok l2) :
    l2.out_pos = l.out_pos + (store_of table a.write l).toList.length := by
  obtain ⟨l1, w, es, p, n1, n2, hlog, hcase⟩ :=
    advance_spec sem a in_ptr table fuel0 wf hfuel0 hS32 l hi
  rw [← hlog, ← n2]
  rcases hcase with ⟨_, c2, _⟩ | ⟨_, _, c3, _⟩ | ⟨_, _, c3, _⟩
  · rw [c2] at e
    cases e
    rfl
  · rw [c3] at e
    cases e
    rw [refill_out_pos]
  · rw [c3] at e
    cases e
    rw [refill_out_pos]
    rfl

theorem advance_reset (sem : ShiftSem) (a : KernelArgs) (in_ptr : List Nat)
    (table : List CUHDCodetableItem) (fuel0 : Nat) (wf : WellFormedTable table)
    (hfuel0 : 32 ≤ fuel0) (hS32 : a.subsequence_size < 4294967296)
    (l l1 : Locals) (hi : StepInv a table.length l)
    (e : advance sem a in_ptr table fuel0 l = .ok l1) (hr : l.reset = true) :
    l1.reset = true := by
  have p := advance_post sem a in_ptr table fuel0 wf hfuel0 hS32 l l1 hi e
  have h1 := p.pos_ge
  have h2 := p.pos_le
  by_cases hp : l1.in_pos = l.in_pos
  · rw [(p.same hp).2.2.2.1, hr]
  · by_cases hc : l.current_unit + 1 = a.subsequence_size
    · exact (p.unit_last hc (by omega)).2.2.1
    · rw [(p.unit_lt (by have := hi.2.2.2; omega)).2.2.2, hr]

/-- The stores of a run in phase 3 once `reset` is set: the symbols of the
steps, in order, at the positions from `out_pos` on that are below `out_size`. -/
theorem trace_log (sem : ShiftSem) (a : KernelArgs) (in_ptr : List Nat)
    (table : List CUHDCodetableItem) (fuel0 : Nat) (wf : WellFormedTable table)
    (hfuel0 : 32 ≤ fuel0) (hS32 : a.subsequence_size < 4294967296)
    (hw : a.write = true) (stop : Locals → Prop) :
    ∀ l ts lf, Trace (advance sem a in_ptr table fuel0) stop l ts lf →
      StepInv a table.length l → l.reset = true →
      ts.filterMap (store_of table true) = place l.out_pos l.out_size (ts.map (symbol_of table)) := by
  intro l ts lf h
  induction h with
  | done l h =>
    intro _ _
    unfold place
    simp
  | step l l1 lf ts h e t ih =>
    intro hi hr
    have p := advance_post sem a in_ptr table fuel0 wf hfuel0 hS32 l l1 hi e
    have hr1 := advance_reset sem a in_ptr table fuel0 wf hfuel0 hS32 l l1 hi e hr
    have ho := advance_out_pos sem a in_ptr table fuel0 wf hfuel0 hS32 l l1 hi e
    rw [hw] at ho
    have hih := ih p.inv hr1
    rw [p.out_size] at hih
    have hst : store_of table true l
        = if l.out_pos < l.out_size then some (l.out_pos, symbol_of table l) else none := by
      unfold store_of
      rw [hr]
      simp only [Bool.and_self, Bool.true_and, decide_eq_true_eq]
    rw [List.filterMap_cons, hst, List.map_cons]
    by_cases hlt : l.out_pos < l.out_size
    · rw [if_pos hlt] at hst ⊢
      rw [hst] at ho
      have ho2 : l1.out_pos = l.out_pos + 1 := ho
      rw [hih, ho2]
      unfold place
      have : l.out_size - l.out_pos = (l.out_size - (l.out_pos + 1)) + 1 := by omega
      rw [this, List.range'_succ, List.zip_cons_cons]
    · rw [if_neg hlt] at hst ⊢
      rw [hst] at ho
      have ho2 : l1.out_pos = l.out_pos := ho
      rw [hih, ho2]
      unfold place
      have : l.out_size - l.out_pos = 0 := by omega
      rw [this]
      simp

/-! ## Output buffers from logs of stores -/

/-- The buffer left by a log whose stores all take their value from `f`: the
positions stored to hold `f`, the others are unchanged. -/
theorem apply_writes_getD (f : Nat → Nat) :
    ∀ (log : List (Nat × Nat)) (buf : List Nat), (∀ pv, pv ∈ log → pv.2 = f pv.1) →
      (apply_writes buf log).length = buf.length
        ∧ ∀ p, (apply_writes buf log).getD p 0
            = if p < buf.length ∧ p ∈ log.map Prod.fst then f p else buf.getD p 0 := by
  intro log
  induction log with
  | nil =>
    intro buf _
    exact ⟨rfl, fun p => by simp [apply_writes]⟩
  | cons pv log ih =>
    intro buf h
    have hstep : apply_writes buf (pv :: log) = apply_writes (buf.set pv.1 pv.2) log := rfl
    obtain ⟨i1, i2⟩ := ih (buf.set pv.1 pv.2) (fun x hx => h x (List.mem_cons_of_mem _ hx))
    rw [hstep]
    refine ⟨by rw [i1, List.length_set], fun p => ?_⟩
    rw [i2 p, List.length_set, List.map_cons]
    have hpv := h pv (List.mem_cons_self _ _)
    by_cases hlen : p < buf.length
    · by_cases hm : p ∈ log.map Prod.fst
      · rw [if_pos ⟨hlen, hm⟩, if_pos ⟨hlen, List.mem_cons_of_mem _ hm⟩]
      · rw [if_neg (fun hc => hm hc.2)]
        by_cases hp : p = pv.1
        · rw [if_pos ⟨hlen, by rw [hp]; exact List.mem_cons_self _ _⟩, hp,
            getD_set_eq _ _ _ _ (by rw [← hp]; exact hlen), hpv]
        · rw [if_neg (fun hc => by
            rcases List.mem_cons.mp hc.2 with hc | hc
            · exact hp hc
            · exact hm hc), getD_set_ne _ _ _ _ _ (fun hc => hp hc.symm)]
    · rw [if_neg (fun hc => hlen hc.1), if_neg (fun hc => hlen hc.1)]
      rw [List.getD_eq_default _ _ (by rw [List.length_set]; omega),
        List.getD_eq_default _ _ (by omega)]

theorem place_nil (p bound : Nat) : place p bound [] = [] := by
  unfold place
  simp

theorem place_cons (p bound s : Nat) (syms : List Nat) :
    place p bound (s :: syms)
      = if p < bound then (p, s) :: place (p + 1) bound syms else [] := by
  unfold place
  by_cases h : p < bound
  · rw [if_pos h]
    have : bound - p = (bound - (p + 1)) + 1 := by omega
    rw [this, List.range'_succ, List.zip_cons_cons]
  · rw [if_neg h]
    have : bound - p = 0 := by omega
    rw [this]
    simp

/-- The stores of `place`. -/
theorem mem_place : ∀ (syms : List Nat) (p bound x v : Nat),
    (x, v) ∈ place p bound syms
      ↔ p ≤ x ∧ x < bound ∧ x - p < syms.length ∧ syms.getD (x - p) 0 = v := by
  intro syms
  induction syms with
  | nil =>
    intro p bound x v
    rw [place_nil]
    simp
  | cons s syms ih =>
    intro p bound x v
    rw [place_cons]
    by_cases h : p < bound
    · rw [if_pos h, List.mem_cons, ih (p + 1) bound x v]
      constructor
      · rintro (h1 | ⟨h1, h2, h3, h4⟩)
        · simp only [Prod.mk.injEq] at h1
          obtain ⟨rfl, rfl⟩ := h1
          exact ⟨le_rfl, h, by simp, by simp⟩
        · refine ⟨by omega, h2, by simp only [List.length_cons]; omega, ?_⟩
          have : x - p = (x - (p + 1)) + 1 := by omega
          rw [this, List.getD_cons_succ]
          exact h4
      · rintro ⟨h1, h2, h3, h4⟩
        by_cases hx : x = p
        · left
          subst hx
          simp only [Nat.sub_self, List.getD_cons_zero] at h4
          rw [h4]
        · right
          have e : x - p = (x - (p + 1)) + 1 := by omega
          rw [e, List.getD_cons_succ] at h4
          simp only [List.length_cons] at h3
          exact ⟨by omega, h2, by omega, h4⟩
    · rw [if_neg h]
      simp only [List.not_mem_nil, false_iff, not_and]
      intro h1 h2
      omega

/-- The stores of a stretch of the symbol sequence `syms` placed at its own
offset: every store holds the symbol of its position. -/
theorem mem_place_segment (syms : List Nat) (k n bound x v : Nat) (hk : k ≤ syms.length) :
    (x, v) ∈ place k bound ((syms.drop k).take n)
      ↔ k ≤ x ∧ x < bound ∧ x < k + n ∧ x < syms.length ∧ v = syms.getD x 0 := by
  rw [mem_place]
  have hlen : ((syms.drop k).take n).length = min n (syms.length - k) := by
    rw [List.length_take, List.length_drop]
  constructor
  · rintro ⟨h1, h2, h3, h4⟩
    rw [hlen] at h3
    have hx : x < syms.length := by omega
    refine ⟨h1, h2, by omega, hx, ?_⟩
    rw [← h4, List.getD_eq_getElem?_getD, List.getD_eq_getElem?_getD,
      List.getElem?_take_of_lt (by omega), List.getElem?_drop]
    congr 2
    omega
  · rintro ⟨h1, h2, h3, h4, h5⟩
    refine ⟨h1, h2, by rw [hlen]; omega, ?_⟩
    rw [h5, List.getD_eq_getElem?_getD, List.getD_eq_getElem?_getD,
      List.getElem?_take_of_lt (by omega), List.getElem?_drop]
    congr 2
    omega

theorem exists_interval (g : Nat → Nat) (x : Nat) :
    ∀ T, g 0 ≤ x → x < g T → ∃ i, i < T ∧ g i ≤ x ∧ x < g (i + 1) := by
  intro T
  induction T with
  | zero => intro h1 h2; omega
  | succ T ih =>
    intro h1 h2
    by_cases h : x < g T
    · obtain ⟨i, hi, a, b⟩ := ih h1 h
      exact ⟨i, by omega, a, b⟩
    · exact ⟨T, by omega, by omega, h2⟩

/-- The buffer left by the stores of the threads, each thread placing its
stretch of the symbol sequence, in any order, is the buffer left by placing the
whole sequence from position 0. -/
theorem apply_writes_segments (syms : List Nat) (size_out T : Nat) (hT : 1 ≤ T)
    (g : Nat → Nat) (hg0 : g 0 = 0) (hgT : g T = syms.length)
    (hmono : ∀ i, i < T → g i ≤ g (i + 1))
    (ws : Nat → List (Nat × Nat))
    (hws : ∀ i, i < T →
      ws i = place (g i) (if i + 1 < T then g (i + 1) else size_out)
              ((syms.drop (g i)).take (g (i + 1) - g i)))
    (order : List Nat) (horder : order.Perm (List.range T))
    (buf : List Nat) (hbuf : buf.length = size_out) :
    apply_writes buf ((order.map ws).flatten) = apply_writes buf (place 0 size_out syms) := by
  have hle : ∀ i, i ≤ T → g i ≤ syms.length := by
    intro i hi
    rw [← hgT]
    obtain ⟨d, rfl⟩ : ∃ d, T = i + d := ⟨T - i, by omega⟩
    clear hi hT hws horder hgT
    induction d with
    | zero => exact le_rfl
    | succ d ih =>
      have h1 := ih (fun j hj => hmono j (by omega))
      have h2 := hmono (i + d) (by omega)
      have e : i + (d + 1) = i + d + 1 := by omega
      rw [e]
      omega
  have hmem : ∀ i, i ∈ order ↔ i < T := by
    intro i
    rw [horder.mem_iff, List.mem_range]
  have c1 : ∀ pv, pv ∈ (order.map ws).flatten → pv.2 = syms.getD pv.1 0 := by
    intro pv hpv
    rw [List.mem_flatten] at hpv
    obtain ⟨w, hw, hpw⟩ := hpv
    obtain ⟨i, hi, rfl⟩ := List.mem_map.mp hw
    have hiT := (hmem i).mp hi
    rw [hws i hiT] at hpw
    obtain ⟨x, v⟩ := pv
    exact ((mem_place_segment syms _ _ _ x v (hle i (by omega))).mp hpw).2.2.2.2
  have c2 : ∀ pv, pv ∈ place 0 size_out syms → pv.2 = syms.getD pv.1 0 := by
    intro pv hpv
    obtain ⟨x, v⟩ := pv
    have := (mem_place syms 0 size_out x v).mp hpv
    simp only [Nat.sub_zero] at this
    exact this.2.2.2.symm
  obtain ⟨a1, a2⟩ := apply_writes_getD (fun p => syms.getD p 0) _ buf c1
  obtain ⟨b1, b2⟩ := apply_writes_getD (fun p => syms.getD p 0) _ buf c2
  apply ext_getD _ _ 0 (by rw [a1, b1])
  intro p hp
  rw [a1] at hp
  rw [a2 p, b2 p]
  have hiff : p ∈ ((order.map ws).flatten).map Prod.fst
      ↔ p ∈ (place 0 size_out syms).map Prod.fst := by
    constructor
    · intro h
      obtain ⟨pv, hpv, rfl⟩ := List.mem_map.mp h
      have hv := c1 pv hpv
      rw [List.mem_flatten] at hpv
      obtain ⟨w, hw, hpw⟩ := hpv
      obtain ⟨i, hi, rfl⟩ := List.mem_map.mp hw
      have hiT := (hmem i).mp hi
      rw [hws i hiT] at hpw
      obtain ⟨x, v⟩ := pv
      obtain ⟨q1, q2, q3, q4, q5⟩ :=
        (mem_place_segment syms _ _ _ x v (hle i (by omega))).mp hpw
      apply List.mem_map.mpr
      refine ⟨(x, v), ?_, rfl⟩
      rw [mem_place]
      simp only [Nat.sub_zero]
      exact ⟨Nat.zero_le _, by rw [← hbuf]; exact hp, q4, q5.symm⟩
    · intro h
      obtain ⟨pv, hpv, rfl⟩ := List.mem_map.mp h
      obtain ⟨x, v⟩ := pv
      have hq := (mem_place syms 0 size_out x v).mp hpv
      simp only [Nat.sub_zero] at hq
      obtain ⟨_, q2, q3, q4⟩ := hq
      obtain ⟨i, hi, hi1, hi2⟩ := exists_interval g x T (by rw [hg0]; omega) (by rw [hgT]; exact q3)
      apply List.mem_map.mpr
      refine ⟨(x, v), ?_, rfl⟩
      rw [List.mem_flatten]
      refine ⟨ws i, List.mem_map.mpr ⟨i, (hmem i).mpr hi, rfl⟩, ?_⟩
      rw [hws i hi, mem_place_segment syms _ _ _ x v (hle i (by omega))]
      refine ⟨hi1, ?_, by omega, q3, q4.symm⟩
      by_cases hl : i + 1 < T
      · rw [if_pos hl]; exact hi2
      · rw [if_neg hl]; exact q2
  by_cases hm : p ∈ ((order.map ws).flatten).map Prod.fst
  · rw [if_pos ⟨hp, hm⟩, if_pos ⟨hp, hiff.mp hm⟩]
  · rw [if_neg (fun hc => hm hc.2), if_neg (fun hc => hm (hiff.mpr hc.2))]

/-! ## Counting the steps of the sequential pass -/

theorem steps_before_append (a b : List Locals) (E : Nat) :
    steps_before (a ++ b) E = steps_before a E + steps_before b E := by
  unfold steps_before
  rw [List.filter_append, List.length_append]

theorem steps_before_all (a : List Locals) (E : Nat) (h : ∀ t, t ∈ a → t.in_pos < E) :
    steps_before a E = a.length := by
  unfold steps_before
  rw [List.filter_eq_self.mpr (fun t ht => by simpa using h t ht)]

theorem steps_before_none (a : List Locals) (E : Nat) (h : ∀ t, t ∈ a → E ≤ t.in_pos) :
    steps_before a E = 0 := by
  unfold steps_before
  rw [List.filter_eq_nil_iff.mpr (fun t ht => by have := h t ht; simp; omega)]
  rfl

theorem steps_before_le (ts : List Locals) (E : Nat) : steps_before ts E ≤ ts.length := by
  unfold steps_before
  exact List.length_filter_le _ _

/-- A stretch of a list of steps between two unit bounds, by counting. -/
theorem segment_eq (ts a b c : List Locals) (E1 E2 : Nat) (h : ts = a ++ b ++ c)
    (ha : ∀ t, t ∈ a → t.in_pos < E1)
    (hb : ∀ t, t ∈ b → E1 ≤ t.in_pos ∧ t.in_pos < E2)
    (hc : ∀ t, t ∈ c → E2 ≤ t.in_pos) (hE : E1 ≤ E2) :
    steps_before ts E1 = a.length ∧ steps_before ts E2 = a.length + b.length
      ∧ b = (ts.drop (steps_before ts E1)).take (steps_before ts E2 - steps_before ts E1) := by
  have k1 : steps_before ts E1 = a.length := by
    rw [h, steps_before_append, steps_before_append, steps_before_all a E1 ha,
      steps_before_none b E1 (fun t ht => (hb t ht).1),
      steps_before_none c E1 (fun t ht => by have := hc t ht; omega)]
    omega
  have k2 : steps_before ts E2 = a.length + b.length := by
    rw [h, steps_before_append, steps_before_append,
      steps_before_all a E2 (fun t ht => by have := ha t ht; omega),
      steps_before_all b E2 (fun t ht => (hb t ht).2), steps_before_none c E2 hc]
    omega
  refine ⟨k1, k2, ?_⟩
  rw [k1, k2, h, List.append_assoc, List.drop_left]
  have : a.length + b.length - a.length = b.length := by omega
  rw [this, List.take_left]

theorem steps_before_succ (ts : List Locals) (S m : Nat) (hS : 0 < S) :
    steps_before ts ((m + 1) * S)
      = steps_before ts (m * S)
        + (ts.filter (fun t => decide (t.in_pos / S = m))).length := by
  unfold steps_before
  induction ts with
  | nil => rfl
  | cons t ts ih =>
    have hdiv : t.in_pos / S = m ↔ m * S ≤ t.in_pos ∧ t.in_pos < (m + 1) * S := by
      have h1 := Nat.le_div_iff_mul_le hS (x := m) (y := t.in_pos)
      have h2 := Nat.div_lt_iff_lt_mul hS (x := t.in_pos) (y := m + 1)
      constructor
      · intro h
        exact ⟨h1.mp (by omega), h2.mp (by omega)⟩
      · rintro ⟨a, b⟩
        have := h1.mpr a
        have := h2.mpr b
        omega
    have hle : m * S ≤ (m + 1) * S := Nat.mul_le_mul_right _ (by omega)
    rw [List.filter_cons, List.filter_cons, List.filter_cons]
    by_cases h1 : t.in_pos < m * S
    · have h2 : t.in_pos < (m + 1) * S := by omega
      have h3 : ¬ t.in_pos / S = m := fun hc => by have := (hdiv.mp hc).1; omega
      simp only [h1, h2, h3, decide_True, decide_False, ↓reduceIte, List.length_cons,
        Bool.false_eq_true]
      omega
    · by_cases h2 : t.in_pos < (m + 1) * S
      · have h3 : t.in_pos / S = m := hdiv.mpr ⟨by omega, h2⟩
        simp only [h1, h2, h3, decide_True, decide_False, ↓reduceIte, List.length_cons,
          Bool.false_eq_true]
        omega
      · have h3 : ¬ t.in_pos / S = m := fun hc => h2 (hdiv.mp hc).2
        simp only [h1, h2, h3, decide_True, decide_False, ↓reduceIte, List.length_cons,
          Bool.false_eq_true]
        exact ih

/-- The counts of the subsequences below `m` add up to the number of steps
before unit `m * S`. -/
theorem sum_counts (ts : List Locals) (S N : Nat) (hS : 0 < S)
    (sync : List SubsequenceSyncPoint)
    (hn : ∀ c, c < N → (sync.getD c default).num_symbols
      = (ts.filter (fun t => decide (t.in_pos / S = c))).length) :
    ∀ m, m ≤ N → sum_symbols sync 0 m = steps_before ts (m * S) := by
  intro m
  induction m with
  | zero =>
    intro _
    rw [Nat.zero_mul, steps_before_none ts 0 (fun _ _ => Nat.zero_le _)]
    rfl
  | succ m ih =>
    intro hm
    rw [sum_symbols_add sync 0 m 1, ih (by omega), steps_before_succ ts S m hS,
      sum_symbols_succ, Nat.zero_add, hn m (by omega)]
    have : sum_symbols sync (m + 1) 0 = 0 := rfl
    rw [this, Nat.add_zero]

/-! ## The stores of the phase-3 passes in terms of the sequential pass -/

theorem sim_symm (l l2 : Locals) (h : Sim l l2) : Sim l2 l :=
  ⟨h.1.symm, h.2.1.symm, h.2.2.1.symm, h.2.2.2.1.symm, h.2.2.2.2.symm⟩

theorem forall2_sim_bound (E : Nat) :
    ∀ (xs ys : List Locals), List.Forall₂ Sim xs ys → (∀ t, t ∈ xs → t.in_pos < E) →
      ∀ t, t ∈ ys → t.in_pos < E := by
  intro xs ys h
  induction h with
  | nil => intro _ t ht; cases ht
  | cons hxy _ ih =>
    intro hx t ht
    rcases List.mem_cons.mp ht with rfl | ht
    · rw [← hxy.2.2.1]
      exact hx _ (List.mem_cons_self _ _)
    · exact ih (fun t ht => hx t (List.mem_cons_of_mem _ ht)) t ht

/-- The window and `next` on entry, from the position and the offset. -/
theorem initial_locals_window (sem : ShiftSem) (a : KernelArgs) (size_out : Nat)
    (inp : CUHDInputBuffer) (s : Shared) :
    (initial_locals sem a size_out inp s).window
        = (shr32 sem (inp.compressed_data.getD (initial_locals sem a size_out inp s).in_pos 0)
              (initial_locals sem a size_out inp s).at_
            + shl32 sem
                (inp.compressed_data.getD ((initial_locals sem a size_out inp s).in_pos + 1) 0)
                (sub64 bits_in_unit (initial_locals sem a size_out inp s).at_)) % 2 ^ 32
      ∧ (initial_locals sem a size_out inp s).next
        = shr32 sem
            (inp.compressed_data.getD ((initial_locals sem a size_out inp s).in_pos + 1) 0)
            (initial_locals sem a size_out inp s).at_ :=
  ⟨rfl, rfl⟩

/-- The locals with which the sequential phase-1 pass starts, and its bound. -/
theorem sequential_start (sem : ShiftSem) (S N_u size_out : Nat) (inp : CUHDInputBuffer)
    (table : List CUHDCodetableItem) (v : ValidInput S 1 N_u inp table) (s : Shared) :
    StepInv (args_of S 1 N_u false false 0) table.length
        (initial_locals sem (args_of S 1 N_u false false 0) size_out inp s)
      ∧ (initial_locals sem (args_of S 1 N_u false false 0) size_out inp s).current_state
          = inp.first_state
      ∧ (initial_locals sem (args_of S 1 N_u false false 0) size_out inp s).at_
          = 32 - inp.first_bit
      ∧ (initial_locals sem (args_of S 1 N_u false false 0) size_out inp s).in_pos = 0
      ∧ (args_of S 1 N_u false false 0).end_ = num_subsequences S N_u * S
      ∧ (args_of S 1 N_u false false 0).subsequence_size = S
      ∧ Aligned (args_of S 1 N_u false false 0)
          (initial_locals sem (args_of S 1 N_u false false 0) size_out inp s) := by
  obtain ⟨g1, g2, g3, g4, g5, g6, g7, g8, g9, g10, g11, g12, g13⟩ :=
    args_geometry S 1 N_u false false 0 v.size_pos v.threads_pos v.enough_subs v.units_lt (by omega)
  have gb := args_begin S 1 N_u false false 0 (by omega) v.size_pos v.units_lt
  have hfs0 : first_sub S 1 N_u 0 = 0 := by unfold first_sub; simp
  rw [hfs0, Nat.zero_mul] at gb
  have ge := (args_end_le S 1 N_u false false 0 (by omega) (by omega) v.size_pos v.units_lt).2 rfl
  obtain ⟨i1, i2, i3, i4, i5, i6, i7⟩ :=
    initial_locals_phase1 sem (args_of S 1 N_u false false 0) size_out inp s g5 g6
  have e8 : sub64 bits_in_unit inp.first_bit % 2 ^ 8 = 32 - inp.first_bit := by
    unfold bits_in_unit
    rw [sub64_of_le 32 _ v.bit_le (by norm_num)]
    have e8 : (2:Nat) ^ 8 = 256 := by norm_num
    rw [e8]
    omega
  rw [g1, if_pos rfl, e8] at i2
  rw [gb] at i3
  refine ⟨⟨by rw [i1]; exact v.state_ge, by rw [i1]; exact v.state_lt,
    by rw [i2]; have := v.bit_pos; omega, by rw [i4, g2]; exact v.size_pos⟩,
    i1, i2, i3, ge, g2, ?_⟩
  unfold Aligned
  rw [i3, i4, i5, g7, hfs0]
  simp

/-- The stores of worker 0 in phase 3: the symbols that the sequential
phase-1 pass decodes in the units of the interval of worker 0, from
`out_positions[0]` on. -/
theorem phase3_log_first (sem : ShiftSem) (S T N_u size_out : Nat) (inp : CUHDInputBuffer)
    (table : List CUHDCodetableItem) (v : ValidInput S T N_u inp table)
    (fuel : Nat) (hfuel : enough_fuel S T N_u table ≤ fuel)
    (sP : Shared) (tsP : List Locals) (lfP : Locals)
    (trP : Trace (advance sem (args_of S 1 N_u false false 0) inp.compressed_data table fuel)
      (fun t => (args_of S 1 N_u false false 0).end_ ≤ t.in_pos)
      (initial_locals sem (args_of S 1 N_u false false 0) size_out inp sP) tsP lfP)
    (s : Shared) :
    decode_phase1 sem fuel (args_of S T N_u false true 0) size_out inp table s
      = .ok { s with
          out := s.out
            ++ place (s.out_positions.getD 0 0) (out_bound T size_out s.out_positions 0)
                (((tsP.drop (steps_before tsP (args_of S T N_u false true 0).begin)).take
                    (steps_before tsP (args_of S T N_u false true 0).end_
                      - steps_before tsP (args_of S T N_u false true 0).begin)).map
                  (symbol_of table)) } := by
  have hfuel2 : 33 * table.length + N_u + S + T + 2 ≤ fuel := hfuel
  have hS32 : S < 4294967296 := by have := v.size_lt; norm_num at this; exact this
  have hT := v.threads_pos
  have hSp := v.size_pos
  have hsg := v.state_ge
  have hsl := v.state_lt
  have v1 : ValidInput S 1 N_u inp table :=
    { v with threads_pos := le_rfl
             enough_subs := by have := v.enough_subs; have := v.threads_pos; omega }
  obtain ⟨p1, p2, p3, p4, p5, p6, _⟩ := sequential_start sem S N_u size_out inp table v1 sP
  obtain ⟨pw1, pw2⟩ := initial_locals_window sem (args_of S 1 N_u false false 0) size_out inp sP
  obtain ⟨g1, g2, g3, g4, g5, g6, g7, g8, g9, g10, g11, g12, g13⟩ :=
    args_geometry S T N_u false true 0 v.size_pos v.threads_pos v.enough_subs v.units_lt (by omega)
  have gb := args_begin S T N_u false true 0 (by omega) v.size_pos v.units_lt
  have hfs0 : first_sub S T N_u 0 = 0 := by unfold first_sub; simp
  rw [hfs0, Nat.zero_mul] at gb
  have gend := (args_end_le S T N_u false true 0 v.threads_pos (by omega) v.size_pos v.units_lt).1
  obtain ⟨i1, i2, i3, i4, i5⟩ := initial_locals_first sem (args_of S T N_u false true 0)
    size_out inp s g5 g1 g6 v.bit_le
  obtain ⟨w1, w2⟩ := initial_locals_window sem (args_of S T N_u false true 0) size_out inp s
  obtain ⟨o1, o2⟩ := initial_locals_out sem (args_of S T N_u false true 0) size_out inp s g6
  rw [g1] at o1
  rw [g1, g4] at o2
  rw [gb] at i3 ⊢
  generalize initial_locals sem (args_of S 1 N_u false false 0) size_out inp sP = l0P at *
  generalize hl0 : initial_locals sem (args_of S T N_u false true 0) size_out inp s = l0 at *
  generalize args_of S 1 N_u false false 0 = a1 at *
  generalize args_of S T N_u false true 0 = a at *
  have hsim : Sim l0 l0P := by
    refine ⟨by rw [i1, p2], by rw [i2, p3], by rw [i3, p4], ?_, ?_⟩
    · rw [w1, pw1, i2, i3, p3, p4]
    · rw [w2, pw2, i2, i3, p3, p4]
  have hinv : StepInv a table.length l0 :=
    ⟨by rw [i1]; exact v.state_ge, by rw [i1]; exact v.state_lt,
      by rw [i2]; have := v.bit_pos; omega, by rw [i5, g2]; exact v.size_pos⟩
  have hend : a.end_ ≤ l0.in_pos + fuel := by rw [i3]; omega
  obtain ⟨ts, lf, e1, tr, _, e4⟩ := unit_loop_steps_trace sem a inp.compressed_data table fuel
    v.table_ok (by omega) g5 fuel l0 s hinv.1 hinv.2.1 hinv.2.2.1 hend
  have hlog := trace_log sem a inp.compressed_data table fuel v.table_ok (by omega)
    (by rw [g2]; exact hS32) g6 _ l0 ts lf tr hinv i4
  obtain ⟨r1, r2, q1, q2, q3⟩ := trace_lockstep sem a a1 inp.compressed_data table fuel
    v.table_ok (by omega) (by rw [p6]; exact hS32) a.end_ a1.end_ (by rw [p5]; exact gend)
    l0 ts lf tr l0P tsP lfP trP hsim p1
  obtain ⟨t1, _⟩ := trace_inv sem a inp.compressed_data table fuel v.table_ok (by omega)
    (by rw [g2]; exact hS32) _ l0 ts lf tr hinv
  have hr1 := forall2_sim_bound a.end_ ts r1 q2 (fun t ht => by
    have := (t1 t ht).2.2
    omega)
  obtain ⟨_, _, k3⟩ := segment_eq tsP [] r1 r2 0 a.end_ (by rw [q1]; rfl)
    (fun t ht => by cases ht) (fun t ht => ⟨Nat.zero_le _, hr1 t ht⟩) q3 (Nat.zero_le _)
  unfold decode_phase1
  rw [g5]
  simp only [Bool.false_and, Bool.false_eq_true, ↓reduceIte]
  rw [hl0, e4 g6, g6, hlog, o1, o2, (forall2_sim_symbols table ts r1 q2).1, ← k3]


/-- The sequential phase-1 pass as a run of `advance`. -/
theorem sequential_trace (sem : ShiftSem) (S N_u size_out : Nat) (inp : CUHDInputBuffer)
    (table : List CUHDCodetableItem) (v : ValidInput S 1 N_u inp table)
    (fuel : Nat) (hfuel : enough_fuel S 1 N_u table ≤ fuel) (sP : Shared) :
    ∃ tsP lfP,
      decode_phase1_steps sem fuel (args_of S 1 N_u false false 0) size_out inp table sP
          = .ok tsP
        ∧ unit_loop_steps sem (args_of S 1 N_u false false 0) inp.compressed_data table fuel fuel
            (initial_locals sem (args_of S 1 N_u false false 0) size_out inp sP) sP = .ok tsP
        ∧ Trace (advance sem (args_of S 1 N_u false false 0) inp.compressed_data table fuel)
            (fun t => (args_of S 1 N_u false false 0).end_ ≤ t.in_pos)
            (initial_locals sem (args_of S 1 N_u false false 0) size_out inp sP) tsP lfP := by
  have hfuel2 : 33 * table.length + N_u + S + 1 + 2 ≤ fuel := hfuel
  have hsg := v.state_ge
  have hsl := v.state_lt
  obtain ⟨p1, p2, p3, p4, p5, p6, _⟩ := sequential_start sem S N_u size_out inp table v sP
  obtain ⟨g1, g2, g3, g4, g5, g6, g7, g8, g9, g10, g11, g12, g13⟩ :=
    args_geometry S 1 N_u false false 0 v.size_pos v.threads_pos v.enough_subs v.units_lt (by omega)
  have hend : (args_of S 1 N_u false false 0).end_
      ≤ (initial_locals sem (args_of S 1 N_u false false 0) size_out inp sP).in_pos + fuel := by
    rw [p4]; omega
  obtain ⟨ts, lf, e1, tr, _, _⟩ := unit_loop_steps_trace sem (args_of S 1 N_u false false 0)
    inp.compressed_data table fuel v.table_ok (by omega) g5 fuel _ sP p1.1 p1.2.1 p1.2.2.1 hend
  refine ⟨ts, lf, ?_, e1, tr⟩
  unfold decode_phase1_steps
  rw [g5]
  simp only [Bool.false_and, Bool.false_eq_true, ↓reduceIte]
  exact e1

/-- The stores of worker `i >= 1` in phase 3, when `sync[first_sub - 1]` holds
the state and the bit of the last step of the sequential phase-1 pass in the
unit `begin - 1`: the symbols that the sequential pass decodes in the units of
the interval of worker `i`, from `out_positions[i]` on. -/
theorem phase3_log_boot (sem : ShiftSem) (S T N_u size_out : Nat) (inp : CUHDInputBuffer)
    (table : List CUHDCodetableItem) (v : ValidInput S T N_u inp table) (hS : 2 ≤ S)
    (hu : UnitsOK inp.compressed_data)
    (fuel : Nat) (hfuel : enough_fuel S T N_u table ≤ fuel)
    (sP : Shared) (tsP : List Locals) (lfP : Locals)
    (hP : unit_loop_steps sem (args_of S 1 N_u false false 0) inp.compressed_data table fuel fuel
      (initial_locals sem (args_of S 1 N_u false false 0) size_out inp sP) sP = .ok tsP)
    (trP : Trace (advance sem (args_of S 1 N_u false false 0) inp.compressed_data table fuel)
      (fun t => (args_of S 1 N_u false false 0).end_ ≤ t.in_pos)
      (initial_locals sem (args_of S 1 N_u false false 0) size_out inp sP) tsP lfP)
    (i : Nat) (h1 : 1 ≤ i) (hi : i < T) (s : Shared)
    (hlen : s.sync.length = num_subsequences S N_u) (hgood : GoodSync table.length S s.sync)
    (pre post : List Locals) (t : Locals) (hsplit : tsP = pre ++ t :: post)
    (hunit : t.in_pos + 1 = (args_of S T N_u false true i).begin)
    (hlast : ∀ t2, t2 ∈ post → t.in_pos < t2.in_pos)
    (hstate : (s.sync.getD (first_sub S T N_u i - 1) default).state = t.current_state)
    (hbit : (s.sync.getD (first_sub S T N_u i - 1) default).bit = t.at_) :
    decode_phase1 sem fuel (args_of S T N_u false true i) size_out inp table s
      = .ok { s with
          out := s.out
            ++ place (s.out_positions.getD i 0) (out_bound T size_out s.out_positions i)
                (((tsP.drop (steps_before tsP (args_of S T N_u false true i).begin)).take
                    (steps_before tsP (args_of S T N_u false true i).end_
                      - steps_before tsP (args_of S T N_u false true i).begin)).map
                  (symbol_of table)) } := by
  have hfuel2 : 33 * table.length + N_u + S + T + 2 ≤ fuel := hfuel
  have hS32 : S < 4294967296 := by have := v.size_lt; norm_num at this; exact this
  have hT := v.threads_pos
  have hSp := v.size_pos
  have hsg := v.state_ge
  have hsl := v.state_lt
  have v1 : ValidInput S 1 N_u inp table :=
    { v with threads_pos := le_rfl
             enough_subs := by have := v.enough_subs; have := v.threads_pos; omega }
  obtain ⟨p1, p2, p3, p4, p5, p6, _⟩ := sequential_start sem S N_u size_out inp table v1 sP
  obtain ⟨f1, f2, f3, f4, f5, f6, f7, f8, f9, f10, f11, f12, f13⟩ :=
    args_geometry S 1 N_u false false 0 v1.size_pos v1.threads_pos v1.enough_subs v1.units_lt (by omega)
  obtain ⟨g1, g2, g3, g4, g5, g6, g7, g8, g9, g10, g11, g12, g13⟩ :=
    args_geometry S T N_u false true i v.size_pos v.threads_pos v.enough_subs v.units_lt hi
  have gend := (args_end_le S T N_u false true i v.threads_pos hi v.size_pos v.units_lt).1
  have hbeg : (args_of S T N_u false true i).begin = (args_of S T N_u false false i).begin :=
    rfl
  -- the step `t` of the sequential pass
  obtain ⟨_, r2⟩ := unit_loop_steps_final sem _ inp.compressed_data table fuel v.table_ok
    (by omega) hu fuel _ sP tsP hP p1.1 p1.2.1 p1.2.2.1
  obtain ⟨d1, d2, d3, d4, l1, w, d5, d6⟩ :=
    r2 pre t post hsplit hlast (Or.inr (by rw [p4]; have := (g13 h1).1; omega))
  rw [f6] at d5
  obtain ⟨invP, _⟩ := trace_inv sem _ inp.compressed_data table fuel v.table_ok (by omega)
    (by rw [p6]; exact hS32) _ _ tsP lfP trP p1
  have sortP := trace_sorted sem _ inp.compressed_data table fuel v.table_ok (by omega)
    (by rw [p6]; exact hS32) _ _ tsP lfP trP p1
  have trS := trace_suffix _ _ _ tsP lfP trP pre t post hsplit
  have htin : StepInv (args_of S 1 N_u false false 0) table.length t :=
    (invP t (by rw [hsplit]; simp)).1
  -- the first step of the pass of worker `i`
  have gs : GoodShared S T N_u table { s with thread_synced := List.replicate T false } :=
    ⟨hlen, by simp, hgood⟩
  obtain ⟨b1, b2, b3, b4, b5, bsim, l3, w3, b6, b7⟩ :=
    boot_first_step sem S T N_u size_out inp table v fuel hfuel false true rfl i h1 hi
      { s with thread_synced := List.replicate T false } gs
      t l1 w (by rw [← hbeg]; exact hunit) hstate hbit d1 d2 d3 d4 d5 d6
  have hsame : initial_locals sem (args_of S T N_u false true i) size_out inp
      { s with thread_synced := List.replicate T false }
      = initial_locals sem (args_of S T N_u false true i) size_out inp s := rfl
  rw [hsame] at b1 b2 b3 b4 b5 bsim b6
  obtain ⟨o1, o2⟩ := initial_locals_out sem (args_of S T N_u false true i) size_out inp s g6
  rw [g1] at o1
  rw [g1, g4] at o2
  rw [← hbeg] at b1
  generalize initial_locals sem (args_of S 1 N_u false false 0) size_out inp sP = l0P at *
  generalize hl0 : initial_locals sem (args_of S T N_u false true i) size_out inp s = l0 at *
  generalize args_of S 1 N_u false false 0 = a1 at *
  generalize args_of S T N_u false true i = a at *
  have hinv : StepInv a table.length l0 :=
    ⟨by rw [b3]; exact d1, by rw [b3]; exact d2, by rw [b2]; exact d3, by rw [g2]; omega⟩
  have hend : a.end_ ≤ l0.in_pos + fuel := by rw [g8]; omega
  obtain ⟨ts, lf, e1, tr, _, e4⟩ := unit_loop_steps_trace sem a inp.compressed_data table fuel
    v.table_ok (by omega) g5 fuel l0 s hinv.1 hinv.2.1 hinv.2.2.1 hend
  obtain ⟨r1, r2, q1, q2, q3⟩ := trace_lockstep sem a a1 inp.compressed_data table fuel
    v.table_ok (by omega) (by rw [p6]; exact hS32) a.end_ a1.end_ (by rw [p5]; exact gend)
    l0 ts lf tr t (t :: post) lfP trS (sim_symm _ _ bsim) htin
  obtain ⟨t1, _⟩ := trace_inv sem a inp.compressed_data table fuel v.table_ok (by omega)
    (by rw [g2]; exact hS32) _ l0 ts lf tr hinv
  have hst0 : store_of table true l0 = none := by
    unfold store_of
    rw [b4]
    rfl
  cases tr with
  | done _ hstop =>
    have : a.end_ ≤ l0.in_pos := hstop
    have : S ≤ owned_count S T N_u i * S := Nat.le_mul_of_pos_left _ g9
    omega
  | step _ l2 _ rest hn e2 tr2 =>
    have p := advance_post sem a inp.compressed_data table fuel v.table_ok (by omega)
      (by rw [g2]; exact hS32) l0 l2 hinv e2
    have hl2 : l2.reset = true := by
      obtain ⟨la, wa, ea, pa, _, _, _, hcase⟩ :=
        advance_spec sem a inp.compressed_data table fuel v.table_ok (by omega)
          (by rw [g2]; exact hS32) l0 hinv
      rw [g6] at ea
      rw [b6] at ea
      simp only [Except.ok.injEq, Prod.mk.injEq] at ea
      obtain ⟨ea1, _⟩ := ea
      subst ea1
      rcases hcase with ⟨c1, _⟩ | ⟨_, c2, _⟩ | ⟨_, c2, c3, _⟩
      · omega
      · rw [g2] at c2; omega
      · rw [c3] at e2
        cases e2
        rw [refill_reset]
        rfl
    have ho := advance_out_pos sem a inp.compressed_data table fuel v.table_ok (by omega)
      (by rw [g2]; exact hS32) l0 l2 hinv e2
    rw [g6, hst0] at ho
    have ho2 : l2.out_pos = l0.out_pos := by simpa using ho
    have hlog := trace_log sem a inp.compressed_data table fuel v.table_ok (by omega)
      (by rw [g2]; exact hS32) g6 _ l2 rest lf tr2 p.inv hl2
    cases q2 with
    | cons hy q2 =>
      rename_i y r1
      simp only [List.cons_append, List.cons.injEq] at q1
      obtain ⟨_, q1⟩ := q1
      have hr1 := forall2_sim_bound a.end_ rest r1 q2 (fun x hx => by
        have := (t1 x (List.mem_cons_of_mem _ hx)).2.2
        omega)
      have hpre : ∀ x, x ∈ pre ++ [t] → x.in_pos < a.begin := by
        intro x hx
        rw [hsplit] at sortP
        rcases List.mem_append.mp hx with hx | hx
        · have := (List.pairwise_append.mp sortP).2.2 x hx t (List.mem_cons_self _ _)
          omega
        · rw [List.mem_singleton] at hx
          subst hx
          omega
      obtain ⟨_, _, k3⟩ := segment_eq tsP (pre ++ [t]) r1 r2 a.begin a.end_
        (by rw [hsplit, q1]; simp) hpre
        (fun x hx => ⟨by
          have := hlast x (by rw [q1]; exact List.mem_append_left _ hx)
          omega, hr1 x hx⟩) q3 (by rw [g8]; omega)
      unfold decode_phase1
      rw [g5]
      simp only [Bool.false_and, Bool.false_eq_true, ↓reduceIte]
      rw [hl0, e4 g6, g6, List.filterMap_cons, hst0]
      simp only []
      rw [hlog, ho2, p.out_size, o1, o2, (forall2_sim_symbols table rest r1 q2).1, ← k3]
/-! ## Phase 3 against the sequential decoder -/

theorem steps_before_mono (ts : List Locals) (E1 E2 : Nat) (h : E1 ≤ E2) :
    steps_before ts E1 ≤ steps_before ts E2 := by
  unfold steps_before
  exact (List.monotone_filter_right ts (fun t ht => by
    simp only [decide_eq_true_eq] at ht ⊢
    omega)).length_le

theorem threads_lt (S T N_u : Nat) (inp : CUHDInputBuffer) (table : List CUHDCodetableItem)
    (v : ValidInput S T N_u inp table) : T < 18446744073709551616 := by
  have h1 := v.enough_subs
  have h2 := (num_subsequences_spec S N_u v.size_pos)
  have h3 := v.units_lt
  have e64 : (2:Nat) ^ 64 = 18446744073709551616 := by norm_num
  rw [e64] at h3
  have h4 : num_subsequences S N_u ≤ N_u := by
    by_contra hc
    have a1 : (N_u + 1) * S ≤ num_subsequences S N_u * S :=
      Nat.mul_le_mul_right S (by omega)
    have a2 : N_u ≤ N_u * S := Nat.le_mul_of_pos_right N_u v.size_pos
    rw [Nat.succ_mul] at a1
    omega
  omega

theorem apply_writes_append (buf : List Nat) (a b : List (Nat × Nat)) :
    apply_writes buf (a ++ b) = apply_writes (apply_writes buf a) b := by
  unfold apply_writes
  rw [List.foldl_append]

theorem length_apply_writes : ∀ (log : List (Nat × Nat)) (buf : List Nat),
    (apply_writes buf log).length = buf.length := by
  intro log
  induction log with
  | nil => intro buf; rfl
  | cons pv log ih =>
    intro buf
    have hstep : apply_writes buf (pv :: log) = apply_writes (buf.set pv.1 pv.2) log := rfl
    rw [hstep, ih, List.length_set]

/-- The sequential phase-1 pass: its steps, and the entry it deposits for every
subsequence. -/
theorem sequential_deposit (sem : ShiftSem) (S N_u size_out : Nat) (inp : CUHDInputBuffer)
    (table : List CUHDCodetableItem) (v : ValidInput S 1 N_u inp table)
    (fuel : Nat) (hfuel : enough_fuel S 1 N_u table ≤ fuel)
    (s0 : Shared) (hs0 : s0.sync.length = num_subsequences S N_u) :
    ∃ s1 ts lf,
      decode_phase1 sem fuel (args_of S 1 N_u false false 0) size_out inp table s0 = .ok s1
        ∧ decode_phase1_steps sem fuel (args_of S 1 N_u false false 0) size_out inp table s0
            = .ok ts
        ∧ unit_loop_steps sem (args_of S 1 N_u false false 0) inp.compressed_data table fuel fuel
            (initial_locals sem (args_of S 1 N_u false false 0) size_out inp s0) s0 = .ok ts
        ∧ Trace (advance sem (args_of S 1 N_u false false 0) inp.compressed_data table fuel)
            (fun t => (args_of S 1 N_u false false 0).end_ ≤ t.in_pos)
            (initial_locals sem (args_of S 1 N_u false false 0) size_out inp s0) ts lf
        ∧ s1.sync.length = num_subsequences S N_u
        ∧ s1.out = s0.out
        ∧ ∀ c, c < num_subsequences S N_u →
            ∃ pre t post, ts = pre ++ t :: post
              ∧ t.in_pos + 1 = (c + 1) * S
              ∧ (∀ t2, t2 ∈ post → t.in_pos < t2.in_pos)
              ∧ s1.sync.getD c default
                = { state := t.current_state, bit := t.at_, unit := S - 1,
                    num_symbols :=
                      (ts.filter (fun t => decide (t.in_pos / S = c))).length
                        % 4294967296 } := by
  obtain ⟨ts, xs, k1, k2, k3, _, k5, k6⟩ :=
    phase1_pass_deposit sem S 1 N_u size_out inp table v fuel hfuel 0 (by omega)
  obtain ⟨tsP, lfP, e1, e2, trP⟩ := sequential_trace sem S N_u size_out inp table v fuel hfuel s0
  have hts : tsP = ts := by
    have := k1 s0
    rw [e1] at this
    cases this
    rfl
  subst hts
  obtain ⟨fr1, _, fr3, _⟩ := fold_frame (args_of S 1 N_u false false 0) xs s0
  refine ⟨_, tsP, lfP, k2 s0, e1, e2, trP, by rw [fr3, hs0], fr1, fun c hc => ?_⟩
  have hfs : first_sub S 1 N_u 0 = 0 := by unfold first_sub; simp
  have hoc : owned_count S 1 N_u 0 = num_subsequences S N_u := by
    unfold owned_count
    simp [Nat.mod_one]
  rw [hfs, hoc] at k3
  have hmem : c ∈ xs.map (fun x => x.current_subsequence) := by
    rw [k3, List.mem_range']
    exact ⟨c, hc, by omega⟩
  obtain ⟨x, hx, hxc⟩ := List.mem_map.mp hmem
  obtain ⟨pre, t, post, m1, m2, m3, m4, m5⟩ := k6 x hx
  have m6 := k5 x hx s0 hs0
  rw [hxc] at m2 m3 m4 m5 m6
  refine ⟨pre, t, post, m1, m5, fun t2 ht2 => ?_, by rw [m6, m4]⟩
  have h : (c + 1) * S ≤ t2.in_pos := (Nat.le_div_iff_mul_le v.size_pos).mp (m3 t2 ht2)
  rw [← m5] at h
  omega

/-- Every store of `place p bound syms` is at a position below `bound`. -/
theorem mem_place_lt (p bound : Nat) (syms : List Nat) (w : Nat × Nat)
    (h : w ∈ place p bound syms) : w.1 < bound := by
  unfold place at h
  obtain ⟨a, b⟩ := w
  have h1 := (List.of_mem_zip h).1
  rw [List.mem_range'_1] at h1
  show a < bound
  omega

/-- A function that grows at every step below `T` grows between any two
arguments up to `T`. -/
theorem le_of_steps (g : Nat → Nat) (T : Nat) (hmono : ∀ i, i < T → g i ≤ g (i + 1)) :
    ∀ d i, i + d ≤ T → g i ≤ g (i + d) := by
  intro d
  induction d with
  | zero => intro i _; exact le_rfl
  | succ d ih =>
    intro i hi
    have h1 := ih i (by omega)
    have h2 := hmono (i + d) (by omega)
    have e : i + (d + 1) = i + d + 1 := by omega
    rw [e]
    omega

/-- C14 (amended).  Let a single sequential phase-1 pass over the whole stream
(`T = 1`) run on arrays `s0` with an entry of `sync` for every subsequence.  The
pass returns arrays `s1`, and `prefix_sum` and the phase-3 pass of the `T = 1`
run return; the stores `wq` of that pass are at positions below `size_out`.  If
the pass decodes fewer than `2^32` symbols, then on any arrays `s` whose `sync`
is the one the sequential pass leaves, `prefix_sum` followed by the `T` phase-3
passes, run to completion in any order, returns with stores `ws`; and if the
output position of the last thread, `out_positions[T - 1]`, is at most
`size_out`, then every store of `ws` is at a position below `size_out` and the
stores `ws` leave, in every output buffer of `size_out` elements, what the stores
`wq` of the `T = 1` run leave.  (`S >= 2`, as for every multiple of 4; the units
are 32-bit values; the input is valid: `0 < S < 2^32`, `T >= 1`, `N_s >= T`,
`N_u + S < 2^64`, well-formed table, `first_state` in `[L, 2L)`, `first_bit` in
`1..32`; every loop is given `enough_fuel` iterations.) -/
theorem phase3_refines_sequential (sem : ShiftSem) (S T N_u size_out : Nat)
    (inp : CUHDInputBuffer) (table : List CUHDCodetableItem)
    (v : ValidInput S T N_u inp table) (hS : 2 ≤ S) (hu : UnitsOK inp.compressed_data)
    (fuel : Nat) (hfuel : enough_fuel S T N_u table ≤ fuel)
    (s0 : Shared) (hs0 : s0.sync.length = num_subsequences S N_u) :
    ∃ s1 ts op1 sQ wq,
      decode_phase1 sem fuel (args_of S 1 N_u false false 0) size_out inp table s0 = .ok s1
        ∧ decode_phase1_steps sem fuel (args_of S 1 N_u false false 0) size_out inp table s0
            = .ok ts
        ∧ prefix_sum s1.sync (num_subsequences S N_u) 1 = .ok op1
        ∧ decode_phase1 sem fuel (args_of S 1 N_u false true 0) size_out inp table
            { s1 with out_positions := op1 } = .ok sQ
        ∧ sQ.out = s1.out ++ wq
        ∧ (∀ w, w ∈ wq → w.1 < size_out)
        ∧ (ts.length < 4294967296 →
            ∀ (s : Shared) (order : List Nat),
              s.sync = s1.sync → order.Perm (List.range T) →
              ∃ op sT ws,
                prefix_sum s.sync (num_subsequences S N_u) T = .ok op
                  ∧ run_workers sem fuel (planned S T N_u) S N_u T false true size_out inp
                      table order { s with out_positions := op } = .ok sT
                  ∧ sT.out = s.out ++ ws
                  ∧ (op.getD (T - 1) 0 ≤ size_out →
                      (∀ w, w ∈ ws → w.1 < size_out)
                        ∧ ∀ buf : List Nat, buf.length = size_out →
                            apply_writes buf ws = apply_writes buf wq)) := by
  have hfuel2 : 33 * table.length + N_u + S + T + 2 ≤ fuel := hfuel
  have hS32 : S < 4294967296 := by have := v.size_lt; norm_num at this; exact this
  have hT := v.threads_pos
  have hSp := v.size_pos
  have hN := v.enough_subs
  have hT64 := threads_lt S T N_u inp table v
  have v1 : ValidInput S 1 N_u inp table :=
    { v with threads_pos := le_rfl
             enough_subs := by have := v.enough_subs; have := v.threads_pos; omega }
  have hfuel1 : enough_fuel S 1 N_u table ≤ fuel := by
    show 33 * table.length + N_u + S + 1 + 2 ≤ fuel
    omega
  obtain ⟨s1, ts, lf, a1, a2, a3, tr, a5, a6, a7⟩ :=
    sequential_deposit sem S N_u size_out inp table v1 fuel hfuel1 s0 hs0
  obtain ⟨p1, p2, p3, p4, p5, p6, _⟩ := sequential_start sem S N_u size_out inp table v1 s0
  obtain ⟨invP, _⟩ := trace_inv sem _ inp.compressed_data table fuel v.table_ok (by
      have := v.state_ge; have := v.state_lt; omega)
    (by rw [p6]; exact hS32) _ _ ts lf tr p1
  have hall : ∀ t, t ∈ ts → t.in_pos < num_subsequences S N_u * S := by
    intro t ht
    have := (invP t ht).2.2
    rw [p5] at this
    omega
  have hsb0 : steps_before ts 0 = 0 := steps_before_none ts 0 (fun _ _ => Nat.zero_le _)
  have hsbN : steps_before ts (num_subsequences S N_u * S) = ts.length :=
    steps_before_all ts _ hall
  -- the phase-3 pass of the sequential run
  have hq := phase3_log_first sem S 1 N_u size_out inp table v1 fuel hfuel1 s0 ts lf tr
    { s1 with out_positions := prefix_sums s1.sync (num_subsequences S N_u) 1 }
  have hb1 : (args_of S 1 N_u false true 0).begin = 0 := by
    rw [args_begin S 1 N_u false true 0 (by omega) v.size_pos v.units_lt]
    unfold first_sub; simp
  have he1 : (args_of S 1 N_u false true 0).end_ = num_subsequences S N_u * S :=
    (args_end_le S 1 N_u false true 0 (by omega) (by omega) v.size_pos v.units_lt).2 rfl
  have hob1 : out_bound 1 size_out (prefix_sums s1.sync (num_subsequences S N_u) 1) 0
      = size_out := by
    unfold out_bound
    rw [sub64_of_le 1 1 (by omega) (by norm_num), if_neg (by omega)]
  have hop1 : (prefix_sums s1.sync (num_subsequences S N_u) 1).getD 0 0 = 0 := rfl
  rw [hb1, he1, hsb0, hsbN, hob1] at hq
  simp only [hop1, List.drop_zero, Nat.sub_zero, List.take_length] at hq
  refine ⟨s1, ts, _, _, place 0 size_out (ts.map (symbol_of table)), a1, a2,
    prefix_sum_eq _ _ 1 le_rfl, hq, rfl, fun w hw => mem_place_lt _ _ _ w hw, ?_⟩
  intro hcount s order hsync horder
  -- the counts
  have hn : ∀ c, c < num_subsequences S N_u →
      (s.sync.getD c default).num_symbols
        = (ts.filter (fun t => decide (t.in_pos / S = c))).length := by
    intro c hc
    obtain ⟨pre, t, post, _, _, _, m4⟩ := a7 c hc
    rw [hsync, m4]
    have := List.length_filter_le (fun t : Locals => decide (t.in_pos / S = c)) ts
    exact Nat.mod_eq_of_lt (by omega)
  have hsum := sum_counts ts S (num_subsequences S N_u) hSp s.sync hn
  have hqT : num_subsequences S N_u / T * T ≤ num_subsequences S N_u :=
    Nat.div_mul_le_self _ _
  have hop : ∀ i, i < T →
      (prefix_sums s.sync (num_subsequences S N_u) T).getD i 0
        = steps_before ts (first_sub S T N_u i * S) := by
    intro i hi
    rw [getD_prefix_sums _ _ _ _ hi]
    have hle : i * (num_subsequences S N_u / T) ≤ num_subsequences S N_u := by
      have : i * (num_subsequences S N_u / T) ≤ T * (num_subsequences S N_u / T) :=
        Nat.mul_le_mul_right _ (by omega)
      rw [Nat.mul_comm T] at this
      omega
    rw [hsum _ hle]
    have e32 : (2:Nat) ^ 32 = 4294967296 := by norm_num
    have := steps_before_le ts (i * (num_subsequences S N_u / T) * S)
    rw [e32, Nat.mod_eq_of_lt (by omega)]
    unfold first_sub
    rw [Nat.mul_comm i]
  -- the arrays are ones a pass can start from
  have hlen : s.sync.length = num_subsequences S N_u := by rw [hsync, a5]
  have hgood : GoodSync table.length S s.sync := by
    intro c hc
    rw [hlen] at hc
    obtain ⟨pre, t, post, m1, _, _, m4⟩ := a7 c hc
    rw [hsync, m4]
    have ht := (invP t (by rw [m1]; simp)).1
    exact ⟨ht.1, ht.2.1, ht.2.2.1, rfl⟩
  -- the stores of the passes
  let g : Nat → Nat := fun i =>
    if i < T then steps_before ts (first_sub S T N_u i * S) else ts.length
  have hg0 : g 0 = 0 := by
    show (if 0 < T then steps_before ts (first_sub S T N_u 0 * S) else ts.length) = 0
    rw [if_pos (by omega)]
    unfold first_sub
    simp only [Nat.mul_zero, Nat.zero_mul]
    exact hsb0
  have hgT : g T = (ts.map (symbol_of table)).length := by
    show (if T < T then steps_before ts (first_sub S T N_u T * S) else ts.length) = _
    rw [if_neg (by omega), List.length_map]
  have hgi : ∀ i, i < T → g i = steps_before ts ((args_of S T N_u false true i).begin) := by
    intro i hi
    show (if i < T then steps_before ts (first_sub S T N_u i * S) else ts.length) = _
    rw [if_pos hi, args_begin S T N_u false true i hi v.size_pos v.units_lt]
  have hge : ∀ i, i < T → g (i + 1) = steps_before ts ((args_of S T N_u false true i).end_) := by
    intro i hi
    obtain ⟨g1, g2, g3, g4, g5, g6, g7, g8, g9, g10, g11, g12, g13⟩ :=
      args_geometry S T N_u false true i v.size_pos v.threads_pos v.enough_subs v.units_lt hi
    show (if i + 1 < T then steps_before ts (first_sub S T N_u (i + 1) * S) else ts.length)
      = _
    by_cases hi1 : i + 1 < T
    · rw [if_pos hi1, g8, args_begin S T N_u false true i hi v.size_pos v.units_lt, first_sub_succ]
      unfold owned_count
      rw [if_neg (by omega), Nat.add_zero, Nat.add_mul]
    · rw [if_neg hi1, (args_end_le S T N_u false true i hT hi v.size_pos v.units_lt).2 (by omega), hsbN]
  have hmono : ∀ i, i < T → g i ≤ g (i + 1) := by
    intro i hi
    obtain ⟨g1, g2, g3, g4, g5, g6, g7, g8, g9, g10, g11, g12, g13⟩ :=
      args_geometry S T N_u false true i v.size_pos v.threads_pos v.enough_subs v.units_lt hi
    rw [hgi i hi, hge i hi]
    exact steps_before_mono ts _ _ (by rw [g8]; omega)
  have hbound : ∀ i, i < T →
      out_bound T size_out (prefix_sums s.sync (num_subsequences S N_u) T) i
        = if i + 1 < T then g (i + 1) else size_out := by
    intro i hi
    unfold out_bound
    rw [sub64_of_le T 1 (by omega) hT64]
    by_cases hi1 : i + 1 < T
    · rw [if_pos (by omega), if_pos hi1, hop (i + 1) hi1]
      show _ = (if i + 1 < T then steps_before ts (first_sub S T N_u (i + 1) * S)
        else ts.length)
      rw [if_pos hi1]
    · rw [if_neg (by omega), if_neg hi1]
  have hws : ∀ j, j < T → ∀ s2 : Shared,
      s2.sync = ({ s with out_positions := prefix_sums s.sync (num_subsequences S N_u) T }
        : Shared).sync →
      s2.out_positions
        = ({ s with out_positions := prefix_sums s.sync (num_subsequences S N_u) T }
            : Shared).out_positions →
      decode_phase1 sem fuel (args_of S T N_u false true j) size_out inp table s2
        = .ok { s2 with
            out := s2.out
              ++ place (g j) (if j + 1 < T then g (j + 1) else size_out)
                  (((ts.map (symbol_of table)).drop (g j)).take (g (j + 1) - g j)) } := by
    intro j hj s2 h1 h2
    have h1b : s2.sync = s.sync := h1
    have h2b : s2.out_positions = prefix_sums s.sync (num_subsequences S N_u) T := h2
    rw [← List.map_drop, ← List.map_take, ← hbound j hj, hgi j hj, hge j hj]
    by_cases hj0 : j = 0
    · subst hj0
      have := phase3_log_first sem S T N_u size_out inp table v fuel hfuel s0 ts lf tr s2
      rw [h2b, hop 0 hj, ← args_begin S T N_u false true 0 hj v.size_pos v.units_lt] at this
      rw [this, h2b]
    · obtain ⟨pre, t, post, m1, m2, m3, m4⟩ := a7 (first_sub S T N_u j - 1) (by
        have := (args_geometry S T N_u false true j v.size_pos v.threads_pos v.enough_subs v.units_lt
          hj).2.2.2.2.2.2.2.2.2.1
        have := (args_geometry S T N_u false true j v.size_pos v.threads_pos v.enough_subs v.units_lt
          hj).2.2.2.2.2.2.2.2.1
        omega)
      have hfs1 : 1 ≤ first_sub S T N_u j :=
        ((args_geometry S T N_u false true j v.size_pos v.threads_pos v.enough_subs v.units_lt
          hj).2.2.2.2.2.2.2.2.2.2.2.2 (by omega)).2
      have := phase3_log_boot sem S T N_u size_out inp table v hS hu fuel hfuel s0 ts lf a3 tr
        j (by omega) hj s2 (by rw [h1b]; exact hlen) (by rw [h1b]; exact hgood)
        pre post t m1
        (by
          rw [m2, args_begin S T N_u false true j hj v.size_pos v.units_lt]
          have : first_sub S T N_u j - 1 + 1 = first_sub S T N_u j := by omega
          rw [this])
        m3 (by rw [h1b, hsync, m4]) (by rw [h1b, hsync, m4])
      rw [h2b, hop j hj, ← args_begin S T N_u false true j hj v.size_pos v.units_lt] at this
      rw [this, h2b]
  have hrun := phase3_round sem S T N_u size_out inp table fuel
    (fun j => place (g j) (if j + 1 < T then g (j + 1) else size_out)
      (((ts.map (symbol_of table)).drop (g j)).take (g (j + 1) - g j)))
    { s with out_positions := prefix_sums s.sync (num_subsequences S N_u) T } hws order
    { s with out_positions := prefix_sums s.sync (num_subsequences S N_u) T }
    (fun m hm => List.mem_range.mp ((horder.mem_iff).mp hm)) rfl rfl
  refine ⟨_, _, _, prefix_sum_eq _ _ T hT, hrun, rfl, fun hlast => ⟨fun w hw => ?_,
    fun buf hbuf =>
      apply_writes_segments (ts.map (symbol_of table)) size_out T hT g hg0 hgT hmono _
        (fun i _ => rfl) order horder buf hbuf⟩⟩
  obtain ⟨l, hl, hwl⟩ := List.mem_flatten.mp hw
  obtain ⟨j, hj, rfl⟩ := List.mem_map.mp hl
  have hjT : j < T := List.mem_range.mp ((horder.mem_iff).mp hj)
  have hlt := mem_place_lt _ _ _ w hwl
  by_cases hj1 : j + 1 < T
  · rw [if_pos hj1] at hlt
    have h1 := le_of_steps g T hmono (T - 1 - (j + 1)) (j + 1) (by omega)
    have e : j + 1 + (T - 1 - (j + 1)) = T - 1 := by omega
    rw [e] at h1
    have h2 : g (T - 1) = (prefix_sums s.sync (num_subsequences S N_u) T).getD (T - 1) 0 := by
      rw [hop (T - 1) (by omega)]
      show (if T - 1 < T then steps_before ts (first_sub S T N_u (T - 1) * S) else ts.length)
        = _
      rw [if_pos (by omega)]
    omega
  · rw [if_neg hj1] at hlt
    exact hlt
/-! ## Which shared locations a kernel pass changes -/

theorem apply_writes_getD_not_mem : ∀ (log : List (Nat × Nat)) (buf : List Nat) (p d : Nat),
    p ∉ log.map Prod.fst → (apply_writes buf log).getD p d = buf.getD p d := by
  intro log
  induction log with
  | nil => intro buf p d _; rfl
  | cons pv log ih =>
    intro buf p d h
    have hstep : apply_writes buf (pv :: log) = apply_writes (buf.set pv.1 pv.2) log := rfl
    rw [List.map_cons, List.mem_cons, not_or] at h
    rw [hstep, ih _ p d h.2, getD_set_ne _ _ _ _ _ (fun hc => h.1 hc.symm)]

/-- The range of subsequences of worker `i` in terms of its arguments. -/
theorem owns_args (S T N_u : Nat) (ov wr : Bool) (i j : Nat) (hS : 0 < S) (hT : 1 ≤ T)
    (hN : T ≤ num_subsequences S N_u) (hU : N_u + S < 2 ^ 64) (hi : i < T) :
    Owns S T N_u i j
      ↔ (args_of S T N_u ov wr i).subsequence ≤ j
        ∧ j < (args_of S T N_u ov wr i).subsequence
              + ((args_of S T N_u ov wr i).end_ - (args_of S T N_u ov wr i).begin) / S := by
  obtain ⟨g1, g2, g3, g4, g5, g6, g7, g8, g9, g10, g11, g12, g13⟩ :=
    args_geometry S T N_u ov wr i hS hT hN hU hi
  rw [g7, g8, Nat.add_sub_cancel_left, Nat.mul_div_cancel _ hS]
  rfl

/-- C21.  A kernel pass of worker `i` on a valid input, on arrays with an entry
of `sync` for every subsequence.  In phase 1 the pass returns, changes `sync`
only at indices `j` with `sub_i <= j < sub_i + (end_i - begin_i) / S`, and
leaves `thread_synced` and the stores to the output as they are.  In phase 2
(`i >= 1`, on arrays a pass can start from) the pass returns, changes `sync`
only at those indices and `thread_synced` only at index `i`, and stores nothing
to the output.  In phase 3 (on arrays a pass can start from) the pass returns,
leaves `sync` and `thread_synced` as they are, stores only at positions `p`
with `out_positions[i] <= p < out_size_i`, and the output buffer keeps its value
at every other position. -/
theorem write_ownership (sem : ShiftSem) (S T N_u size_out : Nat) (inp : CUHDInputBuffer)
    (table : List CUHDCodetableItem) (v : ValidInput S T N_u inp table)
    (fuel : Nat) (hfuel : enough_fuel S T N_u table ≤ fuel)
    (i : Nat) (hi : i < T) (s : Shared) (hlen : s.sync.length = num_subsequences S N_u) :
    (∃ s1, decode_phase1 sem fuel (args_of S T N_u false false i) size_out inp table s = .ok s1
        ∧ s1.sync.length = s.sync.length
        ∧ (∀ j, s1.sync.getD j default ≠ s.sync.getD j default →
            (args_of S T N_u false false i).subsequence ≤ j
              ∧ j < (args_of S T N_u false false i).subsequence
                    + ((args_of S T N_u false false i).end_
                        - (args_of S T N_u false false i).begin) / S)
        ∧ s1.thread_synced = s.thread_synced
        ∧ s1.out = s.out)
    ∧ (1 ≤ i → GoodShared S T N_u table s →
        ∃ s1, decode_phase1 sem fuel (args_of S T N_u true false i) size_out inp table s = .ok s1
          ∧ s1.sync.length = s.sync.length
          ∧ (∀ j, s1.sync.getD j default ≠ s.sync.getD j default →
              (args_of S T N_u true false i).subsequence ≤ j
                ∧ j < (args_of S T N_u true false i).subsequence
                      + ((args_of S T N_u true false i).end_
                          - (args_of S T N_u true false i).begin) / S)
          ∧ s1.thread_synced.length = s.thread_synced.length
          ∧ (∀ m, s1.thread_synced.getD m false ≠ s.thread_synced.getD m false → m = i)
          ∧ s1.out = s.out)
    ∧ (GoodShared S T N_u table s →
        ∃ s1 w, decode_phase1 sem fuel (args_of S T N_u false true i) size_out inp table s
            = .ok s1
          ∧ s1.sync = s.sync
          ∧ s1.thread_synced = s.thread_synced
          ∧ s1.out = s.out ++ w
          ∧ (∀ p, p ∈ w.map Prod.fst →
              s.out_positions.getD i 0 ≤ p ∧ p < out_bound T size_out s.out_positions i)
          ∧ ∀ (buf : List Nat) (p : Nat),
              ¬ (s.out_positions.getD i 0 ≤ p ∧ p < out_bound T size_out s.out_positions i) →
              (apply_writes buf s1.out).getD p 0 = (apply_writes buf s.out).getD p 0) := by
  refine ⟨?_, fun h1 gs => ?_, fun gs => ?_⟩
  · obtain ⟨s1, e, a1, _, a3, a4, a5, _⟩ :=
      phase1_pass sem S T N_u size_out inp table v fuel hfuel i hi s hlen
    refine ⟨s1, e, a4, fun j hj => ?_, a1, a3⟩
    apply (owns_args S T N_u false false i j v.size_pos v.threads_pos v.enough_subs v.units_lt hi).mp
    by_contra hc
    exact hj (a5 j hc)
  · obtain ⟨s1, e, gs1, a1, _, a3, a4, _⟩ :=
      phase2_pass sem S T N_u size_out inp table v fuel hfuel i h1 hi s gs
    refine ⟨s1, e, by rw [gs1.sync_length, gs.sync_length], fun j hj => ?_,
      by rw [gs1.flags_length, gs.flags_length], fun m hm => ?_, a1⟩
    · apply (owns_args S T N_u true false i j v.size_pos v.threads_pos v.enough_subs v.units_lt hi).mp
      by_contra hc
      exact hj (a3 j hc)
    · by_contra hc
      exact hm (a4 m hc)
  · obtain ⟨w, hw, hrun⟩ :=
      phase3_pass_writes sem S T N_u size_out inp table v fuel hfuel i hi s gs
    have hpos : ∀ p, p ∈ w.map Prod.fst →
        s.out_positions.getD i 0 ≤ p ∧ p < out_bound T size_out s.out_positions i :=
      fun p hp => ⟨(writesFrom_mem _ _ _ hw p hp).1, (writesFrom_mem _ _ _ hw p hp).2.2⟩
    refine ⟨_, w, hrun s rfl rfl, rfl, rfl, rfl, hpos, fun buf p hp => ?_⟩
    show (apply_writes buf (s.out ++ w)).getD p 0 = _
    rw [apply_writes_append]
    exact apply_writes_getD_not_mem w _ p 0 (fun hc => hp (hpos p hc))
/-! ## The flag of a worker in phase 2 -/

/-- The position of a crossing of a chain. -/
theorem chain_pos (a : KernelArgs) (L : Nat) :
    ∀ (xs : List Locals) (c p : Nat), CrossChain a L c p xs →
      ∀ x, x ∈ xs →
        x.in_pos + c * a.subsequence_size = p + x.current_subsequence * a.subsequence_size := by
  intro xs
  induction xs with
  | nil => intro c p _ x hx; cases hx
  | cons y ys ih =>
    intro c p h x hx
    cases h with
    | cons _ _ _ _ hp hc hu hi hg hr ht =>
      rcases List.mem_cons.1 hx with e | hmem
      · subst e
        rw [hc, hi]
      · have := ih (c + 1) (p + a.subsequence_size) ht x hmem
        rw [Nat.add_mul, Nat.one_mul] at this
        omega

/-- When a pass ends with the flag of its worker set that was clear before, the
crossing block has set it at one of the crossings, reached with the flag
clear. -/
theorem fold_flag_origin (a : KernelArgs) :
    ∀ (xs : List Locals) (s : Shared),
      s.thread_synced.getD a.thread_id false = false →
      (fold_crossings a xs s).thread_synced.getD a.thread_id false = true →
      ∃ pre y post, xs = pre ++ y :: post
        ∧ (fold_crossings a pre s).thread_synced.getD a.thread_id false = false
        ∧ (crossing a y (fold_crossings a pre s)).shared.thread_synced.getD a.thread_id false
            = true
        ∧ ∀ s2, crossing a y (fold_crossings a pre s) = .returned s2 →
            fold_crossings a xs s = s2 := by
  intro xs
  induction xs with
  | nil =>
    intro s h0 h1
    rw [show fold_crossings a [] s = s from rfl, h0] at h1
    cases h1
  | cons z zs ih =>
    intro s h0 h1
    rw [fold_crossings_cons] at h1
    cases hc : crossing a z s with
    | returned s2 =>
      rw [hc] at h1
      refine ⟨[], z, zs, rfl, h0, ?_, fun s3 h3 => ?_⟩
      · show (crossing a z s).shared.thread_synced.getD a.thread_id false = true
        rw [hc]
        exact h1
      · have h4 : crossing a z s = .returned s3 := h3
        rw [fold_crossings_cons, h4]
    | continue_ l3 s3 =>
      rw [hc] at h1
      by_cases hf : s3.thread_synced.getD a.thread_id false = true
      · refine ⟨[], z, zs, rfl, h0, ?_, fun s4 h4 => ?_⟩
        · show (crossing a z s).shared.thread_synced.getD a.thread_id false = true
          rw [hc]
          exact hf
        · have h5 : crossing a z s = .returned s4 := h4
          rw [hc] at h5
          cases h5
      · have hf0 : s3.thread_synced.getD a.thread_id false = false := by simpa using hf
        obtain ⟨pre, y, post, e, q1, q2, q3⟩ := ih s3 hf0 h1
        have hfold : ∀ ws, fold_crossings a (z :: ws) s = fold_crossings a ws s3 := by
          intro ws
          rw [fold_crossings_cons, hc]
        refine ⟨z :: pre, y, post, by rw [e]; rfl, ?_, ?_, fun s4 h4 => ?_⟩
        · rw [hfold]; exact q1
        · rw [hfold]; exact q2
        · rw [hfold] at h4 ⊢
          exact q3 s4 h4

/-- C23.  A phase-2 pass of worker `j >= 1` with its flag clear, on a valid
input and on arrays a pass can start from.  The pass is the crossing block
applied, up to its first `return`, at the crossings `xs` of the pass.  At any of
them, on any arrays, the block sets the flag `thread_synced[j]` only when
`in_pos > N_u`, or when the derived triple `(last_state, last_bit, S - 1)`
equals the stored sync point of the current subsequence, in which case it
returns.  A crossing with `in_pos > N_u` exists only for the last worker, it is
the crossing at `in_pos = end`, and `N_u` is then not a multiple of `S`.  When
`N_u` is a multiple of `S` and the pass ends with the flag set, the pass ended
at a crossing where the derived triple equalled the stored sync point. -/
theorem unconditional_flag (sem : ShiftSem) (S T N_u size_out : Nat) (inp : CUHDInputBuffer)
    (table : List CUHDCodetableItem) (v : ValidInput S T N_u inp table)
    (fuel : Nat) (hfuel : enough_fuel S T N_u table ≤ fuel)
    (j : Nat) (h1 : 1 ≤ j) (hj : j < T) (s : Shared) (gs : GoodShared S T N_u table s)
    (hflag : s.thread_synced.getD j false = false) :
    ∃ xs : List Locals,
      crossings sem (args_of S T N_u true false j) inp.compressed_data table fuel fuel
          (initial_locals sem (args_of S T N_u true false j) size_out inp s) = .ok xs
        ∧ decode_phase1 sem fuel (args_of S T N_u true false j) size_out inp table s
            = .ok (fold_crossings (args_of S T N_u true false j) xs s)
        ∧ (∀ y, y ∈ xs → ∀ s2 : Shared, s2.thread_synced.getD j false = false →
            (crossing (args_of S T N_u true false j) y s2).shared.thread_synced.getD j false
              = true →
            N_u < y.in_pos
              ∨ ((s2.sync.getD y.current_subsequence default).state = y.last_state
                  ∧ (s2.sync.getD y.current_subsequence default).bit = y.last_bit
                  ∧ (s2.sync.getD y.current_subsequence default).unit = S - 1
                  ∧ crossing (args_of S T N_u true false j) y s2
                      = .returned { s2 with
                          sync := s2.sync.set y.current_subsequence
                            { s2.sync.getD y.current_subsequence default with
                              num_symbols := y.num_symbols }
                          thread_synced := s2.thread_synced.set j true }))
        ∧ (∀ y, y ∈ xs → N_u < y.in_pos →
            j = T - 1 ∧ y.in_pos = (args_of S T N_u true false j).end_ ∧ N_u % S ≠ 0)
        ∧ (N_u % S = 0 →
            (fold_crossings (args_of S T N_u true false j) xs s).thread_synced.getD j false
              = true →
            ∃ pre y post, xs = pre ++ y :: post
              ∧ ((fold_crossings (args_of S T N_u true false j) pre s).sync.getD
                    y.current_subsequence default).state = y.last_state
              ∧ ((fold_crossings (args_of S T N_u true false j) pre s).sync.getD
                    y.current_subsequence default).bit = y.last_bit
              ∧ ((fold_crossings (args_of S T N_u true false j) pre s).sync.getD
                    y.current_subsequence default).unit = S - 1
              ∧ crossing (args_of S T N_u true false j) y
                    (fold_crossings (args_of S T N_u true false j) pre s)
                  = .returned (fold_crossings (args_of S T N_u true false j) xs s)) := by
  obtain ⟨g1, g2, g3, g4, g5, g6, g7, g8, g9, g10, g11, g12, g13⟩ :=
    args_geometry S T N_u true false j v.size_pos v.threads_pos v.enough_subs v.units_lt hj
  have gb := args_begin S T N_u true false j hj v.size_pos v.units_lt
  have gend := args_end_le S T N_u true false j v.threads_pos hj v.size_pos v.units_lt
  obtain ⟨b0, b1, b2, b3, b4, b5, b6, b7⟩ :=
    boot_locals sem S T N_u size_out inp table v true false rfl j h1 hj s gs
  have hSp := v.size_pos
  have hS32 : S < 4294967296 := by have := v.size_lt; norm_num at this; exact this
  have hsp := num_subsequences_spec S N_u v.size_pos
  have hfuel2 : 33 * table.length + N_u + S + T + 2 ≤ fuel := hfuel
  have hlast : ∀ c, c < first_sub S T N_u j + owned_count S T N_u j → N_u < (c + 1) * S →
      j = T - 1 ∧ (c + 1) * S = (args_of S T N_u true false j).end_ ∧ N_u % S ≠ 0 := by
    intro c hc hgt
    have hcN : c + 1 = num_subsequences S N_u := by
      by_contra hne
      have : (c + 1) * S ≤ (num_subsequences S N_u - 1) * S :=
        Nat.mul_le_mul_right S (by omega)
      rw [Nat.sub_mul, Nat.one_mul] at this
      omega
    have hjT : j = T - 1 := by
      by_contra hne
      have hoc : owned_count S T N_u j = num_subsequences S N_u / T := by
        unfold owned_count
        rw [if_neg hne, Nat.add_zero]
      have hfs := first_sub_succ S T N_u j
      have hg := args_geometry S T N_u true false (j + 1) v.size_pos v.threads_pos
        v.enough_subs v.units_lt (by omega)
      have := hg.2.2.2.2.2.2.2.2.1
      have := hg.2.2.2.2.2.2.2.2.2.1
      omega
    refine ⟨hjT, by rw [gend.2 hjT, hcN], fun h0 => ?_⟩
    have := num_subsequences_of_dvd S N_u h0
    rw [hcN] at hgt
    omega
  generalize hl0 : initial_locals sem (args_of S T N_u true false j) size_out inp s = l0 at *
  generalize args_of S T N_u true false j = a at *
  obtain ⟨f, rfl⟩ : ∃ f, fuel = f + 1 := ⟨fuel - 1, by omega⟩
  obtain ⟨x, zs, ex, x1, x2, x3, ch⟩ := crossings_boot sem a inp.compressed_data table (f + 1)
    v.table_ok (by omega) (by rw [g2]; exact hS32) f l0 b1 b2 b3
    (by rw [g2]; exact b5) (by omega) (by omega) g5 b7
  rw [b6] at ch
  have hlen := chain_length a table.length (by rw [g2]; exact hSp) zs _ _ ch a.begin
    (owned_count S T N_u j) (by rw [b4, g2]) (by rw [g8, g2])
  have hmem := chain_mem a table.length zs _ _ ch
  have hpos := chain_pos a table.length zs _ _ ch
  have hzpos : ∀ y, y ∈ zs → y.in_pos = (y.current_subsequence + 1) * S := by
    intro y hy
    have := hpos y hy
    rw [b4, g2, gb] at this
    rw [Nat.add_mul, Nat.one_mul]
    omega
  have hA : ∀ y, y ∈ x :: zs → ∀ s2 : Shared, s2.thread_synced.getD j false = false →
      (crossing a y s2).shared.thread_synced.getD j false = true →
      N_u < y.in_pos
        ∨ ((s2.sync.getD y.current_subsequence default).state = y.last_state
            ∧ (s2.sync.getD y.current_subsequence default).bit = y.last_bit
            ∧ (s2.sync.getD y.current_subsequence default).unit = S - 1
            ∧ crossing a y s2
                = .returned { s2 with
                    sync := s2.sync.set y.current_subsequence
                      { s2.sync.getD y.current_subsequence default with
                        num_symbols := y.num_symbols }
                    thread_synced := s2.thread_synced.set j true }) := by
    intro y hy s2 h0 hset
    by_cases hgt : N_u < y.in_pos
    · exact Or.inl hgt
    · right
      rcases List.mem_cons.1 hy with e | hy
      · subst e
        rw [crossing_phase2_first a y s2 g5 x1 x2 (by rw [g3]; omega)] at hset
        have hset2 : s2.thread_synced.getD j false = true := hset
        rw [h0] at hset2
        cases hset2
      · obtain ⟨_, _, c3, _, c5, _, _⟩ := hmem y hy
        have hreset : y.reset = true := by simpa [g5] using c5
        have hsub : sub32 y.current_unit 1 = S - 1 := by
          rw [c3, g2]
          exact sub32_of_le S 1 hSp hS32
        have hc := crossing_phase2 a y s2 g5 g6 c3 hreset
        rw [hsub, g1, g3] at hc
        by_cases hm : (s2.sync.getD y.current_subsequence default).state = y.last_state
            ∧ (s2.sync.getD y.current_subsequence default).bit = y.last_bit
            ∧ (s2.sync.getD y.current_subsequence default).unit = S - 1
        · rw [if_pos hm] at hc
          exact ⟨hm.1, hm.2.1, hm.2.2, hc⟩
        · rw [if_neg hm, if_neg hgt] at hc
          rw [hc] at hset
          have hset2 : s2.thread_synced.getD j false = true := hset
          rw [h0] at hset2
          cases hset2
  have hB : ∀ y, y ∈ x :: zs → N_u < y.in_pos →
      j = T - 1 ∧ y.in_pos = a.end_ ∧ N_u % S ≠ 0 := by
    intro y hy hgt
    rcases List.mem_cons.1 hy with e | hy
    · subst e
      omega
    · obtain ⟨_, c2, _⟩ := hmem y hy
      rw [hlen] at c2
      rw [hzpos y hy] at hgt ⊢
      exact hlast _ c2 hgt
  refine ⟨x :: zs, ex, ?_, hA, hB, fun h0 hfin => ?_⟩
  · unfold decode_phase1
    rw [g5, g1, hflag]
    simp only [Bool.and_false, Bool.false_eq_true, ↓reduceIte]
    rw [hl0, unit_loop_eq sem a inp.compressed_data table (f + 1) g6 (f + 1) _ s _ ex]
  · rw [← g1] at hflag hfin
    obtain ⟨pre, y, post, e, q1, q2, q3⟩ := fold_flag_origin a (x :: zs) s hflag hfin
    rw [g1] at q1 q2
    have hy : y ∈ x :: zs := by rw [e]; simp
    rcases hA y hy _ q1 q2 with hgt | ⟨m1, m2, m3, m4⟩
    · exact absurd h0 (hB y hy hgt).2.2
    · refine ⟨pre, y, post, e, m1, m2, m3, ?_⟩
      rw [m4, q3 _ m4]
/-! ## An instance of the refinement -/

/-- The sequential phase-1 pass over eight units `0x55555555` makes 128 steps. -/
theorem steps_sequential_short (ts : List Locals)
    (h : decode_phase1_steps .zero 148 (args_of 4 1 8 false false 0) 128 (input_alternating 8)
        table_uniform4
        { sync := [default, default], thread_synced := [false], out_positions := [0],
          out := [] } = .ok ts) :
    ts.length < 4294967296 := by
  have e : (match decode_phase1_steps .zero 148 (args_of 4 1 8 false false 0) 128
      (input_alternating 8) table_uniform4
      { sync := [default, default], thread_synced := [false], out_positions := [0],
        out := [] } with
    | .ok ts => ts.length
    | .error _ => 0) = 128 := by decide!
  rw [h] at e
  have e2 : ts.length = 128 := e
  omega

/-- The output position of the second of two threads after the sequential
phase-1 pass over eight units `0x55555555` is within a buffer of 128 elements. -/
theorem last_position_short (s1 : Shared) (op : List Nat)
    (a : decode_phase1 .zero 148 (args_of 4 1 8 false false 0) 128 (input_alternating 8)
        table_uniform4
        { sync := [default, default], thread_synced := [false], out_positions := [0],
          out := [] } = .ok s1)
    (f : prefix_sum s1.sync (num_subsequences 4 8) 2 = .ok op) :
    op.getD (2 - 1) 0 ≤ 128 := by
  have e : (match decode_phase1 .zero 148 (args_of 4 1 8 false false 0) 128
      (input_alternating 8) table_uniform4
      { sync := [default, default], thread_synced := [false], out_positions := [0],
        out := [] } with
    | .ok s1 =>
        (match prefix_sum s1.sync (num_subsequences 4 8) 2 with
          | .ok op => op.getD (2 - 1) 0
          | .error _ => 0)
    | .error _ => 0) = 64 := by decide!
  rw [a] at e
  dsimp only at e
  rw [f] at e
  have e2 : op.getD (2 - 1) 0 = 64 := e
  omega

/-- Instance of `phase3_refines_sequential`: eight units `0x55555555`, `S = 4`,
an output buffer of 128 elements; the two phase-3 passes of a run with two
threads, worker 1 first, store within the buffer and leave the buffer that the
phase-3 pass of the run with one thread leaves. -/
theorem phase3_refines_sequential_witness :
    ValidInput 4 2 8 (input_alternating 8) table_uniform4
      ∧ UnitsOK (input_alternating 8).compressed_data
      ∧ enough_fuel 4 2 8 table_uniform4 ≤ 148
      ∧ ∃ s1 op1 sQ wq op sT ws,
          decode_phase1 .zero 148 (args_of 4 1 8 false false 0) 128 (input_alternating 8)
              table_uniform4
              { sync := [default, default], thread_synced := [false], out_positions := [0],
                out := [] } = .ok s1
            ∧ prefix_sum s1.sync (num_subsequences 4 8) 1 = .ok op1
            ∧ decode_phase1 .zero 148 (args_of 4 1 8 false true 0) 128 (input_alternating 8)
                table_uniform4 { s1 with out_positions := op1 } = .ok sQ
            ∧ sQ.out = s1.out ++ wq
            ∧ prefix_sum s1.sync (num_subsequences 4 8) 2 = .ok op
            ∧ run_workers .zero 148 (planned 4 2 8) 4 8 2 false true 128 (input_alternating 8)
                table_uniform4 [1, 0] { s1 with out_positions := op } = .ok sT
            ∧ sT.out = s1.out ++ ws
            ∧ op.getD (2 - 1) 0 ≤ 128
            ∧ (∀ w, w ∈ ws → w.1 < 128)
            ∧ apply_writes (List.replicate 128 0) ws
                = apply_writes (List.replicate 128 0) wq :=
  ⟨valid_alternating _, unitsOK_of_mem _ (by decide), by decide,
    let ⟨s1, ts, op1, sQ, wq, a, b, c, d, d2, _, e⟩ :=
      phase3_refines_sequential .zero 4 2 8 128 (input_alternating 8) table_uniform4
        (valid_alternating _) (by decide) (unitsOK_of_mem _ (by decide)) 148 (by decide)
        { sync := [default, default], thread_synced := [false], out_positions := [0],
          out := [] } rfl
    let ⟨op, sT, ws, f, g, g2, h⟩ := e (steps_sequential_short ts b) s1 [1, 0]
      rfl (List.Perm.swap 0 1 [])
    ⟨s1, op1, sQ, wq, op, sT, ws, a, c, d, d2, f, g, g2, last_position_short s1 op a f,
      (h (last_position_short s1 op a f)).1,
      (h (last_position_short s1 op a f)).2 (List.replicate 128 0)
        (List.length_replicate 128 0)⟩⟩

/-- C14 as stated fails.  Eight units `0x55555555`, `S = 4`, an output buffer of
10 elements.  The sequential phase-1 pass deposits the symbol counts 64 and 64,
so `sync` is the table of the claim and the counts sum to `128 < 2^32`.  The
phase-3 pass of the run with one thread stores at the positions `0..9`.  With
two threads `prefix_sum` leaves `out_positions = [0, 64]` and worker 0, whose
bound is `out_positions[1]`, stores at the positions `0..63`, of which `10..63`
are past the end of the buffer, whichever worker runs first. -/
theorem phase3_stores_past_buffer :
    ValidInput 4 2 8 (input_alternating 8) table_uniform4
      ∧ (decode_phase1 .zero 148 (args_of 4 1 8 false false 0) 10 (input_alternating 8)
            table_uniform4
            { sync := [default, default], thread_synced := [false], out_positions := [0],
              out := [] }).map (fun s1 => s1.sync.map (fun e => e.num_symbols))
          = .ok [64, 64]
      ∧ (decode_phase1 .zero 148 (args_of 4 1 8 false false 0) 10 (input_alternating 8)
            table_uniform4
            { sync := [default, default], thread_synced := [false], out_positions := [0],
              out := [] }).bind (fun s1 =>
          (prefix_sum s1.sync (num_subsequences 4 8) 1).bind (fun op =>
            (decode_phase1 .zero 148 (args_of 4 1 8 false true 0) 10 (input_alternating 8)
              table_uniform4 { s1 with out_positions := op }).map (fun sQ =>
                (op, sQ.out.map Prod.fst))))
          = .ok ([0], List.range 10)
      ∧ (decode_phase1 .zero 148 (args_of 4 1 8 false false 0) 10 (input_alternating 8)
            table_uniform4
            { sync := [default, default], thread_synced := [false], out_positions := [0],
              out := [] }).bind (fun s1 =>
          (prefix_sum s1.sync (num_subsequences 4 8) 2).bind (fun op =>
            (run_workers .zero 148 (planned 4 2 8) 4 8 2 false true 10 (input_alternating 8)
              table_uniform4 [0, 1] { s1 with out_positions := op }).map (fun sT =>
                (op, sT.out.map Prod.fst))))
          = .ok ([0, 64], List.range 64)
      ∧ (decode_phase1 .zero 148 (args_of 4 1 8 false false 0) 10 (input_alternating 8)
            table_uniform4
            { sync := [default, default], thread_synced := [false], out_positions := [0],
              out := [] }).bind (fun s1 =>
          (prefix_sum s1.sync (num_subsequences 4 8) 2).bind (fun op =>
            (run_workers .zero 148 (planned 4 2 8) 4 8 2 false true 10 (input_alternating 8)
              table_uniform4 [1, 0] { s1 with out_positions := op }).map (fun sT =>
                (op, sT.out.map Prod.fst))))
          = .ok ([0, 64], List.range 64) :=
  ⟨valid_alternating _, by decide!, by decide!, by decide!, by decide!⟩
/-! ## Instances for the ownership of writes and the flags of phase 2 -/

/-- Twelve units, `S = 4`, three threads, the two-bit table: a valid input. -/
theorem valid_alternating_three : ValidInput 4 3 12 (input_alternating 12) table_uniform4 :=
  { size_pos := by decide
    size_lt := by norm_num
    threads_pos := by decide
    enough_subs := by decide
    units_lt := by norm_num
    table_ok := table_uniform4_ok
    state_ge := by show 4 ≤ 6; decide
    state_lt := by show 6 < 2 * 4; decide
    bit_pos := by show 1 ≤ 31; decide
    bit_le := by show 31 ≤ 32; decide }

/-- Seven units, `S = 4`, two threads, the two-bit table: a valid input whose
last subsequence is not full. -/
theorem valid_alternating_seven : ValidInput 4 2 7 (input_alternating 7) table_uniform4 :=
  { size_pos := by decide
    size_lt := by norm_num
    threads_pos := by decide
    enough_subs := by decide
    units_lt := by norm_num
    table_ok := table_uniform4_ok
    state_ge := by show 4 ≤ 6; decide
    state_lt := by show 6 < 2 * 4; decide
    bit_pos := by show 1 ≤ 31; decide
    bit_le := by show 31 ≤ 32; decide }

/-- Instance of `write_ownership`: worker 1 of two on eight units `0x55555555`,
on the arrays that phase 1 and `prefix_sum` leave. -/
theorem write_ownership_witness :
    ValidInput 4 2 8 (input_alternating 8) table_uniform4
      ∧ enough_fuel 4 2 8 table_uniform4 ≤ 148
      ∧ (∃ s1,
          decode_phase1 .zero 148 (args_of 4 2 8 true false 1) 128 (input_alternating 8)
              table_uniform4
              { sync := [⟨6, 31, 3, 64⟩, ⟨5, 30, 3, 64⟩], thread_synced := [false, false],
                out_positions := [0, 64], out := [] } = .ok s1
            ∧ s1.out = [])
      ∧ ∃ s1 w,
          decode_phase1 .zero 148 (args_of 4 2 8 false true 1) 128 (input_alternating 8)
              table_uniform4
              { sync := [⟨6, 31, 3, 64⟩, ⟨5, 30, 3, 64⟩], thread_synced := [false, false],
                out_positions := [0, 64], out := [] } = .ok s1
            ∧ s1.sync = [⟨6, 31, 3, 64⟩, ⟨5, 30, 3, 64⟩]
            ∧ s1.thread_synced = [false, false]
            ∧ s1.out = [] ++ w
            ∧ ∀ p, p ∈ w.map Prod.fst →
                [0, 64].getD 1 0 ≤ p ∧ p < out_bound 2 128 [0, 64] 1 :=
  have gs : GoodShared 4 2 8 table_uniform4
      { sync := [⟨6, 31, 3, 64⟩, ⟨5, 30, 3, 64⟩], thread_synced := [false, false],
        out_positions := [0, 64], out := [] } :=
    ⟨by decide, by decide, by unfold GoodSync GoodEntry; decide⟩
  have h := write_ownership .zero 4 2 8 128 (input_alternating 8) table_uniform4
    (valid_alternating _) 148 (by decide) 1 (by decide)
    { sync := [⟨6, 31, 3, 64⟩, ⟨5, 30, 3, 64⟩], thread_synced := [false, false],
      out_positions := [0, 64], out := [] } rfl
  ⟨valid_alternating _, by decide,
    let ⟨s1, a, _, _, _, _, b⟩ := h.2.1 (by decide) gs
    ⟨s1, a, b⟩,
    let ⟨s1, w, a, b, c, d, e, _⟩ := h.2.2 gs
    ⟨s1, w, a, b, c, d, e⟩⟩

/-- Instance of `unconditional_flag`: worker 1 of two on seven units
`0x55555555` with `S = 4`.  Its phase-2 pass derives `{4, 31, 3}` for subsequence
1, finds `{4, 30, 3}` stored, and sets its flag at the crossing at `in_pos = 8`,
past the seven units. -/
theorem unconditional_flag_witness :
    ValidInput 4 2 7 (input_alternating 7) table_uniform4
      ∧ enough_fuel 4 2 7 table_uniform4 ≤ 147
      ∧ GoodShared 4 2 7 table_uniform4
          { sync := [⟨6, 31, 3, 64⟩, ⟨4, 30, 3, 64⟩], thread_synced := [false, false],
            out_positions := [0, 0], out := [] }
      ∧ decode_phase1 .zero 147 (args_of 4 2 7 true false 1) 112 (input_alternating 7)
            table_uniform4
            { sync := [⟨6, 31, 3, 64⟩, ⟨4, 30, 3, 64⟩], thread_synced := [false, false],
              out_positions := [0, 0], out := [] }
          = .ok { sync := [⟨6, 31, 3, 64⟩, ⟨4, 31, 3, 64⟩], thread_synced := [false, true],
                  out_positions := [0, 0], out := [] }
      ∧ ∃ xs : List Locals,
          decode_phase1 .zero 147 (args_of 4 2 7 true false 1) 112 (input_alternating 7)
              table_uniform4
              { sync := [⟨6, 31, 3, 64⟩, ⟨4, 30, 3, 64⟩], thread_synced := [false, false],
                out_positions := [0, 0], out := [] }
            = .ok (fold_crossings (args_of 4 2 7 true false 1) xs
                { sync := [⟨6, 31, 3, 64⟩, ⟨4, 30, 3, 64⟩], thread_synced := [false, false],
                  out_positions := [0, 0], out := [] })
          ∧ ∀ y, y ∈ xs → 7 < y.in_pos →
              1 = 2 - 1 ∧ y.in_pos = (args_of 4 2 7 true false 1).end_ ∧ 7 % 4 ≠ 0 :=
  have gs : GoodShared 4 2 7 table_uniform4
      { sync := [⟨6, 31, 3, 64⟩, ⟨4, 30, 3, 64⟩], thread_synced := [false, false],
        out_positions := [0, 0], out := [] } :=
    ⟨by decide, by decide, by unfold GoodSync GoodEntry; decide⟩
  ⟨valid_alternating_seven, by decide, gs, by decide!,
    let ⟨xs, _, a, _, b, _⟩ := unconditional_flag .zero 4 2 7 112 (input_alternating 7)
      table_uniform4 valid_alternating_seven 147 (by decide) 1 (by decide) (by decide) _ gs
      (by decide)
    ⟨xs, a, b⟩⟩

/-- C22 fails for the code.  Twelve units `0x55555555`, `S = 4`, three threads,
on the arrays that phase 1 leaves: the phase-2 pass of worker 1 followed by that
of worker 2 leaves `sync[2] = {6, 31, 3, 64}` and no flag set; the pass of
worker 2 followed by that of worker 1 leaves `sync[2] = {5, 30, 3, 64}` and the
flag of worker 2 set.  Worker 2 starts from `sync[1]`, an entry of the interval
of worker 1, which the pass of worker 1 changes from `{5, 30, 3, 64}` to
`{6, 31, 3, 64}`. -/
theorem phase2_order_dependent :
    ValidInput 4 3 12 (input_alternating 12) table_uniform4
      ∧ enough_fuel 4 3 12 table_uniform4 ≤ 153
      ∧ run_workers .zero 153 (planned 4 3 12) 4 12 3 false false 192 (input_alternating 12)
            table_uniform4 (ascending 3).phase1
            { sync := (List.range (num_subsequences 4 12)).map no_junk
              thread_synced := List.replicate 3 false
              out_positions := List.replicate 3 0
              out := [] }
          = .ok { sync := [⟨6, 31, 3, 64⟩, ⟨5, 30, 3, 64⟩, ⟨5, 30, 3, 64⟩],
                  thread_synced := [false, false, false], out_positions := [0, 0, 0],
                  out := [] }
      ∧ run_workers .zero 153 (planned 4 3 12) 4 12 3 true false 192 (input_alternating 12)
            table_uniform4 [1, 2]
            { sync := [⟨6, 31, 3, 64⟩, ⟨5, 30, 3, 64⟩, ⟨5, 30, 3, 64⟩],
              thread_synced := [false, false, false], out_positions := [0, 0, 0], out := [] }
          = .ok { sync := [⟨6, 31, 3, 64⟩, ⟨6, 31, 3, 64⟩, ⟨6, 31, 3, 64⟩],
                  thread_synced := [false, false, false], out_positions := [0, 0, 0],
                  out := [] }
      ∧ run_workers .zero 153 (planned 4 3 12) 4 12 3 true false 192 (input_alternating 12)
            table_uniform4 [2, 1]
            { sync := [⟨6, 31, 3, 64⟩, ⟨5, 30, 3, 64⟩, ⟨5, 30, 3, 64⟩],
              thread_synced := [false, false, false], out_positions := [0, 0, 0], out := [] }
          = .ok { sync := [⟨6, 31, 3, 64⟩, ⟨6, 31, 3, 64⟩, ⟨5, 30, 3, 64⟩],
                  thread_synced := [false, false, true], out_positions := [0, 0, 0],
                  out := [] }
      ∧ Owns 4 3 12 1 (first_sub 4 3 12 2 - 1)
      ∧ sub64 (args_of 4 3 12 true false 2).subsequence 1 = 1
      ∧ decode_phase1 .zero 153 (args_of 4 3 12 true false 1) 192 (input_alternating 12)
            table_uniform4
            { sync := [⟨6, 31, 3, 64⟩, ⟨5, 30, 3, 64⟩, ⟨5, 30, 3, 64⟩],
              thread_synced := [false, false, false], out_positions := [0, 0, 0], out := [] }
          = .ok { sync := [⟨6, 31, 3, 64⟩, ⟨6, 31, 3, 64⟩, ⟨5, 30, 3, 64⟩],
                  thread_synced := [false, false, false], out_positions := [0, 0, 0],
                  out := [] } :=
  ⟨valid_alternating_three, by decide, by decide!, by decide!, by decide!,
    by unfold Owns; decide, by decide!, by decide!⟩

end MulticoreDecoder
